import Mathlib

/-!
# data-smith: schema diff, streaming data diff, SQL generators and migrations, embedded in Lean

Shallow embedding of `pkg/conn` (the metadata model), `pkg/diff/schema.go`
(the schema diff engine), `pkg/diff/data.go`, `pkg/diff/rule.go` (the streaming
data diff), `pkg/sql` (the SQL generators of the MySQL and the PostgreSQL dialect),
`pkg/utils`, `pkg/migrate` and `internal/datasmith/migrate` (the migration runner).

Conventions of the embedding.

* A Go `string` is a Lean `String`.  Go orders strings bytewise; on UTF-8 text that
  is the lexicographic order of the code points, which is what `goStringLess`
  computes.
* A Go pointer that may be nil is an `Option`.  The adapters store only non-nil
  pointers in the maps of the metadata model, so the values of those maps are plain
  structures.
* A Go `map[string]T` is a `GoMap T`: a list of entries with pairwise distinct keys.
  `range` over a map visits every entry exactly once in an unspecified order; the
  embedding visits the entries in the order of the entry list.
* An `any` value scanned from a database is a `Value`; `sprintV` is its default
  format (`fmt.Sprintf("%v", v)`).
* The calls of the `handle` callback are recorded, in order, in a list.
* What the migration runner meets outside the program (the directory walk, the files,
  the answers of the database, the clock) is a parameter of the embedded function.
* The package `local` is the namespace `Local`.
-/

namespace DataSmith

/-! ## Go runtime vocabulary -/

/-- Lexicographic comparison of two character sequences by code point. -/
def charsLess : List Char → List Char → Bool
  | [], [] => false
  | [], _ :: _ => true
  | _ :: _, [] => false
  | a :: as, b :: bs =>
    if a.toNat < b.toNat then true
    else if b.toNat < a.toNat then false
    else charsLess as bs

/-- Go `a < b` on strings. -/
def goStringLess (a b : String) : Bool := charsLess a.data b.data

/-- Replace every occurrence of the character `old` by `new`. -/
def replaceChars (old : Char) (new : List Char) : List Char → List Char
  | [] => []
  | c :: cs =>
    if c = old then new ++ replaceChars old new cs else c :: replaceChars old new cs

/-- Go `strings.ReplaceAll(s, old, new)` for a one-character `old`. -/
def stringsReplaceAll (s : String) (old : Char) (new : String) : String :=
  ⟨replaceChars old new.data s.data⟩

/-- A Go `map[string]T`: entries with pairwise distinct keys. -/
structure GoMap (α : Type) where
  entries : List (String × α)
  nodup : (entries.map Prod.fst).Nodup
  deriving DecidableEq

namespace GoMap

/-- The empty (or nil) map. -/
def empty {α : Type} : GoMap α := ⟨[], List.nodup_nil⟩

/-- Go `v, ok := m[k]`: `some v` when the key is present. -/
def get? {α : Type} (m : GoMap α) (k : String) : Option α := m.entries.lookup k

/-- Go `_, ok := m[k]`. -/
def contains {α : Type} (m : GoMap α) (k : String) : Bool := (m.get? k).isSome

/-- The keys, in iteration order. -/
def keys {α : Type} (m : GoMap α) : List String := m.entries.map Prod.fst

/-- The loop `for k, v := range m { if x, ok := f(k, v); ok { out = append(out, x) } }`
started with a nil `out`. -/
def rangeAppend {α β : Type} (m : GoMap α) (f : String → α → Option β) : List β :=
  m.entries.foldl
    (fun out e =>
      match f e.1 e.2 with
      | some x => out ++ [x]
      | none => out)
    []

end GoMap

/-- A driver value held in an `any`: nil, a boolean, an integer or a text. -/
inductive Value where
  | null
  | bool (b : Bool)
  | int (i : Int)
  | text (s : String)
  deriving DecidableEq, Repr

/-- Go `fmt.Sprintf("%v", v)`. -/
def sprintV : Value → String
  | .null => "<nil>"
  | .bool true => "true"
  | .bool false => "false"
  | .int i => toString i
  | .text s => s

/-! ## pkg/conn/db.go -/

/-- The entries of a non-nil `conn.Record` (`map[string]any`). -/
abbrev RecordMap := List (String × Value)

/-- A `conn.Record`; `none` is the nil map. -/
abbrev Record := Option RecordMap

/-- Go `r[k]` on a record: nil when the record is nil or the key is absent. -/
def Record.get (r : Record) (k : String) : Value :=
  match r with
  | none => Value.null
  | some m => (m.lookup k).getD Value.null

/-- Go `type TableType string`. -/
abbrev TableType := String

def TableTypeTable : TableType := "TABLE"

def TableTypeView : TableType := "VIEW"

def TableTypeUnknown : TableType := "UNKNOWN"

structure Column where
  Name : String
  DataType : String
  Nullable : Bool
  Default : Option String
  Extra : String
  Comment : Option String
  CharMaxLen : Option Int
  NumericPrec : Option Int
  NumericScale : Option Int
  Position : Int
  deriving DecidableEq, Repr

structure Index where
  Name : String
  Columns : List String
  Unique : Bool
  Primary : Bool
  Method : String
  Where : Option String
  Expression : Option String
  deriving DecidableEq, Repr

structure PrimaryKey where
  Name : String
  Columns : List String
  deriving DecidableEq, Repr

structure ForeignKey where
  Name : String
  Columns : List String
  ReferencedSchema : String
  ReferencedTable : String
  ReferencedColumns : List String
  OnDelete : String
  OnUpdate : String
  deriving DecidableEq, Repr

structure ViewDefinition where
  SelectStatement : String
  Dependencies : List String
  IsUpdatable : Bool
  SecurityType : String
  Definer : String
  CheckOption : String
  Comment : String
  deriving DecidableEq, Repr

structure Table where
  Name : String
  /-- Field `Type` of the source (a reserved word here). -/
  Type_ : TableType
  Schema : String
  Comment : String
  Columns : GoMap Column
  Indexes : GoMap Index
  PrimaryKey : Option PrimaryKey
  ForeignKeys : GoMap ForeignKey
  ViewDefinition : Option ViewDefinition
  deriving DecidableEq

structure DatabaseSchema where
  Tables : GoMap Table
  deriving DecidableEq

/-- The two operations of `conn.DBAdapter` that the data diff uses.  The database is
not written during a diff, so a fetch is a function of its arguments.  `ExtractTable`
answers with an error or with a table (both shipped adapters return a non-nil table
when the error is nil). -/
structure DBAdapter where
  GetTableDataBatch : String → List String → List String → List Value → Nat →
    Except String (List Record)
  ExtractTable : String → Except String Table

/-! ## pkg/diff/schema_diff.go -/

structure ColumnDiff where
  Old : Column
  New : Column
  deriving DecidableEq, Repr

structure IndexDiff where
  Old : Index
  New : Index
  deriving DecidableEq, Repr

structure PrimaryKeyDiff where
  Old : Option PrimaryKey
  New : Option PrimaryKey
  deriving DecidableEq, Repr

structure ForeignKeyDiff where
  Old : ForeignKey
  New : ForeignKey
  deriving DecidableEq, Repr

structure ViewDefinitionDiff where
  Old : Option ViewDefinition
  New : Option ViewDefinition
  deriving DecidableEq, Repr

structure TableDiff where
  Table : Table
  ColumnsAdded : List Column
  ColumnsDropped : List Column
  ColumnsModified : List ColumnDiff
  IndexesAdded : List Index
  IndexesDropped : List Index
  IndexesModified : List IndexDiff
  PrimaryKeyChange : Option PrimaryKeyDiff
  ForeignKeysAdded : List ForeignKey
  ForeignKeysDropped : List ForeignKey
  ForeignKeysModified : List ForeignKeyDiff
  ViewDefinitionChange : Option ViewDefinitionDiff
  deriving DecidableEq

structure SchemaDiff where
  TablesAdded : List Table
  TablesDropped : List Table
  TablesModified : List TableDiff
  deriving DecidableEq

/-! ## pkg/diff/schema.go -/

/-- The test written inline for every optional field of `equalColumn` and
`equalIndex`: both nil, or both present with equal contents. -/
def equalOptional {α : Type} [DecidableEq α] (x y : Option α) : Bool :=
  match x, y with
  | none, none => true
  | none, some _ => false
  | some _, none => false
  | some u, some v => decide (u = v)

/-- The function `equalComment`. -/
def equalComment (a b : Option String) : Bool :=
  match a, b with
  | none, none => true
  | none, some _ => false
  | some _, none => false
  | some x, some y =>
    let sa := stringsReplaceAll x '\n' ""
    let sa := stringsReplaceAll sa '\r' ""
    let sb := stringsReplaceAll y '\n' ""
    let sb := stringsReplaceAll sb '\r' ""
    decide (sa = sb)

/-- The length test followed by the index loop that compares two column lists. -/
def equalStringSlices (xs ys : List String) : Bool :=
  if xs.length != ys.length then false
  else (xs.zip ys).all fun p => decide (p.1 = p.2)

/-- The function `equalColumn`. -/
def equalColumn (a b : Option Column) : Bool :=
  match a, b with
  | none, none => true
  | none, some _ => false
  | some _, none => false
  | some a, some b =>
    if a.Name != b.Name || a.DataType != b.DataType || a.Nullable != b.Nullable
        || a.Extra != b.Extra then false
    else if !equalOptional a.Default b.Default then false
    else if !equalComment a.Comment b.Comment then false
    else if !equalOptional a.CharMaxLen b.CharMaxLen then false
    else if !equalOptional a.NumericPrec b.NumericPrec then false
    else if !equalOptional a.NumericScale b.NumericScale then false
    else true

/-- The function `equalIndex`. -/
def equalIndex (a b : Option Index) : Bool :=
  match a, b with
  | none, none => true
  | none, some _ => false
  | some _, none => false
  | some a, some b =>
    if a.Name != b.Name || a.Unique != b.Unique || a.Primary != b.Primary
        || a.Method != b.Method then false
    else if !equalStringSlices a.Columns b.Columns then false
    else if !equalOptional a.Where b.Where then false
    else if !equalOptional a.Expression b.Expression then false
    else true

/-- The function `equalPrimaryKey`. -/
def equalPrimaryKey (a b : Option PrimaryKey) : Bool :=
  match a, b with
  | none, none => true
  | none, some _ => false
  | some _, none => false
  | some a, some b =>
    if a.Name != b.Name then false
    else equalStringSlices a.Columns b.Columns

/-- The function `equalForeignKey`. -/
def equalForeignKey (a b : Option ForeignKey) : Bool :=
  match a, b with
  | none, none => true
  | none, some _ => false
  | some _, none => false
  | some a, some b =>
    if a.Name != b.Name || a.ReferencedSchema != b.ReferencedSchema
        || a.ReferencedTable != b.ReferencedTable || a.OnDelete != b.OnDelete
        || a.OnUpdate != b.OnUpdate then false
    else if !equalStringSlices a.Columns b.Columns then false
    else equalStringSlices a.ReferencedColumns b.ReferencedColumns

/-- The loop that `compareTable` and `CompareSchemas` run over a pair of maps to
collect what was added or dropped: the values of `m` whose key `other` lacks. -/
def onlyIn {α : Type} (m other : GoMap α) : List α :=
  m.rangeAppend fun name v => if other.contains name then none else some v

/-- The function `compareTable`; `none` is the nil diff. -/
def compareTable (src tgt : Table) : Option TableDiff :=
  if src.Type_ != tgt.Type_ then none
  else if src.Type_ == TableTypeView then
    match src.ViewDefinition, tgt.ViewDefinition with
    | some sv, some tv =>
      if sv.SelectStatement != tv.SelectStatement then
        some
          { Table := tgt
            ColumnsAdded := [], ColumnsDropped := [], ColumnsModified := []
            IndexesAdded := [], IndexesDropped := [], IndexesModified := []
            PrimaryKeyChange := none
            ForeignKeysAdded := [], ForeignKeysDropped := [], ForeignKeysModified := []
            ViewDefinitionChange := some { Old := tgt.ViewDefinition, New := src.ViewDefinition } }
      else none
    | _, _ => none
  else
    let d : TableDiff :=
      { Table := tgt
        ColumnsAdded := onlyIn src.Columns tgt.Columns
        ColumnsDropped := onlyIn tgt.Columns src.Columns
        ColumnsModified := src.Columns.rangeAppend fun name srcCol =>
          match tgt.Columns.get? name with
          | some tgtCol =>
            if !equalColumn (some srcCol) (some tgtCol) then
              some { Old := tgtCol, New := srcCol }
            else none
          | none => none
        IndexesAdded := onlyIn src.Indexes tgt.Indexes
        IndexesDropped := onlyIn tgt.Indexes src.Indexes
        IndexesModified := src.Indexes.rangeAppend fun name srcI =>
          match tgt.Indexes.get? name with
          | some tgtI =>
            if !equalIndex (some srcI) (some tgtI) then some { Old := tgtI, New := srcI }
            else none
          | none => none
        PrimaryKeyChange :=
          if !equalPrimaryKey src.PrimaryKey tgt.PrimaryKey then
            some { Old := tgt.PrimaryKey, New := src.PrimaryKey }
          else none
        ForeignKeysAdded := onlyIn src.ForeignKeys tgt.ForeignKeys
        ForeignKeysDropped := onlyIn tgt.ForeignKeys src.ForeignKeys
        ForeignKeysModified := src.ForeignKeys.rangeAppend fun name srcF =>
          match tgt.ForeignKeys.get? name with
          | some tgtF =>
            if !equalForeignKey (some srcF) (some tgtF) then some { Old := tgtF, New := srcF }
            else none
          | none => none
        ViewDefinitionChange := none }
    if d.ColumnsAdded.length + d.ColumnsDropped.length + d.ColumnsModified.length
        + d.IndexesAdded.length + d.IndexesDropped.length + d.IndexesModified.length
        + d.ForeignKeysAdded.length + d.ForeignKeysDropped.length
        + d.ForeignKeysModified.length > 0 || d.PrimaryKeyChange.isSome then
      some d
    else none

/-- The function `CompareSchemas`. -/
def CompareSchemas (src tgt : DatabaseSchema) : SchemaDiff :=
  { TablesAdded := onlyIn src.Tables tgt.Tables
    TablesDropped := onlyIn tgt.Tables src.Tables
    TablesModified := src.Tables.rangeAppend fun name srcTbl =>
      match tgt.Tables.get? name with
      | some tgtTbl => compareTable srcTbl tgtTbl
      | none => none }

/-! ## pkg/diff/rule.go -/

/-- The interface `ICompareRule`. -/
structure ICompareRule where
  IsEqual : Record → Record → Bool
  GetTable : String

/-- The method `(*AllFieldsEqualRule).IsEqual`, for a rule with the given `Columns`. -/
def AllFieldsEqualRule.IsEqual (columns : List String) (a b : Record) : Bool :=
  match columns with
  | [] => true
  | c :: cs =>
    if sprintV (a.get c) != sprintV (b.get c) then false
    else AllFieldsEqualRule.IsEqual cs a b

/-- An `AllFieldsEqualRule{Table, Columns}` seen through the interface. -/
def AllFieldsEqualRule (table : String) (columns : List String) : ICompareRule :=
  { IsEqual := AllFieldsEqualRule.IsEqual columns, GetTable := table }

/-- The method `(*Table).GetColumns`: the column names in map iteration order. -/
def Table.GetColumns (t : Table) : List String := t.Columns.keys

/-- The function `CreateCompareRule`. -/
def CreateCompareRule (table : Table) (comparisonKey : List String) : ICompareRule :=
  let cols := if comparisonKey.length = 0 then table.GetColumns else comparisonKey
  AllFieldsEqualRule table.Name cols

/-! ## pkg/diff/data_diff.go -/

inductive DiffType where
  | ADD
  | DROP
  | MODIFY
  deriving DecidableEq, Repr

structure ModifiedRow where
  Old : Record
  New : Record
  deriving DecidableEq, Repr

structure DataDiff where
  Added : List Record
  Dropped : List Record
  Modified : List ModifiedRow
  deriving DecidableEq, Repr

/-! ## pkg/diff/data.go -/

/-- One invocation `handle(diffType, srcRow, tgtRow)` of the callback. -/
structure HandleCall where
  diffType : DiffType
  srcRow : Record
  tgtRow : Record
  deriving DecidableEq, Repr

/-- The function `comparePKRecord`. -/
def comparePKRecord (a b : Record) (pk : List String) : Int :=
  match pk with
  | [] => 0
  | k :: ks =>
    let av := sprintV (a.get k)
    let bv := sprintV (b.get k)
    if goStringLess av bv then -1
    else if goStringLess bv av then 1
    else comparePKRecord a b ks

/-- The function `extractPK`. -/
def extractPK (row : Record) (pk : List String) : List Value :=
  pk.map fun k => row.get k

/-- The function `getTableColumns`: the column names and the primary-key columns. -/
def getTableColumns (db : DBAdapter) (table : String) :
    Except String (List String × List String) :=
  match db.ExtractTable table with
  | .error err => .error err
  | .ok tbl =>
    let cols := tbl.Columns.keys
    let pks := match tbl.PrimaryKey with
      | some p => p.Columns
      | none => []
    .ok (cols, pks)

structure rowBatchIterator where
  db : DBAdapter
  table : String
  cols : List String
  pk : List String
  limit : Nat
  lastPK : List Value
  buf : Option (List Record)
  idx : Nat
  closed : Bool

def newRowBatchIterator (db : DBAdapter) (table : String) (cols pk : List String)
    (batchSize : Nat) : rowBatchIterator :=
  { db := db, table := table, cols := cols, pk := pk, limit := batchSize,
    lastPK := [], buf := none, idx := 0, closed := false }

/-- The method `NextBatch`: the returned batch (`none` is the nil slice) or the error,
and the iterator after the call. -/
def rowBatchIterator.NextBatch (it : rowBatchIterator) :
    Except String (Option (List Record)) × rowBatchIterator :=
  if it.closed then (.ok none, it)
  else
    let pending : Option (List Record) :=
      match it.buf with
      | some buf => if it.idx < buf.length then some buf else none
      | none => none
    match pending with
    | some buf => (.ok (some (buf.drop it.idx)), { it with idx := buf.length })
    | none =>
      match it.db.GetTableDataBatch it.table it.cols it.pk it.lastPK it.limit with
      | .error err => (.error err, it)
      | .ok [] => (.ok none, { it with closed := true })
      | .ok (r :: rs) =>
        (.ok (some (r :: rs)),
          { it with
            buf := some (r :: rs)
            idx := (r :: rs).length
            lastPK := extractPK ((r :: rs).getLast (List.cons_ne_nil r rs)) it.pk })

/-- One side of the merge walk of `StreamCompareData`: the iterator with the
variables `srcBuf, srcIdx, srcDone` (respectively `tgtBuf, tgtIdx, tgtDone`). -/
structure WalkSide where
  iter : rowBatchIterator
  buf : List Record
  idx : Nat
  done : Bool

/-- The refill block at the head of the loop body (lines 23-34 for the source,
35-46 for the target). -/
def WalkSide.refill (s : WalkSide) : Except String WalkSide :=
  if s.idx ≥ s.buf.length && !s.done then
    match s.iter.NextBatch with
    | (.error err, _) => .error err
    | (.ok none, it) => .ok { s with iter := it, done := true }
    | (.ok (some batch), it) => .ok { s with iter := it, buf := batch, idx := 0 }
  else .ok s

/-- The current row of a side: `buf[idx]` when `idx < len(buf)`, else nil. -/
def WalkSide.row (s : WalkSide) : Record :=
  if h : s.idx < s.buf.length then s.buf[s.idx] else none

/-- What a run of `StreamCompareData` leaves behind: the handler calls made, in order,
and the returned error (`none` is a nil error). -/
structure RunResult where
  calls : List HandleCall
  err : Option String
  deriving DecidableEq, Repr

/-- The loop of `StreamCompareData`; each iteration spends one unit of fuel, and
`none` means the fuel ran out before the loop ended. -/
def walkLoop (pks : List String) (rule : ICompareRule) :
    Nat → WalkSide → WalkSide → List HandleCall → Option RunResult
  | 0, _, _, _ => none
  | fuel + 1, src0, tgt0, calls =>
    match src0.refill with
    | .error err => some { calls := calls, err := some err }
    | .ok src =>
      match tgt0.refill with
      | .error err => some { calls := calls, err := some err }
      | .ok tgt =>
        if (src.done || src.idx ≥ src.buf.length) && (tgt.done || tgt.idx ≥ tgt.buf.length) then
          some { calls := calls, err := none }
        else
          let srcRow := src.row
          let tgtRow := tgt.row
          let cmp : Int :=
            if srcRow = none then 1
            else if tgtRow = none then -1
            else comparePKRecord srcRow tgtRow pks
          if cmp < 0 then
            walkLoop pks rule fuel { src with idx := src.idx + 1 } tgt
              (calls ++ [{ diffType := .ADD, srcRow := srcRow, tgtRow := none }])
          else if cmp > 0 then
            walkLoop pks rule fuel src { tgt with idx := tgt.idx + 1 }
              (calls ++ [{ diffType := .DROP, srcRow := none, tgtRow := tgtRow }])
          else
            walkLoop pks rule fuel { src with idx := src.idx + 1 } { tgt with idx := tgt.idx + 1 }
              (if !rule.IsEqual srcRow tgtRow then
                calls ++ [{ diffType := .MODIFY, srcRow := srcRow, tgtRow := tgtRow }]
              else calls)

/-- The function `StreamCompareData`, with the loop bounded by `fuel`.  The two deferred
`Close` calls only mark the local iterators closed when the function returns and are
left out. -/
def StreamCompareData (fuel : Nat) (srcDB tgtDB : DBAdapter) (rule : ICompareRule)
    (batchSize : Nat) : Option RunResult :=
  match getTableColumns tgtDB rule.GetTable with
  | .error err => some { calls := [], err := some err }
  | .ok (cols, pks) =>
    let srcIter := newRowBatchIterator srcDB rule.GetTable cols pks batchSize
    let tgtIter := newRowBatchIterator tgtDB rule.GetTable cols pks batchSize
    walkLoop pks rule fuel
      { iter := srcIter, buf := [], idx := 0, done := false }
      { iter := tgtIter, buf := [], idx := 0, done := false } []

/-- The callback that `StreamCompareDataToDiff` passes to `StreamCompareData`. -/
def collectDiff (diff : DataDiff) (c : HandleCall) : DataDiff :=
  match c.diffType with
  | .ADD => { diff with Added := diff.Added ++ [c.srcRow] }
  | .DROP => { diff with Dropped := diff.Dropped ++ [c.tgtRow] }
  | .MODIFY => { diff with Modified := diff.Modified ++ [{ Old := c.tgtRow, New := c.srcRow }] }

/-- The function `StreamCompareDataToDiff`: `.error err` stands for `(nil, err)`. -/
def StreamCompareDataToDiff (fuel : Nat) (srcDB tgtDB : DBAdapter) (rule : ICompareRule)
    (batchSize : Nat) : Option (Except String DataDiff) :=
  match StreamCompareData fuel srcDB tgtDB rule batchSize with
  | none => none
  | some r =>
    let diff := r.calls.foldl collectDiff { Added := [], Dropped := [], Modified := [] }
    match r.err with
    | some err => some (.error err)
    | none => some (.ok diff)

/-- The body of `(*mockDB).GetTableDataBatch` in `data_test.go`: start after the first
row whose key values equal `lastPK` and return at most `limit` rows. -/
def mockBatch (rows : List Record) (pk : List String) (lastPK : List Value) (limit : Nat) :
    List Record :=
  let isMatch : Record → Bool := fun row =>
    (pk.zip lastPK).all (fun kv => decide (row.get kv.1 = kv.2))
  let start : Nat :=
    if lastPK.length > 0 then
      match rows.findIdx? isMatch with
      | some i => i + 1
      | none => 0
    else 0
  (rows.drop start).take limit

/-- A test adapter over a fixed row list, with the batch fetch of `mockDB`.
`ExtractTable` answers with the given table, where the one of `mockDB` answers with a
nil table, which `getTableColumns` cannot read. -/
def listDB (rows : List Record) (tbl : Table) : DBAdapter :=
  { GetTableDataBatch := fun _ _ pk lastPK limit => .ok (mockBatch rows pk lastPK limit),
    ExtractTable := fun _ => .ok tbl }

/-- The guard that opens `GetTableDataBatch` of both shipped adapters
(`postgres.go` line 67, `mysql.go` line 60) in front of the batch fetch of `mockDB`:
an empty `pk` is an error. -/
def guardedDB (rows : List Record) (tbl : Table) : DBAdapter :=
  { GetTableDataBatch := fun _ _ pk lastPK limit =>
      if pk.length = 0 then .error "primary key required for batch scan"
      else .ok (mockBatch rows pk lastPK limit),
    ExtractTable := fun _ => .ok tbl }

/-! ## Go library functions used by the SQL generators -/

/-- Go `strings.ToLower` maps every character by `unicode.ToLower`.  Beyond ASCII the
letters with a lower-case form of their own come in ranges: the letters from `lo` to
`hi` in steps of `stride` have their lower-case form `delta` code points away.  The table
is the simple lower-case mapping of the Unicode character database (the one the
library tables are generated from), entry `(lo, hi, stride, delta)`. -/
def lowerCaseRanges : List (Nat × Nat × Nat × Int) :=
  [(0xC0, 0xD6, 1, 32), (0xD8, 0xDE, 1, 32), (0x100, 0x12E, 2, 1), (0x130, 0x130, 1, -199),
   (0x132, 0x136, 2, 1), (0x139, 0x147, 2, 1), (0x14A, 0x176, 2, 1), (0x178, 0x178, 1, -121),
   (0x179, 0x17D, 2, 1), (0x181, 0x181, 1, 210), (0x182, 0x184, 2, 1), (0x186, 0x186, 1, 206),
   (0x187, 0x187, 1, 1), (0x189, 0x18A, 1, 205), (0x18B, 0x18B, 1, 1), (0x18E, 0x18E, 1, 79),
   (0x18F, 0x18F, 1, 202), (0x190, 0x190, 1, 203), (0x191, 0x191, 1, 1), (0x193, 0x193, 1, 205),
   (0x194, 0x194, 1, 207), (0x196, 0x196, 1, 211), (0x197, 0x197, 1, 209), (0x198, 0x198, 1, 1),
   (0x19C, 0x19C, 1, 211), (0x19D, 0x19D, 1, 213), (0x19F, 0x19F, 1, 214), (0x1A0, 0x1A4, 2, 1),
   (0x1A6, 0x1A6, 1, 218), (0x1A7, 0x1A7, 1, 1), (0x1A9, 0x1A9, 1, 218), (0x1AC, 0x1AC, 1, 1),
   (0x1AE, 0x1AE, 1, 218), (0x1AF, 0x1AF, 1, 1), (0x1B1, 0x1B2, 1, 217), (0x1B3, 0x1B5, 2, 1),
   (0x1B7, 0x1B7, 1, 219), (0x1B8, 0x1B8, 1, 1), (0x1BC, 0x1BC, 1, 1), (0x1C4, 0x1C4, 1, 2),
   (0x1C5, 0x1C5, 1, 1), (0x1C7, 0x1C7, 1, 2), (0x1C8, 0x1C8, 1, 1), (0x1CA, 0x1CA, 1, 2),
   (0x1CB, 0x1DB, 2, 1), (0x1DE, 0x1EE, 2, 1), (0x1F1, 0x1F1, 1, 2), (0x1F2, 0x1F4, 2, 1),
   (0x1F6, 0x1F6, 1, -97), (0x1F7, 0x1F7, 1, -56), (0x1F8, 0x21E, 2, 1), (0x220, 0x220, 1, -130),
   (0x222, 0x232, 2, 1), (0x23A, 0x23A, 1, 10795), (0x23B, 0x23B, 1, 1), (0x23D, 0x23D, 1, -163),
   (0x23E, 0x23E, 1, 10792), (0x241, 0x241, 1, 1), (0x243, 0x243, 1, -195), (0x244, 0x244, 1, 69),
   (0x245, 0x245, 1, 71), (0x246, 0x24E, 2, 1), (0x370, 0x372, 2, 1), (0x376, 0x376, 1, 1),
   (0x37F, 0x37F, 1, 116), (0x386, 0x386, 1, 38), (0x388, 0x38A, 1, 37), (0x38C, 0x38C, 1, 64),
   (0x38E, 0x38F, 1, 63), (0x391, 0x3A1, 1, 32), (0x3A3, 0x3AB, 1, 32), (0x3CF, 0x3CF, 1, 8),
   (0x3D8, 0x3EE, 2, 1), (0x3F4, 0x3F4, 1, -60), (0x3F7, 0x3F7, 1, 1), (0x3F9, 0x3F9, 1, -7),
   (0x3FA, 0x3FA, 1, 1), (0x3FD, 0x3FF, 1, -130), (0x400, 0x40F, 1, 80), (0x410, 0x42F, 1, 32),
   (0x460, 0x480, 2, 1), (0x48A, 0x4BE, 2, 1), (0x4C0, 0x4C0, 1, 15), (0x4C1, 0x4CD, 2, 1),
   (0x4D0, 0x52E, 2, 1), (0x531, 0x556, 1, 48), (0x10A0, 0x10C5, 1, 7264),
   (0x10C7, 0x10C7, 1, 7264), (0x10CD, 0x10CD, 1, 7264), (0x13A0, 0x13EF, 1, 38864),
   (0x13F0, 0x13F5, 1, 8), (0x1C90, 0x1CBA, 1, -3008), (0x1CBD, 0x1CBF, 1, -3008),
   (0x1E00, 0x1E94, 2, 1), (0x1E9E, 0x1E9E, 1, -7615), (0x1EA0, 0x1EFE, 2, 1),
   (0x1F08, 0x1F0F, 1, -8), (0x1F18, 0x1F1D, 1, -8), (0x1F28, 0x1F2F, 1, -8),
   (0x1F38, 0x1F3F, 1, -8), (0x1F48, 0x1F4D, 1, -8), (0x1F59, 0x1F59, 1, -8),
   (0x1F5B, 0x1F5B, 1, -8), (0x1F5D, 0x1F5D, 1, -8), (0x1F5F, 0x1F5F, 1, -8),
   (0x1F68, 0x1F6F, 1, -8), (0x1F88, 0x1F8F, 1, -8), (0x1F98, 0x1F9F, 1, -8),
   (0x1FA8, 0x1FAF, 1, -8), (0x1FB8, 0x1FB9, 1, -8), (0x1FBA, 0x1FBB, 1, -74),
   (0x1FBC, 0x1FBC, 1, -9), (0x1FC8, 0x1FCB, 1, -86), (0x1FCC, 0x1FCC, 1, -9),
   (0x1FD8, 0x1FD9, 1, -8), (0x1FDA, 0x1FDB, 1, -100), (0x1FE8, 0x1FE9, 1, -8),
   (0x1FEA, 0x1FEB, 1, -112), (0x1FEC, 0x1FEC, 1, -7), (0x1FF8, 0x1FF9, 1, -128),
   (0x1FFA, 0x1FFB, 1, -126), (0x1FFC, 0x1FFC, 1, -9), (0x2126, 0x2126, 1, -7517),
   (0x212A, 0x212A, 1, -8383), (0x212B, 0x212B, 1, -8262), (0x2132, 0x2132, 1, 28),
   (0x2160, 0x216F, 1, 16), (0x2183, 0x2183, 1, 1), (0x24B6, 0x24CF, 1, 26),
   (0x2C00, 0x2C2F, 1, 48), (0x2C60, 0x2C60, 1, 1), (0x2C62, 0x2C62, 1, -10743),
   (0x2C63, 0x2C63, 1, -3814), (0x2C64, 0x2C64, 1, -10727), (0x2C67, 0x2C6B, 2, 1),
   (0x2C6D, 0x2C6D, 1, -10780), (0x2C6E, 0x2C6E, 1, -10749), (0x2C6F, 0x2C6F, 1, -10783),
   (0x2C70, 0x2C70, 1, -10782), (0x2C72, 0x2C72, 1, 1), (0x2C75, 0x2C75, 1, 1),
   (0x2C7E, 0x2C7F, 1, -10815), (0x2C80, 0x2CE2, 2, 1), (0x2CEB, 0x2CED, 2, 1),
   (0x2CF2, 0x2CF2, 1, 1), (0xA640, 0xA66C, 2, 1), (0xA680, 0xA69A, 2, 1), (0xA722, 0xA72E, 2, 1),
   (0xA732, 0xA76E, 2, 1), (0xA779, 0xA77B, 2, 1), (0xA77D, 0xA77D, 1, -35332),
   (0xA77E, 0xA786, 2, 1), (0xA78B, 0xA78B, 1, 1), (0xA78D, 0xA78D, 1, -42280),
   (0xA790, 0xA792, 2, 1), (0xA796, 0xA7A8, 2, 1), (0xA7AA, 0xA7AA, 1, -42308),
   (0xA7AB, 0xA7AB, 1, -42319), (0xA7AC, 0xA7AC, 1, -42315), (0xA7AD, 0xA7AD, 1, -42305),
   (0xA7AE, 0xA7AE, 1, -42308), (0xA7B0, 0xA7B0, 1, -42258), (0xA7B1, 0xA7B1, 1, -42282),
   (0xA7B2, 0xA7B2, 1, -42261), (0xA7B3, 0xA7B3, 1, 928), (0xA7B4, 0xA7C2, 2, 1),
   (0xA7C4, 0xA7C4, 1, -48), (0xA7C5, 0xA7C5, 1, -42307), (0xA7C6, 0xA7C6, 1, -35384),
   (0xA7C7, 0xA7C9, 2, 1), (0xA7D0, 0xA7D0, 1, 1), (0xA7D6, 0xA7D8, 2, 1), (0xA7F5, 0xA7F5, 1, 1),
   (0xFF21, 0xFF3A, 1, 32), (0x10400, 0x10427, 1, 40), (0x104B0, 0x104D3, 1, 40),
   (0x10570, 0x1057A, 1, 39), (0x1057C, 0x1058A, 1, 39), (0x1058C, 0x10592, 1, 39),
   (0x10594, 0x10595, 1, 39), (0x10C80, 0x10CB2, 1, 64), (0x118A0, 0x118BF, 1, 32),
   (0x16E40, 0x16E5F, 1, 32), (0x1E900, 0x1E921, 1, 34)]

/-- Go `unicode.ToLower`: an ASCII capital becomes the small letter; beyond ASCII a
letter of `lowerCaseRanges` moves by the delta of its range; every other character is
kept. -/
def unicodeToLower (c : Char) : Char :=
  if c.toNat ≤ 127 then c.toLower
  else
    match lowerCaseRanges.find? (fun r =>
        decide (r.1 ≤ c.toNat ∧ c.toNat ≤ r.2.1 ∧ (c.toNat - r.1) % r.2.2.1 = 0)) with
    | some r => Char.ofNat (Int.toNat (c.toNat + r.2.2.2))
    | none => c

/-- Go `strings.ToLower`. -/
def stringsToLower (s : String) : String := ⟨s.data.map unicodeToLower⟩

/-- Whether the character sequence `sub` occurs in `s` as a contiguous block. -/
def charsContain : List Char → List Char → Bool
  | [], sub => sub.isEmpty
  | c :: cs, sub => sub.isPrefixOf (c :: cs) || charsContain cs sub

/-- Go `strings.Contains(s, substr)`. -/
def stringsContains (s substr : String) : Bool := charsContain s.data substr.data

/-- Go `strings.HasPrefix(s, prefix)`. -/
def stringsHasPrefix (s pre : String) : Bool := pre.data.isPrefixOf s.data

/-- Go `strings.Join(elems, sep)`. -/
def stringsJoin : List String → String → String
  | [], _ => ""
  | [x], _ => x
  | x :: y :: rest, sep => x ++ sep ++ stringsJoin (y :: rest) sep

/-- Go `slices.Contains(s, v)` on strings. -/
def slicesContains (s : List String) (v : String) : Bool := s.contains v

/-- Go `fmt.Sprintf("%d", n)`. -/
def sprintD (n : Int) : String := toString n

/-- Go `sort.Slice(cols, less)` with `less` comparing `Position`: the library sort is
not stable, so any permutation sorted by position may come back; the embedding
answers with the insertion-sorted one (the only one when the positions differ). -/
def sortSliceByPosition (cols : List Column) : List Column :=
  cols.insertionSort fun a b => a.Position ≤ b.Position

/-- The character `'`. -/
def singleQuote : Char := Char.ofNat 39

/-! ## pkg/utils/tools.go -/

/-- The function `JoinWrap`. -/
def JoinWrap (arr : List String) (wrap sep : String) : String :=
  if arr.length = 0 then ""
  else wrap ++ stringsJoin arr (wrap ++ sep ++ wrap) ++ wrap

/-- The function `JoinPreSuf`. -/
def JoinPreSuf (arr : List String) (pre suf sep : String) : String :=
  if arr.length = 0 then ""
  else pre ++ stringsJoin arr (suf ++ sep ++ pre) ++ suf

/-! ## pkg/conn/db.go: column order -/

/-- The method `(*Table).GetColumnsByPosition`. -/
def Table.GetColumnsByPosition (t : Table) : List Column :=
  sortSliceByPosition (t.Columns.entries.map Prod.snd)

/-! ## pkg/consts/consts.go -/

/-- Go `type DBType string`. -/
abbrev DBType := String

def DBTypeMySQL : DBType := "mysql"

def DBTypePostgres : DBType := "postgres"

def DBTypeUnknown : DBType := "unknown"

/-! ## pkg/sql/postgres/convert.go -/

namespace PostgreSQLTypeConverter

def handleVarchar (col : Column) : String :=
  match col.CharMaxLen with
  | some n => if n > 0 then "varchar(" ++ sprintD n ++ ")" else "varchar"
  | none => "varchar"

def handleChar (col : Column) : String :=
  match col.CharMaxLen with
  | some n => if n > 0 then "char(" ++ sprintD n ++ ")" else "char(1)"
  | none => "char(1)"

def handleNumeric (col : Column) : String :=
  match col.NumericPrec, col.NumericScale with
  | some p, some s => "numeric(" ++ sprintD p ++ "," ++ sprintD s ++ ")"
  | some p, none => "numeric(" ++ sprintD p ++ ")"
  | none, _ => "numeric"

/-- The map `typeMap` as filled by `initTypeMap`; the handlers that ignore the column
are written as constant functions. -/
def typeMap (dataType : String) : Option (Column → String) :=
  match dataType with
  | "character varying" => some handleVarchar
  | "varchar" => some handleVarchar
  | "character" => some handleChar
  | "char" => some handleChar
  | "text" => some fun _ => "text"
  | "integer" => some fun _ => "int4"
  | "int" => some fun _ => "int4"
  | "int4" => some fun _ => "int4"
  | "bigint" => some fun _ => "int8"
  | "int8" => some fun _ => "int8"
  | "smallint" => some fun _ => "int2"
  | "int2" => some fun _ => "int2"
  | "numeric" => some handleNumeric
  | "decimal" => some handleNumeric
  | "real" => some fun _ => "real"
  | "float4" => some fun _ => "real"
  | "double precision" => some fun _ => "double precision"
  | "float8" => some fun _ => "double precision"
  | "money" => some fun _ => "money"
  | "serial" => some fun _ => "serial"
  | "bigserial" => some fun _ => "bigserial"
  | "smallserial" => some fun _ => "smallserial"
  | "boolean" => some fun _ => "boolean"
  | "bool" => some fun _ => "boolean"
  | "timestamp" => some fun _ => "timestamp"
  | "timestamp without time zone" => some fun _ => "timestamp"
  | "timestamp with time zone" => some fun _ => "timestamp with time zone"
  | "timestamptz" => some fun _ => "timestamp with time zone"
  | "date" => some fun _ => "date"
  | "time" => some fun _ => "time"
  | "time without time zone" => some fun _ => "time"
  | "time with time zone" => some fun _ => "time with time zone"
  | "timetz" => some fun _ => "time with time zone"
  | "interval" => some fun _ => "interval"
  | "bytea" => some fun _ => "bytea"
  | "uuid" => some fun _ => "uuid"
  | "json" => some fun _ => "json"
  | "jsonb" => some fun _ => "jsonb"
  | "ARRAY" => some fun _ => "ARRAY"
  | "inet" => some fun _ => "inet"
  | "cidr" => some fun _ => "cidr"
  | "macaddr" => some fun _ => "macaddr"
  | "point" => some fun _ => "point"
  | "line" => some fun _ => "line"
  | "lseg" => some fun _ => "lseg"
  | "box" => some fun _ => "box"
  | "path" => some fun _ => "path"
  | "polygon" => some fun _ => "polygon"
  | "circle" => some fun _ => "circle"
  | _ => none

/-- The method `ConvertType`. -/
def ConvertType (col : Column) : String :=
  let dataType := stringsToLower col.DataType
  match typeMap dataType with
  | some handler => handler col
  | none => col.DataType

/-- The method `GenerateColumnDDL`: the parts joined by one blank. -/
def GenerateColumnDDL (col : Column) : String :=
  let parts := ["\"" ++ col.Name ++ "\""]
  let parts := parts ++ [ConvertType col]
  let parts := if !col.Nullable then parts ++ ["NOT NULL"] else parts
  let parts :=
    match col.Default with
    | some d => if d != "" then parts ++ ["DEFAULT " ++ d] else parts
    | none => parts
  stringsJoin parts " "

end PostgreSQLTypeConverter

/-! ## The exchange sort of `GenerateTableDDL` (both dialects) -/

/-- The local type `colWithPos`. -/
structure colWithPos where
  col : Column
  pos : Int
  deriving DecidableEq, Repr

/-- The inner loop `for j := i + 1; j < len(sortedCols); j++` with `count` iterations
left: it swaps the entries at `i` and `j` when the first has the greater position. -/
def exchangeInner (i : Nat) : Nat → Nat → List colWithPos → List colWithPos
  | 0, _, a => a
  | count + 1, j, a =>
    let a :=
      match a[i]?, a[j]? with
      | some x, some y => if x.pos > y.pos then (a.set i y).set j x else a
      | _, _ => a
    exchangeInner i count (j + 1) a

/-- The outer loop `for i := 0; i < len(sortedCols); i++` with `count` iterations left. -/
def exchangeOuter : Nat → Nat → List colWithPos → List colWithPos
  | 0, _, a => a
  | count + 1, i, a =>
    exchangeOuter count (i + 1) (exchangeInner i (a.length - (i + 1)) (i + 1) a)

/-- The two nested loops commented `简单排序` in `GenerateTableDDL`. -/
def exchangeSort (a : List colWithPos) : List colWithPos :=
  exchangeOuter a.length 0 a

/-- The columns of a table in the order in which `GenerateTableDDL` emits them: the map
entries paired with their position, then sorted by the exchange sort. -/
def sortedColumns (t : Table) : List Column :=
  let sortedCols := t.Columns.entries.foldl
    (fun sortedCols e => sortedCols ++ [{ col := e.2, pos := e.2.Position }]) []
  (exchangeSort sortedCols).map fun colPos => colPos.col

/-! ## pkg/sql/postgres/postgre.go -/

namespace postgreDialect

/-- The method `escapedValue`. -/
def escapedValue (dataType : String) (val : Value) : String :=
  let dt := stringsToLower dataType
  if val = Value.null then "NULL"
  else if stringsContains dt "char" || stringsContains dt "text" || stringsContains dt "json" then
    let strVal := sprintV val
    let escaped := stringsReplaceAll strVal '\\' "\\\\"
    let escaped := stringsReplaceAll escaped singleQuote "''"
    let escaped := stringsReplaceAll escaped '\n' "\\n"
    let escaped := stringsReplaceAll escaped '\r' "\\r"
    let escaped := stringsReplaceAll escaped '\t' "\\t"
    let escaped := stringsReplaceAll escaped '\x08' "\\b"
    let escaped := stringsReplaceAll escaped '\x0c' "\\f"
    "'" ++ escaped ++ "'"
  else if stringsContains dt "date" || stringsContains dt "time" || stringsContains dt "uuid" then
    "'" ++ sprintV val ++ "'"
  else sprintV val

/-- The method `GenerateInsertSql`. -/
def GenerateInsertSql (tbl : Table) (row : Record) : String :=
  let cols := tbl.GetColumnsByPosition
  let colNames := cols.foldl (fun colNames col => colNames ++ ["\"" ++ col.Name ++ "\""]) []
  let values := cols.foldl
    (fun values col => values ++ [escapedValue col.DataType (row.get col.Name)]) []
  "INSERT INTO " ++ tbl.Name ++ " (" ++ stringsJoin colNames ", " ++ ") VALUES ("
    ++ stringsJoin values ", " ++ ");"

/-- The loop over the primary-key columns that builds `where` in `GenerateDeleteSql`
and `GenerateUpdateSql`; `none` is the panic of reading `col.DataType` through a nil
`col`, when the table has no column of that name. -/
def whereLoop (tbl : Table) (row : Record) (pks : List String) : Option (List String) :=
  pks.foldl
    (fun acc k =>
      match acc with
      | none => none
      | some wh =>
        if row.get k = Value.null then some (wh ++ ["\"" ++ k ++ "\" IS NULL"])
        else
          match tbl.Columns.get? k with
          | none => none
          | some col =>
            some (wh ++ ["\"" ++ k ++ "\" = " ++ escapedValue col.DataType (row.get k)]))
    (some [])

/-- The method `GenerateDeleteSql`; `none` is a nil-pointer panic (no primary key, or
a key column that the table lacks). -/
def GenerateDeleteSql (tbl : Table) (row : Record) : Option String :=
  match tbl.PrimaryKey with
  | none => none
  | some pk =>
    match whereLoop tbl row pk.Columns with
    | none => none
    | some wh => some ("DELETE FROM " ++ tbl.Name ++ " WHERE " ++ stringsJoin wh " AND " ++ ";")

/-- The loop over `updateCols` that builds `set` in `GenerateUpdateSql`. -/
def setLoop (tbl : Table) (row : Record) (pks updateCols : List String) :
    Option (List String) :=
  updateCols.foldl
    (fun acc c =>
      match acc with
      | none => none
      | some set =>
        if slicesContains pks c then some set
        else
          match tbl.Columns.get? c with
          | none => none
          | some col =>
            some (set ++ ["\"" ++ c ++ "\" = " ++ escapedValue col.DataType (row.get c)]))
    (some [])

/-- The method `GenerateUpdateSql`; `none` is a nil-pointer panic. -/
def GenerateUpdateSql (tbl : Table) (row : Record) (updateCols : List String) :
    Option String :=
  match tbl.PrimaryKey with
  | none => none
  | some pk =>
    let pks := pk.Columns
    let updateCols := if updateCols.length = 0 then tbl.GetColumns else updateCols
    match setLoop tbl row pks updateCols with
    | none => none
    | some set =>
      match whereLoop tbl row pks with
      | none => none
      | some wh =>
        some ("UPDATE " ++ tbl.Name ++ " SET " ++ stringsJoin set ", " ++ " WHERE "
          ++ stringsJoin wh " AND " ++ ";")

/-- The schema qualifier that several methods write in front of a name when the
schema is neither empty nor `public`. -/
def schemaQualifier (t : Table) : String :=
  if t.Schema != "" && t.Schema != "public" then "\"" ++ t.Schema ++ "\"." else ""

/-- The method `GenerateCreateIndexSql`. -/
def GenerateCreateIndexSql (t : Table) (idx : Index) : String :=
  if idx.Primary then ""
  else
    let ddl := "CREATE "
    let ddl := if idx.Unique then ddl ++ "UNIQUE " else ddl
    let ddl := ddl ++ ("INDEX \"" ++ idx.Name ++ "\" ON ")
    let ddl := ddl ++ schemaQualifier t
    let ddl := ddl ++ ("\"" ++ t.Name ++ "\"")
    let ddl := if idx.Method != "" && idx.Method != "btree" then ddl ++ (" USING " ++ idx.Method)
      else ddl
    let ddl := ddl ++ " ("
    let quotedCols := idx.Columns.map fun col => "\"" ++ col ++ "\""
    let ddl := ddl ++ stringsJoin quotedCols ", "
    let ddl := ddl ++ ")"
    let ddl :=
      match idx.Where with
      | some w => ddl ++ (" WHERE " ++ w)
      | none => ddl
    ddl ++ ";"

/-- The method `GenerateDropIndexSql`. -/
def GenerateDropIndexSql (t : Table) (idx : Index) : String :=
  "DROP INDEX " ++ schemaQualifier t ++ ("\"" ++ idx.Name ++ "\"") ++ ";"

/-- The method `GenerateAddPrimaryKeySql`. -/
def GenerateAddPrimaryKeySql (t : Table) (pk : PrimaryKey) : String :=
  "ALTER TABLE " ++ ("\"" ++ t.Schema ++ "\".")
    ++ ("\"" ++ t.Name ++ "\" ADD CONSTRAINT \"" ++ pk.Name ++ "\" PRIMARY KEY ("
      ++ JoinWrap pk.Columns "\"" ", " ++ ");")

/-- The method `GenerateDropPrimaryKeySql`. -/
def GenerateDropPrimaryKeySql (t : Table) (pk : PrimaryKey) : String :=
  "ALTER TABLE " ++ ("\"" ++ t.Schema ++ "\".")
    ++ ("\"" ++ t.Name ++ "\" DROP CONSTRAINT \"" ++ pk.Name ++ "\";")

/-- The method `GenerateDropTableSql`. -/
def GenerateDropTableSql (t : Table) : String :=
  "DROP TABLE " ++ schemaQualifier t ++ ("\"" ++ t.Name ++ "\"") ++ ";"

end postgreDialect

namespace postgreDialect

/-- The foreign-key clause that `GenerateTableDDL` writes for `fk`. -/
def foreignKeyClause (fk : ForeignKey) : String :=
  let fkCols := fk.Columns.map fun col => "\"" ++ col ++ "\""
  let refCols := fk.ReferencedColumns.map fun col => "\"" ++ col ++ "\""
  let constraintDef := "  CONSTRAINT \"" ++ fk.Name ++ "\" FOREIGN KEY ("
    ++ stringsJoin fkCols ", " ++ ") REFERENCES \"" ++ fk.ReferencedSchema ++ "\".\""
    ++ fk.ReferencedTable ++ "\" (" ++ stringsJoin refCols ", " ++ ")"
  let constraintDef :=
    if fk.OnDelete != "" then constraintDef ++ (" ON DELETE " ++ fk.OnDelete) else constraintDef
  let constraintDef :=
    if fk.OnUpdate != "" then constraintDef ++ (" ON UPDATE " ++ fk.OnUpdate) else constraintDef
  constraintDef

/-- The primary-key clause of `GenerateTableDDL`: one entry when the table has a
primary key with at least one column. -/
def primaryKeyClause (t : Table) : List String :=
  match t.PrimaryKey with
  | some pk =>
    if pk.Columns.length > 0 then
      let pkCols := pk.Columns.map fun col => "\"" ++ col ++ "\""
      ["  CONSTRAINT \"" ++ pk.Name ++ "\" PRIMARY KEY (" ++ stringsJoin pkCols ", " ++ ")"]
    else []
  | none => []

/-- The method `GenerateTableDDL`. -/
def GenerateTableDDL (t : Table) : String :=
  if t.Type_ != TableTypeTable then ""
  else
    let ddl := "CREATE TABLE " ++ schemaQualifier t ++ ("\"" ++ t.Name ++ "\" (\n")
    let columnDefs := (sortedColumns t).foldl
      (fun columnDefs col => columnDefs ++ [PostgreSQLTypeConverter.GenerateColumnDDL col]) []
    let columnDefs := columnDefs ++ primaryKeyClause t
    let columnDefs := t.ForeignKeys.entries.foldl
      (fun columnDefs e => columnDefs ++ [foreignKeyClause e.2]) columnDefs
    let ddl := ddl ++ stringsJoin columnDefs ",\n"
    let ddl := ddl ++ "\n);"
    let ddl := t.Indexes.entries.foldl
      (fun ddl e =>
        if e.2.Primary then ddl else ddl ++ "\n\n" ++ GenerateCreateIndexSql t e.2) ddl
    let ddl := t.Columns.entries.foldl
      (fun ddl e =>
        match e.2.Comment with
        | some comment =>
          ddl ++ ("\n\nCOMMENT ON COLUMN \"" ++ t.Schema ++ "\".\"" ++ t.Name ++ "\".\""
            ++ e.2.Name ++ "\" IS '" ++ comment ++ "';")
        | none => ddl) ddl
    let ddl :=
      if t.Comment != "" then
        ddl ++ ("\n\nCOMMENT ON TABLE \"" ++ t.Schema ++ "\".\"" ++ t.Name ++ "\" IS '"
          ++ t.Comment ++ "';")
      else ddl
    ddl

/-- The method `GenerateViewDDL`. -/
def GenerateViewDDL (t : Table) : String :=
  match t.ViewDefinition with
  | none => ""
  | some vd =>
    if t.Type_ != TableTypeView then ""
    else
      let ddl := "CREATE VIEW " ++ schemaQualifier t ++ ("\"" ++ t.Name ++ "\" AS\n")
      let ddl := ddl ++ vd.SelectStatement
      let ddl :=
        if vd.CheckOption != "" && vd.CheckOption != "NONE" then
          ddl ++ ("\nWITH " ++ vd.CheckOption ++ " CHECK OPTION")
        else ddl
      let ddl := ddl ++ ";"
      let ddl :=
        if vd.Comment != "" then
          ddl ++ ("\n\nCOMMENT ON VIEW \"" ++ t.Schema ++ "\".\"" ++ t.Name ++ "\" IS '"
            ++ vd.Comment ++ "';")
        else ddl
      ddl

/-- The method `GenerateDropViewSql`. -/
def GenerateDropViewSql (t : Table) : String :=
  "DROP VIEW " ++ ("\"" ++ t.Schema ++ "\".") ++ ("\"" ++ t.Name ++ "\"") ++ ";"

/-- The method `GenerateAddColumnSql`. -/
def GenerateAddColumnSql (t : Table) (col : Column) : String :=
  "ALTER TABLE " ++ ("\"" ++ t.Schema ++ "\".") ++ ("\"" ++ t.Name ++ "\" ADD COLUMN ")
    ++ PostgreSQLTypeConverter.GenerateColumnDDL col ++ ";"

/-- The method `GenerateDropColumnSql`. -/
def GenerateDropColumnSql (t : Table) (col : Column) : String :=
  "ALTER TABLE " ++ ("\"" ++ t.Schema ++ "\".") ++ ("\"" ++ t.Name ++ "\" DROP COLUMN ")
    ++ ("\"" ++ col.Name ++ "\"") ++ ";"

/-- Whether `GenerateAlterColumnSql` finds the optional text `new` set and different
from `old` (the test used for the default and for the comment). -/
def changedTo (old new : Option String) : Bool :=
  match new, old with
  | some _, none => true
  | some n, some o => n != o
  | none, _ => false

/-- The method `GenerateAlterColumnSql`. -/
def GenerateAlterColumnSql (t : Table) (oldCol newCol : Column) : String :=
  let ddl := ""
  let pre := "ALTER TABLE \"" ++ t.Schema ++ "\".\"" ++ t.Name ++ "\""
  let ddl :=
    if oldCol.Name != newCol.Name then
      ddl ++ (pre ++ " " ++ ("RENAME COLUMN \"" ++ oldCol.Name ++ "\" TO \"" ++ newCol.Name ++ "\";"))
    else ddl
  let oldDataType := PostgreSQLTypeConverter.ConvertType oldCol
  let newDataType := PostgreSQLTypeConverter.ConvertType newCol
  let ddl :=
    if oldDataType != newDataType then
      let suffix :=
        if slicesContains ["int2", "int4", "int8", "jsonb", "json"] newDataType then
          "USING \"" ++ newCol.Name ++ "\"::" ++ newDataType
        else ""
      ddl ++ (pre ++ " " ++ ("ALTER COLUMN \"" ++ newCol.Name ++ "\" TYPE " ++ newDataType
        ++ " " ++ suffix ++ ";"))
    else ddl
  let ddl :=
    if changedTo oldCol.Default newCol.Default then
      ddl ++ (pre ++ " " ++ ("ALTER COLUMN \"" ++ newCol.Name ++ "\" SET DEFAULT "
        ++ newCol.Default.getD "" ++ ";"))
    else ddl
  let ddl :=
    if oldCol.Nullable != newCol.Nullable then
      if newCol.Nullable then
        ddl ++ (pre ++ " " ++ ("ALTER COLUMN \"" ++ newCol.Name ++ "\" DROP NOT NULL;"))
      else
        ddl ++ (pre ++ " " ++ ("ALTER COLUMN \"" ++ newCol.Name ++ "\" SET NOT NULL;"))
    else ddl
  let ddl :=
    if changedTo oldCol.Comment newCol.Comment then
      ddl ++ ("COMMENT ON COLUMN \"" ++ t.Schema ++ "\".\"" ++ t.Name ++ "\".\""
        ++ newCol.Name ++ "\" IS '" ++ newCol.Comment.getD "" ++ "';")
    else ddl
  ddl

end postgreDialect

/-! ## pkg/sql/mysql/convert.go -/

namespace MySQLTypeConverter

def handleVarchar (col : Column) : String :=
  match col.CharMaxLen with
  | some n => if n > 0 then "varchar(" ++ sprintD n ++ ")" else "varchar(255)"
  | none => "varchar(255)"

def handleChar (col : Column) : String :=
  match col.CharMaxLen with
  | some n => if n > 0 then "char(" ++ sprintD n ++ ")" else "char(1)"
  | none => "char(1)"

def handleDecimal (col : Column) : String :=
  match col.NumericPrec, col.NumericScale with
  | some p, some s => "decimal(" ++ sprintD p ++ "," ++ sprintD s ++ ")"
  | some p, none => "decimal(" ++ sprintD p ++ ")"
  | none, _ => "decimal(10,0)"

def handleFloat (col : Column) : String :=
  match col.NumericPrec, col.NumericScale with
  | some p, some s => "float(" ++ sprintD p ++ "," ++ sprintD s ++ ")"
  | _, _ => "float"

def handleDouble (col : Column) : String :=
  match col.NumericPrec, col.NumericScale with
  | some p, some s => "double(" ++ sprintD p ++ "," ++ sprintD s ++ ")"
  | _, _ => "double"

def handleBinary (col : Column) : String :=
  match col.CharMaxLen with
  | some n => if n > 0 then "binary(" ++ sprintD n ++ ")" else "binary(1)"
  | none => "binary(1)"

def handleVarbinary (col : Column) : String :=
  match col.CharMaxLen with
  | some n => if n > 0 then "varbinary(" ++ sprintD n ++ ")" else "varbinary(255)"
  | none => "varbinary(255)"

/-- The handler `handleEnum`; `col.Extra[5:]` drops the five bytes of `enum(`. -/
def handleEnum (col : Column) : String :=
  if col.Extra != "" && stringsHasPrefix col.Extra "enum(" then
    "enum" ++ String.mk (col.Extra.data.drop 5)
  else "enum"

/-- The handler `handleSet`; `col.Extra[4:]` drops the four bytes of `set(`. -/
def handleSet (col : Column) : String :=
  if col.Extra != "" && stringsHasPrefix col.Extra "set(" then
    "set" ++ String.mk (col.Extra.data.drop 4)
  else "set"

/-- The map `typeMap` as filled by `initTypeMap`; the handlers that ignore the column
are written as constant functions. -/
def typeMap (dataType : String) : Option (Column → String) :=
  match dataType with
  | "varchar" => some handleVarchar
  | "char" => some handleChar
  | "text" => some fun _ => "text"
  | "tinytext" => some fun _ => "tinytext"
  | "mediumtext" => some fun _ => "mediumtext"
  | "longtext" => some fun _ => "longtext"
  | "int" => some fun _ => "int"
  | "integer" => some fun _ => "int"
  | "bigint" => some fun _ => "bigint"
  | "smallint" => some fun _ => "smallint"
  | "tinyint" => some fun _ => "tinyint"
  | "mediumint" => some fun _ => "mediumint"
  | "decimal" => some handleDecimal
  | "numeric" => some handleDecimal
  | "float" => some handleFloat
  | "double" => some handleDouble
  | "real" => some handleDouble
  | "serial" => some fun _ => "bigint unsigned NOT NULL AUTO_INCREMENT"
  | "boolean" => some fun _ => "tinyint(1)"
  | "bool" => some fun _ => "tinyint(1)"
  | "datetime" => some fun _ => "datetime"
  | "timestamp" => some fun _ => "timestamp"
  | "date" => some fun _ => "date"
  | "time" => some fun _ => "time"
  | "year" => some fun _ => "year"
  | "blob" => some fun _ => "blob"
  | "tinyblob" => some fun _ => "tinyblob"
  | "mediumblob" => some fun _ => "mediumblob"
  | "longblob" => some fun _ => "longblob"
  | "binary" => some handleBinary
  | "varbinary" => some handleVarbinary
  | "json" => some fun _ => "json"
  | "enum" => some handleEnum
  | "set" => some handleSet
  | "geometry" => some fun _ => "geometry"
  | "point" => some fun _ => "point"
  | "linestring" => some fun _ => "linestring"
  | "polygon" => some fun _ => "polygon"
  | "multipoint" => some fun _ => "multipoint"
  | "multilinestring" => some fun _ => "multilinestring"
  | "multipolygon" => some fun _ => "multipolygon"
  | "geometrycollection" => some fun _ => "geometrycollection"
  | _ => none

/-- The method `ConvertType`. -/
def ConvertType (col : Column) : String :=
  let dataType := stringsToLower col.DataType
  match typeMap dataType with
  | some handler => handler col
  | none => col.DataType

/-- The method `GenerateColumnType`. -/
def GenerateColumnType (col : Column) : String := ConvertType col

/-- The method `GenerateColumnDDL`: the parts joined by one blank. -/
def GenerateColumnDDL (col : Column) : String :=
  let parts := ["`" ++ col.Name ++ "`"]
  let parts := parts ++ [ConvertType col]
  let parts := if !col.Nullable then parts ++ ["NOT NULL"] else parts
  let parts :=
    match col.Default with
    | some d => if d != "" then parts ++ ["DEFAULT " ++ d] else parts
    | none => parts
  let parts :=
    if stringsContains (stringsToLower col.Extra) "auto_increment" then
      parts ++ ["AUTO_INCREMENT"]
    else parts
  let parts :=
    if col.Extra != "" && !stringsContains (stringsToLower col.Extra) "auto_increment" then
      parts ++ [col.Extra]
    else parts
  stringsJoin parts " "

end MySQLTypeConverter

/-! ## pkg/sql/mysql/mysql.go -/

namespace mysqlDialect

/-- The method `escapedValue`. -/
def escapedValue (dataType : String) (val : Value) : String :=
  let dt := stringsToLower dataType
  if val = Value.null then "NULL"
  else if stringsHasPrefix dt "char" || stringsHasPrefix dt "varchar"
      || stringsHasPrefix dt "text" || stringsHasPrefix dt "json" then
    let strVal := sprintV val
    let escaped := stringsReplaceAll strVal '\\' "\\\\"
    let escaped := stringsReplaceAll escaped singleQuote "''"
    let escaped := stringsReplaceAll escaped '\n' "\\n"
    let escaped := stringsReplaceAll escaped '\r' "\\r"
    let escaped := stringsReplaceAll escaped '\t' "\\t"
    let escaped := stringsReplaceAll escaped '\x08' "\\b"
    let escaped := stringsReplaceAll escaped '\x0c' "\\f"
    "'" ++ escaped ++ "'"
  else if stringsHasPrefix dt "date" || stringsHasPrefix dt "time" || stringsHasPrefix dt "enum"
      || stringsHasPrefix dt "set" || stringsHasPrefix dt "blob" then
    "'" ++ sprintV val ++ "'"
  else sprintV val

/-- The method `GenerateInsertSql`: the columns are taken in map iteration order. -/
def GenerateInsertSql (tbl : Table) (row : Record) : String :=
  let colNames := tbl.Columns.entries.foldl
    (fun colNames e => colNames ++ ["`" ++ e.2.Name ++ "`"]) []
  let values := tbl.Columns.entries.foldl
    (fun values e => values ++ [escapedValue e.2.DataType (row.get e.2.Name)]) []
  "INSERT INTO `" ++ tbl.Name ++ "` (" ++ stringsJoin colNames ", " ++ ") VALUES ("
    ++ stringsJoin values ", " ++ ");"

/-- The loop over the primary-key columns that builds `where` in `GenerateDeleteSql`
and `GenerateUpdateSql`; `none` is the panic of reading `col.DataType` through a nil
`col`, when the table has no column of that name. -/
def whereLoop (tbl : Table) (row : Record) (pks : List String) : Option (List String) :=
  pks.foldl
    (fun acc k =>
      match acc with
      | none => none
      | some wh =>
        if row.get k = Value.null then some (wh ++ ["`" ++ k ++ "` IS NULL"])
        else
          match tbl.Columns.get? k with
          | none => none
          | some col =>
            some (wh ++ ["`" ++ k ++ "` = " ++ escapedValue col.DataType (row.get k)]))
    (some [])

/-- The method `GenerateDeleteSql`; `none` is a nil-pointer panic (no primary key, or
a key column that the table lacks). -/
def GenerateDeleteSql (tbl : Table) (row : Record) : Option String :=
  match tbl.PrimaryKey with
  | none => none
  | some pk =>
    match whereLoop tbl row pk.Columns with
    | none => none
    | some wh =>
      some ("DELETE FROM `" ++ tbl.Name ++ "` WHERE " ++ stringsJoin wh " AND " ++ ";")

/-- The loop over `updateCols` that builds `set` in `GenerateUpdateSql`. -/
def setLoop (tbl : Table) (row : Record) (pks updateCols : List String) :
    Option (List String) :=
  updateCols.foldl
    (fun acc c =>
      match acc with
      | none => none
      | some set =>
        if slicesContains pks c then some set
        else
          match tbl.Columns.get? c with
          | none => none
          | some col =>
            some (set ++ ["`" ++ c ++ "` = " ++ escapedValue col.DataType (row.get c)]))
    (some [])

/-- The method `GenerateUpdateSql`; `none` is a nil-pointer panic. -/
def GenerateUpdateSql (tbl : Table) (row : Record) (updateCols : List String) :
    Option String :=
  match tbl.PrimaryKey with
  | none => none
  | some pk =>
    let pks := pk.Columns
    let updateCols := if updateCols.length = 0 then tbl.GetColumns else updateCols
    match setLoop tbl row pks updateCols with
    | none => none
    | some set =>
      match whereLoop tbl row pks with
      | none => none
      | some wh =>
        some ("UPDATE `" ++ tbl.Name ++ "` SET " ++ stringsJoin set ", " ++ " WHERE "
          ++ stringsJoin wh " AND " ++ ";")

/-- The method `GenerateCreateIndexSql`. -/
def GenerateCreateIndexSql (t : Table) (idx : Index) : String :=
  if idx.Primary then
    "ALTER TABLE `" ++ t.Name ++ "` ADD PRIMARY KEY (" ++ JoinWrap idx.Columns "`" ", " ++ ");"
  else
    let ddl := "CREATE "
    let ddl := if idx.Unique then ddl ++ "UNIQUE " else ddl
    let ddl := ddl ++ "INDEX `" ++ idx.Name ++ "` ON `" ++ t.Name ++ "` ("
    let quotedCols := idx.Columns.map fun col => "`" ++ col ++ "`"
    let ddl := ddl ++ stringsJoin quotedCols ", "
    let ddl := ddl ++ ")"
    let ddl :=
      match idx.Where with
      | some w => ddl ++ (" WHERE " ++ w)
      | none => ddl
    ddl ++ ";"

/-- The method `GenerateDropIndexSql`. -/
def GenerateDropIndexSql (t : Table) (idx : Index) : String :=
  "DROP INDEX `" ++ idx.Name ++ "` ON `" ++ t.Name ++ "`;"

/-- The method `GenerateAddPrimaryKeySql`. -/
def GenerateAddPrimaryKeySql (t : Table) (pk : PrimaryKey) : String :=
  "ALTER TABLE `" ++ t.Name ++ "` ADD CONSTRAINT `" ++ pk.Name ++ "` PRIMARY KEY ("
    ++ JoinWrap pk.Columns "`" ", " ++ ");"

/-- The method `GenerateDropPrimaryKeySql`. -/
def GenerateDropPrimaryKeySql (t : Table) (_pk : PrimaryKey) : String :=
  "ALTER TABLE `" ++ t.Name ++ "` DROP PRIMARY KEY;"

/-- The method `GenerateDropTableSql`. -/
def GenerateDropTableSql (t : Table) : String :=
  "DROP TABLE `" ++ t.Name ++ "`;"

/-- The foreign-key clause that `GenerateTableDDL` writes for `fk`. -/
def foreignKeyClause (fk : ForeignKey) : String :=
  let fkCols := fk.Columns.map fun col => "`" ++ col ++ "`"
  let refCols := fk.ReferencedColumns.map fun col => "`" ++ col ++ "`"
  let constraintDef := "  CONSTRAINT `" ++ fk.Name ++ "` FOREIGN KEY ("
    ++ stringsJoin fkCols ", " ++ ") REFERENCES `" ++ fk.ReferencedTable ++ "` ("
    ++ stringsJoin refCols ", " ++ ")"
  let constraintDef :=
    if fk.OnDelete != "" then constraintDef ++ (" ON DELETE " ++ fk.OnDelete) else constraintDef
  let constraintDef :=
    if fk.OnUpdate != "" then constraintDef ++ (" ON UPDATE " ++ fk.OnUpdate) else constraintDef
  constraintDef

/-- The primary-key clause of `GenerateTableDDL`: one entry when the table has a
primary key with at least one column. -/
def primaryKeyClause (t : Table) : List String :=
  match t.PrimaryKey with
  | some pk =>
    if pk.Columns.length > 0 then
      let pkCols := pk.Columns.map fun col => "`" ++ col ++ "`"
      ["  PRIMARY KEY (" ++ stringsJoin pkCols ", " ++ ")"]
    else []
  | none => []

/-- The method `GenerateTableDDL`. -/
def GenerateTableDDL (t : Table) : String :=
  if t.Type_ != TableTypeTable then ""
  else
    let ddl := "CREATE TABLE `" ++ t.Name ++ "` (\n"
    let columnDefs := (sortedColumns t).foldl
      (fun columnDefs col => columnDefs ++ [MySQLTypeConverter.GenerateColumnDDL col]) []
    let columnDefs := columnDefs ++ primaryKeyClause t
    let columnDefs := t.ForeignKeys.entries.foldl
      (fun columnDefs e => columnDefs ++ [foreignKeyClause e.2]) columnDefs
    let ddl := ddl ++ stringsJoin columnDefs ",\n"
    let ddl := ddl ++ "\n)"
    let ddl :=
      if t.Comment != "" then
        ddl ++ (" COMMENT='" ++ stringsReplaceAll t.Comment singleQuote "''" ++ "'")
      else ddl
    let ddl := ddl ++ ";"
    let ddl := t.Indexes.entries.foldl
      (fun ddl e =>
        if e.2.Primary then ddl else ddl ++ "\n\n" ++ GenerateCreateIndexSql t e.2) ddl
    let ddl := t.Columns.entries.foldl
      (fun ddl e =>
        match e.2.Comment with
        | some comment =>
          if comment != "" then
            ddl ++ ("\n\nALTER TABLE `" ++ t.Name ++ "` MODIFY COLUMN `" ++ e.2.Name ++ "` "
              ++ MySQLTypeConverter.GenerateColumnType e.2 ++ " COMMENT '"
              ++ stringsReplaceAll comment singleQuote "''" ++ "';")
          else ddl
        | none => ddl) ddl
    ddl

/-- The method `GenerateViewDDL`. -/
def GenerateViewDDL (t : Table) : String :=
  match t.ViewDefinition with
  | none => ""
  | some vd =>
    if t.Type_ != TableTypeView then ""
    else
      let ddl := "CREATE VIEW `" ++ t.Name ++ "` AS\n"
      let ddl := ddl ++ vd.SelectStatement
      let ddl :=
        if vd.CheckOption != "" && vd.CheckOption != "NONE" then
          ddl ++ ("\nWITH " ++ vd.CheckOption ++ " CHECK OPTION")
        else ddl
      let ddl := ddl ++ ";"
      let ddl :=
        if vd.Comment != "" then
          ddl ++ ("\n\nALTER VIEW `" ++ t.Name ++ "` COMMENT = '"
            ++ stringsReplaceAll vd.Comment singleQuote "''" ++ "';")
        else ddl
      ddl

/-- The method `GenerateDropViewSql`. -/
def GenerateDropViewSql (t : Table) : String :=
  "DROP VIEW `" ++ t.Name ++ "`;"

/-- The method `GenerateAddColumnSql`. -/
def GenerateAddColumnSql (t : Table) (col : Column) : String :=
  "ALTER TABLE `" ++ t.Name ++ "` ADD COLUMN " ++ MySQLTypeConverter.GenerateColumnDDL col ++ ";"

/-- The method `GenerateDropColumnSql`. -/
def GenerateDropColumnSql (t : Table) (col : Column) : String :=
  "ALTER TABLE `" ++ t.Name ++ "` DROP COLUMN `" ++ col.Name ++ "`;"

/-- The method `GenerateAlterColumnSql`. -/
def GenerateAlterColumnSql (t : Table) (_oldCol newCol : Column) : String :=
  "ALTER TABLE `" ++ t.Name ++ "` MODIFY COLUMN " ++ MySQLTypeConverter.GenerateColumnDDL newCol
    ++ ";"

end mysqlDialect

/-! ## pkg/sql/dialect.go -/

/-- The interface `IDialect`.  The three row-level methods of the MySQL and the
PostgreSQL dialect can panic on a nil pointer, which is `none`. -/
structure IDialect where
  GenerateInsertSql : Table → Record → String
  GenerateDeleteSql : Table → Record → Option String
  GenerateUpdateSql : Table → Record → List String → Option String
  GenerateCreateIndexSql : Table → Index → String
  GenerateDropIndexSql : Table → Index → String
  GenerateAddPrimaryKeySql : Table → PrimaryKey → String
  GenerateDropPrimaryKeySql : Table → PrimaryKey → String
  GenerateDropTableSql : Table → String
  GenerateTableDDL : Table → String
  GenerateViewDDL : Table → String
  GenerateDropViewSql : Table → String
  GenerateAddColumnSql : Table → Column → String
  GenerateDropColumnSql : Table → Column → String
  GenerateAlterColumnSql : Table → Column → Column → String

/-- The function `NewPostgreDialect`. -/
def NewPostgreDialect : IDialect :=
  { GenerateInsertSql := postgreDialect.GenerateInsertSql
    GenerateDeleteSql := postgreDialect.GenerateDeleteSql
    GenerateUpdateSql := postgreDialect.GenerateUpdateSql
    GenerateCreateIndexSql := postgreDialect.GenerateCreateIndexSql
    GenerateDropIndexSql := postgreDialect.GenerateDropIndexSql
    GenerateAddPrimaryKeySql := postgreDialect.GenerateAddPrimaryKeySql
    GenerateDropPrimaryKeySql := postgreDialect.GenerateDropPrimaryKeySql
    GenerateDropTableSql := postgreDialect.GenerateDropTableSql
    GenerateTableDDL := postgreDialect.GenerateTableDDL
    GenerateViewDDL := postgreDialect.GenerateViewDDL
    GenerateDropViewSql := postgreDialect.GenerateDropViewSql
    GenerateAddColumnSql := postgreDialect.GenerateAddColumnSql
    GenerateDropColumnSql := postgreDialect.GenerateDropColumnSql
    GenerateAlterColumnSql := postgreDialect.GenerateAlterColumnSql }

/-- The function `NewMySQLDialect`. -/
def NewMySQLDialect : IDialect :=
  { GenerateInsertSql := mysqlDialect.GenerateInsertSql
    GenerateDeleteSql := mysqlDialect.GenerateDeleteSql
    GenerateUpdateSql := mysqlDialect.GenerateUpdateSql
    GenerateCreateIndexSql := mysqlDialect.GenerateCreateIndexSql
    GenerateDropIndexSql := mysqlDialect.GenerateDropIndexSql
    GenerateAddPrimaryKeySql := mysqlDialect.GenerateAddPrimaryKeySql
    GenerateDropPrimaryKeySql := mysqlDialect.GenerateDropPrimaryKeySql
    GenerateDropTableSql := mysqlDialect.GenerateDropTableSql
    GenerateTableDDL := mysqlDialect.GenerateTableDDL
    GenerateViewDDL := mysqlDialect.GenerateViewDDL
    GenerateDropViewSql := mysqlDialect.GenerateDropViewSql
    GenerateAddColumnSql := mysqlDialect.GenerateAddColumnSql
    GenerateDropColumnSql := mysqlDialect.GenerateDropColumnSql
    GenerateAlterColumnSql := mysqlDialect.GenerateAlterColumnSql }

/-- The function `NewDialect`; `none` is the nil dialect. -/
def NewDialect (dbType : DBType) : Option IDialect :=
  if dbType = DBTypePostgres then some NewPostgreDialect
  else if dbType = DBTypeMySQL then some NewMySQLDialect
  else none

/-! ## pkg/sql/generator.go -/

/-- The function `genAlterTable`.  The entries of `IndexesModified` hold two non-nil
indexes, so both nil tests of the loop over them pass. -/
def genAlterTable (diff : TableDiff) (dialect : IDialect) : List String :=
  let sqls : List String := []
  let tbl := diff.Table
  let sqls := diff.ColumnsAdded.foldl
    (fun sqls col => sqls ++ [dialect.GenerateAddColumnSql tbl col]) sqls
  let sqls := diff.ColumnsDropped.foldl
    (fun sqls col => sqls ++ [dialect.GenerateDropColumnSql tbl col]) sqls
  let sqls := diff.ColumnsModified.foldl
    (fun sqls cmod => sqls ++ [dialect.GenerateAlterColumnSql tbl cmod.Old cmod.New]) sqls
  let sqls := diff.IndexesAdded.foldl
    (fun sqls idx => sqls ++ [dialect.GenerateCreateIndexSql tbl idx]) sqls
  let sqls := diff.IndexesDropped.foldl
    (fun sqls idx => sqls ++ [dialect.GenerateDropIndexSql tbl idx]) sqls
  let sqls := diff.IndexesModified.foldl
    (fun sqls imod =>
      let sqls := sqls ++ [dialect.GenerateDropIndexSql tbl imod.Old]
      sqls ++ [dialect.GenerateCreateIndexSql tbl imod.New]) sqls
  let sqls :=
    match diff.PrimaryKeyChange with
    | some change =>
      let sqls :=
        match change.Old with
        | some old => sqls ++ [dialect.GenerateDropPrimaryKeySql tbl old]
        | none => sqls
      match change.New with
      | some new => sqls ++ [dialect.GenerateAddPrimaryKeySql tbl new]
      | none => sqls
    | none => sqls
  sqls

/-- The function `genAlterView`. -/
def genAlterView (diff : TableDiff) (dialect : IDialect) : List String :=
  let sqls : List String := []
  let tbl := diff.Table
  match diff.ViewDefinitionChange with
  | some change =>
    let sqls := sqls ++ [dialect.GenerateDropViewSql tbl]
    sqls ++ [dialect.GenerateViewDDL
      { Name := tbl.Name, Type_ := TableTypeView, Schema := tbl.Schema, Comment := "",
        Columns := GoMap.empty, Indexes := GoMap.empty, PrimaryKey := none,
        ForeignKeys := GoMap.empty, ViewDefinition := change.New }]
  | none => sqls

/-- The body of `GenerateSchemaSQL` once the dialect is there: the three loops over the
diff fill `sqls` and `views`, and `views` is appended to `sqls`. -/
def generateSchemaSQLWith (dbDialect : IDialect) (diff : SchemaDiff) : List String :=
  let state : List String × List String := ([], [])
  let state := diff.TablesAdded.foldl
    (fun st tbl =>
      if tbl.Type_ == TableTypeView then (st.1, st.2 ++ [dbDialect.GenerateViewDDL tbl])
      else (st.1 ++ [dbDialect.GenerateTableDDL tbl], st.2)) state
  let state := diff.TablesDropped.foldl
    (fun st tbl =>
      if tbl.Type_ == TableTypeView then (st.1, st.2 ++ [dbDialect.GenerateDropViewSql tbl])
      else (st.1 ++ [dbDialect.GenerateDropTableSql tbl], st.2)) state
  let state := diff.TablesModified.foldl
    (fun st tdiff =>
      if tdiff.Table.Type_ == TableTypeView then (st.1, st.2 ++ genAlterView tdiff dbDialect)
      else (st.1 ++ genAlterTable tdiff dbDialect, st.2)) state
  state.1 ++ state.2

/-- Whether `genAlterTable` reaches a method of the dialect for the diff: one of the six
column and index lists has an entry, or the primary-key change has an old or a new
key. -/
def genAlterTableCallsDialect (diff : TableDiff) : Bool :=
  !diff.ColumnsAdded.isEmpty || !diff.ColumnsDropped.isEmpty || !diff.ColumnsModified.isEmpty
    || !diff.IndexesAdded.isEmpty || !diff.IndexesDropped.isEmpty
    || !diff.IndexesModified.isEmpty
    || (match diff.PrimaryKeyChange with
        | some change => change.Old.isSome || change.New.isSome
        | none => false)

/-- Whether `GenerateSchemaSQL` reaches a method of the dialect for the diff: a table is
added or dropped, a modified view has a view-definition change, or `genAlterTable`
reaches one for a modified base table. -/
def callsDialect (diff : SchemaDiff) : Bool :=
  !diff.TablesAdded.isEmpty || !diff.TablesDropped.isEmpty
    || diff.TablesModified.any fun tdiff =>
      if tdiff.Table.Type_ == TableTypeView then tdiff.ViewDefinitionChange.isSome
      else genAlterTableCallsDialect tdiff

/-- The function `GenerateSchemaSQL`.  For a type that `NewDialect` does not know the
dialect is the nil interface: the first method call on it panics (`none`), and a diff
that reaches no method call yields the empty list. -/
def GenerateSchemaSQL (diff : SchemaDiff) (dialect : DBType) : Option (List String) :=
  match NewDialect dialect with
  | some dbDialect => some (generateSchemaSQLWith dbDialect diff)
  | none => if callsDialect diff then none else some []

/-! ## Test data of `data_test.go` -/

/-- A column that only has a name and a position. -/
def testColumn (name : String) (position : Int) : Column :=
  { Name := name, DataType := "", Nullable := false, Default := none, Extra := "",
    Comment := none, CharMaxLen := none, NumericPrec := none, NumericScale := none,
    Position := position }

/-- Table `t` with the columns `id`, `val` and the primary key `id`. -/
def testTable : Table :=
  { Name := "t", Type_ := TableTypeTable, Schema := "", Comment := "",
    Columns := ⟨[("id", testColumn "id" 1), ("val", testColumn "val" 2)], by decide⟩,
    Indexes := GoMap.empty,
    PrimaryKey := some ⟨"", ["id"]⟩,
    ForeignKeys := GoMap.empty, ViewDefinition := none }

/-- The same table without a primary key. -/
def testTableNoPK : Table := { testTable with PrimaryKey := none }

/-- Table `t` with the columns `id`, `sub`, `a`, `b` and the primary key `id, sub`. -/
def testTable2 : Table :=
  { Name := "t", Type_ := TableTypeTable, Schema := "", Comment := "",
    Columns := ⟨[("id", testColumn "id" 1), ("sub", testColumn "sub" 2),
      ("a", testColumn "a" 3), ("b", testColumn "b" 4)], by decide⟩,
    Indexes := GoMap.empty,
    PrimaryKey := some ⟨"", ["id", "sub"]⟩,
    ForeignKeys := GoMap.empty, ViewDefinition := none }

/-- The row `{"id": id, "val": val}`. -/
def testRow (id : Int) (val : String) : RecordMap :=
  [("id", Value.int id), ("val", Value.text val)]

/-- The row `{"id": id, "sub": sub, "a": a, "b": b}`. -/
def testRow2 (id sub : Int) (a b : String) : RecordMap :=
  [("id", Value.int id), ("sub", Value.int sub), ("a", Value.text a), ("b", Value.text b)]

/-! ## Test data for the schema diff -/

/-- A base table `users` with the given columns and nothing else. -/
def usersTable (columns : GoMap Column) : Table :=
  { Name := "users", Type_ := TableTypeTable, Schema := "public", Comment := "",
    Columns := columns, Indexes := GoMap.empty, PrimaryKey := none,
    ForeignKeys := GoMap.empty, ViewDefinition := none }

/-- The source side: columns `id`, `name` (of type `text`) and `email`. -/
def usersSource : Table :=
  usersTable ⟨[("id", testColumn "id" 1),
    ("name", { testColumn "name" 2 with DataType := "text" }),
    ("email", testColumn "email" 3)], by decide⟩

/-- The target side: columns `id`, `name` (of type `varchar`) and `old`. -/
def usersTarget : Table :=
  usersTable ⟨[("id", testColumn "id" 1),
    ("name", { testColumn "name" 2 with DataType := "varchar" }),
    ("old", testColumn "old" 3)], by decide⟩

/-- A view definition with the given SELECT statement. -/
def testViewDefinition (selectStatement : String) : ViewDefinition :=
  { SelectStatement := selectStatement, Dependencies := [], IsUpdatable := false,
    SecurityType := "", Definer := "", CheckOption := "", Comment := "" }

/-- A view `v` with the given SELECT statement. -/
def testView (selectStatement : String) : Table :=
  { Name := "v", Type_ := TableTypeView, Schema := "public", Comment := "",
    Columns := GoMap.empty, Indexes := GoMap.empty, PrimaryKey := none,
    ForeignKeys := GoMap.empty,
    ViewDefinition := some (testViewDefinition selectStatement) }

/-- A schema that holds only the view `v`. -/
def viewSchema (selectStatement : String) : DatabaseSchema :=
  { Tables := ⟨[("v", testView selectStatement)], List.nodup_singleton "v"⟩ }

/-! ## Vocabulary of the statements -/

/-- The adapter streams `rows` in consecutive non-empty batches of at most `limit`
rows: fetched with the cursor `lastPK` it answers with the next batch, fetched with
the key of the last row of a batch it answers with the batch after it, and past the
last row it answers with an empty batch. -/
inductive Streams (db : DBAdapter) (table : String) (cols pk : List String) (limit : Nat) :
    List Value → List Record → Prop where
  | done (lastPK : List Value) :
      db.GetTableDataBatch table cols pk lastPK limit = .ok [] →
      Streams db table cols pk limit lastPK []
  | batch (lastPK : List Value) (r : Record) (rs rest : List Record) :
      (r :: rs).length ≤ limit →
      db.GetTableDataBatch table cols pk lastPK limit = .ok (r :: rs) →
      Streams db table cols pk limit
        (extractPK ((r :: rs).getLast (List.cons_ne_nil r rs)) pk) rest →
      Streams db table cols pk limit lastPK ((r :: rs) ++ rest)

/-- Rows in strictly ascending primary-key order under `comparePKRecord`. -/
def StrictlyAscending (pk : List String) (rows : List RecordMap) : Prop :=
  rows.Chain' fun a b => comparePKRecord (some a) (some b) pk < 0

/-- The plain two-pointer merge over two whole row lists: the handler calls it makes. -/
def mergeCalls (pk : List String) (rule : ICompareRule) :
    List RecordMap → List RecordMap → List HandleCall
  | [], [] => []
  | s :: ss, [] =>
    { diffType := .ADD, srcRow := some s, tgtRow := none } :: mergeCalls pk rule ss []
  | [], t :: ts =>
    { diffType := .DROP, srcRow := none, tgtRow := some t } :: mergeCalls pk rule [] ts
  | s :: ss, t :: ts =>
    if comparePKRecord (some s) (some t) pk < 0 then
      { diffType := .ADD, srcRow := some s, tgtRow := none } :: mergeCalls pk rule ss (t :: ts)
    else if comparePKRecord (some s) (some t) pk > 0 then
      { diffType := .DROP, srcRow := none, tgtRow := some t } :: mergeCalls pk rule (s :: ss) ts
    else if !rule.IsEqual (some s) (some t) then
      { diffType := .MODIFY, srcRow := some s, tgtRow := some t } :: mergeCalls pk rule ss ts
    else mergeCalls pk rule ss ts
termination_by src tgt => src.length + tgt.length

/-- The row whose primary key orders a handler call: the source row of an ADD or a
MODIFY, the target row of a DROP. -/
def HandleCall.keyRow (c : HandleCall) : Record :=
  match c.diffType with
  | .ADD => c.srcRow
  | .MODIFY => c.srcRow
  | .DROP => c.tgtRow

/-- An open iterator on `db` whose cursor is `lastPK` and whose own buffer is spent. -/
def IterAt (it : rowBatchIterator) (db : DBAdapter) (table : String) (cols pk : List String)
    (limit : Nat) (lastPK : List Value) : Prop :=
  it.db = db ∧ it.table = table ∧ it.cols = cols ∧ it.pk = pk ∧ it.limit = limit ∧
    it.lastPK = lastPK ∧ it.closed = false ∧ ∀ buf, it.buf = some buf → buf.length ≤ it.idx

/-- The side `s` of the walk still has exactly `rows` to hand out: either it is done and
nothing is left, or what is left of its buffer followed by what the adapter still
streams is `rows`. -/
def SideInv (db : DBAdapter) (table : String) (cols pk : List String) (limit : Nat)
    (s : WalkSide) (rows : List RecordMap) : Prop :=
  (s.done = true ∧ rows = [] ∧ s.buf.length ≤ s.idx) ∨
  (s.done = false ∧ ∃ lastPK rest,
    IterAt s.iter db table cols pk limit lastPK ∧
    Streams db table cols pk limit lastPK rest ∧
    s.buf.drop s.idx ++ rest = rows.map some)

/-- The handler call that the claim on `StreamCompareData` expects for the row lists
`src` and `tgt`: an ADD for a source row whose key equals no target key, a DROP for a
target row whose key equals no source key, a MODIFY for a key-equal pair that the rule
finds unequal. -/
def ExpectedCall (pk : List String) (rule : ICompareRule) (src tgt : List RecordMap)
    (c : HandleCall) : Prop :=
  (∃ s ∈ src, (∀ t ∈ tgt, comparePKRecord (some s) (some t) pk ≠ 0) ∧
    c = { diffType := .ADD, srcRow := some s, tgtRow := none }) ∨
  (∃ t ∈ tgt, (∀ s ∈ src, comparePKRecord (some s) (some t) pk ≠ 0) ∧
    c = { diffType := .DROP, srcRow := none, tgtRow := some t }) ∨
  (∃ s ∈ src, ∃ t ∈ tgt, comparePKRecord (some s) (some t) pk = 0 ∧
    rule.IsEqual (some s) (some t) = false ∧
    c = { diffType := .MODIFY, srcRow := some s, tgtRow := some t })

/-- Delete every newline and carriage-return character of a string. -/
def deleteLineBreaks (s : String) : String :=
  ⟨s.data.filter fun c => c ≠ '\n' ∧ c ≠ '\r'⟩

/-- The entry of `ColumnsModified` for the shared column name `n`: `Old` is the target
column and `New` the source column. -/
def columnDiffAt (src tgt : Table) (n : String) : Option ColumnDiff :=
  match src.Columns.get? n, tgt.Columns.get? n with
  | some sc, some tc => some { Old := tc, New := sc }
  | _, _ => none

/-- The column lists of the result of `compareTable`; a nil diff has none. -/
def columnLists (r : Option TableDiff) : List Column × List Column × List ColumnDiff :=
  match r with
  | some d => (d.ColumnsAdded, d.ColumnsDropped, d.ColumnsModified)
  | none => ([], [], [])

/-- What the loop over the source tables in `CompareSchemas` appends to
`TablesModified` for the table name `n`. -/
def tableDiffAt (src tgt : DatabaseSchema) (n : String) : Option TableDiff :=
  match src.Tables.get? n, tgt.Tables.get? n with
  | some s, some t => compareTable s t
  | _, _ => none

/-- The statements that `GenerateSchemaSQL` generates for the entries of a diff that
are not views, list by list: table DDL for the added tables, drops for the dropped
ones, alterations for the modified ones. -/
def tableStatements (d : IDialect) (diff : SchemaDiff) : List String :=
  (diff.TablesAdded.filter fun tbl => !(tbl.Type_ == TableTypeView)).map d.GenerateTableDDL
  ++ (diff.TablesDropped.filter fun tbl => !(tbl.Type_ == TableTypeView)).map
      d.GenerateDropTableSql
  ++ ((diff.TablesModified.filter fun tdiff => !(tdiff.Table.Type_ == TableTypeView)).map
      fun tdiff => genAlterTable tdiff d).flatten

/-- The statements that `GenerateSchemaSQL` generates for the views of a diff. -/
def viewStatements (d : IDialect) (diff : SchemaDiff) : List String :=
  (diff.TablesAdded.filter fun tbl => tbl.Type_ == TableTypeView).map d.GenerateViewDDL
  ++ (diff.TablesDropped.filter fun tbl => tbl.Type_ == TableTypeView).map
      d.GenerateDropViewSql
  ++ ((diff.TablesModified.filter fun tdiff => tdiff.Table.Type_ == TableTypeView).map
      fun tdiff => genAlterView tdiff d).flatten

/-- The image of one character under the escaping of text values: a backslash becomes
two backslashes, a single quote two single quotes, and newline, carriage return, tab,
backspace and form feed a backslash followed by `n`, `r`, `t`, `b`, `f`; every other
character is kept. -/
def escapeChar (c : Char) : List Char :=
  if c = '\\' then ['\\', '\\']
  else if c = singleQuote then [singleQuote, singleQuote]
  else if c = '\n' then ['\\', 'n']
  else if c = '\r' then ['\\', 'r']
  else if c = '\t' then ['\\', 't']
  else if c = '\x08' then ['\\', 'b']
  else if c = '\x0c' then ['\\', 'f']
  else [c]

/-- The character-by-character image of a string under `escapeChar`. -/
def escapeText (s : String) : String := ⟨s.data.flatMap escapeChar⟩

/-- The same character map with the single quote escaped by a backslash instead of
being doubled. -/
def backslashEscapeChar (c : Char) : List Char :=
  if c = singleQuote then ['\\', singleQuote] else escapeChar c

/-- The character-by-character image of a string under `backslashEscapeChar`. -/
def backslashEscapeText (s : String) : String := ⟨s.data.flatMap backslashEscapeChar⟩

/-- The qualifier that the claim on schema qualification expects in front of a name:
`"<schema>".` when the schema is neither empty nor `public`, and nothing otherwise. -/
def qualifierUnlessPublic (schema : String) : String :=
  if schema ≠ "" ∧ schema ≠ "public" then "\"" ++ schema ++ "\"." else ""


/-! ## Test data for the SQL generators -/

/-- Table `accounts` of the schema `app`: the column map lists `name` (position 2) before
`id` (position 1); the primary key is `id`. -/
def accountsTable : Table :=
  { Name := "accounts", Type_ := TableTypeTable, Schema := "app", Comment := "",
    Columns := ⟨[("name", { testColumn "name" 2 with DataType := "varchar" }),
      ("id", { testColumn "id" 1 with DataType := "int" })], by decide⟩,
    Indexes := GoMap.empty,
    PrimaryKey := some ⟨"accounts_pkey", ["id"]⟩,
    ForeignKeys := GoMap.empty, ViewDefinition := none }

/-- The row `{"id": 7, "name": "O'Hara"}`. -/
def accountsRow : Record :=
  some [("id", Value.int 7), ("name", Value.text "O'Hara")]

/-- The row `{"id": nil, "name": "x"}`. -/
def accountsRowNullKey : Record :=
  some [("id", Value.null), ("name", Value.text "x")]

/-- A plain index `accounts_name_idx` on the column `name`. -/
def accountsIndex : Index :=
  { Name := "accounts_name_idx", Columns := ["name"], Unique := false, Primary := false,
    Method := "", Where := none, Expression := none }

/-- The data type of the column `k` of a table (the empty text when the table has no
column of that name). -/
def columnDataType (tbl : Table) (k : String) : String :=
  match tbl.Columns.get? k with
  | some col => col.DataType
  | none => ""

/-- The condition that a WHERE clause holds for the key column `k`: the quoted column
followed by `IS NULL` when the record has no value for it, and otherwise the quoted
column, an equals sign and the escaped literal of the value. -/
def keyCondition (quote : String) (escaped : String → Value → String) (tbl : Table)
    (row : Record) (k : String) : String :=
  if row.get k = Value.null then quote ++ k ++ quote ++ " IS NULL"
  else quote ++ k ++ quote ++ " = " ++ escaped (columnDataType tbl k) (row.get k)

/-- The assignment that a SET clause holds for the column `c`: the quoted column, an
equals sign and the escaped literal of the record's value. -/
def assignment (quote : String) (escaped : String → Value → String) (tbl : Table)
    (row : Record) (c : String) : String :=
  quote ++ c ++ quote ++ " = " ++ escaped (columnDataType tbl c) (row.get c)

/-- The columns that an UPDATE is asked to write: `updateCols`, or all columns of the
table when `updateCols` is empty. -/
def requestedColumns (tbl : Table) (updateCols : List String) : List String :=
  if updateCols = [] then tbl.GetColumns else updateCols

/-- One run of the inner loop of the exchange sort, seen on values: `x` is the entry at
index `i`, the list holds the entries from index `j` on; the result is the entry left at
`i` and the entries left behind it. -/
def sweep (x : colWithPos) : List colWithPos → colWithPos × List colWithPos
  | [] => (x, [])
  | y :: rest =>
    if x.pos > y.pos then ((sweep y rest).1, x :: (sweep y rest).2)
    else ((sweep x rest).1, y :: (sweep x rest).2)

/-- The outer loop of the exchange sort seen on values, `count` iterations: each
iteration fixes the next entry by one `sweep`. -/
def selectSort : Nat → List colWithPos → List colWithPos
  | 0, a => a
  | _ + 1, [] => []
  | count + 1, x :: rest => (sweep x rest).1 :: selectSort count (sweep x rest).2

/-- The column `email VARCHAR(200) NOT NULL` of the source table `users`. -/
def emailColumn : Column :=
  { testColumn "email" 3 with DataType := "varchar", CharMaxLen := some 200 }

/-- The target table `users` of the end-to-end scenario: columns `id` and `name`. -/
def usersPlain : Table :=
  usersTable ⟨[("id", testColumn "id" 1), ("name", testColumn "name" 2)], by decide⟩

/-- The source table `users` of the end-to-end scenario: `id`, `name` and `email`. -/
def usersWithEmail : Table :=
  usersTable ⟨[("id", testColumn "id" 1), ("name", testColumn "name" 2),
    ("email", emailColumn)], by decide⟩

/-- A schema that holds only the given table `users`. -/
def usersSchema (users : Table) : DatabaseSchema :=
  { Tables := ⟨[("users", users)], List.nodup_singleton "users"⟩ }

/-- The type text that the claim on length types expects: `name(n)` when the character
max length `n` is set and positive, and `fallback` otherwise. -/
def typeWithLength (name : String) (len : Option Int) (fallback : String) : String :=
  match len with
  | some n => if n > 0 then name ++ "(" ++ sprintD n ++ ")" else fallback
  | none => fallback

/-! ## Go library functions used by the migration tools -/

/-- Go `strings.TrimPrefix(s, prefix)`. -/
def stringsTrimPrefix (s pre : String) : String :=
  if stringsHasPrefix s pre then ⟨s.data.drop pre.data.length⟩ else s

/-- The pieces of a character sequence between the occurrences of `sep`; a sequence
without `sep` is its only piece. -/
def splitChars (sep : Char) : List Char → List (List Char)
  | [] => [[]]
  | c :: cs =>
    if c = sep then [] :: splitChars sep cs
    else
      match splitChars sep cs with
      | [] => [[c]]
      | part :: parts => (c :: part) :: parts

/-- Go `strings.Split(s, sep)` for a one-character `sep`. -/
def stringsSplit (s : String) (sep : Char) : List String :=
  (splitChars sep s.data).map String.mk

/-- The value of a sequence of decimal digits. -/
def digitsValue (digits : List Char) : Nat :=
  digits.foldl (fun n c => n * 10 + (c.toNat - '0'.toNat)) 0

/-- Go `strconv.Atoi(s)` where `int` has 64 bits; `none` is an error (a syntax error or
a value out of range).  The text is an optional sign followed by at least one decimal
digit and nothing else. -/
def strconvAtoi (s : String) : Option Int :=
  let signed : Bool × List Char :=
    match s.data with
    | '-' :: rest => (true, rest)
    | '+' :: rest => (false, rest)
    | all => (false, all)
  if signed.2.isEmpty then none
  else if signed.2.all Char.isDigit then
    let n : Int := if signed.1 then -(digitsValue signed.2 : Int) else (digitsValue signed.2 : Int)
    if -(2 : Int) ^ 63 ≤ n ∧ n ≤ (2 : Int) ^ 63 - 1 then some n else none
  else none

/-! ## pkg/utils/utils.go: `CompareVersion` -/

/-- The value `ai` (or `bi`) of one round of the loop of `CompareVersion`: zero when `i`
is beyond the parts or the part is not an integer. -/
def versionPart (parts : List String) (i : Nat) : Int :=
  if i < parts.length then
    match strconvAtoi (parts.getD i "") with
    | some n => n
    | none => 0
  else 0

/-- The loop `for i := 0; i < maxLen; i++` of `CompareVersion` with `count` rounds
left. -/
def compareVersionLoop (aParts bParts : List String) : Nat → Nat → Int
  | 0, _ => 0
  | count + 1, i =>
    let ai := versionPart aParts i
    let bi := versionPart bParts i
    if ai < bi then -1
    else if ai > bi then 1
    else compareVersionLoop aParts bParts count (i + 1)

namespace utils

/-- The function `CompareVersion` of `pkg/utils`.  (`strings.ToLower` matters only for a
leading `V`: no other letter is lowered to `v`, and no letter is a digit, a sign or a
dot.) -/
def CompareVersion (a b : String) : Int :=
  if a = "" && b = "" then 0
  else if a = "" then -1
  else if b = "" then 1
  else
    let a := stringsTrimPrefix (stringsToLower a) "v"
    let b := stringsTrimPrefix (stringsToLower b) "v"
    let aParts := stringsSplit a '.'
    let bParts := stringsSplit b '.'
    let maxLen := aParts.length
    let maxLen := if bParts.length > maxLen then bParts.length else maxLen
    compareVersionLoop aParts bParts maxLen 0

end utils

/-! ## internal/datasmith/migrate/local/parser.go: `CompareVersion` -/

namespace Local

/-- The function `CompareVersion` of the package `local`, a copy of the one in
`pkg/utils`. -/
def CompareVersion (a b : String) : Int :=
  if a = "" && b = "" then 0
  else if a = "" then -1
  else if b = "" then 1
  else
    let a := stringsTrimPrefix (stringsToLower a) "v"
    let b := stringsTrimPrefix (stringsToLower b) "v"
    let aParts := stringsSplit a '.'
    let bParts := stringsSplit b '.'
    let maxLen := aParts.length
    let maxLen := if bParts.length > maxLen then bParts.length else maxLen
    compareVersionLoop aParts bParts maxLen 0

end Local

/-- The components of a version as the reference reads them: lower-case, strip one
leading `v`, split on the dot, read each piece as an integer, zero when it is none. -/
def versionComponents (s : String) : List Int :=
  (stringsSplit (stringsTrimPrefix (stringsToLower s) "v") '.').map
    fun part => (strconvAtoi part).getD 0

/-- Pad a list with zeros to the length `n`. -/
def padZeros (n : Nat) (l : List Int) : List Int := l ++ List.replicate (n - l.length) 0

/-- The sign of the first position where two lists differ, zero if there is none. -/
def firstDifference : List Int → List Int → Int
  | x :: xs, y :: ys => if x < y then -1 else if x > y then 1 else firstDifference xs ys
  | _, _ => 0

/-- The reference for `CompareVersion`, after the words of the specification. -/
def compareVersionReference (a b : String) : Int :=
  if a = "" ∧ b = "" then 0
  else if a = "" then -1
  else if b = "" then 1
  else
    let xs := versionComponents a
    let ys := versionComponents b
    firstDifference (padZeros (max xs.length ys.length) xs)
      (padZeros (max xs.length ys.length) ys)

/-- The text of `k` components `.0`. -/
def zeroComponents : Nat → String
  | 0 => ""
  | k + 1 => ".0" ++ zeroComponents k

/-! ## pkg/migrate/model.go -/

/-- The struct `MigrationFile`. -/
structure MigrationFile where
  Version : String
  Title : String
  Direction : String
  Ext : String
  Path : String
  Content : String
  deriving DecidableEq, Repr

/-! ## File names of migrations -/

/-- Go `filepath.Base(path)` with the separator `/`: the last element of the path after
the trailing slashes are dropped; `.` for the empty path and `/` for a path of slashes
only. -/
def filepathBase (path : String) : String :=
  if path = "" then "."
  else
    let stripped := (path.data.reverse.dropWhile fun c => c == '/').reverse
    let last := (stripped.reverse.takeWhile fun c => c != '/').reverse
    if last.isEmpty then "/" else ⟨last⟩

/-- A match of `\d+` against the whole sequence. -/
def digitsOnly (l : List Char) : Bool := !l.isEmpty && l.all Char.isDigit

/-- A match of `\d+(?:\.\d+)*` against the whole sequence. -/
def dottedDigits (l : List Char) : Bool := (splitChars '.' l).all digitsOnly

/-- A match of the first group against the whole sequence: `[vV]\d+(?:\.\d+)*|\d+`, and
`[vV]?\d+(?:\.\d+)*|\d+` when `optionalV` is set. -/
def versionGroup (optionalV : Bool) (v : List Char) : Bool :=
  match v with
  | c :: rest =>
    ((c == 'v' || c == 'V') && dottedDigits rest) || (optionalV && dottedDigits v)
      || digitsOnly v
  | [] => false

/-- The submatches one to four of
`^([vV]\d+(?:\.\d+)*|\d+)__([^.]+)(?:\.(up|down))?\.(sql|json)$`
(with `[vV]?` for `[vV]` when `optionalV` is set) in `name`, as Go
`FindStringSubmatch` answers them; `none` is the nil slice of no match.  The first group
holds no underscore and is followed by one, so it ends at the first underscore; the
second group holds no dot and is followed by one, so it ends at the first dot after it;
the third group is empty when it takes no part in the match. -/
def migrationNameSubmatch (optionalV : Bool) (name : String) :
    Option (String × String × String × String) :=
  let version := name.data.takeWhile fun c => c != '_'
  match name.data.dropWhile fun c => c != '_' with
  | '_' :: '_' :: rest =>
    let title := rest.takeWhile fun c => c != '.'
    let tail : String := ⟨rest.dropWhile fun c => c != '.'⟩
    if versionGroup optionalV version && !title.isEmpty then
      if tail = ".up.sql" then some (⟨version⟩, ⟨title⟩, "up", "sql")
      else if tail = ".down.sql" then some (⟨version⟩, ⟨title⟩, "down", "sql")
      else if tail = ".sql" then some (⟨version⟩, ⟨title⟩, "", "sql")
      else if tail = ".up.json" then some (⟨version⟩, ⟨title⟩, "up", "json")
      else if tail = ".down.json" then some (⟨version⟩, ⟨title⟩, "down", "json")
      else if tail = ".json" then some (⟨version⟩, ⟨title⟩, "", "json")
      else none
    else none
  | _ => none

namespace utils

/-- The function `ParseMigrationFile` of `pkg/utils`; an answer `.ok` holds title,
version, direction and extension, in this order. -/
def ParseMigrationFile (path : String) : Except String (String × String × String × String) :=
  match migrationNameSubmatch true (filepathBase path) with
  | none => .error ("无效的迁移文件名格式: " ++ path)
  | some (version, title, direction, extension) =>
    if direction != "" && direction != "up" && direction != "down" then
      .error ("无效的方向: " ++ direction)
    else if extension != "sql" && extension != "json" then
      .error ("无效的扩展名: " ++ extension)
    else .ok (title, version, direction, extension)

end utils

namespace Local

/-- The function `ParseMigrationFile` of the package `local`. -/
def ParseMigrationFile (path : String) : Except String MigrationFile :=
  match migrationNameSubmatch false (filepathBase path) with
  | none => .error ("无效的迁移文件名格式: " ++ path)
  | some (version, title, direction, extension) =>
    if direction != "" && direction != "up" && direction != "down" then
      .error ("无效的方向: " ++ direction)
    else if extension != "sql" && extension != "json" then
      .error ("无效的扩展名: " ++ extension)
    else
      .ok { Version := version, Title := title, Direction := direction, Path := path,
            Ext := extension, Content := "" }

end Local

/-- One call that `filepath.Walk` makes to its callback: the path, whether it is a
directory, and the error that the walk met at this path, if any. -/
structure WalkEntry where
  path : String
  isDir : Bool
  err : Option String
  deriving DecidableEq, Repr

namespace Local

/-- The callback of `ScanMigrations` run over the calls of the walk, with `files` as
collected so far; the first error that the callback returns ends the walk. -/
def scanWalk : List WalkEntry → List MigrationFile → Except String (List MigrationFile)
  | [], files => .ok files
  | entry :: rest, files =>
    match entry.err with
    | some err => .error err
    | none =>
      if entry.isDir then scanWalk rest files
      else
        match ParseMigrationFile entry.path with
        | .ok file => scanWalk rest (files ++ [file])
        | .error _ => scanWalk rest files

/-- The function `ScanMigrations`, for the calls that `filepath.Walk(dir, ...)` makes. -/
def ScanMigrations (walk : List WalkEntry) : Except String (List MigrationFile) :=
  scanWalk walk []

end Local

/-- The sequence matches `\d+`: it is not empty and holds decimal digits only. -/
def IsDigitRun (l : List Char) : Prop := l ≠ [] ∧ ∀ c ∈ l, c.isDigit = true

/-- The sequence matches `\d+(\.\d+)*`: a run of digits followed by any number of runs
of digits, each after a dot. -/
def IsDottedDigitRuns (l : List Char) : Prop :=
  ∃ (first : List Char) (more : List (List Char)),
    IsDigitRun first ∧ (∀ p ∈ more, IsDigitRun p) ∧
      l = first ++ (more.map fun p => '.' :: p).flatten

/-- The sequence matches the first group of the runner's pattern,
`[vV]\d+(\.\d+)*|\d+`. -/
def MatchesRunnerVersion (v : List Char) : Prop :=
  (∃ c rest, v = c :: rest ∧ (c = 'v' ∨ c = 'V') ∧ IsDottedDigitRuns rest) ∨ IsDigitRun v

/-- The name matches `^([vV]\d+(\.\d+)*|\d+)__([^.]+)(\.(up|down))?\.(sql|json)$` with
the four groups `version`, `title`, `direction` (empty when the group is absent) and
`ext`. -/
def MatchesRunnerPattern (name version title direction ext : String) : Prop :=
  MatchesRunnerVersion version.data ∧
  title.data ≠ [] ∧ (∀ c ∈ title.data, c ≠ '.') ∧
  (direction = "" ∨ direction = "up" ∨ direction = "down") ∧
  (ext = "sql" ∨ ext = "json") ∧
  name.data = version.data ++ '_' :: '_' :: (title.data
    ++ ((if direction = "" then [] else '.' :: direction.data) ++ '.' :: ext.data))

/-! ## Test data for the migration runner -/

/-- The migration file with the given version, title and path, direction `up`,
extension `sql` and no content read yet. -/
def upFile (version title path : String) : MigrationFile :=
  { Version := version, Title := title, Direction := "up", Ext := "sql", Path := path,
    Content := "" }

/-- A walk over the directory `m`: the directory itself, a file that is no migration,
and the three migrations `v2__c`, `v1.0__a` and `v1.0.1__b`. -/
def migrationsWalk : List WalkEntry :=
  [⟨"m", true, none⟩, ⟨"m/README.md", false, none⟩, ⟨"m/v2__c.up.sql", false, none⟩,
    ⟨"m/v1.0__a.up.sql", false, none⟩, ⟨"m/v1.0.1__b.up.sql", false, none⟩]

/-! ## Go `sort.Slice`: the pattern-defeating quicksort of package `sort` -/

/-- One round of the insertion sort of Go's `sort` package: the new element `x` moves
to the left while it is less than its left neighbour.  The list is the sorted part, the
nearest neighbour first. -/
def insertLeft {α : Type} (less : α → α → Bool) (x : α) : List α → List α
  | [] => [x]
  | y :: rest => if less x y then y :: insertLeft less x rest else x :: y :: rest

/-- Go `data.Less(i, j)` on a slice held as a list (false outside the slice, where Go would
stop with an index error; no call of the sort leaves the slice). -/
def lessAt {α : Type} (less : α → α → Bool) (l : List α) (i j : Nat) : Bool :=
  match l[i]?, l[j]? with
  | some x, some y => less x y
  | _, _ => false

/-- Go `data.Swap(i, j)` on a slice held as a list. -/
def swapAt {α : Type} (l : List α) (i j : Nat) : List α :=
  match l[i]?, l[j]? with
  | some x, some y => (l.set i y).set j x
  | _, _ => l

/-- Go `insertionSort_func(data, a, b)` on the segment `data[a:b]`: every element is moved
left past the elements it is less than, by way of `insertLeft` on the reversed prefix. -/
def insertionSortFunc {α : Type} (less : α → α → Bool) (seg : List α) : List α :=
  (seg.foldl (fun sorted e => insertLeft less e sorted) []).reverse

/-- Go `siftDown_func(data, lo, hi, first)` on the segment that starts at `first`; `root`
starts at `lo`, and the first argument bounds the number of rounds (`hi` is enough, the root
grows in every round). -/
def siftDownFunc {α : Type} (less : α → α → Bool) : Nat → List α → Nat → Nat → List α
  | 0, seg, _, _ => seg
  | fuel + 1, seg, root, hi =>
    let child := 2 * root + 1
    if child ≥ hi then seg
    else
      let child := if child + 1 < hi ∧ lessAt less seg child (child + 1) = true
        then child + 1 else child
      if lessAt less seg root child = true then
        siftDownFunc less fuel (swapAt seg root child) child hi
      else seg

/-- Go `heapSort_func(data, a, b)` on the segment `data[a:b]`: build the heap with the
greatest element at the top, then pop the elements to the end one after another. -/
def heapSortFunc {α : Type} (less : α → α → Bool) (seg : List α) : List α :=
  let hi := seg.length
  let heap := (List.range ((hi - 1) / 2 + 1)).reverse.foldl
    (fun s i => siftDownFunc less hi s i hi) seg
  (List.range hi).reverse.foldl (fun s i => siftDownFunc less i (swapAt s 0 i) 0 i) heap

/-- Go `sortedHint`. -/
inductive SortedHint where
  | unknownHint
  | increasingHint
  | decreasingHint
  deriving DecidableEq, Repr

/-- Go `order2_func(data, a, b, swaps)`: the two indices in the order of their elements and the
number of swaps so far. -/
def order2Func {α : Type} (less : α → α → Bool) (seg : List α) (a b swaps : Nat) :
    Nat × Nat × Nat :=
  if lessAt less seg b a = true then (b, a, swaps + 1) else (a, b, swaps)

/-- Go `median_func(data, a, b, c, swaps)`: the index of the median of three elements. -/
def medianFunc {α : Type} (less : α → α → Bool) (seg : List α) (a b c swaps : Nat) :
    Nat × Nat :=
  let r1 := order2Func less seg a b swaps
  let r2 := order2Func less seg r1.2.1 c r1.2.2
  let r3 := order2Func less seg r1.1 r2.1 r2.2.2
  (r3.2.1, r3.2.2)

/-- Go `medianAdjacent_func(data, a, swaps)`. -/
def medianAdjacentFunc {α : Type} (less : α → α → Bool) (seg : List α) (a swaps : Nat) :
    Nat × Nat :=
  medianFunc less seg (a - 1) a (a + 1) swaps

/-- Go `choosePivot_func(data, a, b)` on the segment `data[a:b]` (indices count from the start
of the segment): the index of the pivot and the hint. -/
def choosePivotFunc {α : Type} (less : α → α → Bool) (seg : List α) : Nat × SortedHint :=
  let l := seg.length
  let i := l / 4 * 1
  let j := l / 4 * 2
  let k := l / 4 * 3
  let r :=
    if l ≥ 8 then
      if l ≥ 50 then
        let ri := medianAdjacentFunc less seg i 0
        let rj := medianAdjacentFunc less seg j ri.2
        let rk := medianAdjacentFunc less seg k rj.2
        medianFunc less seg ri.1 rj.1 rk.1 rk.2
      else medianFunc less seg i j k 0
    else (j, 0)
  if r.2 = 0 then (r.1, .increasingHint)
  else if r.2 = 12 then (r.1, .decreasingHint)
  else (r.1, .unknownHint)

/-- The loop behind `bitsLen`: halve until nothing is left; the first argument bounds the
number of rounds. -/
def bitsLenLoop : Nat → Nat → Nat
  | 0, _ => 0
  | fuel + 1, n => if n = 0 then 0 else bitsLenLoop fuel (n / 2) + 1

/-- Go `bits.Len(uint(n))`: the number of bits of `n`. -/
def bitsLen (n : Nat) : Nat := bitsLenLoop n n

/-- Go `(*xorshift).Next` on 64 bits. -/
def xorshiftNext (r : Nat) : Nat :=
  let r1 := r ^^^ ((r <<< 13) % 2 ^ 64)
  let r2 := r1 ^^^ (r1 >>> 7)
  r2 ^^^ ((r2 <<< 17) % 2 ^ 64)

/-- Go `breakPatterns_func(data, a, b)` on the segment `data[a:b]`: three swaps around the
middle with places drawn from the xorshift generator seeded with the length. -/
def breakPatternsFunc {α : Type} (seg : List α) : List α :=
  let length := seg.length
  if length ≥ 8 then
    let modulus := 2 ^ bitsLen length
    let idx := length / 4 * 2 - 1
    let place := fun (r : Nat) =>
      let other := r % modulus
      if other ≥ length then other - length else other
    let r1 := xorshiftNext length
    let r2 := xorshiftNext r1
    let r3 := xorshiftNext r2
    swapAt (swapAt (swapAt seg (idx - 1) (place r1)) idx (place r2)) (idx + 1) (place r3)
  else seg

/-- The loop that Go `partition_func` and `partitionEqual_func` share, after the pivot went
to the front.  The segment behind the pivot is `small ++ mid ++ large`, `i` stands at the start
and `j` at the end of `mid`: the elements at the start of `mid` that belong to the left
(`isSmall`) join `small`, the elements at the end of `mid` that do not join `large`, and when
both scans stop the two ends of `mid` are swapped.  The first argument bounds the number of
rounds (the length of `mid` is enough). -/
def partitionLoop {α : Type} (isSmall : α → Bool) :
    Nat → List α → List α → List α → List α × List α
  | 0, small, mid, large => (small ++ mid, large)
  | fuel + 1, small, mid, large =>
    let small1 := small ++ mid.takeWhile isSmall
    let mid1 := mid.dropWhile isSmall
    let large1 := (mid1.reverse.takeWhile (fun x => !isSmall x)).reverse ++ large
    let mid2 := (mid1.reverse.dropWhile (fun x => !isSmall x)).reverse
    match mid2 with
    | [] => (small1, large1)
    | x :: rest =>
      match rest.getLast? with
      | none => (small1 ++ [x], large1)
      | some y => partitionLoop isSmall fuel (small1 ++ [y]) rest.dropLast (x :: large1)

/-- Go `partition_func(data, a, b, pivot)` on the segment `data[a:b]` (`pivot` counts from
the start of the segment): the new segment, the new place of the pivot, and whether the
segment was partitioned already.  The left scan passes the elements less than the pivot, the
right scan the elements not less than it, and at the end the pivot changes places with the
last element of the left part. -/
def partitionFunc {α : Type} (less : α → α → Bool) (seg : List α) (pivot : Nat) :
    List α × Nat × Bool :=
  match swapAt seg 0 pivot with
  | [] => ([], 0, true)
  | p :: rest =>
    let r := partitionLoop (fun x => less x p) (rest.length + 1) [] rest []
    let already := ((rest.dropWhile (fun x => less x p)).reverse.dropWhile
      (fun x => !less x p)).isEmpty
    match r.1.getLast? with
    | none => (p :: r.2, 0, already)
    | some s => (s :: r.1.dropLast ++ p :: r.2, r.1.length, already)

/-- Go `partitionEqual_func(data, a, b, pivot)` on the segment `data[a:b]`: the elements
`data[a:mid]`, which start with the pivot, and the elements `data[mid:b]`.  The left scan
passes the elements the pivot is not less than, the right scan the elements the pivot is
less than. -/
def partitionEqualFunc {α : Type} (less : α → α → Bool) (seg : List α) (pivot : Nat) :
    List α × List α :=
  match swapAt seg 0 pivot with
  | [] => ([], [])
  | p :: rest =>
    let r := partitionLoop (fun x => !less p x) (rest.length + 1) [] rest []
    (p :: r.1, r.2)

/-- The scan of Go `partialInsertionSort_func`: `for i < b && !less(data[i], data[i-1])`,
`i++`.  The first argument bounds the number of rounds (`b - i` is enough). -/
def scanSorted {α : Type} (less : α → α → Bool) (data : List α) (b : Nat) : Nat → Nat → Nat
  | 0, i => i
  | fuel + 1, i =>
    if i < b ∧ lessAt less data i (i - 1) = false then scanSorted less data b fuel (i + 1)
    else i

/-- The loop of Go `partialInsertionSort_func` that shifts the smaller element to the left:
`for j := i - 1; j >= 1; j--`, which stops only at the start of the whole slice. -/
def shiftLeft {α : Type} (less : α → α → Bool) : Nat → List α → List α
  | 0, data => data
  | j + 1, data =>
    if lessAt less data (j + 1) j = true then shiftLeft less j (swapAt data (j + 1) j)
    else data

/-- The loop of Go `partialInsertionSort_func` that shifts the greater element to the right:
`for j := i + 1; j < b; j++`.  The first argument bounds the number of rounds. -/
def shiftRight {α : Type} (less : α → α → Bool) (b : Nat) : Nat → Nat → List α → List α
  | 0, _, data => data
  | fuel + 1, j, data =>
    if j < b ∧ lessAt less data j (j - 1) = true then
      shiftRight less b fuel (j + 1) (swapAt data j (j - 1))
    else data

/-- The steps of Go `partialInsertionSort_func(data, a, b)` on the whole slice; the first
argument counts the steps that are left (`maxSteps` is 5). -/
def partialInsertionSortLoop {α : Type} (less : α → α → Bool) (a b : Nat) :
    Nat → Nat → List α → List α × Bool
  | 0, _, data => (data, false)
  | steps + 1, i, data =>
    let i1 := scanSorted less data b (b - i) i
    if i1 = b then (data, true)
    else if b - a < 50 then (data, false)
    else
      let data1 := swapAt data i1 (i1 - 1)
      let data2 := if i1 - a ≥ 2 then shiftLeft less (i1 - 1) data1 else data1
      let data3 := if b - i1 ≥ 2 then shiftRight less b (b - (i1 + 1)) (i1 + 1) data2
        else data2
      partialInsertionSortLoop less a b steps i1 data3

/-- Go `partialInsertionSort_func(data, a, b)` with `data[:a]` as `pre` and `data[a:b]` as
`seg`: the new `data[:a]`, the new `data[a:b]`, and whether the segment is sorted now. -/
def partialInsertionSortFunc {α : Type} (less : α → α → Bool) (pre seg : List α) :
    List α × List α × Bool :=
  let a := pre.length
  let r := partialInsertionSortLoop less a (a + seg.length) 5 (a + 1) (pre ++ seg)
  (r.1.take a, r.1.drop a, r.2)

/-- The start of a round of the loop of Go `pdqsort_func`, from `breakPatterns_func` to
`partialInsertionSort_func`, with `data[:a]` as `pre` and `data[a:b]` as `seg`: the new
`data[:a]`, the new `data[a:b]`, the index of the pivot (counted from the start of the segment)
and whether the segment is sorted now. -/
def pdqsortAttempt {α : Type} (less : α → α → Bool) (pre seg : List α)
    (wasBalanced wasPartitioned : Bool) : List α × List α × Nat × Bool :=
  let seg1 := if wasBalanced then seg else breakPatternsFunc seg
  let choice := choosePivotFunc less seg1
  let seg2 := if choice.2 = .decreasingHint then seg1.reverse else seg1
  let pivot := if choice.2 = .decreasingHint then (seg.length - 1) - choice.1 else choice.1
  let hint := if choice.2 = .decreasingHint then SortedHint.increasingHint else choice.2
  if wasBalanced ∧ wasPartitioned ∧ hint = .increasingHint then
    let r := partialInsertionSortFunc less pre seg2
    (r.1, r.2.1, pivot, r.2.2)
  else (pre, seg2, pivot, false)

/-- Go `pdqsort_func(data, a, b, limit)` with `data[:a]` as `pre` and `data[a:b]` as `seg`,
and with the two flags of its loop as arguments: the new `data[:a]` and the new `data[a:b]`.
The first argument bounds the rounds of the loop and the depth of the recursion; every round
shortens the segment, so that one more than its length is enough, and `none` stands for a
bound that was too small. -/
def pdqsortFunc {α : Type} (less : α → α → Bool) :
    Nat → List α → List α → Nat → Bool → Bool → Option (List α × List α)
  | 0, _, _, _, _, _ => none
  | fuel + 1, pre, seg, limit, wasBalanced, wasPartitioned =>
    let length := seg.length
    if length ≤ 12 then some (pre, insertionSortFunc less seg)
    else if limit = 0 then some (pre, heapSortFunc less seg)
    else
      let limit1 := if wasBalanced then limit else limit - 1
      let attempt := pdqsortAttempt less pre seg wasBalanced wasPartitioned
      let pre3 := attempt.1
      let seg3 := attempt.2.1
      let pivot := attempt.2.2.1
      if attempt.2.2.2 then some (pre3, seg3)
      else if pre3.length > 0 ∧ lessAt less (pre3 ++ seg3) (pre3.length - 1)
          (pre3.length + pivot) = false then
        let r := partitionEqualFunc less seg3 pivot
        match pdqsortFunc less fuel (pre3 ++ r.1) r.2 limit1 wasBalanced wasPartitioned with
        | none => none
        | some out => some (out.1.take pre3.length, out.1.drop pre3.length ++ out.2)
      else
        let r := partitionFunc less seg3 pivot
        let mid := r.2.1
        let left := r.1.take mid
        let right := r.1.drop (mid + 1)
        let leftLen := mid
        let rightLen := length - mid
        let balanceThreshold := length / 8
        if leftLen < rightLen then
          match pdqsortFunc less fuel pre3 left limit1 true true with
          | none => none
          | some l =>
            match pdqsortFunc less fuel (l.1 ++ l.2 ++ (r.1.drop mid).take 1) right limit1
                (decide (leftLen ≥ balanceThreshold)) r.2.2 with
            | none => none
            | some out => some (out.1.take pre3.length, out.1.drop pre3.length ++ out.2)
        else
          match pdqsortFunc less fuel (pre3 ++ left ++ (r.1.drop mid).take 1) right limit1
              true true with
          | none => none
          | some out =>
            match pdqsortFunc less fuel (out.1.take pre3.length)
                ((out.1.drop pre3.length).take mid) limit1
                (decide (rightLen ≥ balanceThreshold)) r.2.2 with
            | none => none
            | some l => some (l.1, l.2 ++ out.1.drop (pre3.length + mid) ++ out.2)

/-- Go `sort.Slice(x, less)`: `pdqsort_func(data, 0, n, bits.Len(uint(n)))` on the whole slice
of `n` elements.  A slice of at most 12 elements is sorted by insertion sort, a longer one by
the quicksort with its fallbacks; the bound on the rounds is never reached
(`sortSlice_spec`). -/
def sortSlice {α : Type} (less : α → α → Bool) (x : List α) : List α :=
  match pdqsortFunc less (x.length + 1) [] x (bitsLen x.length) true true with
  | some out => out.1 ++ out.2
  | none => x

/-! ## Orders for `sort.Slice` -/

/-- A less function that answers in keeping with a total preorder `le`: what it calls less
is below, and whatever it does not call less is above or level. -/
structure LessRespects {α : Type} (less : α → α → Bool) (le : α → α → Prop) : Prop where
  below : ∀ x y, less x y = true → le x y
  above : ∀ x y, less x y = false → le y x
  trans : ∀ x y z, le x y → le y z → le x z

/-- Two elements on a level in the preorder `le`. -/
def KeyEq {α : Type} (le : α → α → Prop) (x y : α) : Prop := le x y ∧ le y x

/-- The element at place `i`, if any, is related to the element at place `j`, if any. -/
def RelAt {α : Type} (r : α → α → Prop) (l : List α) (i j : Nat) : Prop :=
  ∀ x y, l[i]? = some x → l[j]? = some y → r x y

/-- The slice `data` still holds `pre ++ seg` up to elements on a level: it has the same
length, every place before the segment holds an element on a level with the one `pre` has
there, and every place of the segment holds an element on a level with one of `seg`. -/
def SegInv {α : Type} (le : α → α → Prop) (pre seg data : List α) : Prop :=
  data.length = pre.length + seg.length ∧
    (∀ k x, k < pre.length → data[k]? = some x → ∃ y, pre[k]? = some y ∧ KeyEq le x y) ∧
    (∀ k x, pre.length ≤ k → data[k]? = some x → ∃ y, y ∈ seg ∧ KeyEq le x y)

/-- Every element of `out` is on a level with an element of `source`. -/
def KeyImage {α : Type} (le : α → α → Prop) (out source : List α) : Prop :=
  ∀ x, x ∈ out → ∃ y, y ∈ source ∧ KeyEq le x y

/-- What a call of `pdqsort_func` on the segment `seg` behind `pre` has to achieve: the slice
is permuted, the places before the segment hold elements on a level with the former ones, the
segment holds elements on a level with former elements of the segment, and the segment is
sorted. -/
def SortsSegment {α : Type} (le : α → α → Prop) (pre seg : List α)
    (out : List α × List α) : Prop :=
  (out.1 ++ out.2).Perm (pre ++ seg) ∧ List.Forall₂ (KeyEq le) out.1 pre ∧
    KeyImage le out.2 seg ∧ out.2.Pairwise le

/-! ## internal/datasmith/migrate/local/parser.go: `SortMigrations` -/

namespace Local

/-- The function literal that `SortMigrations` hands to `sort.Slice`. -/
def migrationLess (a b : MigrationFile) : Bool :=
  if a.Version == b.Version then a.Direction == "down" && b.Direction == "up"
  else decide (CompareVersion a.Version b.Version < 0)

/-- The function `SortMigrations`. -/
def SortMigrations (files : List MigrationFile) : List MigrationFile :=
  sortSlice migrationLess files

end Local

/-- Thirteen migration files of the versions 1, 2 and 3, one more than the insertion sort of
`sort.Slice` takes. -/
def thirteenFiles : List MigrationFile :=
  [upFile "3" "a" "v3__a.up.sql", upFile "1" "b" "v1__b.up.sql", upFile "2" "c" "v2__c.up.sql",
    upFile "1" "d" "v1__d.up.sql", upFile "3" "e" "v3__e.up.sql", upFile "2" "f" "v2__f.up.sql",
    upFile "1" "g" "v1__g.up.sql", upFile "3" "h" "v3__h.up.sql", upFile "2" "i" "v2__i.up.sql",
    upFile "1" "j" "v1__j.up.sql", upFile "3" "k" "v3__k.up.sql", upFile "2" "l" "v2__l.up.sql",
    upFile "1" "m" "v1__m.up.sql"]

/-! ## internal/datasmith/migrate/migrate_script.go -/

/-- What `runMigrations` finds around it: the calls of the directory walk, the error of
`EnsureVersionTable` if any, and the answer of `CurrentVersion`. -/
structure RunEnv where
  walk : List WalkEntry
  ensureErr : Option String
  current : Except String String

/-- How far `runMigrations` gets: it returns an error before any migration, it returns
because the database is at the target already, or it hands the pending files to
`DryRunMigrations` (`dryRun` set) or `ApplyMigrations`. -/
inductive RunStep where
  | failed (err : String)
  | upToDate
  | handed (dryRun : Bool) (pendingFiles : List MigrationFile)
  deriving DecidableEq, Repr

/-- The function `runMigrations` up to the call of `DryRunMigrations` or
`ApplyMigrations`. -/
def runMigrations (env : RunEnv) (dryRun : Bool) (targetVersion : String) : RunStep :=
  match Local.ScanMigrations env.walk with
  | .error err => .failed err
  | .ok files =>
    let files := Local.SortMigrations files
    match env.ensureErr with
    | some err => .failed err
    | none =>
      match env.current with
      | .error err => .failed err
      | .ok currentVersion =>
        let targetVersion :=
          if targetVersion = "" && files.length > 0 then
            match files.getLast? with
            | some last => last.Version
            | none => targetVersion
          else targetVersion
        if targetVersion != ""
            && decide (Local.CompareVersion currentVersion targetVersion ≥ 0) then
          .upToDate
        else
          let pendingFiles := files.foldl
            (fun pendingFiles f =>
              if Local.CompareVersion f.Version currentVersion > 0 then
                if targetVersion = "" || decide (Local.CompareVersion f.Version targetVersion ≤ 0)
                then pendingFiles ++ [f]
                else pendingFiles
              else pendingFiles) []
          .handed dryRun pendingFiles

/-- The target version that a run works with: the given one, or the version of the last
of the sorted files when none is given (and still none when there is no file). -/
def effectiveTarget (sorted : List MigrationFile) (targetVersion : String) : String :=
  if targetVersion = "" then
    match sorted.getLast? with
    | some last => last.Version
    | none => ""
  else targetVersion

/-- The files of the claim on the pending list: those newer than `current` and at most
`target`. -/
def pendingBetween (sorted : List MigrationFile) (current target : String) :
    List MigrationFile :=
  sorted.filter fun f =>
    decide (Local.CompareVersion f.Version current > 0) &&
      decide (Local.CompareVersion f.Version target ≤ 0)

/-- The surroundings of the example run: the walk `migrationsWalk`, a bookkeeping table
that can be created, and the current version `v1.0`. -/
def exampleRunEnv : RunEnv :=
  { walk := migrationsWalk, ensureErr := none, current := .ok "v1.0" }

/-! ## pkg/migrate/migrate.go -/

/-- The method `(*MigrationFile).GetContent`; `readFile` is `os.ReadFile`, `none` when
it fails. -/
def MigrationFile.GetContent (readFile : String → Option String) (m : MigrationFile) :
    String :=
  if m.Content != "" then m.Content
  else
    match readFile m.Path with
    | some content => content
    | none => ""

/-- A row of the table `schema_migrations` as the runner writes it; the column `status`
has the default `success`. -/
structure MigrationRow where
  version : String
  title : String
  executionTime : Int
  status : String
  deriving DecidableEq, Repr

/-- The database and its surroundings as `ApplyMigrations` meets them: the files on
disk, the answer of the database to a script (`none` when it accepts it, the error
otherwise), its answer to the insertion of a bookkeeping row, and the milliseconds that
the clock measures for a file. -/
structure MigrationDB where
  readFile : String → Option String
  exec : String → Option String
  insert : MigrationRow → Option String
  elapsed : MigrationFile → Int

/-- What a run has done so far: the files whose script was sent to the database, and the
rows of the bookkeeping table, both in order. -/
structure ApplyState where
  executed : List MigrationFile
  rows : List MigrationRow
  deriving DecidableEq, Repr

/-- The function `applyMigration`: the new state and the error returned, if any. -/
def applyMigration (db : MigrationDB) (st : ApplyState) (f : MigrationFile) :
    ApplyState × Option String :=
  let content := f.GetContent db.readFile
  let execTime := db.elapsed f
  match db.exec content with
  | some err =>
    let row : MigrationRow :=
      { version := f.Version, title := f.Title, executionTime := execTime, status := "failed" }
    let rows := if (db.insert row).isNone then st.rows ++ [row] else st.rows
    ({ executed := st.executed ++ [f], rows := rows }, some err)
  | none =>
    let row : MigrationRow :=
      { version := f.Version, title := f.Title, executionTime := execTime, status := "success" }
    match db.insert row with
    | none => ({ executed := st.executed ++ [f], rows := st.rows ++ [row] }, none)
    | some err => ({ executed := st.executed ++ [f], rows := st.rows }, some err)

/-- The function `ApplyMigrations`: the loop returns at the first error. -/
def ApplyMigrations (db : MigrationDB) : List MigrationFile → ApplyState →
    ApplyState × Option String
  | [], st => (st, none)
  | f :: rest, st =>
    match applyMigration db st f with
    | (st, some err) => (st, some err)
    | (st, none) => ApplyMigrations db rest st

/-- The bookkeeping row of a file with the given status. -/
def bookkeepingRow (db : MigrationDB) (status : String) (f : MigrationFile) : MigrationRow :=
  { version := f.Version, title := f.Title, executionTime := db.elapsed f, status := status }

/-- The database rejects the script of the file. -/
abbrev Rejects (db : MigrationDB) (f : MigrationFile) (err : String) : Prop :=
  db.exec (f.GetContent db.readFile) = some err

/-- The database accepts the script of the file. -/
abbrev Accepts (db : MigrationDB) (f : MigrationFile) : Prop :=
  db.exec (f.GetContent db.readFile) = none

/-- A database that rejects the script `bad` with the error `syntax error`, accepts every
other script, stores every bookkeeping row and measures 5 milliseconds per file. -/
def exampleDB : MigrationDB :=
  { readFile := fun _ => none
    exec := fun script => if script = "bad" then some "syntax error" else none
    insert := fun _ => none
    elapsed := fun _ => 5 }

/-- The file with the given version and script. -/
def scriptFile (version script : String) : MigrationFile :=
  { upFile version "t" "" with Content := script }

/-! ## Go `regexp` for the patterns of `CleanTransaction` -/

/-- The class `\s` of Go regular expressions: tab, line feed, form feed, carriage return
and blank. -/
def isRegexSpace (c : Char) : Bool :=
  c == '\t' || c == '\n' || c == '\x0c' || c == '\r' || c == ' '

/-- Whether the character `c` matches the lower-case letter or sign `p` of a pattern
compiled with `(?i)`: Go folds the case by `unicode.SimpleFold`, which for the letters met
here adds the upper-case letter, and for `s` also the long s `ſ`. -/
def foldMatches (p c : Char) : Bool :=
  c == p || c == p.toUpper || (p == 's' && c == 'ſ')

/-- The pieces that the patterns of `CleanTransaction` are made of: a literal character
under `(?i)`, and a run `\s*` or (`atLeastOne` set) `\s+`. -/
inductive Piece where
  | lit (p : Char)
  | spaces (atLeastOne : Bool)
  deriving DecidableEq, Repr

/-- The literal pieces of a word. -/
def litPieces (word : String) : List Piece := word.data.map Piece.lit

/-- The match of a pattern at the start of `text`: the text left after the match, `none`
when there is no match here.  A run of `\s` takes all the white space there is: in the
patterns of `CleanTransaction` every run is followed by a literal that is no white space,
so no shorter run leads to a match. -/
def matchPieces : List Piece → List Char → Option (List Char)
  | [], text => some text
  | .lit _ :: _, [] => none
  | .lit p :: pieces, c :: text => if foldMatches p c then matchPieces pieces text else none
  | .spaces atLeastOne :: pieces, text =>
    if atLeastOne && (text.takeWhile isRegexSpace).isEmpty then none
    else matchPieces pieces (text.dropWhile isRegexSpace)

/-- The scan of `ReplaceAllString(text, "")`: at each position the leftmost match is
looked for; the characters of a match are dropped (`skip` of them are still to drop)
and the scan goes on behind the match. -/
def removeMatches (pattern : List Piece) : Nat → List Char → List Char
  | _, [] => []
  | skip + 1, _ :: text => removeMatches pattern skip text
  | 0, c :: text =>
    match matchPieces pattern (c :: text) with
    | some rest => removeMatches pattern (text.length - rest.length) text
    | none => c :: removeMatches pattern 0 text

/-- Go `regexp.MustCompile(pattern).ReplaceAllString(s, "")` for a pattern made of
pieces. -/
def regexpRemoveAll (pattern : List Piece) (s : String) : String :=
  ⟨removeMatches pattern 0 s.data⟩

/-! ## pkg/utils/utils.go: `CleanTransaction` -/

/-- The pattern `(?i)begin\s*;`. -/
def beginPattern : List Piece := litPieces "begin" ++ [.spaces false, .lit ';']

/-- The pattern `(?i)commit\s*;`. -/
def commitPattern : List Piece := litPieces "commit" ++ [.spaces false, .lit ';']

/-- The pattern `(?i)begin\s+transaction\s*;`. -/
def beginTransactionPattern : List Piece :=
  litPieces "begin" ++ [.spaces true] ++ litPieces "transaction" ++ [.spaces false, .lit ';']

/-- The pattern `(?i)commit\s+transaction\s*;`. -/
def commitTransactionPattern : List Piece :=
  litPieces "commit" ++ [.spaces true] ++ litPieces "transaction" ++ [.spaces false, .lit ';']

/-- The function `CleanTransaction`. -/
def CleanTransaction (sql : String) : String :=
  let sql := regexpRemoveAll beginPattern sql
  let sql := regexpRemoveAll commitPattern sql
  let sql := regexpRemoveAll beginTransactionPattern sql
  let sql := regexpRemoveAll commitTransactionPattern sql
  sql

/-- The sequence `m` matches the pattern as a whole, for any choice of the runs. -/
def PiecesMatch : List Piece → List Char → Prop
  | [], m => m = []
  | .lit p :: pieces, m => ∃ c rest, m = c :: rest ∧ foldMatches p c = true ∧ PiecesMatch pieces rest
  | .spaces atLeastOne :: pieces, m =>
    ∃ run rest, m = run ++ rest ∧ (∀ c ∈ run, isRegexSpace c = true) ∧
      (atLeastOne = true → run ≠ []) ∧ PiecesMatch pieces rest

/-- The four patterns of a transaction statement. -/
def statementPatterns : List (List Piece) :=
  [beginPattern, commitPattern, beginTransactionPattern, commitTransactionPattern]

/-- The sequence is a statement `BEGIN;`, `COMMIT;`, `BEGIN TRANSACTION;` or
`COMMIT TRANSACTION;`: the word `begin` or `commit` in any letter case, optionally
followed by white space and the word `transaction`, followed by optional white space and
a semicolon. -/
def IsTransactionStatement (m : List Char) : Prop :=
  ∃ pattern ∈ statementPatterns, PiecesMatch pattern m

/-- The text holds a transaction statement somewhere. -/
def HasTransactionStatement (s : String) : Prop :=
  ∃ before m after, s.data = before ++ m ++ after ∧ IsTransactionStatement m

/-- The pattern matches somewhere in the text, as the scan of `ReplaceAllString` tries
it: at the start of some suffix. -/
def MatchesSomewhere (pattern : List Piece) (text : List Char) : Prop :=
  ∃ before rest, text = before ++ rest ∧ (matchPieces pattern rest).isSome = true

/-- Every run of white space of the pattern is followed by a literal that matches no
white space. -/
def runsEndAtLiteral : List Piece → Bool
  | [] => true
  | .lit _ :: pieces => runsEndAtLiteral pieces
  | .spaces _ :: .lit p :: pieces =>
    !isRegexSpace p && !isRegexSpace p.toUpper && runsEndAtLiteral pieces
  | .spaces _ :: _ => false

/-- The text `out` is `text` with the matches of the pattern deleted in one scan from the
left: where a match starts, the match is left out and the scan goes on behind it; a
character at which no match starts is kept. -/
inductive DeletesMatches (pattern : List Piece) : List Char → List Char → Prop where
  | done : DeletesMatches pattern [] []
  | keep (c : Char) (text out : List Char) :
      (∀ m rest, c :: text = m ++ rest → ¬ PiecesMatch pattern m) →
      DeletesMatches pattern text out → DeletesMatches pattern (c :: text) (c :: out)
  | delete (m rest out : List Char) :
      m ≠ [] → PiecesMatch pattern m → DeletesMatches pattern rest out →
      DeletesMatches pattern (m ++ rest) out

/-- The text made of the kept stretches `gaps` with the `deleted` matches in between:
a stretch, a match, a stretch, and so on, ending with a stretch. -/
def interleave : List (List Char) → List (List Char) → List Char
  | g :: gaps, m :: deleted => g ++ m ++ interleave gaps deleted
  | g :: _, [] => g
  | [], _ => []

/-- The pattern matches a contiguous piece of the text. -/
def HoldsMatch (pattern : List Piece) (text : List Char) : Prop :=
  ∃ before m after, text = before ++ m ++ after ∧ PiecesMatch pattern m

/-! ## Test data: a column that loses its default -/

/-- The column `age` of type `int` without a default. -/
def ageColumn : Column := { testColumn "age" 2 with DataType := "int" }

/-- The column `age` of type `int` with the default `0`. -/
def ageColumnWithDefault : Column := { ageColumn with Default := some "0" }

/-- The source table `users`: columns `id` and `age`, `age` without a default. -/
def usersAge : Table :=
  usersTable ⟨[("id", testColumn "id" 1), ("age", ageColumn)], by decide⟩

/-- The target table `users`: columns `id` and `age`, `age` with the default `0`. -/
def usersAgeWithDefault : Table :=
  usersTable ⟨[("id", testColumn "id" 1), ("age", ageColumnWithDefault)], by decide⟩

/-! ## Test data: a table with a primary-flagged index -/

/-- The index `users_pkey` on the column `id`, flagged primary. -/
def usersPkeyIndex : Index :=
  { Name := "users_pkey", Columns := ["id"], Unique := true, Primary := true,
    Method := "btree", Where := none, Expression := none }

/-- The same index on the columns `id` and `name`. -/
def usersPkeyIndexWide : Index := { usersPkeyIndex with Columns := ["id", "name"] }

/-- The table `users` with the columns `id` and `name` and the one index `idx`. -/
def usersIndexed (idx : Index) : Table :=
  { usersPlain with Indexes := ⟨[(idx.Name, idx)], List.nodup_singleton idx.Name⟩ }

/-! ## Test data: a table that gains a foreign key -/

/-- The foreign key `fk_users_org` of `users.id` to `orgs.id`. -/
def usersOrgForeignKey : ForeignKey :=
  { Name := "fk_users_org", Columns := ["id"], ReferencedSchema := "public",
    ReferencedTable := "orgs", ReferencedColumns := ["id"], OnDelete := "", OnUpdate := "" }

/-- The table `users` with the columns `id` and `name` and the foreign key
`fk_users_org`. -/
def usersWithForeignKey : Table :=
  { usersPlain with ForeignKeys := ⟨[("fk_users_org", usersOrgForeignKey)], by decide⟩ }

/-- The diff of `usersWithForeignKey` as source against `usersPlain` as target. -/
def usersForeignKeyDiff : TableDiff :=
  { Table := usersPlain
    ColumnsAdded := [], ColumnsDropped := [], ColumnsModified := []
    IndexesAdded := [], IndexesDropped := [], IndexesModified := []
    PrimaryKeyChange := none
    ForeignKeysAdded := [usersOrgForeignKey], ForeignKeysDropped := []
    ForeignKeysModified := []
    ViewDefinitionChange := none }

/-- The file with the given version and direction. -/
def directedFile (version direction : String) : MigrationFile :=
  { upFile version "t" "" with Direction := direction }

/-- A walk, in the lexical order of `filepath.Walk`, over the directory `m` with the
sub-directories `a`, `b` and `c`: `a` holds the up script of the version `v1`, `b` a
script of the version `V1` without direction, and `c` the down script of `v1`. -/
def siblingsWalk : List WalkEntry :=
  [⟨"m", true, none⟩, ⟨"m/a", true, none⟩, ⟨"m/a/v1__a.up.sql", false, none⟩,
    ⟨"m/b", true, none⟩, ⟨"m/b/V1__b.sql", false, none⟩,
    ⟨"m/c", true, none⟩, ⟨"m/c/v1__a.down.sql", false, none⟩]

/-- A walk, in the lexical order of `filepath.Walk`, over the directory `m` with a down
and an up script of the version `v1` and an up script of the version `v2`. -/
def upDownWalk : List WalkEntry :=
  [⟨"m", true, none⟩, ⟨"m/v1__a.down.sql", false, none⟩, ⟨"m/v1__a.up.sql", false, none⟩,
    ⟨"m/v2__b.up.sql", false, none⟩]

/-- A database that accepts every script, stores every bookkeeping row and measures 5
milliseconds per file; no file can be read. -/
def acceptingDB : MigrationDB :=
  { readFile := fun _ => none
    exec := fun _ => none
    insert := fun _ => none
    elapsed := fun _ => 5 }

/-- The function `CurrentVersion` over the rows of the table `schema_migrations` in the
order of their `id` (the order of insertion): the version of the last row whose status
is `success`, and the empty text when there is none.  The query stands for itself; an
error of the connection is not modelled here. -/
def CurrentVersion (rows : List MigrationRow) : String :=
  match (rows.filter fun row => row.status == "success").getLast? with
  | some row => row.version
  | none => ""

/-- The surroundings of a run over the walk `walk` against the bookkeeping table
`rows`: the table can be created and `CurrentVersion` answers from the rows. -/
def runEnvOf (walk : List WalkEntry) (rows : List MigrationRow) : RunEnv :=
  { walk := walk, ensureErr := none, current := .ok (CurrentVersion rows) }

/-- A database over the files of a directory: the file at `badPath` holds the script
`bad`, which is rejected with the error `syntax error`, every other file holds the
script `ok`, which is accepted; every bookkeeping row is stored and the clock measures
5 milliseconds per file. -/
def directoryDB (badPath : String) : MigrationDB :=
  { readFile := fun path => if path = badPath then some "bad" else some "ok"
    exec := fun script => if script = "bad" then some "syntax error" else none
    insert := fun _ => none
    elapsed := fun _ => 5 }

/-- A walk over the directory `m` with a down and an up script of the version `v1`. -/
def downUpWalk : List WalkEntry :=
  [⟨"m/v1__a.down.sql", false, none⟩, ⟨"m/v1__a.up.sql", false, none⟩]

/-! ## pkg/migrate/migrate.go: the statements sent to the connection -/

/-- A call of `Exec` on the connection or on the transaction: the query text and its
arguments. -/
structure ExecCall where
  query : String
  args : List Value
  deriving DecidableEq, Repr

/-- The adapter as the functions of `migrate.go` use it: `GetConfig().Type`, the files
on disk, the error of `Begin` if any, the answer of the database to a call of `Exec`
(`none` when it succeeds), and the milliseconds that the clock measures for a file. -/
structure MigrateAdapter where
  dbType : DBType
  readFile : String → Option String
  beginErr : Option String
  exec : ExecCall → Option String
  elapsed : MigrationFile → Int

/-- What a function of `migrate.go` has done: its calls of `Exec` in order and the error
it returns, if any. -/
structure ExecTrace where
  calls : List ExecCall
  err : Option String
  deriving DecidableEq, Repr

namespace migrate

/-- The function `EnsureVersionTable`. -/
def EnsureVersionTable (db : MigrateAdapter) : ExecTrace :=
  if db.dbType = DBTypeMySQL then
    let query :=
      "CREATE TABLE IF NOT EXISTS schema_migrations (\n"
        ++ "\t\t\tid INT AUTO_INCREMENT PRIMARY KEY,\n"
        ++ "\t\t\tversion VARCHAR(255) NOT NULL,\n"
        ++ "\t\t\ttitle VARCHAR(255),\n"
        ++ "\t\t\tapplied_at TIMESTAMP DEFAULT CURRENT_TIMESTAMP,\n"
        ++ "\t\t\texecution_time INT,\n"
        ++ "\t\t\tstatus VARCHAR(50) DEFAULT 'success'\n"
        ++ "\t\t)"
    { calls := [⟨query, []⟩], err := db.exec ⟨query, []⟩ }
  else if db.dbType = DBTypePostgres then
    let query :=
      "CREATE TABLE IF NOT EXISTS schema_migrations (\n"
        ++ "\t\t\tid SERIAL PRIMARY KEY,\n"
        ++ "\t\t\tversion VARCHAR(255) NOT NULL,\n"
        ++ "\t\t\ttitle VARCHAR(255),\n"
        ++ "\t\t\tapplied_at TIMESTAMP DEFAULT CURRENT_TIMESTAMP,\n"
        ++ "\t\t\texecution_time INTEGER,\n"
        ++ "\t\t\tstatus VARCHAR(50) DEFAULT 'success'\n"
        ++ "\t\t)"
    { calls := [⟨query, []⟩], err := db.exec ⟨query, []⟩ }
  else { calls := [], err := some "unsupported database type" }

/-- The function `applyMigration`, with the calls it makes; the error of the insertion
after a failed script is dropped. -/
def applyMigration (db : MigrateAdapter) (f : MigrationFile) : ExecTrace :=
  let content := f.GetContent db.readFile
  let script : ExecCall := ⟨content, []⟩
  let execTime := db.elapsed f
  match db.exec script with
  | some err =>
    let ins : ExecCall :=
      ⟨"INSERT INTO schema_migrations (version, title, execution_time, status) "
          ++ "VALUES ($1, $2, $3, $4)",
        [.text f.Version, .text f.Title, .int execTime, .text "failed"]⟩
    { calls := [script, ins], err := some err }
  | none =>
    let ins : ExecCall :=
      ⟨"INSERT INTO schema_migrations (version, title, execution_time) "
          ++ "VALUES ($1, $2, $3)",
        [.text f.Version, .text f.Title, .int execTime]⟩
    { calls := [script, ins], err := db.exec ins }

/-- The loop of `DryRunMigrations` over the files, after the calls made so far. -/
def dryRunLoop (db : MigrateAdapter) : List MigrationFile → List ExecCall → ExecTrace
  | [], calls => { calls := calls, err := none }
  | f :: rest, calls =>
    let content := f.GetContent db.readFile
    let script : ExecCall := ⟨CleanTransaction content, []⟩
    match db.exec script with
    | some err =>
      { calls := calls ++ [script]
        err := some ("模拟执行脚本 " ++ f.Version ++ "__" ++ f.Title ++ " 失败: " ++ err) }
    | none =>
      let ins : ExecCall :=
        ⟨"INSERT INTO schema_migrations (version, title) VALUES ($1, $2)",
          [.text f.Version, .text f.Title]⟩
      match db.exec ins with
      | some err => { calls := calls ++ [script, ins], err := some ("记录版本失败: " ++ err) }
      | none => dryRunLoop db rest (calls ++ [script, ins])

/-- The function `DryRunMigrations`; the calls go to the transaction, which is rolled
back on return. -/
def DryRunMigrations (db : MigrateAdapter) (files : List MigrationFile) : ExecTrace :=
  match db.beginErr with
  | some err => { calls := [], err := some ("开始事务失败: " ++ err) }
  | none => dryRunLoop db files []

end migrate

/-- An adapter of the type `mysql` on which `Begin` succeeds and that rejects the script
`bad` with the error `syntax error`, accepts every other call and measures 5
milliseconds per file. -/
def mysqlAdapter : MigrateAdapter :=
  { dbType := DBTypeMySQL
    readFile := fun _ => none
    beginErr := none
    exec := fun call => if call.query = "bad" then some "syntax error" else none
    elapsed := fun _ => 5 }

/-! ## The primary-key comparator -/

theorem charsLess_irrefl (a : List Char) : charsLess a a = false := by
  induction a with
  | nil => rfl
  | cons c cs ih => simp [charsLess, ih]

theorem charsLess_asymm : ∀ (a b : List Char), charsLess a b = true → charsLess b a = false
  | [], [], h => by simp [charsLess] at h
  | [], _ :: _, _ => by simp [charsLess]
  | _ :: _, [], h => by simp [charsLess] at h
  | a :: as, b :: bs, h => by
    simp only [charsLess] at h ⊢
    by_cases h1 : a.toNat < b.toNat
    · have h2 : ¬ b.toNat < a.toNat := by omega
      simp [h1, h2]
    · by_cases h2 : b.toNat < a.toNat
      · simp [h1, h2] at h
      · simp only [h1, h2, if_false] at h ⊢
        exact charsLess_asymm as bs h

theorem charsLess_total : ∀ (a b : List Char),
    charsLess a b = false → charsLess b a = false → a = b
  | [], [], _, _ => rfl
  | [], _ :: _, h, _ => by simp [charsLess] at h
  | _ :: _, [], _, h => by simp [charsLess] at h
  | a :: as, b :: bs, h, k => by
    simp only [charsLess] at h k
    by_cases h1 : a.toNat < b.toNat
    · simp [h1] at h
    · by_cases h2 : b.toNat < a.toNat
      · simp [h2] at k
      · simp only [h1, h2, if_false] at h k
        have hab : a = b := by
          apply Char.ext
          apply UInt32.ext
          show a.toNat = b.toNat
          omega
        rw [hab, charsLess_total as bs h k]

theorem charsLess_trans : ∀ (a b c : List Char),
    charsLess a b = true → charsLess b c = true → charsLess a c = true
  | [], [], _, h, _ => by simp [charsLess] at h
  | _, _ :: _, [], _, k => by simp [charsLess] at k
  | _ :: _, [], _, h, _ => by simp [charsLess] at h
  | [], _ :: _, _ :: _, _, _ => by simp [charsLess]
  | a :: as, b :: bs, c :: cs, h, k => by
    simp only [charsLess] at h k ⊢
    by_cases h1 : a.toNat < b.toNat
    · by_cases k1 : b.toNat < c.toNat
      · have : a.toNat < c.toNat := by omega
        simp [this]
      · by_cases k2 : c.toNat < b.toNat
        · simp [k1, k2] at k
        · have : a.toNat < c.toNat := by omega
          simp [this]
    · by_cases h2 : b.toNat < a.toNat
      · simp [h1, h2] at h
      · simp only [h1, h2, if_false] at h
        by_cases k1 : b.toNat < c.toNat
        · have : a.toNat < c.toNat := by omega
          simp [this]
        · by_cases k2 : c.toNat < b.toNat
          · simp [k1, k2] at k
          · simp only [k1, k2, if_false] at k
            have e1 : ¬ a.toNat < c.toNat := by omega
            have e2 : ¬ c.toNat < a.toNat := by omega
            simp only [e1, e2, if_false]
            exact charsLess_trans as bs cs h k

theorem goStringLess_irrefl (a : String) : goStringLess a a = false :=
  charsLess_irrefl a.data

theorem goStringLess_asymm (a b : String) (h : goStringLess a b = true) :
    goStringLess b a = false :=
  charsLess_asymm a.data b.data h

theorem goStringLess_total (a b : String) (h : goStringLess a b = false)
    (k : goStringLess b a = false) : a = b := by
  cases a
  cases b
  simp only [goStringLess] at h k
  rw [charsLess_total _ _ h k]

theorem goStringLess_trans (a b c : String) (h : goStringLess a b = true)
    (k : goStringLess b c = true) : goStringLess a c = true :=
  charsLess_trans a.data b.data c.data h k

theorem goStringLess_cases (x y : String) :
    (goStringLess x y = true ∧ goStringLess y x = false) ∨
    (goStringLess y x = true ∧ goStringLess x y = false) ∨ x = y := by
  cases h : goStringLess x y
  · cases k : goStringLess y x
    · exact Or.inr (Or.inr (goStringLess_total x y h k))
    · exact Or.inr (Or.inl ⟨rfl, rfl⟩)
  · exact Or.inl ⟨rfl, goStringLess_asymm x y h⟩

theorem comparePKRecord_cons (a b : Record) (k : String) (ks : List String) :
    comparePKRecord a b (k :: ks) =
      if goStringLess (sprintV (a.get k)) (sprintV (b.get k)) then -1
      else if goStringLess (sprintV (b.get k)) (sprintV (a.get k)) then 1
      else comparePKRecord a b ks := rfl

theorem comparePKRecord_range (a b : Record) (pk : List String) :
    comparePKRecord a b pk = -1 ∨ comparePKRecord a b pk = 0 ∨ comparePKRecord a b pk = 1 := by
  induction pk with
  | nil => exact Or.inr (Or.inl rfl)
  | cons k ks ih =>
    rw [comparePKRecord_cons]
    split
    · exact Or.inl rfl
    · split
      · exact Or.inr (Or.inr rfl)
      · exact ih

theorem comparePKRecord_neg (a b : Record) (pk : List String) :
    comparePKRecord a b pk = -comparePKRecord b a pk := by
  induction pk with
  | nil => rfl
  | cons k ks ih =>
    rw [comparePKRecord_cons, comparePKRecord_cons]
    rcases goStringLess_cases (sprintV (a.get k)) (sprintV (b.get k)) with ⟨h1, h2⟩ | ⟨h1, h2⟩ | h
    · simp [h1, h2]
    · simp [h1, h2]
    · simp [h, goStringLess_irrefl, ih]

theorem comparePKRecord_eq_zero_iff (a b : Record) (pk : List String) :
    comparePKRecord a b pk = 0 ↔ ∀ k ∈ pk, sprintV (a.get k) = sprintV (b.get k) := by
  induction pk with
  | nil => simp [comparePKRecord]
  | cons k ks ih =>
    rw [comparePKRecord_cons]
    rcases goStringLess_cases (sprintV (a.get k)) (sprintV (b.get k)) with ⟨h1, h2⟩ | ⟨h1, h2⟩ | h
    · have hne : sprintV (a.get k) ≠ sprintV (b.get k) := by
        intro e
        rw [e, goStringLess_irrefl] at h1
        exact Bool.noConfusion h1
      simp [h1, hne]
    · have hne : sprintV (a.get k) ≠ sprintV (b.get k) := by
        intro e
        rw [e, goStringLess_irrefl] at h1
        exact Bool.noConfusion h1
      simp [h1, h2, hne]
    · simp [h, goStringLess_irrefl, ih]

theorem comparePKRecord_self (a : Record) (pk : List String) : comparePKRecord a a pk = 0 :=
  (comparePKRecord_eq_zero_iff a a pk).2 fun _ _ => rfl

/-- The comparator is a total preorder: `≤ 0` composes, strictly when one side is
strict. -/
theorem comparePKRecord_trans (a b c : Record) (pk : List String)
    (hab : comparePKRecord a b pk ≤ 0) (hbc : comparePKRecord b c pk ≤ 0) :
    comparePKRecord a c pk ≤ 0 ∧
      (comparePKRecord a b pk < 0 ∨ comparePKRecord b c pk < 0 → comparePKRecord a c pk < 0) := by
  induction pk with
  | nil => simp [comparePKRecord]
  | cons k ks ih =>
    rw [comparePKRecord_cons] at hab hbc ⊢
    rw [comparePKRecord_cons, comparePKRecord_cons]
    rcases goStringLess_cases (sprintV (a.get k)) (sprintV (b.get k)) with ⟨h1, h2⟩ | ⟨h1, h2⟩ | h
    · rcases goStringLess_cases (sprintV (b.get k)) (sprintV (c.get k)) with
        ⟨k1, k2⟩ | ⟨k1, k2⟩ | e
      · have t := goStringLess_trans _ _ _ h1 k1
        simp [t]
      · simp [k1, k2] at hbc
      · rw [← e]
        simp [h1]
    · simp [h1, h2] at hab
    · rcases goStringLess_cases (sprintV (b.get k)) (sprintV (c.get k)) with
        ⟨k1, k2⟩ | ⟨k1, k2⟩ | e
      · rw [h]
        simp [k1]
      · simp [k1, k2] at hbc
      · rw [h, e] at hab ⊢
        rw [e] at hbc
        simp only [goStringLess_irrefl, Bool.false_eq_true, if_false] at hab hbc ⊢
        exact ih hab hbc

/-- Claim C5.  For all records `a`, `b` and every primary-key column list `pk`,
`comparePKRecord a b pk` is one of -1, 0, 1, it changes sign when the arguments are
swapped, and it is 0 exactly when the default string forms of the two values agree on
every column of `pk`. -/
theorem comparePKRecord_trichotomous_antisymmetric (a b : Record) (pk : List String) :
    (comparePKRecord a b pk = -1 ∨ comparePKRecord a b pk = 0 ∨ comparePKRecord a b pk = 1) ∧
    comparePKRecord a b pk = -comparePKRecord b a pk ∧
    (comparePKRecord a b pk = 0 ↔ ∀ k ∈ pk, sprintV (a.get k) = sprintV (b.get k)) :=
  ⟨comparePKRecord_range a b pk, comparePKRecord_neg a b pk, comparePKRecord_eq_zero_iff a b pk⟩

/-! ## The batch iterator and the merge walk -/

theorem newRowBatchIterator_iterAt (db : DBAdapter) (table : String) (cols pk : List String)
    (batchSize : Nat) :
    IterAt (newRowBatchIterator db table cols pk batchSize) db table cols pk batchSize [] := by
  refine ⟨rfl, rfl, rfl, rfl, rfl, rfl, rfl, ?_⟩
  intro buf h
  simp [newRowBatchIterator] at h

theorem nextBatch_fetch (it : rowBatchIterator) (db : DBAdapter) (table : String)
    (cols pk : List String) (limit : Nat) (lastPK : List Value)
    (h : IterAt it db table cols pk limit lastPK) :
    it.NextBatch =
      match db.GetTableDataBatch table cols pk lastPK limit with
      | .error err => (.error err, it)
      | .ok [] => (.ok none, { it with closed := true })
      | .ok (r :: rs) =>
        (.ok (some (r :: rs)),
          { it with
            buf := some (r :: rs)
            idx := (r :: rs).length
            lastPK := extractPK ((r :: rs).getLast (List.cons_ne_nil r rs)) pk }) := by
  obtain ⟨h1, h2, h3, h4, h5, h6, h7, h8⟩ := h
  unfold rowBatchIterator.NextBatch
  rw [h7, h1, h2, h3, h4, h5, h6]
  have hp : (match it.buf with
      | some buf => if it.idx < buf.length then some buf else none
      | none => none) = none := by
    cases hb : it.buf with
    | none => rfl
    | some buf =>
      have := h8 buf hb
      simp only
      rw [if_neg (by omega)]
  simp only [Bool.false_eq_true, if_false]
  rw [hp]

theorem walkSide_row_of_lt (s : WalkSide) (h : s.idx < s.buf.length) :
    s.row = s.buf[s.idx] := by
  simp [WalkSide.row, h]

theorem walkSide_row_of_ge (s : WalkSide) (h : s.buf.length ≤ s.idx) : s.row = none := by
  have : ¬ s.idx < s.buf.length := by omega
  simp [WalkSide.row, this]

theorem refill_of_done (s : WalkSide) (h : s.done = true) : s.refill = .ok s := by
  simp [WalkSide.refill, h]

theorem refill_of_lt (s : WalkSide) (h : s.idx < s.buf.length) : s.refill = .ok s := by
  have : ¬ s.buf.length ≤ s.idx := by omega
  simp [WalkSide.refill, this]

theorem refill_of_spent (s : WalkSide) (h : s.buf.length ≤ s.idx) (hd : s.done = false) :
    s.refill =
      match s.iter.NextBatch with
      | (.error err, _) => .error err
      | (.ok none, it) => .ok { s with iter := it, done := true }
      | (.ok (some batch), it) => .ok { s with iter := it, buf := batch, idx := 0 } := by
  simp [WalkSide.refill, h, hd]

/-- After the refill block a side is done exactly when no row is left, and otherwise
its current row is the first row left and stepping past it leaves the others. -/
theorem refill_spec (db : DBAdapter) (table : String) (cols pk : List String) (limit : Nat)
    (s : WalkSide) (rows : List RecordMap) (h : SideInv db table cols pk limit s rows) :
    ∃ s2, s.refill = .ok s2 ∧ SideInv db table cols pk limit s2 rows ∧
      (rows = [] → s2.done = true ∧ s2.buf.length ≤ s2.idx) ∧
      (∀ (r : RecordMap) (rows2 : List RecordMap), rows = r :: rows2 →
        s2.done = false ∧ s2.idx < s2.buf.length ∧ s2.row = some r ∧
        SideInv db table cols pk limit { s2 with idx := s2.idx + 1 } rows2) := by
  rcases h with ⟨hd, hr, hl⟩ | ⟨hd, lastPK, rest, hit, hst, heq⟩
  · refine ⟨s, refill_of_done s hd, Or.inl ⟨hd, hr, hl⟩, fun _ => ⟨hd, hl⟩, ?_⟩
    intro r rows2 e
    rw [hr] at e
    exact List.noConfusion e
  · by_cases hlt : s.idx < s.buf.length
    · refine ⟨s, refill_of_lt s hlt, Or.inr ⟨hd, lastPK, rest, hit, hst, heq⟩, ?_, ?_⟩
      · intro e
        rw [e, List.drop_eq_getElem_cons hlt] at heq
        exact List.noConfusion heq
      · intro r rows2 e
        rw [e, List.drop_eq_getElem_cons hlt] at heq
        simp only [List.cons_append, List.map_cons, List.cons.injEq] at heq
        refine ⟨hd, hlt, ?_, Or.inr ⟨hd, lastPK, rest, hit, hst, heq.2⟩⟩
        rw [walkSide_row_of_lt s hlt, heq.1]
    · have hge : s.buf.length ≤ s.idx := by omega
      rw [List.drop_eq_nil_of_le hge, List.nil_append] at heq
      have hfetch := nextBatch_fetch s.iter db table cols pk limit lastPK hit
      cases hst with
      | done _ hget =>
        rw [hget] at hfetch
        have hrows : rows = [] := by
          cases rows with
          | nil => rfl
          | cons a l => simp at heq
        refine ⟨{ s with iter := { s.iter with closed := true }, done := true }, ?_,
          Or.inl ⟨rfl, hrows, hge⟩, fun _ => ⟨rfl, hge⟩, ?_⟩
        · rw [refill_of_spent s hge hd, hfetch]
        · intro r rows2 e
          rw [hrows] at e
          exact List.noConfusion e
      | batch _ r0 rs rest2 hlen hget hnext =>
        rw [hget] at hfetch
        obtain ⟨h1, h2, h3, h4, h5, h6, h7, h8⟩ := hit
        have hit2 : IterAt
            { s.iter with
              buf := some (r0 :: rs)
              idx := (r0 :: rs).length
              lastPK := extractPK ((r0 :: rs).getLast (List.cons_ne_nil r0 rs)) pk }
            db table cols pk limit
            (extractPK ((r0 :: rs).getLast (List.cons_ne_nil r0 rs)) pk) := by
          refine ⟨h1, h2, h3, h4, h5, rfl, h7, ?_⟩
          intro buf hb
          simp only [Option.some.injEq] at hb
          rw [← hb]
        refine ⟨{ s with
            iter := { s.iter with
              buf := some (r0 :: rs)
              idx := (r0 :: rs).length
              lastPK := extractPK ((r0 :: rs).getLast (List.cons_ne_nil r0 rs)) pk }
            buf := r0 :: rs, idx := 0 }, ?_, ?_, ?_, ?_⟩
        · rw [refill_of_spent s hge hd, hfetch]
        · exact Or.inr ⟨hd, _, rest2, hit2, hnext, by simpa using heq⟩
        · intro e
          rw [e] at heq
          simp at heq
        · intro r rows2 e
          rw [e] at heq
          simp only [List.cons_append, List.map_cons, List.cons.injEq] at heq
          refine ⟨hd, by simp, ?_, Or.inr ⟨hd, _, rest2, hit2, hnext, ?_⟩⟩
          · simp [WalkSide.row, heq.1]
          · simpa using heq.2

theorem walkLoop_succ (pks : List String) (rule : ICompareRule) (fuel : Nat)
    (src0 tgt0 src tgt : WalkSide) (calls : List HandleCall)
    (hs : src0.refill = .ok src) (ht : tgt0.refill = .ok tgt) :
    walkLoop pks rule (fuel + 1) src0 tgt0 calls =
      if (src.done || src.idx ≥ src.buf.length) && (tgt.done || tgt.idx ≥ tgt.buf.length) then
        some { calls := calls, err := none }
      else
        let cmp : Int :=
          if src.row = none then 1
          else if tgt.row = none then -1
          else comparePKRecord src.row tgt.row pks
        if cmp < 0 then
          walkLoop pks rule fuel { src with idx := src.idx + 1 } tgt
            (calls ++ [{ diffType := .ADD, srcRow := src.row, tgtRow := none }])
        else if cmp > 0 then
          walkLoop pks rule fuel src { tgt with idx := tgt.idx + 1 }
            (calls ++ [{ diffType := .DROP, srcRow := none, tgtRow := tgt.row }])
        else
          walkLoop pks rule fuel { src with idx := src.idx + 1 } { tgt with idx := tgt.idx + 1 }
            (if !rule.IsEqual src.row tgt.row then
              calls ++ [{ diffType := .MODIFY, srcRow := src.row, tgtRow := tgt.row }]
            else calls) := by
  simp only [walkLoop, hs, ht]

/-- The loop of `StreamCompareData` makes the calls of the plain merge: started on two
sides that still have `s` and `t` to hand out, it ends without error as soon as the
fuel exceeds the number of rows left. -/
theorem walkLoop_spec (srcDB tgtDB : DBAdapter) (table : String) (cols pks : List String)
    (limit : Nat) (rule : ICompareRule) :
    ∀ (fuel : Nat) (src tgt : WalkSide) (calls : List HandleCall) (s t : List RecordMap),
      s.length + t.length < fuel →
      SideInv srcDB table cols pks limit src s →
      SideInv tgtDB table cols pks limit tgt t →
      walkLoop pks rule fuel src tgt calls =
        some { calls := calls ++ mergeCalls pks rule s t, err := none } := by
  intro fuel
  induction fuel with
  | zero => intro _ _ _ s t h; omega
  | succ fuel ih =>
    intro src tgt calls s t hfuel hsrc htgt
    obtain ⟨src2, hsr, hsi, hsnil, hscons⟩ := refill_spec srcDB table cols pks limit src s hsrc
    obtain ⟨tgt2, htr, hti, htnil, htcons⟩ := refill_spec tgtDB table cols pks limit tgt t htgt
    rw [walkLoop_succ pks rule fuel src tgt src2 tgt2 calls hsr htr]
    cases s with
    | nil =>
      obtain ⟨sd, sl⟩ := hsnil rfl
      cases t with
      | nil =>
        obtain ⟨td, tl⟩ := htnil rfl
        simp [sd, td, mergeCalls]
      | cons b ts =>
        obtain ⟨td, tl, trow, tinv⟩ := htcons b ts rfl
        have hnl : ¬ tgt2.buf.length ≤ tgt2.idx := by omega
        have srow := walkSide_row_of_ge src2 sl
        simp only [List.length_cons, List.length_nil] at hfuel
        have := ih src2 { tgt2 with idx := tgt2.idx + 1 }
          (calls ++ [{ diffType := .DROP, srcRow := none, tgtRow := some b }]) [] ts
          (by simp only [List.length_nil]; omega) hsi tinv
        simpa [sd, td, hnl, srow, trow, mergeCalls] using this
    | cons a ss =>
      obtain ⟨sd, sl, srow, sinv⟩ := hscons a ss rfl
      have hns : ¬ src2.buf.length ≤ src2.idx := by omega
      cases t with
      | nil =>
        obtain ⟨td, tl⟩ := htnil rfl
        have trow := walkSide_row_of_ge tgt2 tl
        simp only [List.length_cons, List.length_nil] at hfuel
        have := ih { src2 with idx := src2.idx + 1 } tgt2
          (calls ++ [{ diffType := .ADD, srcRow := some a, tgtRow := none }]) ss []
          (by simp only [List.length_nil]; omega) sinv hti
        simpa [sd, td, hns, srow, trow, mergeCalls] using this
      | cons b ts =>
        obtain ⟨td, tl, trow, tinv⟩ := htcons b ts rfl
        simp only [List.length_cons] at hfuel
        have h1 := ih { src2 with idx := src2.idx + 1 } tgt2
          (calls ++ [{ diffType := .ADD, srcRow := some a, tgtRow := none }]) ss (b :: ts)
          (by simp only [List.length_cons]; omega) sinv hti
        have h2 := ih src2 { tgt2 with idx := tgt2.idx + 1 }
          (calls ++ [{ diffType := .DROP, srcRow := none, tgtRow := some b }]) (a :: ss) ts
          (by simp only [List.length_cons]; omega) hsi tinv
        have h3 := fun c => ih { src2 with idx := src2.idx + 1 } { tgt2 with idx := tgt2.idx + 1 }
          c ss ts (by omega) sinv tinv
        rw [mergeCalls]
        by_cases c1 : comparePKRecord (some a) (some b) pks < 0
        · simpa [sd, td, hns, srow, trow, c1] using h1
        · by_cases c2 : comparePKRecord (some a) (some b) pks > 0
          · simpa [sd, td, hns, srow, trow, c1, c2] using h2
          · cases hie : rule.IsEqual (some a) (some b)
            · have h3a := h3 (calls ++ [{ diffType := .MODIFY, srcRow := some a, tgtRow := some b }])
              rw [List.append_assoc, List.singleton_append] at h3a
              simpa [sd, td, hns, srow, trow, c1, c2, hie] using h3a
            · have h3b := h3 calls
              simpa [sd, td, hns, srow, trow, c1, c2, hie] using h3b

/-- With adapters that stream `src` and `tgt`, `StreamCompareData` returns without
error once the fuel exceeds the number of rows, having made the calls of the plain
merge. -/
theorem streamCompareData_eq_merge (srcDB tgtDB : DBAdapter) (rule : ICompareRule)
    (batchSize : Nat) (cols pks : List String) (src tgt : List RecordMap)
    (hcols : getTableColumns tgtDB rule.GetTable = .ok (cols, pks))
    (hsrc : Streams srcDB rule.GetTable cols pks batchSize [] (src.map some))
    (htgt : Streams tgtDB rule.GetTable cols pks batchSize [] (tgt.map some))
    (fuel : Nat) (hfuel : src.length + tgt.length < fuel) :
    StreamCompareData fuel srcDB tgtDB rule batchSize =
      some { calls := mergeCalls pks rule src tgt, err := none } := by
  unfold StreamCompareData
  rw [hcols]
  simp only
  rw [walkLoop_spec srcDB tgtDB rule.GetTable cols pks batchSize rule fuel _ _ [] src tgt hfuel]
  · simp
  · exact Or.inr ⟨rfl, [], src.map some,
      newRowBatchIterator_iterAt srcDB rule.GetTable cols pks batchSize, hsrc, by simp⟩
  · exact Or.inr ⟨rfl, [], tgt.map some,
      newRowBatchIterator_iterAt tgtDB rule.GetTable cols pks batchSize, htgt, by simp⟩

theorem allFieldsEqual_self (columns : List String) (a : Record) :
    AllFieldsEqualRule.IsEqual columns a a = true := by
  induction columns with
  | nil => rfl
  | cons c cs ih => simp [AllFieldsEqualRule.IsEqual, ih]

theorem mergeCalls_self (pk : List String) (rule : ICompareRule)
    (hrefl : ∀ r : RecordMap, rule.IsEqual (some r) (some r) = true) (rows : List RecordMap) :
    mergeCalls pk rule rows rows = [] := by
  induction rows with
  | nil => simp [mergeCalls]
  | cons r rs ih =>
    rw [mergeCalls]
    simp [comparePKRecord_self, hrefl, ih]

/-! ## The plain merge on ascending row lists -/

theorem comparePKRecord_lt_trans {a b c : Record} {pk : List String}
    (hab : comparePKRecord a b pk < 0) (hbc : comparePKRecord b c pk < 0) :
    comparePKRecord a c pk < 0 :=
  (comparePKRecord_trans a b c pk (le_of_lt hab) (le_of_lt hbc)).2 (Or.inl hab)

theorem comparePKRecord_lt_of_eq_of_lt {a b c : Record} {pk : List String}
    (hab : comparePKRecord a b pk = 0) (hbc : comparePKRecord b c pk < 0) :
    comparePKRecord a c pk < 0 :=
  (comparePKRecord_trans a b c pk (le_of_eq hab) (le_of_lt hbc)).2 (Or.inr hbc)

theorem comparePKRecord_lt_of_lt_of_eq {a b c : Record} {pk : List String}
    (hab : comparePKRecord a b pk < 0) (hbc : comparePKRecord b c pk = 0) :
    comparePKRecord a c pk < 0 :=
  (comparePKRecord_trans a b c pk (le_of_lt hab) (le_of_eq hbc)).2 (Or.inl hab)

theorem comparePKRecord_swap_lt {a b : Record} {pk : List String}
    (h : comparePKRecord a b pk > 0) : comparePKRecord b a pk < 0 := by
  rw [comparePKRecord_neg] at h
  omega

theorem comparePKRecord_swap_eq {a b : Record} {pk : List String}
    (h : comparePKRecord a b pk = 0) : comparePKRecord b a pk = 0 := by
  rw [comparePKRecord_neg] at h
  omega

theorem comparePKRecord_eq_of_not {a b : Record} {pk : List String}
    (h1 : ¬ comparePKRecord a b pk < 0) (h2 : ¬ comparePKRecord a b pk > 0) :
    comparePKRecord a b pk = 0 := by
  omega

theorem strictlyAscending_pairwise {pk : List String} {rows : List RecordMap}
    (h : StrictlyAscending pk rows) :
    rows.Pairwise fun a b => comparePKRecord (some a) (some b) pk < 0 := by
  have ht : IsTrans RecordMap fun a b => comparePKRecord (some a) (some b) pk < 0 :=
    ⟨fun _ _ _ hab hbc => comparePKRecord_lt_trans hab hbc⟩
  exact List.chain'_iff_pairwise.1 h

theorem expectedCall_step_add (pk : List String) (rule : ICompareRule) (s : RecordMap)
    (ss tgt : List RecordMap) (c : HandleCall)
    (h : ∀ t ∈ tgt, comparePKRecord (some s) (some t) pk < 0) :
    ExpectedCall pk rule (s :: ss) tgt c ↔
      c = { diffType := .ADD, srcRow := some s, tgtRow := none } ∨
        ExpectedCall pk rule ss tgt c := by
  have hne : ∀ t ∈ tgt, comparePKRecord (some s) (some t) pk ≠ 0 :=
    fun t ht => ne_of_lt (h t ht)
  constructor
  · rintro (⟨x, hx, hc, rfl⟩ | ⟨t, ht, hc, rfl⟩ | ⟨x, hx, t, ht, h0, he, rfl⟩)
    · rcases List.mem_cons.1 hx with rfl | hx
      · exact Or.inl rfl
      · exact Or.inr (Or.inl ⟨x, hx, hc, rfl⟩)
    · exact Or.inr (Or.inr (Or.inl ⟨t, ht, fun y hy => hc y (List.mem_cons_of_mem _ hy), rfl⟩))
    · rcases List.mem_cons.1 hx with rfl | hx
      · exact absurd h0 (hne t ht)
      · exact Or.inr (Or.inr (Or.inr ⟨x, hx, t, ht, h0, he, rfl⟩))
  · rintro (rfl | ⟨x, hx, hc, rfl⟩ | ⟨t, ht, hc, rfl⟩ | ⟨x, hx, t, ht, h0, he, rfl⟩)
    · exact Or.inl ⟨s, List.mem_cons_self _ _, hne, rfl⟩
    · exact Or.inl ⟨x, List.mem_cons_of_mem _ hx, hc, rfl⟩
    · refine Or.inr (Or.inl ⟨t, ht, ?_, rfl⟩)
      intro y hy
      rcases List.mem_cons.1 hy with rfl | hy
      · exact hne t ht
      · exact hc y hy
    · exact Or.inr (Or.inr ⟨x, List.mem_cons_of_mem _ hx, t, ht, h0, he, rfl⟩)

theorem expectedCall_step_drop (pk : List String) (rule : ICompareRule) (t : RecordMap)
    (src ts : List RecordMap) (c : HandleCall)
    (h : ∀ s ∈ src, comparePKRecord (some t) (some s) pk < 0) :
    ExpectedCall pk rule src (t :: ts) c ↔
      c = { diffType := .DROP, srcRow := none, tgtRow := some t } ∨
        ExpectedCall pk rule src ts c := by
  have hne : ∀ s ∈ src, comparePKRecord (some s) (some t) pk ≠ 0 := by
    intro s hs e
    have := h s hs
    rw [comparePKRecord_swap_eq e] at this
    exact lt_irrefl _ this
  constructor
  · rintro (⟨x, hx, hc, rfl⟩ | ⟨y, hy, hc, rfl⟩ | ⟨x, hx, y, hy, h0, he, rfl⟩)
    · exact Or.inr (Or.inl ⟨x, hx, fun y hy => hc y (List.mem_cons_of_mem _ hy), rfl⟩)
    · rcases List.mem_cons.1 hy with rfl | hy
      · exact Or.inl rfl
      · exact Or.inr (Or.inr (Or.inl ⟨y, hy, hc, rfl⟩))
    · rcases List.mem_cons.1 hy with rfl | hy
      · exact absurd h0 (hne x hx)
      · exact Or.inr (Or.inr (Or.inr ⟨x, hx, y, hy, h0, he, rfl⟩))
  · rintro (rfl | ⟨x, hx, hc, rfl⟩ | ⟨y, hy, hc, rfl⟩ | ⟨x, hx, y, hy, h0, he, rfl⟩)
    · exact Or.inr (Or.inl ⟨t, List.mem_cons_self _ _, hne, rfl⟩)
    · refine Or.inl ⟨x, hx, ?_, rfl⟩
      intro y hy
      rcases List.mem_cons.1 hy with rfl | hy
      · exact hne x hx
      · exact hc y hy
    · exact Or.inr (Or.inl ⟨y, List.mem_cons_of_mem _ hy, hc, rfl⟩)
    · exact Or.inr (Or.inr ⟨x, hx, y, List.mem_cons_of_mem _ hy, h0, he, rfl⟩)

theorem expectedCall_step_both (pk : List String) (rule : ICompareRule) (s t : RecordMap)
    (ss ts : List RecordMap) (c : HandleCall)
    (hst : comparePKRecord (some s) (some t) pk = 0)
    (hs : ∀ x ∈ ss, comparePKRecord (some s) (some x) pk < 0)
    (ht : ∀ y ∈ ts, comparePKRecord (some t) (some y) pk < 0) :
    ExpectedCall pk rule (s :: ss) (t :: ts) c ↔
      (rule.IsEqual (some s) (some t) = false ∧
        c = { diffType := .MODIFY, srcRow := some s, tgtRow := some t }) ∨
        ExpectedCall pk rule ss ts c := by
  have h1 : ∀ y ∈ ts, comparePKRecord (some s) (some y) pk ≠ 0 :=
    fun y hy => ne_of_lt (comparePKRecord_lt_of_eq_of_lt hst (ht y hy))
  have h2 : ∀ x ∈ ss, comparePKRecord (some x) (some t) pk ≠ 0 := by
    intro x hx e
    have := comparePKRecord_lt_of_lt_of_eq (hs x hx) e
    rw [hst] at this
    exact lt_irrefl _ this
  constructor
  · rintro (⟨x, hx, hc, rfl⟩ | ⟨y, hy, hc, rfl⟩ | ⟨x, hx, y, hy, h0, he, rfl⟩)
    · rcases List.mem_cons.1 hx with rfl | hx
      · exact absurd hst (hc t (List.mem_cons_self _ _))
      · exact Or.inr (Or.inl ⟨x, hx, fun y hy => hc y (List.mem_cons_of_mem _ hy), rfl⟩)
    · rcases List.mem_cons.1 hy with rfl | hy
      · exact absurd hst (hc s (List.mem_cons_self _ _))
      · exact Or.inr (Or.inr (Or.inl ⟨y, hy, fun x hx => hc x (List.mem_cons_of_mem _ hx), rfl⟩))
    · rcases List.mem_cons.1 hx with rfl | hx
      · rcases List.mem_cons.1 hy with rfl | hy
        · exact Or.inl ⟨he, rfl⟩
        · exact absurd h0 (h1 y hy)
      · rcases List.mem_cons.1 hy with rfl | hy
        · exact absurd h0 (h2 x hx)
        · exact Or.inr (Or.inr (Or.inr ⟨x, hx, y, hy, h0, he, rfl⟩))
  · rintro (⟨he, rfl⟩ | ⟨x, hx, hc, rfl⟩ | ⟨y, hy, hc, rfl⟩ | ⟨x, hx, y, hy, h0, he, rfl⟩)
    · exact Or.inr (Or.inr ⟨s, List.mem_cons_self _ _, t, List.mem_cons_self _ _, hst, he, rfl⟩)
    · refine Or.inl ⟨x, List.mem_cons_of_mem _ hx, ?_, rfl⟩
      intro y hy
      rcases List.mem_cons.1 hy with rfl | hy
      · exact h2 x hx
      · exact hc y hy
    · refine Or.inr (Or.inl ⟨y, List.mem_cons_of_mem _ hy, ?_, rfl⟩)
      intro x hx
      rcases List.mem_cons.1 hx with rfl | hx
      · exact h1 y hy
      · exact hc x hx
    · exact Or.inr (Or.inr
        ⟨x, List.mem_cons_of_mem _ hx, y, List.mem_cons_of_mem _ hy, h0, he, rfl⟩)

theorem expectedCall_nil (pk : List String) (rule : ICompareRule) (c : HandleCall) :
    ¬ ExpectedCall pk rule [] [] c := by
  rintro (⟨x, hx, _⟩ | ⟨y, hy, _⟩ | ⟨x, hx, _⟩)
  · exact List.not_mem_nil _ hx
  · exact List.not_mem_nil _ hy
  · exact List.not_mem_nil _ hx

theorem mem_mergeCalls_iff (pk : List String) (rule : ICompareRule) :
    ∀ (src tgt : List RecordMap),
      src.Pairwise (fun a b => comparePKRecord (some a) (some b) pk < 0) →
      tgt.Pairwise (fun a b => comparePKRecord (some a) (some b) pk < 0) →
      ∀ c, c ∈ mergeCalls pk rule src tgt ↔ ExpectedCall pk rule src tgt c := by
  intro src tgt
  induction src, tgt using mergeCalls.induct pk rule with
  | case1 =>
    intro _ _ c
    simp [mergeCalls, expectedCall_nil]
  | case2 s ss ih =>
    intro hs ht c
    rw [mergeCalls, List.mem_cons, ih (List.Pairwise.of_cons hs) ht c,
      expectedCall_step_add pk rule s ss [] c (fun t h => absurd h (List.not_mem_nil t))]
  | case3 t ts ih =>
    intro hs ht c
    rw [mergeCalls, List.mem_cons, ih hs (List.Pairwise.of_cons ht) c,
      expectedCall_step_drop pk rule t [] ts c (fun t h => absurd h (List.not_mem_nil t))]
  | case4 s ss t ts hlt ih =>
    intro hs ht c
    rw [mergeCalls, if_pos hlt, List.mem_cons, ih (List.Pairwise.of_cons hs) ht c,
      expectedCall_step_add pk rule s ss (t :: ts) c]
    intro y hy
    rcases List.mem_cons.1 hy with rfl | hy
    · exact hlt
    · exact comparePKRecord_lt_trans hlt (List.rel_of_pairwise_cons ht hy)
  | case5 s ss t ts hlt hgt ih =>
    intro hs ht c
    rw [mergeCalls, if_neg hlt, if_pos hgt, List.mem_cons, ih hs (List.Pairwise.of_cons ht) c,
      expectedCall_step_drop pk rule t (s :: ss) ts c]
    intro x hx
    rcases List.mem_cons.1 hx with rfl | hx
    · exact comparePKRecord_swap_lt hgt
    · exact comparePKRecord_lt_trans (comparePKRecord_swap_lt hgt) (List.rel_of_pairwise_cons hs hx)
  | case6 s ss t ts hlt hgt hne ih =>
    intro hs ht c
    have he : rule.IsEqual (some s) (some t) = false := by simpa using hne
    rw [mergeCalls, if_neg hlt, if_neg hgt, if_pos hne, List.mem_cons,
      ih (List.Pairwise.of_cons hs) (List.Pairwise.of_cons ht) c,
      expectedCall_step_both pk rule s t ss ts c (comparePKRecord_eq_of_not hlt hgt)
        (fun x hx => List.rel_of_pairwise_cons hs hx)
        (fun y hy => List.rel_of_pairwise_cons ht hy)]
    simp [he]
  | case7 s ss t ts hlt hgt hne ih =>
    intro hs ht c
    have he : rule.IsEqual (some s) (some t) = true := by simpa using hne
    rw [mergeCalls, if_neg hlt, if_neg hgt, if_neg hne,
      ih (List.Pairwise.of_cons hs) (List.Pairwise.of_cons ht) c,
      expectedCall_step_both pk rule s t ss ts c (comparePKRecord_eq_of_not hlt hgt)
        (fun x hx => List.rel_of_pairwise_cons hs hx)
        (fun y hy => List.rel_of_pairwise_cons ht hy)]
    simp [he]

theorem keyRow_mem_of_mem_mergeCalls (pk : List String) (rule : ICompareRule) :
    ∀ (src tgt : List RecordMap) (c : HandleCall), c ∈ mergeCalls pk rule src tgt →
      (∃ s ∈ src, c.keyRow = some s) ∨ (∃ t ∈ tgt, c.keyRow = some t) := by
  intro src tgt
  induction src, tgt using mergeCalls.induct pk rule with
  | case1 =>
    intro c h
    simp [mergeCalls] at h
  | case2 s ss ih =>
    intro c h
    rw [mergeCalls, List.mem_cons] at h
    rcases h with rfl | h
    · exact Or.inl ⟨s, List.mem_cons_self _ _, rfl⟩
    · rcases ih c h with ⟨x, hx, e⟩ | ⟨y, hy, e⟩
      · exact Or.inl ⟨x, List.mem_cons_of_mem _ hx, e⟩
      · exact Or.inr ⟨y, hy, e⟩
  | case3 t ts ih =>
    intro c h
    rw [mergeCalls, List.mem_cons] at h
    rcases h with rfl | h
    · exact Or.inr ⟨t, List.mem_cons_self _ _, rfl⟩
    · rcases ih c h with ⟨x, hx, e⟩ | ⟨y, hy, e⟩
      · exact Or.inl ⟨x, hx, e⟩
      · exact Or.inr ⟨y, List.mem_cons_of_mem _ hy, e⟩
  | case4 s ss t ts hlt ih =>
    intro c h
    rw [mergeCalls, if_pos hlt, List.mem_cons] at h
    rcases h with rfl | h
    · exact Or.inl ⟨s, List.mem_cons_self _ _, rfl⟩
    · rcases ih c h with ⟨x, hx, e⟩ | ⟨y, hy, e⟩
      · exact Or.inl ⟨x, List.mem_cons_of_mem _ hx, e⟩
      · exact Or.inr ⟨y, hy, e⟩
  | case5 s ss t ts hlt hgt ih =>
    intro c h
    rw [mergeCalls, if_neg hlt, if_pos hgt, List.mem_cons] at h
    rcases h with rfl | h
    · exact Or.inr ⟨t, List.mem_cons_self _ _, rfl⟩
    · rcases ih c h with ⟨x, hx, e⟩ | ⟨y, hy, e⟩
      · exact Or.inl ⟨x, hx, e⟩
      · exact Or.inr ⟨y, List.mem_cons_of_mem _ hy, e⟩
  | case6 s ss t ts hlt hgt hne ih =>
    intro c h
    rw [mergeCalls, if_neg hlt, if_neg hgt, if_pos hne, List.mem_cons] at h
    rcases h with rfl | h
    · exact Or.inl ⟨s, List.mem_cons_self _ _, rfl⟩
    · rcases ih c h with ⟨x, hx, e⟩ | ⟨y, hy, e⟩
      · exact Or.inl ⟨x, List.mem_cons_of_mem _ hx, e⟩
      · exact Or.inr ⟨y, List.mem_cons_of_mem _ hy, e⟩
  | case7 s ss t ts hlt hgt hne ih =>
    intro c h
    rw [mergeCalls, if_neg hlt, if_neg hgt, if_neg hne] at h
    rcases ih c h with ⟨x, hx, e⟩ | ⟨y, hy, e⟩
    · exact Or.inl ⟨x, List.mem_cons_of_mem _ hx, e⟩
    · exact Or.inr ⟨y, List.mem_cons_of_mem _ hy, e⟩

/-- A row below every row of both lists is below the key of every call of the merge. -/
theorem lt_keyRow_of_mem_mergeCalls (pk : List String) (rule : ICompareRule) (a : Record)
    (src tgt : List RecordMap)
    (hs : ∀ x ∈ src, comparePKRecord a (some x) pk < 0)
    (ht : ∀ y ∈ tgt, comparePKRecord a (some y) pk < 0)
    (c : HandleCall) (hc : c ∈ mergeCalls pk rule src tgt) :
    comparePKRecord a c.keyRow pk < 0 := by
  rcases keyRow_mem_of_mem_mergeCalls pk rule src tgt c hc with ⟨x, hx, e⟩ | ⟨y, hy, e⟩
  · rw [e]
    exact hs x hx
  · rw [e]
    exact ht y hy

theorem mergeCalls_pairwise (pk : List String) (rule : ICompareRule) :
    ∀ (src tgt : List RecordMap),
      src.Pairwise (fun a b => comparePKRecord (some a) (some b) pk < 0) →
      tgt.Pairwise (fun a b => comparePKRecord (some a) (some b) pk < 0) →
      (mergeCalls pk rule src tgt).Pairwise
        fun c d => comparePKRecord c.keyRow d.keyRow pk < 0 := by
  intro src tgt
  induction src, tgt using mergeCalls.induct pk rule with
  | case1 =>
    intro _ _
    simp [mergeCalls]
  | case2 s ss ih =>
    intro hs ht
    rw [mergeCalls]
    refine List.Pairwise.cons ?_ (ih (List.Pairwise.of_cons hs) ht)
    intro d hd
    exact lt_keyRow_of_mem_mergeCalls pk rule (some s) ss []
      (fun x hx => List.rel_of_pairwise_cons hs hx)
      (fun y hy => absurd hy (List.not_mem_nil y)) d hd
  | case3 t ts ih =>
    intro hs ht
    rw [mergeCalls]
    refine List.Pairwise.cons ?_ (ih hs (List.Pairwise.of_cons ht))
    intro d hd
    exact lt_keyRow_of_mem_mergeCalls pk rule (some t) [] ts
      (fun x hx => absurd hx (List.not_mem_nil x))
      (fun y hy => List.rel_of_pairwise_cons ht hy) d hd
  | case4 s ss t ts hlt ih =>
    intro hs ht
    rw [mergeCalls, if_pos hlt]
    refine List.Pairwise.cons ?_ (ih (List.Pairwise.of_cons hs) ht)
    intro d hd
    refine lt_keyRow_of_mem_mergeCalls pk rule (some s) ss (t :: ts)
      (fun x hx => List.rel_of_pairwise_cons hs hx) ?_ d hd
    intro y hy
    rcases List.mem_cons.1 hy with rfl | hy
    · exact hlt
    · exact comparePKRecord_lt_trans hlt (List.rel_of_pairwise_cons ht hy)
  | case5 s ss t ts hlt hgt ih =>
    intro hs ht
    rw [mergeCalls, if_neg hlt, if_pos hgt]
    refine List.Pairwise.cons ?_ (ih hs (List.Pairwise.of_cons ht))
    intro d hd
    refine lt_keyRow_of_mem_mergeCalls pk rule (some t) (s :: ss) ts ?_
      (fun y hy => List.rel_of_pairwise_cons ht hy) d hd
    intro x hx
    rcases List.mem_cons.1 hx with rfl | hx
    · exact comparePKRecord_swap_lt hgt
    · exact comparePKRecord_lt_trans (comparePKRecord_swap_lt hgt) (List.rel_of_pairwise_cons hs hx)
  | case6 s ss t ts hlt hgt hne ih =>
    intro hs ht
    rw [mergeCalls, if_neg hlt, if_neg hgt, if_pos hne]
    refine List.Pairwise.cons ?_ (ih (List.Pairwise.of_cons hs) (List.Pairwise.of_cons ht))
    intro d hd
    refine lt_keyRow_of_mem_mergeCalls pk rule (some s) ss ts
      (fun x hx => List.rel_of_pairwise_cons hs hx) ?_ d hd
    intro y hy
    exact comparePKRecord_lt_of_eq_of_lt (comparePKRecord_eq_of_not hlt hgt)
      (List.rel_of_pairwise_cons ht hy)
  | case7 s ss t ts hlt hgt hne ih =>
    intro hs ht
    rw [mergeCalls, if_neg hlt, if_neg hgt, if_neg hne]
    exact ih (List.Pairwise.of_cons hs) (List.Pairwise.of_cons ht)

theorem mergeCalls_nodup (pk : List String) (rule : ICompareRule) (src tgt : List RecordMap)
    (hs : src.Pairwise (fun a b => comparePKRecord (some a) (some b) pk < 0))
    (ht : tgt.Pairwise (fun a b => comparePKRecord (some a) (some b) pk < 0)) :
    (mergeCalls pk rule src tgt).Nodup := by
  refine List.Pairwise.imp ?_ (mergeCalls_pairwise pk rule src tgt hs ht)
  intro c d h e
  rw [e, comparePKRecord_self] at h
  exact lt_irrefl _ h

/-! ## Claims on the streaming data diff -/

/-- Claim C1.  With the primary key `pks` of the target table and adapters that stream
the row lists `src` and `tgt` in consecutive batches, both strictly ascending under
`comparePKRecord`, `StreamCompareData` returns without error and calls the handler
exactly once with each of: ADD(s, nil) for a source row `s` whose key equals no target
key, DROP(nil, t) for a target row `t` whose key equals no source key, MODIFY(s, t)
for a key-equal pair on which `rule.IsEqual` is false; it makes no other call.  This
holds for every key list and batch size, so for the non-empty keys and the batch sizes
from 1 on. -/
theorem streamCompareData_classifies_rows (srcDB tgtDB : DBAdapter) (rule : ICompareRule)
    (batchSize : Nat) (cols pks : List String) (src tgt : List RecordMap)
    (hcols : getTableColumns tgtDB rule.GetTable = .ok (cols, pks))
    (hsrc : Streams srcDB rule.GetTable cols pks batchSize [] (src.map some))
    (htgt : Streams tgtDB rule.GetTable cols pks batchSize [] (tgt.map some))
    (hsa : StrictlyAscending pks src) (hta : StrictlyAscending pks tgt) :
    ∃ calls : List HandleCall,
      (∀ fuel, src.length + tgt.length < fuel →
        StreamCompareData fuel srcDB tgtDB rule batchSize =
          some { calls := calls, err := none }) ∧
      calls.Nodup ∧
      ∀ c, c ∈ calls ↔
        (∃ s ∈ src, (∀ t ∈ tgt, comparePKRecord (some s) (some t) pks ≠ 0) ∧
          c = { diffType := .ADD, srcRow := some s, tgtRow := none }) ∨
        (∃ t ∈ tgt, (∀ s ∈ src, comparePKRecord (some s) (some t) pks ≠ 0) ∧
          c = { diffType := .DROP, srcRow := none, tgtRow := some t }) ∨
        (∃ s ∈ src, ∃ t ∈ tgt, comparePKRecord (some s) (some t) pks = 0 ∧
          rule.IsEqual (some s) (some t) = false ∧
          c = { diffType := .MODIFY, srcRow := some s, tgtRow := some t }) :=
  ⟨mergeCalls pks rule src tgt,
    fun fuel hfuel =>
      streamCompareData_eq_merge srcDB tgtDB rule batchSize cols pks src tgt hcols hsrc htgt
        fuel hfuel,
    mergeCalls_nodup pks rule src tgt (strictlyAscending_pairwise hsa)
      (strictlyAscending_pairwise hta),
    mem_mergeCalls_iff pks rule src tgt (strictlyAscending_pairwise hsa)
      (strictlyAscending_pairwise hta)⟩

/-- The interleaved scenario of `TestStreamCompareData`: source ids 1, 3, 5 and target
ids 2, 3, 4 with a differing `val` at 3, batch size 2. -/
theorem streamCompareData_classifies_rows_witness :
    StreamCompareData 7
        (listDB [some (testRow 1 "a"), some (testRow 3 "c"), some (testRow 5 "e")] testTable)
        (listDB [some (testRow 2 "b"), some (testRow 3 "C"), some (testRow 4 "d")] testTable)
        (AllFieldsEqualRule "t" ["val"]) 2 =
      some
        { calls :=
            [{ diffType := .ADD, srcRow := some (testRow 1 "a"), tgtRow := none },
             { diffType := .DROP, srcRow := none, tgtRow := some (testRow 2 "b") },
             { diffType := .MODIFY, srcRow := some (testRow 3 "c"),
               tgtRow := some (testRow 3 "C") },
             { diffType := .DROP, srcRow := none, tgtRow := some (testRow 4 "d") },
             { diffType := .ADD, srcRow := some (testRow 5 "e"), tgtRow := none }],
          err := none } ∧
    ∃ calls : List HandleCall,
      (∀ fuel, 3 + 3 < fuel →
        StreamCompareData fuel
            (listDB [some (testRow 1 "a"), some (testRow 3 "c"), some (testRow 5 "e")] testTable)
            (listDB [some (testRow 2 "b"), some (testRow 3 "C"), some (testRow 4 "d")] testTable)
            (AllFieldsEqualRule "t" ["val"]) 2 =
          some { calls := calls, err := none }) ∧
      calls.Nodup :=
  ⟨by decide,
    (streamCompareData_classifies_rows
      (listDB [some (testRow 1 "a"), some (testRow 3 "c"), some (testRow 5 "e")] testTable)
      (listDB [some (testRow 2 "b"), some (testRow 3 "C"), some (testRow 4 "d")] testTable)
      (AllFieldsEqualRule "t" ["val"]) 2 ["id", "val"] ["id"]
      [testRow 1 "a", testRow 3 "c", testRow 5 "e"]
      [testRow 2 "b", testRow 3 "C", testRow 4 "d"]
      rfl
      (Streams.batch [] (some (testRow 1 "a")) [some (testRow 3 "c")] [some (testRow 5 "e")]
        (by decide) rfl
        (Streams.batch _ (some (testRow 5 "e")) [] [] (by decide) rfl (Streams.done _ rfl)))
      (Streams.batch [] (some (testRow 2 "b")) [some (testRow 3 "C")] [some (testRow 4 "d")]
        (by decide) rfl
        (Streams.batch _ (some (testRow 4 "d")) [] [] (by decide) rfl (Streams.done _ rfl)))
      (by simp only [StrictlyAscending, List.chain'_cons, List.chain'_singleton, and_true]
          decide)
      (by simp only [StrictlyAscending, List.chain'_cons, List.chain'_singleton, and_true]
          decide)).imp fun _ h => ⟨h.1, h.2.1⟩⟩

/-- Claim C2.  When both streams are strictly ascending under `comparePKRecord`, the
calls that `StreamCompareData` makes are in strictly ascending primary-key order: the
key of every call is below the key of every later call, the key of an ADD or a MODIFY
being that of the source row and the key of a DROP that of the target row. -/
theorem streamCompareData_calls_ascending (srcDB tgtDB : DBAdapter) (rule : ICompareRule)
    (batchSize : Nat) (cols pks : List String) (src tgt : List RecordMap)
    (hcols : getTableColumns tgtDB rule.GetTable = .ok (cols, pks))
    (hsrc : Streams srcDB rule.GetTable cols pks batchSize [] (src.map some))
    (htgt : Streams tgtDB rule.GetTable cols pks batchSize [] (tgt.map some))
    (hsa : StrictlyAscending pks src) (hta : StrictlyAscending pks tgt) :
    ∃ calls : List HandleCall,
      (∀ fuel, src.length + tgt.length < fuel →
        StreamCompareData fuel srcDB tgtDB rule batchSize =
          some { calls := calls, err := none }) ∧
      calls.Pairwise fun c d => comparePKRecord c.keyRow d.keyRow pks < 0 :=
  ⟨mergeCalls pks rule src tgt,
    fun fuel hfuel =>
      streamCompareData_eq_merge srcDB tgtDB rule batchSize cols pks src tgt hcols hsrc htgt
        fuel hfuel,
    mergeCalls_pairwise pks rule src tgt (strictlyAscending_pairwise hsa)
      (strictlyAscending_pairwise hta)⟩

/-- The interleaved scenario of `TestStreamCompareData_MultiPKMultiCompare`: primary
key `id, sub`, source keys (1,1), (2,2) and target keys (1,2), (2,1), batch size 2. -/
theorem streamCompareData_calls_ascending_witness :
    StreamCompareData 5
        (listDB [some (testRow2 1 1 "a" "b"), some (testRow2 2 2 "c" "d")] testTable2)
        (listDB [some (testRow2 1 2 "C" "d"), some (testRow2 2 1 "c" "d")] testTable2)
        (AllFieldsEqualRule "t" ["a", "b"]) 2 =
      some
        { calls :=
            [{ diffType := .ADD, srcRow := some (testRow2 1 1 "a" "b"), tgtRow := none },
             { diffType := .DROP, srcRow := none, tgtRow := some (testRow2 1 2 "C" "d") },
             { diffType := .DROP, srcRow := none, tgtRow := some (testRow2 2 1 "c" "d") },
             { diffType := .ADD, srcRow := some (testRow2 2 2 "c" "d"), tgtRow := none }],
          err := none } ∧
    ∃ calls : List HandleCall,
      (∀ fuel, 2 + 2 < fuel →
        StreamCompareData fuel
            (listDB [some (testRow2 1 1 "a" "b"), some (testRow2 2 2 "c" "d")] testTable2)
            (listDB [some (testRow2 1 2 "C" "d"), some (testRow2 2 1 "c" "d")] testTable2)
            (AllFieldsEqualRule "t" ["a", "b"]) 2 =
          some { calls := calls, err := none }) ∧
      calls.Pairwise fun c d => comparePKRecord c.keyRow d.keyRow ["id", "sub"] < 0 :=
  ⟨by decide,
    streamCompareData_calls_ascending
      (listDB [some (testRow2 1 1 "a" "b"), some (testRow2 2 2 "c" "d")] testTable2)
      (listDB [some (testRow2 1 2 "C" "d"), some (testRow2 2 1 "c" "d")] testTable2)
      (AllFieldsEqualRule "t" ["a", "b"]) 2 ["id", "sub", "a", "b"] ["id", "sub"]
      [testRow2 1 1 "a" "b", testRow2 2 2 "c" "d"]
      [testRow2 1 2 "C" "d", testRow2 2 1 "c" "d"]
      rfl
      (Streams.batch [] (some (testRow2 1 1 "a" "b")) [some (testRow2 2 2 "c" "d")] []
        (by decide) rfl (Streams.done _ rfl))
      (Streams.batch [] (some (testRow2 1 2 "C" "d")) [some (testRow2 2 1 "c" "d")] []
        (by decide) rfl (Streams.done _ rfl))
      (by simp only [StrictlyAscending, List.chain'_cons, List.chain'_singleton, and_true]
          decide)
      (by simp only [StrictlyAscending, List.chain'_cons, List.chain'_singleton, and_true]
          decide)⟩

/-- Claim C3.  When the source and the target deliver the same row sequence, then for
every primary-key column list, every list of compared columns and every batch size
`StreamCompareData` calls the handler not once and returns no error; the rows need not
be ordered. -/
theorem streamCompareData_identical_rows (srcDB tgtDB : DBAdapter) (table : String)
    (columns : List String) (batchSize : Nat) (cols pks : List String) (rows : List RecordMap)
    (hcols : getTableColumns tgtDB table = .ok (cols, pks))
    (hsrc : Streams srcDB table cols pks batchSize [] (rows.map some))
    (htgt : Streams tgtDB table cols pks batchSize [] (rows.map some)) :
    ∀ fuel, rows.length + rows.length < fuel →
      StreamCompareData fuel srcDB tgtDB (AllFieldsEqualRule table columns) batchSize =
        some { calls := [], err := none } := by
  intro fuel hfuel
  have h := streamCompareData_eq_merge srcDB tgtDB (AllFieldsEqualRule table columns) batchSize
    cols pks rows rows hcols hsrc htgt fuel hfuel
  rw [mergeCalls_self pks (AllFieldsEqualRule table columns)
    (fun r => allFieldsEqual_self columns (some r)) rows] at h
  exact h

/-- Three rows that are not in key order (ids 2, 1, 3), the same on both sides, batch
size 2, compared on `val`. -/
theorem streamCompareData_identical_rows_witness :
    StreamCompareData 7
        (listDB [some (testRow 2 "b"), some (testRow 1 "a"), some (testRow 3 "c")] testTable)
        (listDB [some (testRow 2 "b"), some (testRow 1 "a"), some (testRow 3 "c")] testTable)
        (AllFieldsEqualRule "t" ["val"]) 2 =
      some { calls := [], err := none } :=
  streamCompareData_identical_rows
    (listDB [some (testRow 2 "b"), some (testRow 1 "a"), some (testRow 3 "c")] testTable)
    (listDB [some (testRow 2 "b"), some (testRow 1 "a"), some (testRow 3 "c")] testTable)
    "t" ["val"] 2 ["id", "val"] ["id"] [testRow 2 "b", testRow 1 "a", testRow 3 "c"]
    rfl
    (Streams.batch [] (some (testRow 2 "b")) [some (testRow 1 "a")] [some (testRow 3 "c")]
      (by decide) rfl
      (Streams.batch _ (some (testRow 3 "c")) [] [] (by decide) rfl (Streams.done _ rfl)))
    (Streams.batch [] (some (testRow 2 "b")) [some (testRow 1 "a")] [some (testRow 3 "c")]
      (by decide) rfl
      (Streams.batch _ (some (testRow 3 "c")) [] [] (by decide) rfl (Streams.done _ rfl)))
    7 (by decide)

/-- Claim C4.  If the target table has no primary key and `GetTableDataBatch` of the
source adapter, the first to be fetched, fails on an empty `pk` list (as both shipped
adapters do), then `StreamCompareData` returns that error without a single call of the
handler, and `StreamCompareDataToDiff` returns a nil diff together with the same
error. -/
theorem streamCompareData_no_primary_key (srcDB tgtDB : DBAdapter) (rule : ICompareRule)
    (batchSize : Nat) (tbl : Table)
    (htbl : tgtDB.ExtractTable rule.GetTable = .ok tbl)
    (hpk : tbl.PrimaryKey = none)
    (hfail : ∀ table cols lastPK limit,
      ∃ err, srcDB.GetTableDataBatch table cols [] lastPK limit = .error err) :
    ∃ err, ∀ fuel, 0 < fuel →
      StreamCompareData fuel srcDB tgtDB rule batchSize = some { calls := [], err := some err } ∧
      StreamCompareDataToDiff fuel srcDB tgtDB rule batchSize = some (.error err) := by
  obtain ⟨err, herr⟩ := hfail rule.GetTable tbl.Columns.keys [] batchSize
  refine ⟨err, ?_⟩
  intro fuel hfuel
  obtain ⟨n, rfl⟩ : ∃ n, fuel = n + 1 := ⟨fuel - 1, by omega⟩
  have hrun : StreamCompareData (n + 1) srcDB tgtDB rule batchSize =
      some { calls := [], err := some err } := by
    simp [StreamCompareData, getTableColumns, htbl, hpk, walkLoop, WalkSide.refill,
      rowBatchIterator.NextBatch, newRowBatchIterator, herr]
  refine ⟨hrun, ?_⟩
  simp [StreamCompareDataToDiff, hrun]

/-- An adapter with the guard of the shipped adapters, over the table `t` without a
primary key. -/
theorem streamCompareData_no_primary_key_witness :
    ∃ err, ∀ fuel, 0 < fuel →
      StreamCompareData fuel (guardedDB [some (testRow 1 "a")] testTableNoPK)
          (guardedDB [some (testRow 2 "b")] testTableNoPK) (AllFieldsEqualRule "t" ["val"]) 2 =
        some { calls := [], err := some err } ∧
      StreamCompareDataToDiff fuel (guardedDB [some (testRow 1 "a")] testTableNoPK)
          (guardedDB [some (testRow 2 "b")] testTableNoPK) (AllFieldsEqualRule "t" ["val"]) 2 =
        some (.error err) :=
  streamCompareData_no_primary_key (guardedDB [some (testRow 1 "a")] testTableNoPK)
    (guardedDB [some (testRow 2 "b")] testTableNoPK) (AllFieldsEqualRule "t" ["val"]) 2
    testTableNoPK rfl rfl (fun _ _ _ _ => ⟨"primary key required for batch scan", rfl⟩)

/-! ## Go maps -/

theorem foldl_append_eq_filterMap {α β : Type} (f : α → Option β) :
    ∀ (l : List α) (acc : List β),
      l.foldl (fun out e => match f e with
        | some x => out ++ [x]
        | none => out) acc = acc ++ l.filterMap f := by
  intro l
  induction l with
  | nil => intro acc; simp
  | cons a l ih =>
    intro acc
    rw [List.foldl_cons, ih]
    cases h : f a with
    | none => simp [List.filterMap_cons, h]
    | some x => simp [List.filterMap_cons, h]

theorem GoMap.rangeAppend_eq_filterMap {α β : Type} (m : GoMap α) (f : String → α → Option β) :
    m.rangeAppend f = m.entries.filterMap fun e => f e.1 e.2 := by
  unfold GoMap.rangeAppend
  rw [foldl_append_eq_filterMap (fun e : String × α => f e.1 e.2)]
  simp

theorem lookup_eq_some_of_mem {α : Type} :
    ∀ (l : List (String × α)) (k : String) (v : α),
      (l.map Prod.fst).Nodup → (k, v) ∈ l → l.lookup k = some v := by
  intro l
  induction l with
  | nil => intro k v _ h; exact absurd h (List.not_mem_nil _)
  | cons e l ih =>
    intro k v hnd h
    obtain ⟨k0, v0⟩ := e
    rw [List.map_cons, List.nodup_cons] at hnd
    rcases List.mem_cons.1 h with heq | hmem
    · cases heq
      simp [List.lookup]
    · have hne : k ≠ k0 := by
        intro e
        apply hnd.1
        rw [← e]
        exact List.mem_map.2 ⟨(k, v), hmem, rfl⟩
      have hb : (k == k0) = false := by simpa using hne
      rw [List.lookup, hb]
      exact ih k v hnd.2 hmem

theorem mem_of_lookup_eq_some {α : Type} :
    ∀ (l : List (String × α)) (k : String) (v : α), l.lookup k = some v → (k, v) ∈ l := by
  intro l
  induction l with
  | nil => intro k v h; simp at h
  | cons e l ih =>
    intro k v h
    obtain ⟨k0, v0⟩ := e
    by_cases hk : k = k0
    · subst hk
      simp [List.lookup] at h
      subst h
      exact List.mem_cons_self _ _
    · have hb : (k == k0) = false := by simpa using hk
      rw [List.lookup, hb] at h
      exact List.mem_cons_of_mem _ (ih k v h)

theorem lookup_eq_none_iff {α : Type} :
    ∀ (l : List (String × α)) (k : String), l.lookup k = none ↔ k ∉ l.map Prod.fst := by
  intro l
  induction l with
  | nil => intro k; simp
  | cons e l ih =>
    intro k
    obtain ⟨k0, v0⟩ := e
    by_cases hk : k = k0
    · subst hk
      simp [List.lookup]
    · have hb : (k == k0) = false := by simpa using hk
      rw [List.lookup, hb, ih k]
      simp [hk]

theorem GoMap.get?_of_mem {α : Type} (m : GoMap α) {k : String} {v : α}
    (h : (k, v) ∈ m.entries) : m.get? k = some v :=
  lookup_eq_some_of_mem m.entries k v m.nodup h

theorem GoMap.mem_of_get? {α : Type} (m : GoMap α) {k : String} {v : α}
    (h : m.get? k = some v) : (k, v) ∈ m.entries :=
  mem_of_lookup_eq_some m.entries k v h

theorem GoMap.contains_iff {α : Type} (m : GoMap α) (k : String) :
    m.contains k = true ↔ k ∈ m.keys := by
  unfold GoMap.contains GoMap.get? GoMap.keys
  cases h : m.entries.lookup k with
  | none =>
    have := (lookup_eq_none_iff m.entries k).1 h
    simp [this]
  | some v =>
    have := mem_of_lookup_eq_some m.entries k v h
    simp only [Option.isSome_some, true_iff]
    exact List.mem_map.2 ⟨(k, v), this, rfl⟩

/-- The loop that collects what one map has and the other lacks: over a duplicate-free
list of exactly the keys of `m` that `other` lacks it yields the values of `m`. -/
theorem onlyIn_spec {α : Type} (m other : GoMap α) :
    ∃ names : List String, names.Nodup ∧
      (∀ n, n ∈ names ↔ m.contains n = true ∧ other.contains n = false) ∧
      (onlyIn m other).map some = names.map m.get? := by
  refine ⟨(m.entries.filter fun e => !other.contains e.1).map Prod.fst, ?_, ?_, ?_⟩
  · exact (List.Nodup.sublist (List.Sublist.map _ (List.filter_sublist _)) m.nodup)
  · intro n
    rw [GoMap.contains_iff]
    simp only [List.mem_map, List.mem_filter, GoMap.keys]
    constructor
    · rintro ⟨e, ⟨he, hc⟩, rfl⟩
      exact ⟨⟨e, he, rfl⟩, by simpa using hc⟩
    · rintro ⟨⟨e, he, rfl⟩, hc⟩
      exact ⟨e, ⟨he, by simpa using hc⟩, rfl⟩
  · unfold onlyIn
    rw [GoMap.rangeAppend_eq_filterMap]
    have hsub : ∀ l : List (String × α), (∀ e ∈ l, e ∈ m.entries) →
        (l.filterMap fun e => if other.contains e.1 then none else some e.2).map some =
          ((l.filter fun e => !other.contains e.1).map Prod.fst).map m.get? := by
      intro l
      induction l with
      | nil => intro _; rfl
      | cons e l ih =>
        intro hmem
        have hl := ih (fun x hx => hmem x (List.mem_cons_of_mem _ hx))
        have hget : m.get? e.1 = some e.2 := m.get?_of_mem (hmem e (List.mem_cons_self _ _))
        cases hc : other.contains e.1 with
        | true => simpa [List.filterMap_cons, List.filter_cons, hc] using hl
        | false => simpa [List.filterMap_cons, List.filter_cons, hc, hget] using hl
    exact hsub m.entries (fun _ h => h)

/-! ## Claims on the schema diff -/

/-- Claim C6.  `CompareSchemas src tgt` puts in `TablesAdded` the source tables of
exactly the names that are keys of `src` and not of `tgt`, each name once, and in
`TablesDropped` the target tables of exactly the names that are keys of `tgt` and not
of `src`, each name once; a name present in both schemas contributes to neither
list. -/
theorem compareSchemas_tables_added_dropped (src tgt : DatabaseSchema) :
    (∃ names : List String, names.Nodup ∧
      (∀ n, n ∈ names ↔ src.Tables.contains n = true ∧ tgt.Tables.contains n = false) ∧
      (CompareSchemas src tgt).TablesAdded.map some = names.map src.Tables.get?) ∧
    (∃ names : List String, names.Nodup ∧
      (∀ n, n ∈ names ↔ tgt.Tables.contains n = true ∧ src.Tables.contains n = false) ∧
      (CompareSchemas src tgt).TablesDropped.map some = names.map tgt.Tables.get?) :=
  ⟨onlyIn_spec src.Tables tgt.Tables, onlyIn_spec tgt.Tables src.Tables⟩

theorem replaceChars_nil_eq_filter (old : Char) (l : List Char) :
    replaceChars old [] l = l.filter fun c => c ≠ old := by
  induction l with
  | nil => rfl
  | cons c cs ih =>
    by_cases h : c = old
    · simp [replaceChars, h, ih]
    · simp [replaceChars, h, ih]

theorem stringsReplaceAll_lineBreaks (s : String) :
    stringsReplaceAll (stringsReplaceAll s '\n' "") '\r' "" = deleteLineBreaks s := by
  simp only [stringsReplaceAll, deleteLineBreaks]
  show String.mk (replaceChars '\r' [] (replaceChars '\n' [] s.data)) = _
  rw [replaceChars_nil_eq_filter, replaceChars_nil_eq_filter, List.filter_filter]
  congr 1
  apply List.filter_congr
  intro c _
  simp [Bool.and_comm]

theorem equalOptional_iff {α : Type} [DecidableEq α] (x y : Option α) :
    equalOptional x y = true ↔
      (x = none ∧ y = none) ∨ ∃ u v, x = some u ∧ y = some v ∧ u = v := by
  cases x <;> cases y <;> simp [equalOptional]

theorem equalComment_iff (x y : Option String) :
    equalComment x y = true ↔
      (x = none ∧ y = none) ∨
        ∃ u v, x = some u ∧ y = some v ∧ deleteLineBreaks u = deleteLineBreaks v := by
  cases x <;> cases y <;> simp [equalComment, stringsReplaceAll_lineBreaks]

theorem equalColumn_some (a b : Column) :
    equalColumn (some a) (some b) =
      (decide (a.Name = b.Name) && decide (a.DataType = b.DataType)
        && decide (a.Nullable = b.Nullable) && decide (a.Extra = b.Extra)
        && equalOptional a.Default b.Default && equalComment a.Comment b.Comment
        && equalOptional a.CharMaxLen b.CharMaxLen
        && equalOptional a.NumericPrec b.NumericPrec
        && equalOptional a.NumericScale b.NumericScale) := by
  simp only [equalColumn]
  by_cases h1 : a.Name = b.Name <;> by_cases h2 : a.DataType = b.DataType <;>
    by_cases h3 : a.Nullable = b.Nullable <;> by_cases h4 : a.Extra = b.Extra <;>
    simp [h1, h2, h3, h4]
  cases equalOptional a.Default b.Default <;> cases equalComment a.Comment b.Comment <;>
    cases equalOptional a.CharMaxLen b.CharMaxLen <;>
    cases equalOptional a.NumericPrec b.NumericPrec <;>
    cases equalOptional a.NumericScale b.NumericScale <;> rfl

/-- Claim C8.  For non-nil columns `a` and `b`, `equalColumn` is true exactly when
Name, DataType, Nullable and Extra are equal, Default is nil on both sides or present
on both with equal text, Comment is nil on both sides or present on both with equal
text after deleting every newline and carriage return from each, and each of
CharMaxLen, NumericPrec, NumericScale is nil on both sides or present on both with
equal value; the two Position fields have no influence on the result. -/
theorem equalColumn_iff (a b : Column) :
    (equalColumn (some a) (some b) = true ↔
      a.Name = b.Name ∧ a.DataType = b.DataType ∧ a.Nullable = b.Nullable ∧
      a.Extra = b.Extra ∧
      ((a.Default = none ∧ b.Default = none) ∨
        ∃ x y, a.Default = some x ∧ b.Default = some y ∧ x = y) ∧
      ((a.Comment = none ∧ b.Comment = none) ∨
        ∃ x y, a.Comment = some x ∧ b.Comment = some y ∧
          deleteLineBreaks x = deleteLineBreaks y) ∧
      ((a.CharMaxLen = none ∧ b.CharMaxLen = none) ∨
        ∃ x y, a.CharMaxLen = some x ∧ b.CharMaxLen = some y ∧ x = y) ∧
      ((a.NumericPrec = none ∧ b.NumericPrec = none) ∨
        ∃ x y, a.NumericPrec = some x ∧ b.NumericPrec = some y ∧ x = y) ∧
      ((a.NumericScale = none ∧ b.NumericScale = none) ∨
        ∃ x y, a.NumericScale = some x ∧ b.NumericScale = some y ∧ x = y)) ∧
    ∀ p q : Int,
      equalColumn (some { a with Position := p }) (some { b with Position := q }) =
        equalColumn (some a) (some b) := by
  constructor
  · rw [equalColumn_some]
    simp only [Bool.and_eq_true, decide_eq_true_eq, equalOptional_iff, equalComment_iff,
      and_assoc]
  · intro p q
    rw [equalColumn_some, equalColumn_some]

theorem GoMap.rangeAppend_eq_nil {α β : Type} (m : GoMap α) (f : String → α → Option β)
    (h : ∀ e ∈ m.entries, f e.1 e.2 = none) : m.rangeAppend f = [] := by
  rw [GoMap.rangeAppend_eq_filterMap, List.filterMap_eq_nil_iff]
  exact h

theorem GoMap.contains_of_mem {α : Type} (m : GoMap α) {e : String × α} (h : e ∈ m.entries) :
    m.contains e.1 = true := by
  rw [GoMap.contains_iff]
  exact List.mem_map.2 ⟨e, h, rfl⟩

theorem onlyIn_self {α : Type} (m : GoMap α) : onlyIn m m = [] := by
  apply GoMap.rangeAppend_eq_nil
  intro e he
  simp [m.contains_of_mem he]

theorem equalOptional_self {α : Type} [DecidableEq α] (x : Option α) :
    equalOptional x x = true := by
  cases x <;> simp [equalOptional]

theorem equalComment_self (x : Option String) : equalComment x x = true := by
  cases x <;> simp [equalComment]

theorem equalStringSlices_self (xs : List String) : equalStringSlices xs xs = true := by
  simp only [equalStringSlices, bne_self_eq_false, Bool.false_eq_true, if_false]
  induction xs with
  | nil => rfl
  | cons x xs ih => simpa using ih

theorem equalColumn_self (c : Column) : equalColumn (some c) (some c) = true := by
  simp [equalColumn_some, equalOptional_self, equalComment_self]

theorem equalIndex_self (i : Index) : equalIndex (some i) (some i) = true := by
  simp [equalIndex, equalOptional_self, equalStringSlices_self]

theorem equalPrimaryKey_self (p : Option PrimaryKey) : equalPrimaryKey p p = true := by
  cases p <;> simp [equalPrimaryKey, equalStringSlices_self]

theorem equalForeignKey_self (f : ForeignKey) : equalForeignKey (some f) (some f) = true := by
  simp [equalForeignKey, equalStringSlices_self]

theorem compareTable_self (t : Table) : compareTable t t = none := by
  unfold compareTable
  simp only [bne_self_eq_false, Bool.false_eq_true, if_false]
  split
  · cases t.ViewDefinition <;> simp
  · have hc : (t.Columns.rangeAppend fun name srcCol =>
        match t.Columns.get? name with
        | some tgtCol =>
          if !equalColumn (some srcCol) (some tgtCol) then
            some ({ Old := tgtCol, New := srcCol } : ColumnDiff)
          else none
        | none => none) = [] := by
      apply GoMap.rangeAppend_eq_nil
      intro e he
      rw [t.Columns.get?_of_mem he]
      simp [equalColumn_self]
    have hi : (t.Indexes.rangeAppend fun name srcI =>
        match t.Indexes.get? name with
        | some tgtI =>
          if !equalIndex (some srcI) (some tgtI) then
            some ({ Old := tgtI, New := srcI } : IndexDiff)
          else none
        | none => none) = [] := by
      apply GoMap.rangeAppend_eq_nil
      intro e he
      rw [t.Indexes.get?_of_mem he]
      simp [equalIndex_self]
    have hf : (t.ForeignKeys.rangeAppend fun name srcF =>
        match t.ForeignKeys.get? name with
        | some tgtF =>
          if !equalForeignKey (some srcF) (some tgtF) then
            some ({ Old := tgtF, New := srcF } : ForeignKeyDiff)
          else none
        | none => none) = [] := by
      apply GoMap.rangeAppend_eq_nil
      intro e he
      rw [t.ForeignKeys.get?_of_mem he]
      simp [equalForeignKey_self]
    simp only [onlyIn_self, equalPrimaryKey_self, hc, hi, hf]
    simp

/-- Claim C10.  Diffing a schema against itself is empty: `CompareSchemas s s` has no
added, no dropped and no modified table. -/
theorem compareSchemas_self (s : DatabaseSchema) :
    CompareSchemas s s = { TablesAdded := [], TablesDropped := [], TablesModified := [] } := by
  unfold CompareSchemas
  rw [onlyIn_self]
  have hm : (s.Tables.rangeAppend fun name srcTbl =>
      match s.Tables.get? name with
      | some tgtTbl => compareTable srcTbl tgtTbl
      | none => none) = [] := by
    apply GoMap.rangeAppend_eq_nil
    intro e he
    rw [s.Tables.get?_of_mem he]
    exact compareTable_self e.2
  rw [hm]

/-- The loop over the source columns that fills `ColumnsModified`. -/
theorem columnsModified_spec (src tgt : Table) :
    ∃ names : List String, names.Nodup ∧
      (∀ n, n ∈ names ↔ ∃ sc tc, src.Columns.get? n = some sc ∧ tgt.Columns.get? n = some tc ∧
        equalColumn (some sc) (some tc) = false) ∧
      (src.Columns.rangeAppend fun name srcCol =>
          match tgt.Columns.get? name with
          | some tgtCol =>
            if !equalColumn (some srcCol) (some tgtCol) then
              some ({ Old := tgtCol, New := srcCol } : ColumnDiff)
            else none
          | none => none).map some =
        names.map (columnDiffAt src tgt) := by
  let keep : String × Column → Bool := fun e =>
    match tgt.Columns.get? e.1 with
    | some tc => !equalColumn (some e.2) (some tc)
    | none => false
  refine ⟨(src.Columns.entries.filter keep).map Prod.fst, ?_, ?_, ?_⟩
  · exact List.Nodup.sublist (List.Sublist.map _ (List.filter_sublist _)) src.Columns.nodup
  · intro n
    simp only [List.mem_map, List.mem_filter]
    constructor
    · rintro ⟨e, ⟨he, hk⟩, rfl⟩
      have hget := src.Columns.get?_of_mem he
      cases htc : tgt.Columns.get? e.1 with
      | none => simp [keep, htc] at hk
      | some tc =>
        refine ⟨e.2, tc, hget, rfl, ?_⟩
        simpa [keep, htc] using hk
    · rintro ⟨sc, tc, hsc, htc, hne⟩
      refine ⟨(n, sc), ⟨src.Columns.mem_of_get? hsc, ?_⟩, rfl⟩
      simp [keep, htc, hne]
  · rw [GoMap.rangeAppend_eq_filterMap]
    have hsub : ∀ l : List (String × Column), (∀ e ∈ l, e ∈ src.Columns.entries) →
        (l.filterMap fun e =>
          match tgt.Columns.get? e.1 with
          | some tgtCol =>
            if !equalColumn (some e.2) (some tgtCol) then
              some ({ Old := tgtCol, New := e.2 } : ColumnDiff)
            else none
          | none => none).map some =
          ((l.filter keep).map Prod.fst).map (columnDiffAt src tgt) := by
      intro l
      induction l with
      | nil => intro _; rfl
      | cons e l ih =>
        intro hmem
        have hl := ih (fun x hx => hmem x (List.mem_cons_of_mem _ hx))
        have hget : src.Columns.get? e.1 = some e.2 :=
          src.Columns.get?_of_mem (hmem e (List.mem_cons_self _ _))
        cases htc : tgt.Columns.get? e.1 with
        | none => simpa [List.filterMap_cons, List.filter_cons, keep, htc] using hl
        | some tc =>
          cases heq : equalColumn (some e.2) (some tc) with
          | true => simpa [List.filterMap_cons, List.filter_cons, keep, htc, heq] using hl
          | false =>
            simpa [List.filterMap_cons, List.filter_cons, keep, htc, heq, columnDiffAt, hget]
              using hl
    exact hsub src.Columns.entries (fun _ h => h)

theorem columnLists_ite (c : Prop) [Decidable c] (d : TableDiff)
    (h : ¬ c → d.ColumnsAdded = [] ∧ d.ColumnsDropped = [] ∧ d.ColumnsModified = []) :
    columnLists (if c then some d else none) =
      (d.ColumnsAdded, d.ColumnsDropped, d.ColumnsModified) := by
  by_cases hc : c
  · rw [if_pos hc]
    rfl
  · obtain ⟨h1, h2, h3⟩ := h hc
    rw [if_neg hc, h1, h2, h3]
    rfl

/-- For two base tables the column lists of `compareTable` are those of the three
column loops, whether or not the table diff as a whole is nil. -/
theorem compareTable_columnLists (src tgt : Table)
    (hs : src.Type_ = TableTypeTable) (ht : tgt.Type_ = TableTypeTable) :
    columnLists (compareTable src tgt) =
      (onlyIn src.Columns tgt.Columns, onlyIn tgt.Columns src.Columns,
        src.Columns.rangeAppend fun name srcCol =>
          match tgt.Columns.get? name with
          | some tgtCol =>
            if !equalColumn (some srcCol) (some tgtCol) then
              some ({ Old := tgtCol, New := srcCol } : ColumnDiff)
            else none
          | none => none) := by
  have hne : (TableTypeTable == TableTypeView) = false := by decide
  unfold compareTable
  rw [hs, ht]
  simp only [bne_self_eq_false, Bool.false_eq_true, if_false, hne]
  rw [columnLists_ite]
  intro hcond
  simp only [Bool.or_eq_true, decide_eq_true_eq, not_or, not_lt, Nat.le_zero_eq,
    Nat.add_eq_zero_iff, List.length_eq_zero] at hcond
  obtain ⟨⟨⟨⟨⟨⟨⟨⟨⟨h1, h2⟩, h3⟩, _⟩, _⟩, _⟩, _⟩, _⟩, _⟩, _⟩ := hcond
  exact ⟨h1, h2, h3⟩

/-- Claim C7.  For a base table present in both schemas, the diff that `compareTable`
yields (a nil diff has empty lists) has in `ColumnsAdded` the source columns of exactly
the names absent from the target table, in `ColumnsDropped` the target columns of
exactly the names absent from the source table, and in `ColumnsModified` one entry,
with `Old` the target column and `New` the source column, for exactly the shared names
whose two columns `equalColumn` finds unequal; every name counts once, and a shared
name with equal columns is in none of the three lists. -/
theorem compareTable_columns (src tgt : Table)
    (hs : src.Type_ = TableTypeTable) (ht : tgt.Type_ = TableTypeTable) :
    ∃ added dropped modified : List String,
      added.Nodup ∧ dropped.Nodup ∧ modified.Nodup ∧
      (∀ n, n ∈ added ↔ src.Columns.contains n = true ∧ tgt.Columns.contains n = false) ∧
      (∀ n, n ∈ dropped ↔ tgt.Columns.contains n = true ∧ src.Columns.contains n = false) ∧
      (∀ n, n ∈ modified ↔
        ∃ sc tc, src.Columns.get? n = some sc ∧ tgt.Columns.get? n = some tc ∧
          equalColumn (some sc) (some tc) = false) ∧
      (columnLists (compareTable src tgt)).1.map some = added.map src.Columns.get? ∧
      (columnLists (compareTable src tgt)).2.1.map some = dropped.map tgt.Columns.get? ∧
      (columnLists (compareTable src tgt)).2.2.map some =
        modified.map (columnDiffAt src tgt) := by
  obtain ⟨added, ha1, ha2, ha3⟩ := onlyIn_spec src.Columns tgt.Columns
  obtain ⟨dropped, hd1, hd2, hd3⟩ := onlyIn_spec tgt.Columns src.Columns
  obtain ⟨modified, hm1, hm2, hm3⟩ := columnsModified_spec src tgt
  rw [compareTable_columnLists src tgt hs ht]
  exact ⟨added, dropped, modified, ha1, hd1, hm1, ha2, hd2, hm2, ha3, hd3, hm3⟩

/-- The column lists of `compareTable` on the tables `usersSource` and `usersTarget`:
`email` is added, `old` is dropped and `name` is modified. -/
theorem compareTable_columns_witness :
    columnLists (compareTable usersSource usersTarget) =
      ([testColumn "email" 3], [testColumn "old" 3],
        [{ Old := { testColumn "name" 2 with DataType := "varchar" },
           New := { testColumn "name" 2 with DataType := "text" } }]) ∧
    ∃ added dropped modified : List String,
      added.Nodup ∧ dropped.Nodup ∧ modified.Nodup ∧
      (∀ n, n ∈ added ↔
        usersSource.Columns.contains n = true ∧ usersTarget.Columns.contains n = false) ∧
      (∀ n, n ∈ dropped ↔
        usersTarget.Columns.contains n = true ∧ usersSource.Columns.contains n = false) ∧
      (∀ n, n ∈ modified ↔
        ∃ sc tc, usersSource.Columns.get? n = some sc ∧ usersTarget.Columns.get? n = some tc ∧
          equalColumn (some sc) (some tc) = false) ∧
      (columnLists (compareTable usersSource usersTarget)).1.map some =
        added.map usersSource.Columns.get? ∧
      (columnLists (compareTable usersSource usersTarget)).2.1.map some =
        dropped.map usersTarget.Columns.get? ∧
      (columnLists (compareTable usersSource usersTarget)).2.2.map some =
        modified.map (columnDiffAt usersSource usersTarget) :=
  ⟨by decide, compareTable_columns usersSource usersTarget rfl rfl⟩

/-- The list `TablesModified` holds, for the keys of the source schema in iteration
order, what `tableDiffAt` reports for each of them. -/
theorem tablesModified_eq (src tgt : DatabaseSchema) :
    (CompareSchemas src tgt).TablesModified = src.Tables.keys.filterMap (tableDiffAt src tgt) := by
  show (src.Tables.rangeAppend fun name srcTbl =>
      match tgt.Tables.get? name with
      | some tgtTbl => compareTable srcTbl tgtTbl
      | none => none) = _
  rw [GoMap.rangeAppend_eq_filterMap, GoMap.keys, List.filterMap_map]
  apply List.filterMap_congr
  intro e he
  simp only [Function.comp, tableDiffAt, src.Tables.get?_of_mem he]
  cases tgt.Tables.get? e.1 <;> rfl

theorem compareTable_view (s t : Table) (sv tv : ViewDefinition)
    (hsk : s.Type_ = TableTypeView) (htk : t.Type_ = TableTypeView)
    (hsv : s.ViewDefinition = some sv) (htv : t.ViewDefinition = some tv) :
    compareTable s t =
      if sv.SelectStatement ≠ tv.SelectStatement then
        some
          { Table := t
            ColumnsAdded := [], ColumnsDropped := [], ColumnsModified := []
            IndexesAdded := [], IndexesDropped := [], IndexesModified := []
            PrimaryKeyChange := none
            ForeignKeysAdded := [], ForeignKeysDropped := [], ForeignKeysModified := []
            ViewDefinitionChange := some { Old := some tv, New := some sv } }
      else none := by
  unfold compareTable
  rw [hsk, htk, hsv, htv]
  simp

/-- Claim C9.  For a table name present in both schemas, of kind VIEW and with a view
definition on both sides: `TablesModified` holds what the diff reports per source table
name, each name counted once, and for this name it reports an entry exactly when the
two SELECT statements differ; that entry carries a `ViewDefinitionChange` with `Old`
the definition of the target and `New` the definition of the source, and has empty
column, index and foreign-key lists and no primary-key change. -/
theorem compareSchemas_view_definition (src tgt : DatabaseSchema) (name : String)
    (s t : Table) (sv tv : ViewDefinition)
    (hs : src.Tables.get? name = some s) (ht : tgt.Tables.get? name = some t)
    (hsk : s.Type_ = TableTypeView) (htk : t.Type_ = TableTypeView)
    (hsv : s.ViewDefinition = some sv) (htv : t.ViewDefinition = some tv) :
    (CompareSchemas src tgt).TablesModified = src.Tables.keys.filterMap (tableDiffAt src tgt) ∧
    src.Tables.keys.Nodup ∧ name ∈ src.Tables.keys ∧
    ((tableDiffAt src tgt name).isSome = true ↔ sv.SelectStatement ≠ tv.SelectStatement) ∧
    (sv.SelectStatement ≠ tv.SelectStatement →
      tableDiffAt src tgt name =
        some
          { Table := t
            ColumnsAdded := [], ColumnsDropped := [], ColumnsModified := []
            IndexesAdded := [], IndexesDropped := [], IndexesModified := []
            PrimaryKeyChange := none
            ForeignKeysAdded := [], ForeignKeysDropped := [], ForeignKeysModified := []
            ViewDefinitionChange := some { Old := some tv, New := some sv } } ∧
      ({ Table := t
         ColumnsAdded := [], ColumnsDropped := [], ColumnsModified := []
         IndexesAdded := [], IndexesDropped := [], IndexesModified := []
         PrimaryKeyChange := none
         ForeignKeysAdded := [], ForeignKeysDropped := [], ForeignKeysModified := []
         ViewDefinitionChange := some { Old := some tv, New := some sv } } : TableDiff) ∈
        (CompareSchemas src tgt).TablesModified) := by
  have hmem : name ∈ src.Tables.keys :=
    List.mem_map.2 ⟨(name, s), src.Tables.mem_of_get? hs, rfl⟩
  have hat : tableDiffAt src tgt name = compareTable s t := by
    simp only [tableDiffAt, hs, ht]
  have hview := compareTable_view s t sv tv hsk htk hsv htv
  refine ⟨tablesModified_eq src tgt, src.Tables.nodup, hmem, ?_, ?_⟩
  · rw [hat, hview]
    by_cases hd : sv.SelectStatement = tv.SelectStatement
    · simp [hd]
    · simp [hd]
  · intro hd
    have hsome := hat.trans (hview.trans (if_pos hd))
    refine ⟨hsome, ?_⟩
    rw [tablesModified_eq, List.mem_filterMap]
    exact ⟨name, hmem, hsome⟩

/-- The view `v` with the definitions `SELECT 1` in the source and `SELECT 2` in the
target: the diff reports it with the old and the new definition. -/
theorem compareSchemas_view_definition_witness :
    (CompareSchemas (viewSchema "SELECT 1") (viewSchema "SELECT 2")).TablesModified =
      [{ Table := testView "SELECT 2"
         ColumnsAdded := [], ColumnsDropped := [], ColumnsModified := []
         IndexesAdded := [], IndexesDropped := [], IndexesModified := []
         PrimaryKeyChange := none
         ForeignKeysAdded := [], ForeignKeysDropped := [], ForeignKeysModified := []
         ViewDefinitionChange :=
           some { Old := some (testViewDefinition "SELECT 2"),
                  New := some (testViewDefinition "SELECT 1") } }] ∧
    ((tableDiffAt (viewSchema "SELECT 1") (viewSchema "SELECT 2") "v").isSome = true ↔
      (testViewDefinition "SELECT 1").SelectStatement ≠
        (testViewDefinition "SELECT 2").SelectStatement) :=
  ⟨by decide,
    (compareSchemas_view_definition (viewSchema "SELECT 1") (viewSchema "SELECT 2") "v"
      (testView "SELECT 1") (testView "SELECT 2")
      (testViewDefinition "SELECT 1") (testViewDefinition "SELECT 2")
      rfl rfl rfl rfl rfl rfl).2.2.2.1⟩

/-! ## The schema SQL generator -/

theorem foldl_append_singleton {α β : Type} (f : α → β) :
    ∀ (l : List α) (init : List β),
      l.foldl (fun acc x => acc ++ [f x]) init = init ++ l.map f := by
  intro l
  induction l with
  | nil => intro init; simp
  | cons a l ih =>
    intro init
    rw [List.foldl_cons, ih]
    simp

theorem foldl_append_pair {α β : Type} (f g : α → β) :
    ∀ (l : List α) (init : List β),
      l.foldl (fun acc x => (acc ++ [f x]) ++ [g x]) init =
        init ++ (l.map fun x => [f x, g x]).flatten := by
  intro l
  induction l with
  | nil => intro init; simp
  | cons a l ih =>
    intro init
    rw [List.foldl_cons, ih]
    simp

/-- Claim C13.  For every table diff and every dialect, `genAlterTable` returns, in
this order and with nothing else: one add-column statement per entry of
`ColumnsAdded`, one drop-column statement per entry of `ColumnsDropped`, one
alter-column statement per entry of `ColumnsModified`, one create-index statement per
entry of `IndexesAdded`, one drop-index statement per entry of `IndexesDropped`, for
each entry of `IndexesModified` a drop of the old index immediately followed by a
create of the new one, and last, when there is a primary-key change, a drop of the old
primary key if there was one followed by an add of the new primary key if there is
one. -/
theorem genAlterTable_statements (diff : TableDiff) (dialect : IDialect) :
    genAlterTable diff dialect =
      diff.ColumnsAdded.map (fun col => dialect.GenerateAddColumnSql diff.Table col)
      ++ diff.ColumnsDropped.map (fun col => dialect.GenerateDropColumnSql diff.Table col)
      ++ diff.ColumnsModified.map
          (fun cmod => dialect.GenerateAlterColumnSql diff.Table cmod.Old cmod.New)
      ++ diff.IndexesAdded.map (fun idx => dialect.GenerateCreateIndexSql diff.Table idx)
      ++ diff.IndexesDropped.map (fun idx => dialect.GenerateDropIndexSql diff.Table idx)
      ++ (diff.IndexesModified.map fun imod =>
          [dialect.GenerateDropIndexSql diff.Table imod.Old,
           dialect.GenerateCreateIndexSql diff.Table imod.New]).flatten
      ++ (match diff.PrimaryKeyChange with
          | some change =>
            (match change.Old with
              | some old => [dialect.GenerateDropPrimaryKeySql diff.Table old]
              | none => [])
            ++ (match change.New with
              | some new => [dialect.GenerateAddPrimaryKeySql diff.Table new]
              | none => [])
          | none => []) := by
  unfold genAlterTable
  simp only [foldl_append_singleton, foldl_append_pair, List.nil_append]
  cases diff.PrimaryKeyChange with
  | none => simp
  | some change =>
    obtain ⟨old, new⟩ := change
    cases old <;> cases new <;> simp

theorem foldl_split {α β : Type} (p : α → Bool) (f g : α → List β) :
    ∀ (l : List α) (a b : List β),
      l.foldl (fun st x => if p x then (st.1, st.2 ++ g x) else (st.1 ++ f x, st.2)) (a, b) =
        (a ++ ((l.filter fun x => !p x).map f).flatten,
          b ++ ((l.filter p).map g).flatten) := by
  intro l
  induction l with
  | nil => intro a b; simp
  | cons x l ih =>
    intro a b
    rw [List.foldl_cons]
    cases hp : p x
    · simp [hp, ih]
    · simp [hp, ih]

theorem flatten_map_singleton {α β : Type} (f : α → β) (l : List α) :
    (l.map fun x => [f x]).flatten = l.map f := by
  induction l with
  | nil => rfl
  | cons x l ih => simp [ih]

theorem generateSchemaSQLWith_eq (d : IDialect) (diff : SchemaDiff) :
    generateSchemaSQLWith d diff = tableStatements d diff ++ viewStatements d diff := by
  unfold generateSchemaSQLWith tableStatements viewStatements
  have h1 := foldl_split (fun tbl : Table => tbl.Type_ == TableTypeView)
    (fun tbl => [d.GenerateTableDDL tbl]) (fun tbl => [d.GenerateViewDDL tbl])
  have h2 := foldl_split (fun tbl : Table => tbl.Type_ == TableTypeView)
    (fun tbl => [d.GenerateDropTableSql tbl]) (fun tbl => [d.GenerateDropViewSql tbl])
  have h3 := foldl_split (fun tdiff : TableDiff => tdiff.Table.Type_ == TableTypeView)
    (fun tdiff => genAlterTable tdiff d) (fun tdiff => genAlterView tdiff d)
  simp only [h1, h2, h3, flatten_map_singleton, List.nil_append, List.append_assoc]

/-- Claim C12.  For every schema diff and both dialects, the list returned by
`GenerateSchemaSQL` is the block of all statements generated for the entries that are
not views (create, drop, alter of base tables) followed by the block of all statements
generated for the views, whatever the order of the tables inside the lists of the
diff. -/
theorem generateSchemaSQL_tables_before_views (diff : SchemaDiff) :
    GenerateSchemaSQL diff DBTypeMySQL =
      some (tableStatements NewMySQLDialect diff ++ viewStatements NewMySQLDialect diff) ∧
    GenerateSchemaSQL diff DBTypePostgres =
      some (tableStatements NewPostgreDialect diff ++ viewStatements NewPostgreDialect diff) := by
  constructor
  · show some (generateSchemaSQLWith NewMySQLDialect diff) = _
    rw [generateSchemaSQLWith_eq]
  · show some (generateSchemaSQLWith NewPostgreDialect diff) = _
    rw [generateSchemaSQLWith_eq]

/-! ## Escaping of literals -/

theorem replaceChars_eq_flatMap (old : Char) (new : List Char) (l : List Char) :
    replaceChars old new l = l.flatMap fun c => if c = old then new else [c] := by
  induction l with
  | nil => rfl
  | cons c cs ih =>
    by_cases h : c = old
    · simp [replaceChars, h, ih]
    · simp [replaceChars, h, ih]

/-- The chain of seven `ReplaceAll` calls of `escapedValue` is the simultaneous
per-character map `escapeChar`. -/
theorem replaceAll_chain_eq_escapeText (s : String) :
    stringsReplaceAll (stringsReplaceAll (stringsReplaceAll (stringsReplaceAll
      (stringsReplaceAll (stringsReplaceAll (stringsReplaceAll s '\\' "\\\\")
        singleQuote "''") '\n' "\\n") '\r' "\\r") '\t' "\\t") '\x08' "\\b") '\x0c' "\\f" =
      escapeText s := by
  simp only [stringsReplaceAll, escapeText, replaceChars_eq_flatMap, List.flatMap_assoc]
  congr 1
  apply List.flatMap_congr
  intro c _
  by_cases h1 : c = '\\'
  · subst h1; decide
  by_cases h2 : c = singleQuote
  · subst h2; decide
  by_cases h3 : c = '\n'
  · subst h3; decide
  by_cases h4 : c = '\r'
  · subst h4; decide
  by_cases h5 : c = '\t'
  · subst h5; decide
  by_cases h6 : c = '\x08'
  · subst h6; decide
  by_cases h7 : c = '\x0c'
  · subst h7; decide
  simp [escapeChar, h1, h2, h3, h4, h5, h6, h7]
/-- Claim C19.  For PostgreSQL, a nil value yields `NULL`, and for every data type whose
lower-cased name contains `char`, `text` or `json` and every non-nil value with default
string form `s`, `escapedValue` returns a single quote, the character-by-character
image of `s` under `escapeChar` (backslash doubled, single quote doubled, newline,
carriage return, tab, backspace, form feed as backslash plus `n`, `r`, `t`, `b`, `f`,
every other character unchanged) and a single quote. -/
theorem postgres_escapedValue_text (dataType : String) (val : Value) :
    postgreDialect.escapedValue dataType Value.null = "NULL" ∧
    (val ≠ Value.null →
      (stringsContains (stringsToLower dataType) "char" = true ∨
        stringsContains (stringsToLower dataType) "text" = true ∨
        stringsContains (stringsToLower dataType) "json" = true) →
      postgreDialect.escapedValue dataType val = "'" ++ escapeText (sprintV val) ++ "'") := by
  constructor
  · simp [postgreDialect.escapedValue]
  · intro hval htype
    have hcond : (stringsContains (stringsToLower dataType) "char"
        || stringsContains (stringsToLower dataType) "text"
        || stringsContains (stringsToLower dataType) "json") = true := by
      rcases htype with h | h | h <;> simp [h]
    simp only [postgreDialect.escapedValue, hval, hcond, if_true, if_false]
    rw [replaceAll_chain_eq_escapeText]

/-- A `VARCHAR` column and a text with a quote, a backslash, a newline and a tab. -/
theorem postgres_escapedValue_text_witness :
    postgreDialect.escapedValue "VARCHAR" (Value.text "it's a\\b\n\tc") =
      "'it''s a\\\\b\\n\\tc'" ∧
    postgreDialect.escapedValue "VARCHAR" (Value.text "it's a\\b\n\tc") =
      "'" ++ escapeText (sprintV (Value.text "it's a\\b\n\tc")) ++ "'" :=
  ⟨by decide,
    (postgres_escapedValue_text "VARCHAR" (Value.text "it's a\\b\n\tc")).2
      (by decide) (Or.inl (by decide))⟩

/-- Claim C20 fails as stated: for the MySQL type `varchar` the value `it's` is
rendered with the single quote doubled, not with a backslash in front of it. -/
theorem mysql_escapedValue_quote_counterexample :
    mysqlDialect.escapedValue "varchar" (Value.text "it's") = "'it''s'" ∧
    mysqlDialect.escapedValue "varchar" (Value.text "it's") ≠
      "'" ++ backslashEscapeText (sprintV (Value.text "it's")) ++ "'" := by
  decide

/-- Claim C20, amended.  For MySQL, for every data type whose lower-cased name begins
with `char`, `varchar`, `text` or `json` and every non-nil value, `escapedValue`
returns the default string form of the value wrapped in single quotes, with every
single quote doubled, every backslash doubled, and newline, carriage return, tab,
backspace and form feed rendered as a backslash followed by `n`, `r`, `t`, `b`, `f`. -/
theorem mysql_escapedValue_text (dataType : String) (val : Value)
    (hval : val ≠ Value.null)
    (htype : stringsHasPrefix (stringsToLower dataType) "char" = true ∨
      stringsHasPrefix (stringsToLower dataType) "varchar" = true ∨
      stringsHasPrefix (stringsToLower dataType) "text" = true ∨
      stringsHasPrefix (stringsToLower dataType) "json" = true) :
    mysqlDialect.escapedValue dataType val = "'" ++ escapeText (sprintV val) ++ "'" := by
  have hcond : (stringsHasPrefix (stringsToLower dataType) "char"
      || stringsHasPrefix (stringsToLower dataType) "varchar"
      || stringsHasPrefix (stringsToLower dataType) "text"
      || stringsHasPrefix (stringsToLower dataType) "json") = true := by
    rcases htype with h | h | h | h <;> simp [h]
  simp only [mysqlDialect.escapedValue, hval, hcond, if_true, if_false]
  rw [replaceAll_chain_eq_escapeText]

/-- A `Text` column and a value with a quote, a backslash and a newline. -/
theorem mysql_escapedValue_text_witness :
    mysqlDialect.escapedValue "Text" (Value.text "it's a\\b\n") = "'it''s a\\\\b\\n'" ∧
    mysqlDialect.escapedValue "Text" (Value.text "it's a\\b\n") =
      "'" ++ escapeText (sprintV (Value.text "it's a\\b\n")) ++ "'" :=
  ⟨by decide,
    mysql_escapedValue_text "Text" (Value.text "it's a\\b\n") (by decide)
      (Or.inr (Or.inr (Or.inl (by decide))))⟩

/-! ## Schema qualification in the PostgreSQL dialect -/

theorem schemaQualifier_eq (t : Table) :
    postgreDialect.schemaQualifier t = qualifierUnlessPublic t.Schema := by
  unfold postgreDialect.schemaQualifier qualifierUnlessPublic
  by_cases h1 : t.Schema = "" <;> by_cases h2 : t.Schema = "public" <;> simp [h1, h2]

theorem stringsJoin_empty_cons (x : String) (l : List String) :
    stringsJoin (x :: l) "" = x ++ stringsJoin l "" := by
  cases l with
  | nil => simp [stringsJoin]
  | cons y rest => simp [stringsJoin, String.append_assoc]

theorem stringsJoin_empty_append (a b : List String) :
    stringsJoin (a ++ b) "" = stringsJoin a "" ++ stringsJoin b "" := by
  induction a with
  | nil => simp [stringsJoin]
  | cons x a ih =>
    rw [List.cons_append, stringsJoin_empty_cons, stringsJoin_empty_cons, ih,
      String.append_assoc]

theorem ite_append_eq_join (c : Bool) (ddl x : String) :
    (if c = true then ddl ++ x else ddl) = ddl ++ stringsJoin (if c = true then [x] else []) "" := by
  cases c <;> simp [stringsJoin]

/-- A loop that only appends to a string keeps what the string held before. -/
theorem foldl_keeps_head {α : Type} (step : String → α → String)
    (h : ∀ acc e, ∃ r, step acc e = acc ++ r) :
    ∀ (l : List α) (init : String), ∃ r, l.foldl step init = init ++ r := by
  intro l
  induction l with
  | nil => intro init; exact ⟨"", by simp⟩
  | cons e l ih =>
    intro init
    obtain ⟨r1, h1⟩ := h init e
    obtain ⟨r2, h2⟩ := ih (step init e)
    refine ⟨r1 ++ r2, ?_⟩
    rw [List.foldl_cons, h2, h1, String.append_assoc]

theorem postgres_dropTable_eq (t : Table) :
    postgreDialect.GenerateDropTableSql t =
      "DROP TABLE " ++ qualifierUnlessPublic t.Schema ++ "\"" ++ t.Name ++ "\";" := by
  rw [postgreDialect.GenerateDropTableSql, schemaQualifier_eq]
  apply String.ext
  simp [String.data_append]

theorem postgres_dropIndex_eq (t : Table) (idx : Index) :
    postgreDialect.GenerateDropIndexSql t idx =
      "DROP INDEX " ++ qualifierUnlessPublic t.Schema ++ "\"" ++ idx.Name ++ "\";" := by
  rw [postgreDialect.GenerateDropIndexSql, schemaQualifier_eq]
  apply String.ext
  simp [String.data_append]

/-- The layout of the PostgreSQL table DDL: the header, the comma-joined definitions
(columns in sorted order, primary key, foreign keys), the closing bracket, and a tail holding
the index and comment statements. -/
theorem postgres_tableDDL_shape (t : Table) (ht : t.Type_ = TableTypeTable) :
    ∃ tail, postgreDialect.GenerateTableDDL t =
      "CREATE TABLE " ++ qualifierUnlessPublic t.Schema ++ "\"" ++ t.Name ++ "\" (\n"
        ++ stringsJoin ((sortedColumns t).map PostgreSQLTypeConverter.GenerateColumnDDL
            ++ postgreDialect.primaryKeyClause t
            ++ t.ForeignKeys.entries.map (fun e => postgreDialect.foreignKeyClause e.2)) ",\n"
        ++ "\n);" ++ tail := by
  unfold postgreDialect.GenerateTableDDL
  rw [ht, schemaQualifier_eq]
  simp only [bne_self_eq_false, Bool.false_eq_true, if_false]
  rw [foldl_append_singleton, foldl_append_singleton, List.nil_append]
  have hhead : "CREATE TABLE " ++ qualifierUnlessPublic t.Schema ++ ("\"" ++ t.Name ++ "\" (\n")
      = "CREATE TABLE " ++ qualifierUnlessPublic t.Schema ++ "\"" ++ t.Name ++ "\" (\n" := by
    apply String.ext
    simp [String.data_append]
  rw [hhead]
  generalize hx2 : List.foldl _ _ t.Columns.entries = x2
  generalize hx1 : List.foldl _ _ t.Indexes.entries = x1 at hx2
  have h1 : ∃ r, x1 = "CREATE TABLE " ++ qualifierUnlessPublic t.Schema ++ "\"" ++ t.Name
      ++ "\" (\n"
        ++ stringsJoin ((sortedColumns t).map PostgreSQLTypeConverter.GenerateColumnDDL
            ++ postgreDialect.primaryKeyClause t
            ++ t.ForeignKeys.entries.map (fun e => postgreDialect.foreignKeyClause e.2)) ",\n"
        ++ "\n);" ++ r := by
    rw [← hx1]
    apply foldl_keeps_head
    intro acc e
    by_cases hp : e.2.Primary = true
    · exact ⟨"", by simp [hp]⟩
    · exact ⟨"\n\n" ++ postgreDialect.GenerateCreateIndexSql t e.2,
        by simp [hp, String.append_assoc]⟩
  obtain ⟨r1, h1⟩ := h1
  have h2 : ∃ r, x2 = x1 ++ r := by
    rw [← hx2]
    apply foldl_keeps_head
    intro acc e
    cases hcm : e.2.Comment with
    | none => exact ⟨"", by simp [hcm]⟩
    | some c =>
      refine ⟨"\n\nCOMMENT ON COLUMN \"" ++ t.Schema ++ "\".\"" ++ t.Name ++ "\".\""
        ++ e.2.Name ++ "\" IS '" ++ c ++ "';", ?_⟩
      simp only [hcm]
  obtain ⟨r2, h2⟩ := h2
  rw [h2, h1]
  by_cases hc : t.Comment = ""
  · simp only [hc, bne_self_eq_false, Bool.false_eq_true, if_false]
    exact ⟨r1 ++ r2, by simp [String.append_assoc]⟩
  · have hb : (t.Comment != "") = true := by simpa using hc
    simp only [hb, if_true]
    exact ⟨r1 ++ r2
      ++ ("\n\nCOMMENT ON TABLE \"" ++ t.Schema ++ "\".\"" ++ t.Name ++ "\" IS '"
          ++ t.Comment ++ "';"), by simp [String.append_assoc]⟩

theorem postgres_tableDDL_head (t : Table) (ht : t.Type_ = TableTypeTable) :
    ∃ rest, postgreDialect.GenerateTableDDL t =
      "CREATE TABLE " ++ qualifierUnlessPublic t.Schema ++ "\"" ++ t.Name ++ "\" (\n" ++ rest := by
  obtain ⟨tail, h⟩ := postgres_tableDDL_shape t ht
  exact ⟨_, by rw [h, String.append_assoc, String.append_assoc]⟩

theorem postgres_viewDDL_head (t : Table) (ht : t.Type_ = TableTypeView)
    (hv : t.ViewDefinition ≠ none) :
    ∃ rest, postgreDialect.GenerateViewDDL t =
      "CREATE VIEW " ++ qualifierUnlessPublic t.Schema ++ "\"" ++ t.Name ++ "\" AS\n" ++ rest := by
  unfold postgreDialect.GenerateViewDDL
  cases hvd : t.ViewDefinition with
  | none => exact absurd hvd hv
  | some vd =>
    simp only [ht, schemaQualifier_eq, bne_self_eq_false, Bool.false_eq_true, if_false]
    refine ⟨vd.SelectStatement
      ++ (if (vd.CheckOption != "" && vd.CheckOption != "NONE") = true
          then "\nWITH " ++ vd.CheckOption ++ " CHECK OPTION" else "")
      ++ ";"
      ++ (if (vd.Comment != "") = true
          then "\n\nCOMMENT ON VIEW \"" ++ t.Schema ++ "\".\"" ++ t.Name ++ "\" IS '"
            ++ vd.Comment ++ "';" else ""), ?_⟩
    cases (vd.CheckOption != "" && vd.CheckOption != "NONE") <;> cases (vd.Comment != "") <;>
      (apply String.ext; simp [String.data_append])

theorem postgres_createIndex_head (t : Table) (idx : Index) (hp : idx.Primary = false) :
    ∃ rest, postgreDialect.GenerateCreateIndexSql t idx =
      "CREATE " ++ (if idx.Unique then "UNIQUE " else "") ++ "INDEX \"" ++ idx.Name ++ "\" ON "
        ++ qualifierUnlessPublic t.Schema ++ "\"" ++ t.Name ++ "\"" ++ rest := by
  unfold postgreDialect.GenerateCreateIndexSql
  simp only [hp, schemaQualifier_eq, Bool.false_eq_true, if_false]
  refine ⟨(if (idx.Method != "" && idx.Method != "btree") = true
        then " USING " ++ idx.Method else "")
      ++ " (" ++ stringsJoin (idx.Columns.map fun col => "\"" ++ col ++ "\"") ", " ++ ")"
      ++ (match idx.Where with
          | some w => " WHERE " ++ w
          | none => "")
      ++ ";", ?_⟩
  cases idx.Unique <;> cases (idx.Method != "" && idx.Method != "btree") <;>
    cases idx.Where <;> (apply String.ext; simp [String.data_append])

theorem joinParts_nil (Q : String → Prop) :
    ∃ parts : List String, "" = stringsJoin parts "" ∧ ∀ p ∈ parts, Q p :=
  ⟨[], by simp [stringsJoin], by simp⟩

theorem joinParts_ite (Q : String → Prop) (c : Prop) [Decidable c] (ddl x : String)
    (h : ∃ parts : List String, ddl = stringsJoin parts "" ∧ ∀ p ∈ parts, Q p) (hx : Q x) :
    ∃ parts : List String,
      (if c then ddl ++ x else ddl) = stringsJoin parts "" ∧ ∀ p ∈ parts, Q p := by
  obtain ⟨parts, hj, hq⟩ := h
  by_cases hc : c
  · refine ⟨parts ++ [x], ?_, ?_⟩
    · rw [if_pos hc, stringsJoin_empty_append, ← hj]
      simp [stringsJoin]
    · intro p hp
      rcases List.mem_append.1 hp with h1 | h1
      · exact hq p h1
      · rw [List.mem_singleton.1 h1]
        exact hx
  · exact ⟨parts, by rw [if_neg hc, hj], hq⟩

theorem joinParts_ite_ite (Q : String → Prop) (c d : Prop) [Decidable c] [Decidable d]
    (ddl x y : String)
    (h : ∃ parts : List String, ddl = stringsJoin parts "" ∧ ∀ p ∈ parts, Q p)
    (hx : Q x) (hy : Q y) :
    ∃ parts : List String,
      (if c then (if d then ddl ++ x else ddl ++ y) else ddl) = stringsJoin parts "" ∧
        ∀ p ∈ parts, Q p := by
  by_cases hd : d
  · simp only [if_pos hd]
    exact joinParts_ite Q c ddl x h hx
  · simp only [if_neg hd]
    exact joinParts_ite Q c ddl y h hy

theorem postgres_alterColumn_parts (t : Table) (oldCol newCol : Column) :
    ∃ parts : List String,
      postgreDialect.GenerateAlterColumnSql t oldCol newCol = stringsJoin parts "" ∧
      ∀ p ∈ parts, ∃ rest,
        p = "ALTER TABLE \"" ++ t.Schema ++ "\".\"" ++ t.Name ++ "\" " ++ rest ∨
        p = "COMMENT ON COLUMN \"" ++ t.Schema ++ "\".\"" ++ t.Name ++ "\"." ++ rest := by
  have hA : ∀ r : String, ∃ rest,
      "ALTER TABLE \"" ++ t.Schema ++ "\".\"" ++ t.Name ++ "\"" ++ " " ++ r
        = "ALTER TABLE \"" ++ t.Schema ++ "\".\"" ++ t.Name ++ "\" " ++ rest ∨
      "ALTER TABLE \"" ++ t.Schema ++ "\".\"" ++ t.Name ++ "\"" ++ " " ++ r
        = "COMMENT ON COLUMN \"" ++ t.Schema ++ "\".\"" ++ t.Name ++ "\"." ++ rest := by
    intro r
    refine ⟨r, Or.inl ?_⟩
    apply String.ext
    simp [String.data_append]
  unfold postgreDialect.GenerateAlterColumnSql
  simp only []
  apply joinParts_ite
  · apply joinParts_ite_ite
    · apply joinParts_ite
      · apply joinParts_ite
        · apply joinParts_ite
          · exact joinParts_nil _
          · exact hA _
        · exact hA _
      · exact hA _
    · exact hA _
    · exact hA _
  · refine ⟨"\"" ++ newCol.Name ++ "\" IS '" ++ newCol.Comment.getD "" ++ "';", Or.inr ?_⟩
    apply String.ext
    simp [String.data_append]

/-- Claim C14 fails as stated: for a table of the schema `public` the ADD COLUMN
statement is qualified with the schema, where the claim expects the bare table name. -/
theorem postgres_addColumn_public_counterexample :
    usersTarget.Schema = "public" ∧
    postgreDialect.GenerateAddColumnSql usersTarget (testColumn "email" 3) =
      "ALTER TABLE \"public\".\"users\" ADD COLUMN \"email\"  NOT NULL;" ∧
    postgreDialect.GenerateAddColumnSql usersTarget (testColumn "email" 3) ≠
      "ALTER TABLE " ++ qualifierUnlessPublic usersTarget.Schema ++ "\"users\""
        ++ " ADD COLUMN \"email\"  NOT NULL;" := by
  decide

/-- Claim C14, amended.  In the PostgreSQL dialect the statements DROP TABLE, CREATE
TABLE, CREATE VIEW, CREATE INDEX (of an index that is not primary) and DROP INDEX
qualify the name they open with by `"<schema>".` if and only if the schema of the table
is not empty and not `public`; the statements DROP VIEW, ADD COLUMN, DROP COLUMN,
ADD and DROP of the primary key and every sub-statement of ALTER COLUMN write
`"<schema>"."<table>"` whenever the schema is not empty, also when it is `public`. -/
theorem postgres_schema_qualification (t : Table) (idx : Index) (pk : PrimaryKey)
    (col oldCol newCol : Column) :
    postgreDialect.GenerateDropTableSql t =
      "DROP TABLE " ++ qualifierUnlessPublic t.Schema ++ "\"" ++ t.Name ++ "\";" ∧
    (t.Type_ = TableTypeTable → ∃ rest, postgreDialect.GenerateTableDDL t =
      "CREATE TABLE " ++ qualifierUnlessPublic t.Schema ++ "\"" ++ t.Name ++ "\" (\n" ++ rest) ∧
    (t.Type_ = TableTypeView → t.ViewDefinition ≠ none →
      ∃ rest, postgreDialect.GenerateViewDDL t =
        "CREATE VIEW " ++ qualifierUnlessPublic t.Schema ++ "\"" ++ t.Name ++ "\" AS\n" ++ rest) ∧
    (idx.Primary = false → ∃ rest, postgreDialect.GenerateCreateIndexSql t idx =
      "CREATE " ++ (if idx.Unique then "UNIQUE " else "") ++ "INDEX \"" ++ idx.Name ++ "\" ON "
        ++ qualifierUnlessPublic t.Schema ++ "\"" ++ t.Name ++ "\"" ++ rest) ∧
    postgreDialect.GenerateDropIndexSql t idx =
      "DROP INDEX " ++ qualifierUnlessPublic t.Schema ++ "\"" ++ idx.Name ++ "\";" ∧
    (t.Schema ≠ "" →
      postgreDialect.GenerateDropViewSql t =
        "DROP VIEW \"" ++ t.Schema ++ "\".\"" ++ t.Name ++ "\";" ∧
      (∃ rest, postgreDialect.GenerateAddColumnSql t col =
        "ALTER TABLE \"" ++ t.Schema ++ "\".\"" ++ t.Name ++ "\" ADD COLUMN " ++ rest) ∧
      postgreDialect.GenerateDropColumnSql t col =
        "ALTER TABLE \"" ++ t.Schema ++ "\".\"" ++ t.Name ++ "\" DROP COLUMN \""
          ++ col.Name ++ "\";" ∧
      (∃ rest, postgreDialect.GenerateAddPrimaryKeySql t pk =
        "ALTER TABLE \"" ++ t.Schema ++ "\".\"" ++ t.Name ++ "\" ADD CONSTRAINT " ++ rest) ∧
      postgreDialect.GenerateDropPrimaryKeySql t pk =
        "ALTER TABLE \"" ++ t.Schema ++ "\".\"" ++ t.Name ++ "\" DROP CONSTRAINT \""
          ++ pk.Name ++ "\";" ∧
      ∃ parts : List String,
        postgreDialect.GenerateAlterColumnSql t oldCol newCol = stringsJoin parts "" ∧
        ∀ p ∈ parts, ∃ rest,
          p = "ALTER TABLE \"" ++ t.Schema ++ "\".\"" ++ t.Name ++ "\" " ++ rest ∨
          p = "COMMENT ON COLUMN \"" ++ t.Schema ++ "\".\"" ++ t.Name ++ "\"." ++ rest) :=
  ⟨postgres_dropTable_eq t, postgres_tableDDL_head t, postgres_viewDDL_head t,
    postgres_createIndex_head t idx, postgres_dropIndex_eq t idx, fun _ =>
    ⟨by unfold postgreDialect.GenerateDropViewSql
        apply String.ext
        simp [String.data_append],
      ⟨PostgreSQLTypeConverter.GenerateColumnDDL col ++ ";", by
        unfold postgreDialect.GenerateAddColumnSql
        apply String.ext
        simp [String.data_append]⟩,
      by unfold postgreDialect.GenerateDropColumnSql
         apply String.ext
         simp [String.data_append],
      ⟨"\"" ++ pk.Name ++ "\" PRIMARY KEY (" ++ JoinWrap pk.Columns "\"" ", " ++ ");", by
        unfold postgreDialect.GenerateAddPrimaryKeySql
        apply String.ext
        simp [String.data_append]⟩,
      by unfold postgreDialect.GenerateDropPrimaryKeySql
         apply String.ext
         simp [String.data_append],
      postgres_alterColumn_parts t oldCol newCol⟩⟩

theorem postgres_schema_qualification_witness :
    usersTarget.Schema ≠ "" ∧ usersTarget.Type_ = TableTypeTable ∧
    accountsIndex.Primary = false ∧
    postgreDialect.GenerateDropViewSql usersTarget = "DROP VIEW \"public\".\"users\";" ∧
    postgreDialect.GenerateDropTableSql usersTarget = "DROP TABLE \"users\";" ∧
    (∃ rest, postgreDialect.GenerateTableDDL usersTarget = "CREATE TABLE \"users\" (\n" ++ rest) ∧
    (∃ rest, postgreDialect.GenerateCreateIndexSql accountsTable accountsIndex =
      "CREATE INDEX \"accounts_name_idx\" ON \"app\".\"accounts\"" ++ rest) :=
  ⟨by decide, by decide, by decide,
    ((postgres_schema_qualification usersTarget accountsIndex ⟨"users_pkey", ["id"]⟩
      (testColumn "email" 3) (testColumn "email" 3) (testColumn "email" 3)).2.2.2.2.2
        (by decide)).1,
    (postgres_schema_qualification usersTarget accountsIndex ⟨"users_pkey", ["id"]⟩
      (testColumn "email" 3) (testColumn "email" 3) (testColumn "email" 3)).1,
    (postgres_schema_qualification usersTarget accountsIndex ⟨"users_pkey", ["id"]⟩
      (testColumn "email" 3) (testColumn "email" 3) (testColumn "email" 3)).2.1 (by decide),
    (postgres_schema_qualification accountsTable accountsIndex ⟨"users_pkey", ["id"]⟩
      (testColumn "email" 3) (testColumn "email" 3) (testColumn "email" 3)).2.2.2.1
        (by decide)⟩


/-! ## The WHERE and SET clauses of DELETE and UPDATE -/

theorem GoMap.get?_of_contains {α : Type} (m : GoMap α) (k : String)
    (h : m.contains k = true) : ∃ v, m.get? k = some v := by
  unfold GoMap.contains at h
  exact Option.isSome_iff_exists.1 h

theorem postgres_whereLoop_eq (tbl : Table) (row : Record) (pks : List String)
    (h : ∀ k ∈ pks, tbl.Columns.contains k = true) :
    postgreDialect.whereLoop tbl row pks =
      some (pks.map (keyCondition "\"" postgreDialect.escapedValue tbl row)) := by
  induction pks using List.reverseRecOn with
  | nil => rfl
  | append_singleton l k ih =>
    have ih := ih (fun x hx => h x (List.mem_append_left _ hx))
    unfold postgreDialect.whereLoop at ih ⊢
    rw [List.foldl_append, ih]
    simp only [List.foldl_cons, List.foldl_nil, List.map_append, List.map_cons, List.map_nil]
    obtain ⟨col, hcol⟩ := GoMap.get?_of_contains tbl.Columns k (h k (by simp))
    have hq : "\"" ++ k ++ "\" IS NULL" = "\"" ++ k ++ "\"" ++ " IS NULL" := by
      apply String.ext
      simp [String.data_append]
    have hq2 : ∀ s : String, "\"" ++ k ++ "\" = " ++ s = "\"" ++ k ++ "\"" ++ " = " ++ s := by
      intro s
      apply String.ext
      simp [String.data_append]
    by_cases hn : row.get k = Value.null
    · simp only [hn, if_true, keyCondition, hq]
    · simp only [hn, if_false, hcol, keyCondition, columnDataType, hq2]

theorem mysql_whereLoop_eq (tbl : Table) (row : Record) (pks : List String)
    (h : ∀ k ∈ pks, tbl.Columns.contains k = true) :
    mysqlDialect.whereLoop tbl row pks =
      some (pks.map (keyCondition "`" mysqlDialect.escapedValue tbl row)) := by
  induction pks using List.reverseRecOn with
  | nil => rfl
  | append_singleton l k ih =>
    have ih := ih (fun x hx => h x (List.mem_append_left _ hx))
    unfold mysqlDialect.whereLoop at ih ⊢
    rw [List.foldl_append, ih]
    simp only [List.foldl_cons, List.foldl_nil, List.map_append, List.map_cons, List.map_nil]
    obtain ⟨col, hcol⟩ := GoMap.get?_of_contains tbl.Columns k (h k (by simp))
    have hq : "`" ++ k ++ "` IS NULL" = "`" ++ k ++ "`" ++ " IS NULL" := by
      apply String.ext
      simp [String.data_append]
    have hq2 : ∀ s : String, "`" ++ k ++ "` = " ++ s = "`" ++ k ++ "`" ++ " = " ++ s := by
      intro s
      apply String.ext
      simp [String.data_append]
    by_cases hn : row.get k = Value.null
    · simp only [hn, if_true, keyCondition, hq]
    · simp only [hn, if_false, hcol, keyCondition, columnDataType, hq2]

theorem postgres_setLoop_eq (tbl : Table) (row : Record) (pks cols : List String)
    (h : ∀ c ∈ cols, tbl.Columns.contains c = true) :
    postgreDialect.setLoop tbl row pks cols =
      some ((cols.filter (fun c => decide (c ∉ pks))).map
        (assignment "\"" postgreDialect.escapedValue tbl row)) := by
  induction cols using List.reverseRecOn with
  | nil => rfl
  | append_singleton l c ih =>
    have ih := ih (fun x hx => h x (List.mem_append_left _ hx))
    unfold postgreDialect.setLoop at ih ⊢
    rw [List.foldl_append, ih]
    simp only [List.foldl_cons, List.foldl_nil, List.filter_append, List.map_append]
    obtain ⟨col, hcol⟩ := GoMap.get?_of_contains tbl.Columns c (h c (by simp))
    have hq2 : ∀ s : String, "\"" ++ c ++ "\" = " ++ s = "\"" ++ c ++ "\"" ++ " = " ++ s := by
      intro s
      apply String.ext
      simp [String.data_append]
    by_cases hm : c ∈ pks
    · simp [slicesContains, hm]
    · simp [slicesContains, hm, hcol, assignment, columnDataType, hq2]

theorem mysql_setLoop_eq (tbl : Table) (row : Record) (pks cols : List String)
    (h : ∀ c ∈ cols, tbl.Columns.contains c = true) :
    mysqlDialect.setLoop tbl row pks cols =
      some ((cols.filter (fun c => decide (c ∉ pks))).map
        (assignment "`" mysqlDialect.escapedValue tbl row)) := by
  induction cols using List.reverseRecOn with
  | nil => rfl
  | append_singleton l c ih =>
    have ih := ih (fun x hx => h x (List.mem_append_left _ hx))
    unfold mysqlDialect.setLoop at ih ⊢
    rw [List.foldl_append, ih]
    simp only [List.foldl_cons, List.foldl_nil, List.filter_append, List.map_append]
    obtain ⟨col, hcol⟩ := GoMap.get?_of_contains tbl.Columns c (h c (by simp))
    have hq2 : ∀ s : String, "`" ++ c ++ "` = " ++ s = "`" ++ c ++ "`" ++ " = " ++ s := by
      intro s
      apply String.ext
      simp [String.data_append]
    by_cases hm : c ∈ pks
    · simp [slicesContains, hm]
    · simp [slicesContains, hm, hcol, assignment, columnDataType, hq2]

theorem requestedColumns_exist (tbl : Table) (updateCols : List String)
    (h : ∀ c ∈ updateCols, tbl.Columns.contains c = true) :
    ∀ c ∈ requestedColumns tbl updateCols, tbl.Columns.contains c = true := by
  intro c hc
  unfold requestedColumns at hc
  by_cases he : updateCols = []
  · rw [if_pos he] at hc
    exact (GoMap.contains_iff tbl.Columns c).2 hc
  · rw [if_neg he] at hc
    exact h c hc

theorem requestedColumns_eq (tbl : Table) (updateCols : List String) :
    (if updateCols.length = 0 then tbl.GetColumns else updateCols)
      = requestedColumns tbl updateCols := by
  unfold requestedColumns
  cases updateCols <;> simp

theorem postgres_update_eq (tbl : Table) (row : Record) (updateCols : List String)
    (pk : PrimaryKey) (hpk : tbl.PrimaryKey = some pk)
    (hkeys : ∀ k ∈ pk.Columns, tbl.Columns.contains k = true)
    (hcols : ∀ c ∈ updateCols, tbl.Columns.contains c = true) :
    postgreDialect.GenerateUpdateSql tbl row updateCols =
      some ("UPDATE " ++ tbl.Name ++ " SET "
        ++ stringsJoin (((requestedColumns tbl updateCols).filter
            (fun c => decide (c ∉ pk.Columns))).map
              (assignment "\"" postgreDialect.escapedValue tbl row)) ", "
        ++ " WHERE "
        ++ stringsJoin (pk.Columns.map (keyCondition "\"" postgreDialect.escapedValue tbl row))
            " AND "
        ++ ";") := by
  unfold postgreDialect.GenerateUpdateSql
  simp only [hpk, requestedColumns_eq]
  rw [postgres_setLoop_eq tbl row pk.Columns _ (requestedColumns_exist tbl updateCols hcols),
    postgres_whereLoop_eq tbl row pk.Columns hkeys]

theorem mysql_update_eq (tbl : Table) (row : Record) (updateCols : List String)
    (pk : PrimaryKey) (hpk : tbl.PrimaryKey = some pk)
    (hkeys : ∀ k ∈ pk.Columns, tbl.Columns.contains k = true)
    (hcols : ∀ c ∈ updateCols, tbl.Columns.contains c = true) :
    mysqlDialect.GenerateUpdateSql tbl row updateCols =
      some ("UPDATE `" ++ tbl.Name ++ "` SET "
        ++ stringsJoin (((requestedColumns tbl updateCols).filter
            (fun c => decide (c ∉ pk.Columns))).map
              (assignment "`" mysqlDialect.escapedValue tbl row)) ", "
        ++ " WHERE "
        ++ stringsJoin (pk.Columns.map (keyCondition "`" mysqlDialect.escapedValue tbl row))
            " AND "
        ++ ";") := by
  unfold mysqlDialect.GenerateUpdateSql
  simp only [hpk, requestedColumns_eq]
  rw [mysql_setLoop_eq tbl row pk.Columns _ (requestedColumns_exist tbl updateCols hcols),
    mysql_whereLoop_eq tbl row pk.Columns hkeys]

/-- The WHERE clause on well-formed input.  For both dialects, a table with the primary
key `pk` whose columns exist in the table, and every record: the WHERE clause of
`GenerateDeleteSql`, and likewise of `GenerateUpdateSql` (for `updateCols` naming columns
of the table), is the conjunction by ` AND `, in the declared order of the key, of one
`keyCondition` per key column: the quoted column followed by `IS NULL` when the value of
the record is nil, and otherwise the quoted column, an equals sign and the escaped
literal of the value. -/
theorem generateDeleteSql_where_clause (tbl : Table) (row : Record)
    (updateCols : List String) (pk : PrimaryKey) (hpk : tbl.PrimaryKey = some pk)
    (hkeys : ∀ k ∈ pk.Columns, tbl.Columns.contains k = true)
    (hcols : ∀ c ∈ updateCols, tbl.Columns.contains c = true) :
    postgreDialect.GenerateDeleteSql tbl row =
      some ("DELETE FROM " ++ tbl.Name ++ " WHERE "
        ++ stringsJoin (pk.Columns.map (keyCondition "\"" postgreDialect.escapedValue tbl row))
            " AND " ++ ";") ∧
    mysqlDialect.GenerateDeleteSql tbl row =
      some ("DELETE FROM `" ++ tbl.Name ++ "` WHERE "
        ++ stringsJoin (pk.Columns.map (keyCondition "`" mysqlDialect.escapedValue tbl row))
            " AND " ++ ";") ∧
    (∃ set, postgreDialect.GenerateUpdateSql tbl row updateCols =
      some ("UPDATE " ++ tbl.Name ++ " SET " ++ set ++ " WHERE "
        ++ stringsJoin (pk.Columns.map (keyCondition "\"" postgreDialect.escapedValue tbl row))
            " AND " ++ ";")) ∧
    (∃ set, mysqlDialect.GenerateUpdateSql tbl row updateCols =
      some ("UPDATE `" ++ tbl.Name ++ "` SET " ++ set ++ " WHERE "
        ++ stringsJoin (pk.Columns.map (keyCondition "`" mysqlDialect.escapedValue tbl row))
            " AND " ++ ";")) := by
  refine ⟨?_, ?_, ⟨_, postgres_update_eq tbl row updateCols pk hpk hkeys hcols⟩,
    ⟨_, mysql_update_eq tbl row updateCols pk hpk hkeys hcols⟩⟩
  · unfold postgreDialect.GenerateDeleteSql
    simp only [hpk]
    rw [postgres_whereLoop_eq tbl row pk.Columns hkeys]
  · unfold mysqlDialect.GenerateDeleteSql
    simp only [hpk]
    rw [mysql_whereLoop_eq tbl row pk.Columns hkeys]

theorem generateDeleteSql_where_clause_witness :
    accountsTable.PrimaryKey = some ⟨"accounts_pkey", ["id"]⟩ ∧
    (∀ k ∈ ["id"], accountsTable.Columns.contains k = true) ∧
    (∀ c ∈ ["name"], accountsTable.Columns.contains c = true) ∧
    postgreDialect.GenerateDeleteSql accountsTable accountsRowNullKey =
      some "DELETE FROM accounts WHERE \"id\" IS NULL;" ∧
    mysqlDialect.GenerateDeleteSql accountsTable accountsRow =
      some "DELETE FROM `accounts` WHERE `id` = 7;" :=
  ⟨by decide, by decide, by decide,
    (generateDeleteSql_where_clause accountsTable accountsRowNullKey ["name"]
      ⟨"accounts_pkey", ["id"]⟩ (by decide) (by decide) (by decide)).1,
    (generateDeleteSql_where_clause accountsTable accountsRow ["name"]
      ⟨"accounts_pkey", ["id"]⟩ (by decide) (by decide) (by decide)).2.1⟩

/-- The SET clause on well-formed input.  For both dialects, a table with the primary
key `pk` whose columns exist in the table, every record and every `updateCols` naming
columns of the table: the SET clause of `GenerateUpdateSql` holds one `assignment` (the
quoted column, an equals sign and the escaped literal of the value of the record) for
exactly the columns of `updateCols` that are not columns of the key, in the given order;
when `updateCols` is empty these are all columns of the table outside the key; no column
of the key is assigned. -/
theorem generateUpdateSql_set_clause (tbl : Table) (row : Record)
    (updateCols : List String) (pk : PrimaryKey) (hpk : tbl.PrimaryKey = some pk)
    (hkeys : ∀ k ∈ pk.Columns, tbl.Columns.contains k = true)
    (hcols : ∀ c ∈ updateCols, tbl.Columns.contains c = true) :
    ∃ assigned : List String,
      (updateCols ≠ [] → assigned = updateCols.filter (fun c => decide (c ∉ pk.Columns))) ∧
      (updateCols = [] → ∀ c, c ∈ assigned ↔ (tbl.Columns.contains c = true ∧ c ∉ pk.Columns)) ∧
      (∀ c ∈ assigned, c ∉ pk.Columns) ∧
      postgreDialect.GenerateUpdateSql tbl row updateCols =
        some ("UPDATE " ++ tbl.Name ++ " SET "
          ++ stringsJoin (assigned.map (assignment "\"" postgreDialect.escapedValue tbl row)) ", "
          ++ " WHERE "
          ++ stringsJoin (pk.Columns.map (keyCondition "\"" postgreDialect.escapedValue tbl row))
              " AND "
          ++ ";") ∧
      mysqlDialect.GenerateUpdateSql tbl row updateCols =
        some ("UPDATE `" ++ tbl.Name ++ "` SET "
          ++ stringsJoin (assigned.map (assignment "`" mysqlDialect.escapedValue tbl row)) ", "
          ++ " WHERE "
          ++ stringsJoin (pk.Columns.map (keyCondition "`" mysqlDialect.escapedValue tbl row))
              " AND "
          ++ ";") := by
  refine ⟨(requestedColumns tbl updateCols).filter (fun c => decide (c ∉ pk.Columns)),
    ?_, ?_, ?_, postgres_update_eq tbl row updateCols pk hpk hkeys hcols,
    mysql_update_eq tbl row updateCols pk hpk hkeys hcols⟩
  · intro hne
    unfold requestedColumns
    rw [if_neg hne]
  · intro he c
    unfold requestedColumns
    rw [if_pos he, List.mem_filter, GoMap.contains_iff]
    simp [Table.GetColumns]
  · intro c hc
    simpa using (List.mem_filter.1 hc).2

theorem generateUpdateSql_set_clause_witness :
    accountsTable.PrimaryKey = some ⟨"accounts_pkey", ["id"]⟩ ∧
    (∀ k ∈ ["id"], accountsTable.Columns.contains k = true) ∧
    (∀ c ∈ ["name", "id"], accountsTable.Columns.contains c = true) ∧
    postgreDialect.GenerateUpdateSql accountsTable accountsRow ["name", "id"] =
      some "UPDATE accounts SET \"name\" = 'O''Hara' WHERE \"id\" = 7;" ∧
    mysqlDialect.GenerateUpdateSql accountsTable accountsRow ["name", "id"] =
      some "UPDATE `accounts` SET `name` = 'O''Hara' WHERE `id` = 7;" ∧
    ∃ assigned : List String,
      (["name", "id"] ≠ [] → assigned = ["name", "id"].filter (fun c => decide (c ∉ ["id"]))) ∧
      postgreDialect.GenerateUpdateSql accountsTable accountsRow ["name", "id"] =
        some ("UPDATE " ++ accountsTable.Name ++ " SET "
          ++ stringsJoin
              (assigned.map (assignment "\"" postgreDialect.escapedValue accountsTable accountsRow))
              ", "
          ++ " WHERE "
          ++ stringsJoin
              (["id"].map (keyCondition "\"" postgreDialect.escapedValue accountsTable accountsRow))
              " AND "
          ++ ";") :=
  ⟨by decide, by decide, by decide, by decide, by decide,
    (generateUpdateSql_set_clause accountsTable accountsRow ["name", "id"]
      ⟨"accounts_pkey", ["id"]⟩ (by decide) (by decide) (by decide)).imp
        (fun _ h => ⟨h.1, h.2.2.2.1⟩)⟩

/-- Claim C17 fails for a name in `updateCols` that is no column of the table.  For the
table `accounts` (key `id`, columns `id` and `name`) the call with `updateCols` = `name`
returns the UPDATE statement that assigns `name`, but with `updateCols` = `name`, `nope`
both dialects read `DataType` through the nil column of `nope` and panic (`none`), so no
SET clause is produced. -/
theorem generateUpdateSql_unknown_column_panics :
    postgreDialect.GenerateUpdateSql accountsTable accountsRow ["name"] =
        some "UPDATE accounts SET \"name\" = 'O''Hara' WHERE \"id\" = 7;" ∧
      postgreDialect.GenerateUpdateSql accountsTable accountsRow ["name", "nope"] = none ∧
      mysqlDialect.GenerateUpdateSql accountsTable accountsRow ["name", "nope"] = none := by
  refine ⟨by decide, by decide, by decide⟩

/-- Claim C18 fails without a primary key and for an unknown update column.  For the
table `accounts` without its primary key, `GenerateDeleteSql` and `GenerateUpdateSql` of
both dialects read `Columns` through the nil key and panic (`none`); and with the key in
place `GenerateUpdateSql` with `updateCols` = `nope` panics in the SET loop before any
WHERE clause is built. -/
theorem generateDeleteSql_without_key_panics :
    postgreDialect.GenerateDeleteSql { accountsTable with PrimaryKey := none } accountsRow
        = none ∧
      mysqlDialect.GenerateDeleteSql { accountsTable with PrimaryKey := none } accountsRow
        = none ∧
      postgreDialect.GenerateUpdateSql { accountsTable with PrimaryKey := none } accountsRow []
        = none ∧
      mysqlDialect.GenerateUpdateSql { accountsTable with PrimaryKey := none } accountsRow []
        = none ∧
      postgreDialect.GenerateUpdateSql accountsTable accountsRow ["nope"] = none ∧
      mysqlDialect.GenerateUpdateSql accountsTable accountsRow ["nope"] = none := by
  refine ⟨by decide, by decide, by decide, by decide, by decide, by decide⟩

/-! ## The column order of INSERT -/

/-- Claim C15 (MySQL half fails).  The MySQL `GenerateInsertSql` lists the columns in the
iteration order of the column map, not in `Position` order: for the table `accounts`, whose
map yields `name` (position 2) before `id` (position 1), it lists `name` first, where the
PostgreSQL method, which goes through `GetColumnsByPosition`, lists `id` first. -/
theorem mysql_generateInsertSql_map_order :
    (∀ (tbl : Table) (row : Record), mysqlDialect.GenerateInsertSql tbl row =
      "INSERT INTO `" ++ tbl.Name ++ "` ("
        ++ stringsJoin (tbl.Columns.entries.map fun e => "`" ++ e.2.Name ++ "`") ", "
        ++ ") VALUES ("
        ++ stringsJoin (tbl.Columns.entries.map fun e =>
            mysqlDialect.escapedValue e.2.DataType (row.get e.2.Name)) ", "
        ++ ");") ∧
    accountsTable.Columns.entries.map (fun e => (e.2.Name, e.2.Position))
      = [("name", 2), ("id", 1)] ∧
    mysqlDialect.GenerateInsertSql accountsTable accountsRow =
      "INSERT INTO `accounts` (`name`, `id`) VALUES ('O''Hara', 7);" ∧
    postgreDialect.GenerateInsertSql accountsTable accountsRow =
      "INSERT INTO accounts (\"id\", \"name\") VALUES (7, 'O''Hara');" := by
  refine ⟨?_, by decide, by decide, by decide⟩
  intro tbl row
  unfold mysqlDialect.GenerateInsertSql
  simp only [foldl_append_singleton, List.nil_append]

/-! ## The exchange sort of the table DDL -/

theorem getElem?_mid {α : Type} (pre post : List α) (x : α) :
    (pre ++ x :: post)[pre.length]? = some x := by
  rw [List.getElem?_append_right (le_refl _)]
  simp

theorem set_mid {α : Type} (pre post : List α) (x y : α) :
    (pre ++ x :: post).set pre.length y = pre ++ y :: post := by
  simp

theorem exchangeInner_eq_sweep (pre : List colWithPos) :
    ∀ (rest mid : List colWithPos) (x : colWithPos),
      exchangeInner pre.length rest.length (pre.length + 1 + mid.length)
          (pre ++ x :: (mid ++ rest))
        = pre ++ (sweep x rest).1 :: (mid ++ (sweep x rest).2) := by
  intro rest
  induction rest with
  | nil => intro mid x; simp [exchangeInner, sweep]
  | cons y rest ih =>
    intro mid x
    have hj : pre.length + 1 + mid.length = (pre ++ x :: mid).length := by simp; omega
    have ha : pre ++ x :: (mid ++ y :: rest) = (pre ++ x :: mid) ++ y :: rest := by simp
    have hgi : (pre ++ x :: (mid ++ y :: rest))[pre.length]? = some x := getElem?_mid _ _ _
    have hgj : (pre ++ x :: (mid ++ y :: rest))[pre.length + 1 + mid.length]? = some y := by
      rw [hj, ha]
      exact getElem?_mid _ _ _
    have hlen : pre.length + 1 + mid.length + 1 = pre.length + 1 + (mid ++ [x]).length := by
      simp; omega
    rw [List.length_cons, exchangeInner]
    simp only [hgi, hgj]
    by_cases hgt : x.pos > y.pos
    · have hset : ((pre ++ x :: (mid ++ y :: rest)).set pre.length y).set
          (pre.length + 1 + mid.length) x = pre ++ y :: ((mid ++ [x]) ++ rest) := by
        rw [set_mid, hj]
        have h1 : pre ++ y :: (mid ++ y :: rest) = (pre ++ y :: mid) ++ y :: rest := by simp
        have h2 : (pre ++ x :: mid).length = (pre ++ y :: mid).length := by simp
        rw [h1, h2, set_mid]
        simp
      simp only [hgt, if_true, hset, sweep]
      rw [hlen, ih (mid ++ [x]) y]
      simp
    · have hrest : pre ++ x :: (mid ++ y :: rest) = pre ++ x :: ((mid ++ [y]) ++ rest) := by
        simp
      have hlen2 : pre.length + 1 + mid.length + 1 = pre.length + 1 + (mid ++ [y]).length := by
        simp; omega
      simp only [hgt, if_false, sweep]
      rw [hrest, hlen2, ih (mid ++ [y]) x]
      simp

theorem exchangeOuter_beyond :
    ∀ (count i : Nat) (a : List colWithPos), a.length ≤ i → exchangeOuter count i a = a := by
  intro count
  induction count with
  | zero => intro i a _; rfl
  | succ n ih =>
    intro i a h
    have h0 : a.length - (i + 1) = 0 := by omega
    rw [exchangeOuter, h0, exchangeInner]
    exact ih (i + 1) a (by omega)

theorem exchangeOuter_eq_selectSort :
    ∀ (count : Nat) (pre rest : List colWithPos),
      exchangeOuter count pre.length (pre ++ rest) = pre ++ selectSort count rest := by
  intro count
  induction count with
  | zero => intro pre rest; rfl
  | succ n ih =>
    intro pre rest
    cases rest with
    | nil =>
      rw [List.append_nil, exchangeOuter_beyond _ _ _ (le_refl _)]
      simp [selectSort]
    | cons x r =>
      have hc : (pre ++ x :: r).length - (pre.length + 1) = r.length := by simp; omega
      have hin := exchangeInner_eq_sweep pre r [] x
      simp only [List.length_nil, Nat.add_zero, List.nil_append] at hin
      rw [exchangeOuter, hc, hin, selectSort]
      have h1 : pre ++ (sweep x r).1 :: (sweep x r).2 = (pre ++ [(sweep x r).1]) ++ (sweep x r).2 := by
        simp
      have h2 : pre.length + 1 = (pre ++ [(sweep x r).1]).length := by simp
      rw [h1, h2, ih]
      simp

theorem exchangeSort_eq_selectSort (a : List colWithPos) :
    exchangeSort a = selectSort a.length a := by
  have := exchangeOuter_eq_selectSort a.length [] a
  simpa [exchangeSort] using this

theorem sweep_perm : ∀ (rest : List colWithPos) (x : colWithPos),
    ((sweep x rest).1 :: (sweep x rest).2).Perm (x :: rest) := by
  intro rest
  induction rest with
  | nil => intro x; simp [sweep]
  | cons y rest ih =>
    intro x
    by_cases hgt : x.pos > y.pos
    · simp only [sweep, hgt, if_true]
      exact (List.Perm.swap _ _ _).trans ((ih y).cons x)
    · simp only [sweep, hgt, if_false]
      exact ((List.Perm.swap _ _ _).trans ((ih x).cons y)).trans (List.Perm.swap _ _ _)

theorem sweep_min : ∀ (rest : List colWithPos) (x : colWithPos),
    (sweep x rest).1.pos ≤ x.pos ∧ ∀ z ∈ (sweep x rest).2, (sweep x rest).1.pos ≤ z.pos := by
  intro rest
  induction rest with
  | nil => intro x; simp [sweep]
  | cons y rest ih =>
    intro x
    by_cases hgt : x.pos > y.pos
    · simp only [sweep, hgt, if_true]
      obtain ⟨h1, h2⟩ := ih y
      refine ⟨by omega, ?_⟩
      intro z hz
      rcases List.mem_cons.1 hz with h | h
      · rw [h]; omega
      · exact h2 z h
    · simp only [sweep, hgt, if_false]
      obtain ⟨h1, h2⟩ := ih x
      refine ⟨h1, ?_⟩
      intro z hz
      rcases List.mem_cons.1 hz with h | h
      · rw [h]; omega
      · exact h2 z h

theorem sweep_length (rest : List colWithPos) (x : colWithPos) :
    (sweep x rest).2.length = rest.length := by
  have := (sweep_perm rest x).length_eq
  simpa using this

theorem selectSort_perm : ∀ (count : Nat) (a : List colWithPos),
    (selectSort count a).Perm a := by
  intro count
  induction count with
  | zero => intro a; exact List.Perm.refl _
  | succ n ih =>
    intro a
    cases a with
    | nil => exact List.Perm.refl _
    | cons x r =>
      rw [selectSort]
      exact ((ih _).cons _).trans (sweep_perm r x)

theorem selectSort_sorted : ∀ (count : Nat) (a : List colWithPos), a.length ≤ count →
    (selectSort count a).Pairwise (fun p q => p.pos ≤ q.pos) := by
  intro count
  induction count with
  | zero =>
    intro a h
    have : a = [] := List.length_eq_zero.1 (by omega)
    rw [this]
    exact List.Pairwise.nil
  | succ n ih =>
    intro a h
    cases a with
    | nil => exact List.Pairwise.nil
    | cons x r =>
      rw [selectSort]
      refine List.Pairwise.cons ?_ (ih _ ?_)
      · intro z hz
        exact (sweep_min r x).2 z ((selectSort_perm n _).subset hz)
      · rw [sweep_length]
        simpa using h

theorem exchangeSort_perm (a : List colWithPos) : (exchangeSort a).Perm a := by
  rw [exchangeSort_eq_selectSort]
  exact selectSort_perm _ _

theorem exchangeSort_sorted (a : List colWithPos) :
    (exchangeSort a).Pairwise (fun p q => p.pos ≤ q.pos) := by
  rw [exchangeSort_eq_selectSort]
  exact selectSort_sorted _ _ (le_refl _)

theorem sortedColumns_perm (t : Table) :
    (sortedColumns t).Perm (t.Columns.entries.map Prod.snd) := by
  unfold sortedColumns
  simp only [foldl_append_singleton, List.nil_append]
  have h := (exchangeSort_perm
    (t.Columns.entries.map fun e => ({ col := e.2, pos := e.2.Position } : colWithPos))).map
      (fun colPos => colPos.col)
  simpa [List.map_map, Function.comp_def] using h

theorem sortedColumns_sorted (t : Table) :
    (sortedColumns t).Pairwise (fun a b => a.Position ≤ b.Position) := by
  unfold sortedColumns
  simp only [foldl_append_singleton, List.nil_append]
  rw [List.pairwise_map]
  have hperm := exchangeSort_perm
    (t.Columns.entries.map fun e => ({ col := e.2, pos := e.2.Position } : colWithPos))
  have hpos : ∀ p ∈ exchangeSort
      (t.Columns.entries.map fun e => ({ col := e.2, pos := e.2.Position } : colWithPos)),
      p.pos = p.col.Position := by
    intro p hp
    obtain ⟨e, _, he⟩ := List.mem_map.1 (hperm.subset hp)
    rw [← he]
  have hs := exchangeSort_sorted
    (t.Columns.entries.map fun e => ({ col := e.2, pos := e.2.Position } : colWithPos))
  refine hs.imp_of_mem ?_
  intro p q hp hq hle
  rw [← hpos p hp, ← hpos q hq]
  exact hle

theorem sortedColumns_strict (t : Table)
    (hpos : (t.Columns.entries.map fun e => e.2.Position).Nodup) :
    (sortedColumns t).Pairwise (fun a b => a.Position < b.Position) := by
  have hnd : ((sortedColumns t).map fun c => c.Position).Nodup := by
    have h := (sortedColumns_perm t).map (fun c => c.Position)
    rw [List.map_map] at h
    exact h.nodup_iff.2 hpos
  have hne : (sortedColumns t).Pairwise (fun a b => a.Position ≠ b.Position) := by
    have := List.pairwise_map.1 hnd
    exact this
  exact ((sortedColumns_sorted t).and hne).imp (fun h => lt_of_le_of_ne h.1 h.2)

/-- The layout of the MySQL table DDL: the header, the comma-joined definitions (columns
in sorted order, primary key, foreign keys), the closing bracket, and a tail holding the
table comment, the index statements and the column comments. -/
theorem mysql_tableDDL_shape (t : Table) (ht : t.Type_ = TableTypeTable) :
    ∃ tail, mysqlDialect.GenerateTableDDL t =
      "CREATE TABLE `" ++ t.Name ++ "` (\n"
        ++ stringsJoin ((sortedColumns t).map MySQLTypeConverter.GenerateColumnDDL
            ++ mysqlDialect.primaryKeyClause t
            ++ t.ForeignKeys.entries.map (fun e => mysqlDialect.foreignKeyClause e.2)) ",\n"
        ++ "\n)" ++ tail := by
  unfold mysqlDialect.GenerateTableDDL
  rw [ht]
  simp only [bne_self_eq_false, Bool.false_eq_true, if_false]
  rw [foldl_append_singleton, foldl_append_singleton, List.nil_append]
  generalize hx2 : List.foldl _ _ t.Columns.entries = x2
  generalize hx1 : List.foldl _ _ t.Indexes.entries = x1 at hx2
  generalize hx0 : (if (t.Comment != "") = true then _ else _) ++ ";" = x0 at hx1
  have h0 : ∃ r, x0 = "CREATE TABLE `" ++ t.Name ++ "` (\n"
        ++ stringsJoin ((sortedColumns t).map MySQLTypeConverter.GenerateColumnDDL
            ++ mysqlDialect.primaryKeyClause t
            ++ t.ForeignKeys.entries.map (fun e => mysqlDialect.foreignKeyClause e.2)) ",\n"
        ++ "\n)" ++ r := by
    rw [← hx0]
    by_cases hc : (t.Comment != "") = true
    · rw [if_pos hc]
      exact ⟨_, by rw [String.append_assoc]⟩
    · rw [if_neg hc]
      exact ⟨_, rfl⟩
  obtain ⟨r0, h0⟩ := h0
  have h1 : ∃ r, x1 = x0 ++ r := by
    rw [← hx1]
    apply foldl_keeps_head
    intro acc e
    by_cases hp : e.2.Primary = true
    · exact ⟨"", by simp [hp]⟩
    · exact ⟨"\n\n" ++ mysqlDialect.GenerateCreateIndexSql t e.2,
        by simp [hp, String.append_assoc]⟩
  obtain ⟨r1, h1⟩ := h1
  have h2 : ∃ r, x2 = x1 ++ r := by
    rw [← hx2]
    apply foldl_keeps_head
    intro acc e
    cases hcm : e.2.Comment with
    | none => exact ⟨"", by simp [hcm]⟩
    | some c =>
      by_cases hce : (c != "") = true
      · refine ⟨"\n\nALTER TABLE `" ++ t.Name ++ "` MODIFY COLUMN `" ++ e.2.Name ++ "` "
          ++ MySQLTypeConverter.GenerateColumnType e.2 ++ " COMMENT '"
          ++ stringsReplaceAll c singleQuote "''" ++ "';", ?_⟩
        simp only [hcm, hce, if_true]
      · exact ⟨"", by simp only [hcm, hce, if_false]; simp⟩
  obtain ⟨r2, h2⟩ := h2
  exact ⟨r0 ++ r1 ++ r2, by rw [h2, h1, h0]; simp [String.append_assoc]⟩

/-- Claim C16.  For both dialects and every base table whose columns have distinct
positions, `GenerateTableDDL` writes, after the header, the definitions joined by a comma
and a line feed: first one column definition per column of the table, each column exactly
once (a permutation of the column map, whatever its iteration order) and in strictly
ascending `Position` order, then the primary-key clause when the table has one, then the
foreign-key clauses. -/
theorem generateTableDDL_columns_sorted (t : Table) (ht : t.Type_ = TableTypeTable)
    (hpos : (t.Columns.entries.map fun e => e.2.Position).Nodup) :
    ∃ cols : List Column,
      cols = sortedColumns t ∧
      cols.Perm (t.Columns.entries.map Prod.snd) ∧
      cols.Pairwise (fun a b => a.Position < b.Position) ∧
      (∃ tail, postgreDialect.GenerateTableDDL t =
        "CREATE TABLE " ++ qualifierUnlessPublic t.Schema ++ "\"" ++ t.Name ++ "\" (\n"
          ++ stringsJoin (cols.map PostgreSQLTypeConverter.GenerateColumnDDL
              ++ postgreDialect.primaryKeyClause t
              ++ t.ForeignKeys.entries.map (fun e => postgreDialect.foreignKeyClause e.2)) ",\n"
          ++ "\n);" ++ tail) ∧
      (∃ tail, mysqlDialect.GenerateTableDDL t =
        "CREATE TABLE `" ++ t.Name ++ "` (\n"
          ++ stringsJoin (cols.map MySQLTypeConverter.GenerateColumnDDL
              ++ mysqlDialect.primaryKeyClause t
              ++ t.ForeignKeys.entries.map (fun e => mysqlDialect.foreignKeyClause e.2)) ",\n"
          ++ "\n)" ++ tail) :=
  ⟨sortedColumns t, rfl, sortedColumns_perm t, sortedColumns_strict t hpos,
    postgres_tableDDL_shape t ht, mysql_tableDDL_shape t ht⟩

theorem generateTableDDL_columns_sorted_witness :
    accountsTable.Type_ = TableTypeTable ∧
    (accountsTable.Columns.entries.map fun e => e.2.Position).Nodup ∧
    accountsTable.Columns.entries.map (fun e => (e.2.Name, e.2.Position))
      = [("name", 2), ("id", 1)] ∧
    postgreDialect.GenerateTableDDL accountsTable =
      "CREATE TABLE \"app\".\"accounts\" (\n\"id\" int4 NOT NULL,\n\"name\" varchar NOT NULL,\n  CONSTRAINT \"accounts_pkey\" PRIMARY KEY (\"id\")\n);" ∧
    mysqlDialect.GenerateTableDDL accountsTable =
      "CREATE TABLE `accounts` (\n`id` int NOT NULL,\n`name` varchar(255) NOT NULL,\n  PRIMARY KEY (`id`)\n);" ∧
    ∃ cols : List Column,
      cols.Perm (accountsTable.Columns.entries.map Prod.snd) ∧
      cols.Pairwise (fun a b => a.Position < b.Position) :=
  ⟨by decide, by decide, by decide, by decide, by decide,
    (generateTableDDL_columns_sorted accountsTable (by decide) (by decide)).imp
      (fun _ h => ⟨h.2.1, h.2.2.1⟩)⟩

/-! ## End to end: one added column -/

theorem filterMap_single {α β : Type} (f : α → Option β) (a : α) (b : β) :
    ∀ l : List α, l.Nodup → a ∈ l → f a = some b → (∀ x ∈ l, x ≠ a → f x = none) →
      l.filterMap f = [b] := by
  intro l
  induction l with
  | nil => intro _ h; simp at h
  | cons x l ih =>
    intro hnd hmem hfa hrest
    obtain ⟨hx, hnd⟩ := List.nodup_cons.1 hnd
    by_cases hxa : x = a
    · subst hxa
      have hnil : l.filterMap f = [] := by
        rw [List.filterMap_eq_nil_iff]
        intro y hy
        exact hrest y (List.mem_cons_of_mem _ hy) (fun h => hx (h ▸ hy))
      rw [List.filterMap_cons_some hfa, hnil]
    · have hmem2 : a ∈ l := by
        rcases List.mem_cons.1 hmem with h | h
        · exact absurd h.symm hxa
        · exact h
      rw [List.filterMap_cons_none (hrest x (List.mem_cons_self _ _) hxa)]
      exact ih hnd hmem2 hfa (fun y hy => hrest y (List.mem_cons_of_mem _ hy))

theorem GoMap.entries_nodup {α : Type} (m : GoMap α) : m.entries.Nodup :=
  List.Nodup.of_map _ m.nodup

theorem onlyIn_eq_nil {α : Type} (m other : GoMap α)
    (h : ∀ e ∈ m.entries, other.contains e.1 = true) : onlyIn m other = [] := by
  apply GoMap.rangeAppend_eq_nil
  intro e he
  simp [h e he]

theorem onlyIn_of_agree {α : Type} (m other : GoMap α)
    (h : ∀ n, m.get? n = other.get? n) : onlyIn m other = [] := by
  apply onlyIn_eq_nil
  intro e he
  unfold GoMap.contains
  rw [← h e.1, m.get?_of_mem he]
  rfl

theorem onlyIn_single {α : Type} (m other : GoMap α) (name : String) (v : α)
    (hv : m.get? name = some v) (hno : other.get? name = none)
    (hrest : ∀ n, n ≠ name → m.get? n = other.get? n) : onlyIn m other = [v] := by
  unfold onlyIn
  rw [GoMap.rangeAppend_eq_filterMap]
  apply filterMap_single _ (name, v) v m.entries m.entries_nodup (m.mem_of_get? hv)
  · simp [GoMap.contains, hno]
  · intro e he hne
    have hget := m.get?_of_mem he
    have hn : e.1 ≠ name := by
      intro h
      apply hne
      rw [h, hv] at hget
      exact Prod.ext h (Option.some.inj hget).symm
    simp [GoMap.contains, ← hrest e.1 hn, hget]

theorem onlyIn_missing {α : Type} (m other : GoMap α) (name : String)
    (hno : other.get? name = none)
    (hrest : ∀ n, n ≠ name → m.get? n = other.get? n) : onlyIn other m = [] := by
  apply onlyIn_eq_nil
  intro e he
  have hget := other.get?_of_mem he
  have hn : e.1 ≠ name := by
    intro h
    rw [h, hno] at hget
    exact Option.noConfusion hget
  simp [GoMap.contains, hrest e.1 hn, hget]

/-- The diff of two base tables that agree in everything but one column `c`, which only
the source has: the column is added, nothing else is reported. -/
theorem compareTable_one_added_column (s t : Table) (c : Column) (name : String)
    (hst : s.Type_ = TableTypeTable) (htt : t.Type_ = TableTypeTable)
    (hc : s.Columns.get? name = some c) (hno : t.Columns.get? name = none)
    (hcols : ∀ n, n ≠ name → s.Columns.get? n = t.Columns.get? n)
    (hidx : ∀ n, s.Indexes.get? n = t.Indexes.get? n)
    (hpk : s.PrimaryKey = t.PrimaryKey)
    (hfk : ∀ n, s.ForeignKeys.get? n = t.ForeignKeys.get? n) :
    compareTable s t = some
      { Table := t
        ColumnsAdded := [c], ColumnsDropped := [], ColumnsModified := []
        IndexesAdded := [], IndexesDropped := [], IndexesModified := []
        PrimaryKeyChange := none
        ForeignKeysAdded := [], ForeignKeysDropped := [], ForeignKeysModified := []
        ViewDefinitionChange := none } := by
  have hne : (TableTypeTable == TableTypeView) = false := by decide
  have hadd := onlyIn_single s.Columns t.Columns name c hc hno hcols
  unfold compareTable
  rw [hst, htt]
  simp only [bne_self_eq_false, Bool.false_eq_true, if_false, hne, hpk, equalPrimaryKey_self,
    Bool.not_true]
  rw [if_pos (by rw [hadd]; simp)]
  congr 1
  congr 1
  · exact onlyIn_missing s.Columns t.Columns name hno hcols
  · apply GoMap.rangeAppend_eq_nil
    intro e he
    have hget := s.Columns.get?_of_mem he
    by_cases hn : e.1 = name
    · rw [hn, hno]
    · rw [← hcols e.1 hn, hget]
      simp [equalColumn_self]
  · exact onlyIn_of_agree _ _ hidx
  · exact onlyIn_of_agree _ _ (fun n => (hidx n).symm)
  · apply GoMap.rangeAppend_eq_nil
    intro e he
    rw [← hidx e.1, s.Indexes.get?_of_mem he]
    simp [equalIndex_self]
  · exact onlyIn_of_agree _ _ hfk
  · exact onlyIn_of_agree _ _ (fun n => (hfk n).symm)
  · apply GoMap.rangeAppend_eq_nil
    intro e he
    rw [← hfk e.1, s.ForeignKeys.get?_of_mem he]
    simp [equalForeignKey_self]

theorem postgres_addColumn_email (t : Table) (email : Column)
    (hname : t.Name = "users") (hschema : t.Schema = "public")
    (hen : email.Name = "email")
    (hty : email.DataType = "varchar" ∨ email.DataType = "character varying")
    (hlen : email.CharMaxLen = some 200) (hnull : email.Nullable = false)
    (hdef : email.Default = none) :
    postgreDialect.GenerateAddColumnSql t email =
      "ALTER TABLE \"public\".\"users\" ADD COLUMN \"email\" varchar(200) NOT NULL;" := by
  have hconv : PostgreSQLTypeConverter.ConvertType email = "varchar(200)" := by
    unfold PostgreSQLTypeConverter.ConvertType
    have hl1 : stringsToLower "varchar" = "varchar" := by decide
    have hl2 : stringsToLower "character varying" = "character varying" := by decide
    rcases hty with h | h <;> rw [h] <;> simp only [hl1, hl2] <;>
      simp [PostgreSQLTypeConverter.typeMap,
        PostgreSQLTypeConverter.handleVarchar, hlen] <;> decide
  unfold postgreDialect.GenerateAddColumnSql PostgreSQLTypeConverter.GenerateColumnDDL
  simp only [hname, hschema, hen, hconv, hnull, hdef]
  decide

/-- Claim C11.  End to end for a PostgreSQL target: when source and target both hold the
base table `users` of the schema `public`, all other tables agree, and the two `users`
tables agree in everything except that the source has one more column `email` (data type
`varchar` or `character varying`, character max length 200, not nullable, no default),
`GenerateSchemaSQL (CompareSchemas src tgt)` for `postgres` is exactly the one-element
list with the ADD COLUMN statement of `email`. -/
theorem generateSchemaSQL_add_email_column (src tgt : DatabaseSchema) (s t : Table)
    (email : Column)
    (hsrc : src.Tables.get? "users" = some s) (htgt : tgt.Tables.get? "users" = some t)
    (hother : ∀ n, n ≠ "users" → src.Tables.get? n = tgt.Tables.get? n)
    (hname : t.Name = "users") (hschema : t.Schema = "public")
    (hst : s.Type_ = TableTypeTable) (htt : t.Type_ = TableTypeTable)
    (hemail : s.Columns.get? "email" = some email) (hno : t.Columns.get? "email" = none)
    (hcols : ∀ n, n ≠ "email" → s.Columns.get? n = t.Columns.get? n)
    (hidx : ∀ n, s.Indexes.get? n = t.Indexes.get? n)
    (hpk : s.PrimaryKey = t.PrimaryKey)
    (hfk : ∀ n, s.ForeignKeys.get? n = t.ForeignKeys.get? n)
    (hen : email.Name = "email")
    (hty : email.DataType = "varchar" ∨ email.DataType = "character varying")
    (hlen : email.CharMaxLen = some 200) (hnull : email.Nullable = false)
    (hdef : email.Default = none) :
    GenerateSchemaSQL (CompareSchemas src tgt) DBTypePostgres =
      some ["ALTER TABLE \"public\".\"users\" ADD COLUMN \"email\" varchar(200) NOT NULL;"] := by
  have hagree : ∀ n, (src.Tables.get? n).isSome = (tgt.Tables.get? n).isSome := by
    intro n
    by_cases hn : n = "users"
    · rw [hn, hsrc, htgt]
      rfl
    · rw [hother n hn]
  have hadded : (CompareSchemas src tgt).TablesAdded = [] := by
    apply onlyIn_eq_nil
    intro e he
    unfold GoMap.contains
    rw [← hagree, src.Tables.get?_of_mem he]
    rfl
  have hdropped : (CompareSchemas src tgt).TablesDropped = [] := by
    apply onlyIn_eq_nil
    intro e he
    unfold GoMap.contains
    rw [hagree, tgt.Tables.get?_of_mem he]
    rfl
  have hmod : (CompareSchemas src tgt).TablesModified =
      [{ Table := t
         ColumnsAdded := [email], ColumnsDropped := [], ColumnsModified := []
         IndexesAdded := [], IndexesDropped := [], IndexesModified := []
         PrimaryKeyChange := none
         ForeignKeysAdded := [], ForeignKeysDropped := [], ForeignKeysModified := []
         ViewDefinitionChange := none }] := by
    rw [tablesModified_eq]
    apply filterMap_single _ "users" _ src.Tables.keys src.Tables.nodup
    · exact (GoMap.contains_iff _ _).1 (by simp [GoMap.contains, hsrc])
    · simp only [tableDiffAt, hsrc, htgt]
      exact compareTable_one_added_column s t email "email" hst htt hemail hno hcols hidx hpk hfk
    · intro n hn hne
      obtain ⟨x, hx⟩ := GoMap.get?_of_contains _ _ ((GoMap.contains_iff _ _).2 hn)
      simp only [tableDiffAt, ← hother n hne, hx]
      exact compareTable_self x
  have hview : (t.Type_ == TableTypeView) = false := by
    rw [htt]
    decide
  show some (generateSchemaSQLWith NewPostgreDialect (CompareSchemas src tgt)) = _
  unfold generateSchemaSQLWith
  rw [hadded, hdropped, hmod]
  simp only [List.foldl_nil, List.foldl_cons, hview, Bool.false_eq_true, if_false,
    List.nil_append, List.append_nil]
  simp only [genAlterTable, List.foldl_nil, List.foldl_cons, List.nil_append, NewPostgreDialect]
  rw [postgres_addColumn_email t email hname hschema hen hty hlen hnull hdef]

theorem generateSchemaSQL_add_email_column_witness :
    GenerateSchemaSQL (CompareSchemas (usersSchema usersWithEmail) (usersSchema usersPlain))
        DBTypePostgres =
      some ["ALTER TABLE \"public\".\"users\" ADD COLUMN \"email\" varchar(200) NOT NULL;"] :=
  generateSchemaSQL_add_email_column (usersSchema usersWithEmail) (usersSchema usersPlain)
    usersWithEmail usersPlain emailColumn (by decide) (by decide)
    (by
      intro n hn
      have hb : (n == "users") = false := by simpa using hn
      simp [usersSchema, GoMap.get?, List.lookup, hb])
    (by decide) (by decide) (by decide) (by decide) (by decide) (by decide)
    (by
      intro n hn
      have hb : (n == "email") = false := by simpa using hn
      by_cases h1 : n = "id"
      · subst h1; decide
      · by_cases h2 : n = "name"
        · subst h2; decide
        · have hb1 : (n == "id") = false := by simpa using h1
          have hb2 : (n == "name") = false := by simpa using h2
          simp [usersWithEmail, usersPlain, usersTable, GoMap.get?, List.lookup, hb, hb1, hb2])
    (fun _ => rfl) (by decide) (fun _ => rfl) (by decide) (Or.inl (by decide)) (by decide)
    (by decide) (by decide)

/-! ## Joining with a prefix and a suffix -/

theorem joinPreSuf_cons (x : String) (arr : List String) (pre suf sep : String) :
    pre ++ stringsJoin (x :: arr) (suf ++ sep ++ pre) ++ suf =
      stringsJoin ((x :: arr).map fun e => pre ++ e ++ suf) sep := by
  induction arr generalizing x with
  | nil => simp [stringsJoin]
  | cons y rest ih =>
    have h := ih y
    simp only [List.map_cons, stringsJoin] at h ⊢
    rw [← h]
    apply String.ext
    simp [String.data_append]

/-- Claim C30.  For every list `arr` and all strings `pre`, `suf`, `sep`, `JoinPreSuf` is
the empty string when `arr` is empty and otherwise the elements of `arr`, each rendered as
`pre` + element + `suf`, joined by `sep`; `JoinWrap arr wrap sep` equals
`JoinPreSuf arr wrap wrap sep`; the two examples of the tests come out as `'a','b','c'`
and `(a),(b),(c)`. -/
theorem joinPreSuf_spec :
    (∀ (arr : List String) (pre suf sep : String),
      JoinPreSuf arr pre suf sep =
        if arr = [] then "" else stringsJoin (arr.map fun e => pre ++ e ++ suf) sep) ∧
    (∀ (arr : List String) (wrap sep : String),
      JoinWrap arr wrap sep = JoinPreSuf arr wrap wrap sep) ∧
    JoinWrap ["a", "b", "c"] "'" "," = "'a','b','c'" ∧
    JoinPreSuf ["a", "b", "c"] "(" ")" "," = "(a),(b),(c)" := by
  refine ⟨?_, ?_, by decide, by decide⟩
  · intro arr pre suf sep
    cases arr with
    | nil => simp [JoinPreSuf]
    | cons x rest =>
      simp only [JoinPreSuf, List.length_cons, Nat.add_one_ne_zero, if_false, reduceCtorEq]
      exact joinPreSuf_cons x rest pre suf sep
  · intro arr wrap sep
    rfl
/-! ## The type converters -/

/-- Claim C21 fails for three types.  `tinytext`, `mediumtext` and `longtext` are known
to the MySQL type converter, but `escapedValue` tests the lower-cased type name for the
prefixes `char`, `varchar`, `text` and `json`, which none of the three has: the value
comes out as the bare string form, without quotes and without escaping. -/
theorem mysql_escapedValue_tinytext_bare :
    (MySQLTypeConverter.typeMap "tinytext").isSome = true ∧
    (MySQLTypeConverter.typeMap "mediumtext").isSome = true ∧
    (MySQLTypeConverter.typeMap "longtext").isSome = true ∧
    mysqlDialect.escapedValue "tinytext" (Value.text "it's") = "it's" ∧
    mysqlDialect.escapedValue "MEDIUMTEXT" (Value.text "it's") = "it's" ∧
    mysqlDialect.escapedValue "longtext" (Value.text "it's") = "it's" ∧
    mysqlDialect.escapedValue "text" (Value.text "it's") = "'it''s'" := by
  decide

theorem postgres_typeMap_varchar :
    PostgreSQLTypeConverter.typeMap "varchar" = some PostgreSQLTypeConverter.handleVarchar ∧
    PostgreSQLTypeConverter.typeMap "char" = some PostgreSQLTypeConverter.handleChar :=
  ⟨rfl, rfl⟩

theorem mysql_typeMap_varchar :
    MySQLTypeConverter.typeMap "varchar" = some MySQLTypeConverter.handleVarchar ∧
    MySQLTypeConverter.typeMap "char" = some MySQLTypeConverter.handleChar ∧
    MySQLTypeConverter.typeMap "binary" = some MySQLTypeConverter.handleBinary ∧
    MySQLTypeConverter.typeMap "varbinary" = some MySQLTypeConverter.handleVarbinary :=
  ⟨rfl, rfl, rfl, rfl⟩

/-- Claim C22 fails as stated: the PostgreSQL converter renders a `varchar` column
without character max length as the bare `varchar`, not as `varchar(255)`. -/
theorem postgres_convertType_varchar_counterexample :
    (testColumn "c" 1).CharMaxLen = none ∧
    PostgreSQLTypeConverter.ConvertType { testColumn "c" 1 with DataType := "varchar" }
      = "varchar" ∧
    PostgreSQLTypeConverter.ConvertType { testColumn "c" 1 with DataType := "varchar" }
      ≠ "varchar(255)" := by
  decide

/-- Claim C22, amended.  The data type name is matched after lower-casing.  `ConvertType`
of a `varchar` column yields `varchar(n)` when the character max length `n` is set and
positive, and otherwise `varchar(255)` in the MySQL converter but the bare `varchar` in
the PostgreSQL converter; of a `char` column it yields `char(n)`, otherwise `char(1)`, in
both converters; in the MySQL converter `binary` and `varbinary` columns yield
`binary(n)`, otherwise `binary(1)`, and `varbinary(n)`, otherwise `varbinary(255)`. -/
theorem convertType_length_types (col : Column) :
    (stringsToLower col.DataType = "varchar" →
      MySQLTypeConverter.ConvertType col = typeWithLength "varchar" col.CharMaxLen "varchar(255)" ∧
      PostgreSQLTypeConverter.ConvertType col = typeWithLength "varchar" col.CharMaxLen "varchar") ∧
    (stringsToLower col.DataType = "char" →
      MySQLTypeConverter.ConvertType col = typeWithLength "char" col.CharMaxLen "char(1)" ∧
      PostgreSQLTypeConverter.ConvertType col = typeWithLength "char" col.CharMaxLen "char(1)") ∧
    (stringsToLower col.DataType = "binary" →
      MySQLTypeConverter.ConvertType col = typeWithLength "binary" col.CharMaxLen "binary(1)") ∧
    (stringsToLower col.DataType = "varbinary" →
      MySQLTypeConverter.ConvertType col =
        typeWithLength "varbinary" col.CharMaxLen "varbinary(255)") := by
  refine ⟨?_, ?_, ?_, ?_⟩ <;> intro h
  · constructor
    · simp only [MySQLTypeConverter.ConvertType, h, mysql_typeMap_varchar.1]
      rfl
    · simp only [PostgreSQLTypeConverter.ConvertType, h, postgres_typeMap_varchar.1]
      rfl
  · constructor
    · simp only [MySQLTypeConverter.ConvertType, h, mysql_typeMap_varchar.2.1]
      rfl
    · simp only [PostgreSQLTypeConverter.ConvertType, h, postgres_typeMap_varchar.2]
      rfl
  · simp only [MySQLTypeConverter.ConvertType, h, mysql_typeMap_varchar.2.2.1]
    rfl
  · simp only [MySQLTypeConverter.ConvertType, h, mysql_typeMap_varchar.2.2.2]
    rfl

theorem convertType_length_types_witness :
    stringsToLower emailColumn.DataType = "varchar" ∧
    stringsToLower ({ testColumn "c" 1 with DataType := "VARBİNARY" } : Column).DataType
      = "varbinary" ∧
    MySQLTypeConverter.ConvertType emailColumn = "varchar(200)" ∧
    PostgreSQLTypeConverter.ConvertType emailColumn = "varchar(200)" ∧
    MySQLTypeConverter.ConvertType { testColumn "c" 1 with DataType := "VARBİNARY" }
      = "varbinary(255)" :=
  ⟨by decide, by decide,
    ((convertType_length_types emailColumn).1 (by decide)).1,
    ((convertType_length_types emailColumn).1 (by decide)).2,
    (convertType_length_types { testColumn "c" 1 with DataType := "VARBİNARY" }).2.2.2
      (by decide)⟩

/-! ## The version comparator -/

theorem versionPart_eq_getD (parts : List String) (n i : Nat) :
    versionPart parts i =
      (padZeros n (parts.map fun part => (strconvAtoi part).getD 0)).getD i 0 := by
  unfold versionPart padZeros
  by_cases h : i < parts.length
  · rw [if_pos h, List.getD_eq_getElem?_getD, List.getD_eq_getElem?_getD,
      List.getElem?_append_left (by simpa using h)]
    simp only [List.getElem?_map, List.getElem?_eq_getElem h, Option.map_some', Option.getD_some]
    cases strconvAtoi parts[i] <;> rfl
  · rw [if_neg h, List.getD_eq_getElem?_getD,
      List.getElem?_append_right (by simpa using h)]
    rw [List.getElem?_replicate]
    split <;> rfl

theorem compareVersionLoop_eq (aParts bParts : List String) (xs ys : List Int)
    (hx : ∀ j, versionPart aParts j = xs.getD j 0)
    (hy : ∀ j, versionPart bParts j = ys.getD j 0) :
    ∀ (count i : Nat), xs.length = i + count → ys.length = i + count →
      compareVersionLoop aParts bParts count i = firstDifference (xs.drop i) (ys.drop i) := by
  intro count
  induction count with
  | zero =>
    intro i h1 h2
    rw [List.drop_of_length_le (by omega)]
    rfl
  | succ n ih =>
    intro i h1 h2
    have hi1 : i < xs.length := by omega
    have hi2 : i < ys.length := by omega
    rw [List.drop_eq_getElem_cons hi1, List.drop_eq_getElem_cons hi2, compareVersionLoop,
      firstDifference, hx i, hy i, List.getD_eq_getElem _ _ hi1, List.getD_eq_getElem _ _ hi2,
      ih (i + 1) (by omega) (by omega)]

theorem padZeros_length (n : Nat) (l : List Int) (h : l.length ≤ n) :
    (padZeros n l).length = n := by
  simp [padZeros]
  omega

theorem utils_compareVersion_eq_reference (a b : String) :
    utils.CompareVersion a b = compareVersionReference a b := by
  unfold utils.CompareVersion compareVersionReference
  by_cases ha : a = "" <;> by_cases hb : b = "" <;> simp only [ha, hb] <;> try rfl
  simp only [versionComponents]
  have hmax : ∀ p q : Nat, (if q > p then q else p) = max p q := by
    intro p q
    by_cases h : q > p
    · rw [if_pos h]; omega
    · rw [if_neg h]; omega
  simp only [beq_iff_eq, ha, hb, false_and, and_false, and_self, Bool.false_and, Bool.and_false,
    Bool.false_eq_true, if_false, hmax, List.length_map]
  rw [compareVersionLoop_eq _ _ _ _ (fun j => versionPart_eq_getD _ _ j)
    (fun j => versionPart_eq_getD _ _ j) _ 0]
  · rfl
  · rw [padZeros_length _ _ (by simp)]
    simp
  · rw [padZeros_length _ _ (by simp)]
    simp

theorem firstDifference_self (xs : List Int) : firstDifference xs xs = 0 := by
  induction xs with
  | nil => rfl
  | cons x xs ih => simp [firstDifference, ih]

theorem firstDifference_range : ∀ (xs ys : List Int),
    firstDifference xs ys = -1 ∨ firstDifference xs ys = 0 ∨ firstDifference xs ys = 1 := by
  intro xs
  induction xs with
  | nil => intro ys; right; left; rfl
  | cons x xs ih =>
    intro ys
    cases ys with
    | nil => right; left; rfl
    | cons y ys =>
      rw [firstDifference]
      by_cases h1 : x < y
      · left; rw [if_pos h1]
      · rw [if_neg h1]
        by_cases h2 : x > y
        · right; right; rw [if_pos h2]
        · rw [if_neg h2]
          exact ih ys

theorem firstDifference_swap : ∀ (xs ys : List Int),
    firstDifference ys xs = -firstDifference xs ys := by
  intro xs
  induction xs with
  | nil => intro ys; cases ys <;> rfl
  | cons x xs ih =>
    intro ys
    cases ys with
    | nil => rfl
    | cons y ys =>
      rw [firstDifference, firstDifference]
      split_ifs <;> first | omega | exact ih ys

theorem firstDifference_trans : ∀ (xs ys zs : List Int),
    xs.length = ys.length → ys.length = zs.length →
    firstDifference xs ys ≤ 0 → firstDifference ys zs ≤ 0 → firstDifference xs zs ≤ 0 := by
  intro xs
  induction xs with
  | nil => intro ys zs _ _ _ _; exact le_refl _
  | cons x xs ih =>
    intro ys zs h1 h2 h3 h4
    cases ys with
    | nil => simp at h1
    | cons y ys =>
      cases zs with
      | nil => simp at h2
      | cons z zs =>
        rw [firstDifference] at h3 h4 ⊢
        by_cases hxy : x < y
        · by_cases hyz : y < z
          · rw [if_pos (by omega : x < z)]
            decide
          · rw [if_neg hyz] at h4
            by_cases hyz2 : y > z
            · rw [if_pos hyz2] at h4
              exact absurd h4 (by decide)
            · rw [if_pos (by omega : x < z)]
              decide
        · rw [if_neg hxy] at h3
          by_cases hxy2 : x > y
          · rw [if_pos hxy2] at h3
            exact absurd h3 (by decide)
          · rw [if_neg hxy2] at h3
            have hxe : x = y := by omega
            subst hxe
            by_cases hyz : x < z
            · rw [if_pos hyz]
              decide
            · rw [if_neg hyz] at h4 ⊢
              by_cases hyz2 : x > z
              · rw [if_pos hyz2] at h4
                exact absurd h4 (by decide)
              · rw [if_neg hyz2] at h4 ⊢
                exact ih ys zs (by simpa using h1) (by simpa using h2) h3 h4

theorem firstDifference_append_zeros (k : Nat) : ∀ (xs ys : List Int),
    xs.length = ys.length →
    firstDifference (xs ++ List.replicate k 0) (ys ++ List.replicate k 0)
      = firstDifference xs ys := by
  intro xs
  induction xs with
  | nil =>
    intro ys h
    have : ys = [] := List.length_eq_zero.1 h.symm
    subst this
    simp [firstDifference_self, firstDifference]
  | cons x xs ih =>
    intro ys h
    cases ys with
    | nil => simp at h
    | cons y ys =>
      rw [List.cons_append, List.cons_append, firstDifference, firstDifference,
        ih ys (by simpa using h)]

theorem padZeros_add (n k : Nat) (l : List Int) (h : l.length ≤ n) :
    padZeros (n + k) l = padZeros n l ++ List.replicate k 0 := by
  unfold padZeros
  have : n + k - l.length = (n - l.length) + k := by omega
  rw [this, List.replicate_add, List.append_assoc]

/-- The comparison may pad the two component lists to any common length that covers
both. -/
theorem compareVersion_padded (a b : String) (ha : a ≠ "") (hb : b ≠ "") (n : Nat)
    (h1 : (versionComponents a).length ≤ n) (h2 : (versionComponents b).length ≤ n) :
    utils.CompareVersion a b =
      firstDifference (padZeros n (versionComponents a)) (padZeros n (versionComponents b)) := by
  rw [utils_compareVersion_eq_reference]
  unfold compareVersionReference
  simp only [ha, hb, false_and, and_false, if_false]
  have hm : max (versionComponents a).length (versionComponents b).length ≤ n := by omega
  obtain ⟨k, hk⟩ := Nat.exists_eq_add_of_le hm
  rw [hk, padZeros_add _ _ _ (by omega), padZeros_add _ _ _ (by omega),
    firstDifference_append_zeros]
  rw [padZeros_length _ _ (by omega), padZeros_length _ _ (by omega)]

theorem compareVersion_range (a b : String) :
    utils.CompareVersion a b = -1 ∨ utils.CompareVersion a b = 0 ∨
      utils.CompareVersion a b = 1 := by
  rw [utils_compareVersion_eq_reference]
  unfold compareVersionReference
  by_cases ha : a = "" <;> by_cases hb : b = "" <;> simp [ha, hb]
  exact firstDifference_range _ _

theorem compareVersion_self (a : String) : utils.CompareVersion a a = 0 := by
  rw [utils_compareVersion_eq_reference]
  unfold compareVersionReference
  by_cases ha : a = "" <;> simp [ha, firstDifference_self]

theorem compareVersion_swap (a b : String) :
    utils.CompareVersion b a = -utils.CompareVersion a b := by
  rw [utils_compareVersion_eq_reference, utils_compareVersion_eq_reference]
  unfold compareVersionReference
  by_cases ha : a = "" <;> by_cases hb : b = "" <;> simp [ha, hb]
  rw [Nat.max_comm]
  exact firstDifference_swap _ _

theorem compareVersion_trans (a b c : String)
    (h1 : utils.CompareVersion a b ≤ 0) (h2 : utils.CompareVersion b c ≤ 0) :
    utils.CompareVersion a c ≤ 0 := by
  by_cases ha : a = ""
  · rcases compareVersion_range a c with h | h | h
    · rw [h]; decide
    · rw [h]
    · exfalso
      rw [utils_compareVersion_eq_reference] at h
      unfold compareVersionReference at h
      by_cases hc : c = "" <;> simp [ha, hc] at h
  · by_cases hb : b = ""
    · exfalso
      rw [utils_compareVersion_eq_reference] at h1
      unfold compareVersionReference at h1
      simp [ha, hb] at h1
    · by_cases hc : c = ""
      · exfalso
        rw [utils_compareVersion_eq_reference] at h2
        unfold compareVersionReference at h2
        simp [hb, hc] at h2
      · have hn := Nat.le_max_left (versionComponents a).length
          (max (versionComponents b).length (versionComponents c).length)
        have hn2 := Nat.le_max_right (versionComponents a).length
          (max (versionComponents b).length (versionComponents c).length)
        have hn3 := Nat.le_max_left (versionComponents b).length (versionComponents c).length
        have hn4 := Nat.le_max_right (versionComponents b).length (versionComponents c).length
        generalize max (versionComponents a).length
          (max (versionComponents b).length (versionComponents c).length) = n at hn hn2
        rw [compareVersion_padded a b ha hb n hn (by omega)] at h1
        rw [compareVersion_padded b c hb hc n (by omega) (by omega)] at h2
        rw [compareVersion_padded a c ha hc n hn (by omega)]
        exact firstDifference_trans _ _ _
          (by rw [padZeros_length _ _ hn, padZeros_length _ _ (by omega)])
          (by rw [padZeros_length _ _ (by omega), padZeros_length _ _ (by omega)]) h1 h2

theorem splitChars_ne_nil (sep : Char) : ∀ l : List Char, splitChars sep l ≠ [] := by
  intro l
  induction l with
  | nil => simp [splitChars]
  | cons c cs ih =>
    rw [splitChars]
    by_cases h : c = sep
    · simp [h]
    · rw [if_neg h]
      cases hs : splitChars sep cs with
      | nil => simp
      | cons p ps => simp

theorem splitChars_append_sep (sep : Char) (y : List Char) : ∀ x : List Char,
    splitChars sep (x ++ sep :: y) = splitChars sep x ++ splitChars sep y := by
  intro x
  induction x with
  | nil => simp [splitChars]
  | cons c cs ih =>
    rw [List.cons_append, splitChars, splitChars, ih]
    by_cases h : c = sep
    · simp [h]
    · rw [if_neg h, if_neg h]
      cases hs : splitChars sep cs with
      | nil => exact absurd hs (splitChars_ne_nil sep cs)
      | cons p ps => simp

theorem zeroComponents_succ (k : Nat) :
    (zeroComponents (k + 1)).data = '.' :: '0' :: (zeroComponents k).data := by
  rw [zeroComponents, String.data_append]
  rfl

theorem splitChars_zeroComponents : ∀ (k : Nat) (x : List Char),
    splitChars '.' (x ++ (zeroComponents k).data) =
      splitChars '.' x ++ List.replicate k ['0'] := by
  intro k
  induction k with
  | zero => intro x; simp [zeroComponents]
  | succ n ih =>
    intro x
    rw [zeroComponents_succ, splitChars_append_sep]
    have h := ih ['0']
    rw [List.singleton_append] at h
    rw [h, List.replicate_succ]
    simp [splitChars]

theorem zeroComponents_lower (k : Nat) :
    (zeroComponents k).data.map unicodeToLower = (zeroComponents k).data := by
  induction k with
  | zero => simp [zeroComponents]
  | succ n ih =>
    rw [zeroComponents_succ, List.map_cons, List.map_cons, ih]
    rfl

theorem zeroComponents_head (k : Nat) :
    ['v'].isPrefixOf (zeroComponents k).data = false := by
  cases k with
  | zero => simp [zeroComponents]
  | succ n =>
    rw [zeroComponents_succ]
    simp [List.isPrefixOf]

theorem versionComponents_extend (a : String) (k : Nat) :
    versionComponents (a ++ zeroComponents k) = versionComponents a ++ List.replicate k 0 := by
  have hcore : ∀ x : List Char,
      (stringsTrimPrefix ⟨x ++ (zeroComponents k).data⟩ "v").data =
        (stringsTrimPrefix ⟨x⟩ "v").data ++ (zeroComponents k).data := by
    intro x
    unfold stringsTrimPrefix stringsHasPrefix
    cases x with
    | nil =>
      have := zeroComponents_head k
      simp [this]
    | cons c cs =>
      have h1 : ("v" : String).data = ['v'] := rfl
      rw [h1]
      by_cases hc : c = 'v'
      · simp [hc, List.isPrefixOf]
      · have hc2 : ¬ 'v' = c := fun h => hc h.symm
        simp [hc, hc2, List.isPrefixOf]
  unfold versionComponents stringsSplit
  have hl : (stringsToLower (a ++ zeroComponents k)) =
      ⟨(stringsToLower a).data ++ (zeroComponents k).data⟩ := by
    apply String.ext
    simp [stringsToLower, String.data_append, zeroComponents_lower]
  have hs : stringsTrimPrefix (stringsToLower (a ++ zeroComponents k)) "v" =
      ⟨(stringsTrimPrefix (stringsToLower a) "v").data ++ (zeroComponents k).data⟩ := by
    apply String.ext
    rw [hl, hcore]
  rw [hs, splitChars_zeroComponents]
  simp only [List.map_append, List.map_map, List.map_replicate]
  congr 1

theorem compareVersion_extend (a : String) (k : Nat) (ha : a ≠ "") :
    utils.CompareVersion a (a ++ zeroComponents k) = 0 := by
  have hb : a ++ zeroComponents k ≠ "" := by
    intro h
    apply ha
    have := congrArg String.data h
    rw [String.data_append] at this
    exact String.ext (List.append_eq_nil.1 this).1
  rw [compareVersion_padded a _ ha hb ((versionComponents a).length + k) (by omega)
    (by rw [versionComponents_extend]; simp)]
  rw [versionComponents_extend]
  have : padZeros ((versionComponents a).length + k) (versionComponents a) =
      padZeros ((versionComponents a).length + k) (versionComponents a ++ List.replicate k 0) := by
    simp [padZeros]
  rw [this, firstDifference_self]

/-- Claim C23.  `CompareVersion`, in `pkg/utils` and in its copy of the migration runner,
equals the reference of the specification for all strings: 0 when both are empty, -1 when
only the first is, 1 when only the second is, and otherwise the sign of the first
difference of the zero-padded component lists.  Hence a non-empty version compares equal
to itself extended by any number of `.0` components, `1` equals `1.0.0`, `v1.2` is below
`1.3`, `2.0` is above `1.9` and `1.0.a` equals `1.0.0`. -/
theorem compareVersion_spec :
    (∀ a b : String, utils.CompareVersion a b = compareVersionReference a b) ∧
    (∀ a b : String, Local.CompareVersion a b = compareVersionReference a b) ∧
    (∀ (a : String) (k : Nat), a ≠ "" → utils.CompareVersion a (a ++ zeroComponents k) = 0) ∧
    utils.CompareVersion "1" "1.0.0" = 0 ∧
    utils.CompareVersion "v1.2" "1.3" = -1 ∧
    utils.CompareVersion "2.0" "1.9" = 1 ∧
    utils.CompareVersion "1.0.a" "1.0.0" = 0 :=
  ⟨utils_compareVersion_eq_reference, utils_compareVersion_eq_reference,
    fun a k ha => compareVersion_extend a k ha, by decide, by decide, by decide, by decide⟩

theorem compareVersion_spec_witness :
    ("V3.1" : String) ≠ "" ∧ "V3.1" ++ zeroComponents 2 = "V3.1.0.0" ∧
    utils.CompareVersion "V3.1" ("V3.1" ++ zeroComponents 2) = 0 :=
  ⟨by decide, by decide, compareVersion_spec.2.2.1 "V3.1" 2 (by decide)⟩

/-! ## The file-name pattern of the migration runner -/

theorem splitChars_of_not_mem (sep : Char) : ∀ l : List Char, sep ∉ l →
    splitChars sep l = [l] := by
  intro l
  induction l with
  | nil => intro _; rfl
  | cons c cs ih =>
    intro h
    have hc : c ≠ sep := fun e => h (e ▸ List.mem_cons_self _ _)
    have hcs : sep ∉ cs := fun e => h (List.mem_cons_of_mem _ e)
    rw [splitChars, if_neg hc, ih hcs]

theorem splitChars_runs (sep : Char) (first : List Char) (hf : sep ∉ first) :
    ∀ more : List (List Char), (∀ p ∈ more, sep ∉ p) →
      splitChars sep (first ++ (more.map fun p => sep :: p).flatten) = first :: more := by
  intro more
  induction more generalizing first with
  | nil => intro _; simpa using splitChars_of_not_mem sep first hf
  | cons p ps ih =>
    intro h
    have hp : sep ∉ p := h p (List.mem_cons_self _ _)
    rw [List.map_cons, List.flatten_cons, List.cons_append, splitChars_append_sep,
      splitChars_of_not_mem sep first hf, ih p hp (fun q hq => h q (List.mem_cons_of_mem _ hq))]
    rfl

theorem splitChars_flatten (sep : Char) : ∀ l : List Char,
    ∃ (first : List Char) (more : List (List Char)),
      splitChars sep l = first :: more ∧ l = first ++ (more.map fun p => sep :: p).flatten := by
  intro l
  induction l with
  | nil => exact ⟨[], [], rfl, rfl⟩
  | cons c cs ih =>
    obtain ⟨first, more, h1, h2⟩ := ih
    rw [splitChars, h1]
    by_cases hc : c = sep
    · refine ⟨[], first :: more, by rw [if_pos hc], ?_⟩
      rw [hc, h2]
      simp
    · refine ⟨c :: first, more, by rw [if_neg hc], ?_⟩
      rw [h2]
      simp

theorem digitsOnly_iff (l : List Char) : digitsOnly l = true ↔ IsDigitRun l := by
  unfold digitsOnly IsDigitRun
  cases l <;> simp

theorem isDigitRun_not_mem (l : List Char) (h : IsDigitRun l) (c : Char)
    (hc : c.isDigit = false) : c ∉ l := by
  intro hm
  rw [h.2 c hm] at hc
  exact Bool.noConfusion hc

theorem dottedDigits_iff (l : List Char) : dottedDigits l = true ↔ IsDottedDigitRuns l := by
  unfold dottedDigits IsDottedDigitRuns
  constructor
  · intro h
    obtain ⟨first, more, h1, h2⟩ := splitChars_flatten '.' l
    rw [h1] at h
    simp only [List.all_cons, Bool.and_eq_true, List.all_eq_true] at h
    exact ⟨first, more, (digitsOnly_iff _).1 h.1, fun p hp => (digitsOnly_iff _).1 (h.2 p hp), h2⟩
  · rintro ⟨first, more, h1, h2, h3⟩
    rw [h3, splitChars_runs '.' first (isDigitRun_not_mem _ h1 _ (by decide)) more
      (fun p hp => isDigitRun_not_mem _ (h2 p hp) _ (by decide))]
    simp only [List.all_cons, Bool.and_eq_true, List.all_eq_true]
    exact ⟨(digitsOnly_iff _).2 h1, fun p hp => (digitsOnly_iff _).2 (h2 p hp)⟩

theorem versionGroup_iff (v : List Char) :
    versionGroup false v = true ↔ MatchesRunnerVersion v := by
  unfold versionGroup MatchesRunnerVersion
  cases v with
  | nil => simp [IsDigitRun]
  | cons c rest =>
    simp only [Bool.false_and, Bool.or_false, Bool.or_eq_true, Bool.and_eq_true, beq_iff_eq,
      dottedDigits_iff, digitsOnly_iff]
    constructor
    · rintro (⟨hc, hd⟩ | h)
      · exact Or.inl ⟨c, rest, rfl, hc, hd⟩
      · exact Or.inr h
    · rintro (⟨c2, rest2, he, hc, hd⟩ | h)
      · obtain ⟨h1, h2⟩ := List.cons.inj he
        subst h1 h2
        exact Or.inl ⟨hc, hd⟩
      · exact Or.inr h

theorem isDottedDigitRuns_no_underscore (l : List Char) (h : IsDottedDigitRuns l) :
    ∀ c ∈ l, c ≠ '_' := by
  obtain ⟨first, more, h1, h2, h3⟩ := h
  intro c hc
  rw [h3] at hc
  rcases List.mem_append.1 hc with hm | hm
  · intro e
    exact isDigitRun_not_mem _ h1 '_' (by decide) (e ▸ hm)
  · obtain ⟨q, hq, hcq⟩ := List.mem_flatten.1 hm
    obtain ⟨p, hp, rfl⟩ := List.mem_map.1 hq
    rcases List.mem_cons.1 hcq with e | hm2
    · rw [e]; decide
    · intro e
      exact isDigitRun_not_mem _ (h2 p hp) '_' (by decide) (e ▸ hm2)

theorem matchesRunnerVersion_no_underscore (v : List Char) (h : MatchesRunnerVersion v) :
    ∀ c ∈ v, c ≠ '_' := by
  rcases h with ⟨c0, rest, he, hc0, hd⟩ | h
  · intro c hc
    rw [he] at hc
    rcases List.mem_cons.1 hc with e | hm
    · rcases hc0 with h0 | h0 <;> rw [e, h0] <;> decide
    · exact isDottedDigitRuns_no_underscore rest hd c hm
  · intro c hc e
    exact isDigitRun_not_mem _ h '_' (by decide) (e ▸ hc)

theorem takeWhile_append_stop (p : Char → Bool) (l rest : List Char) (x : Char)
    (hl : ∀ c ∈ l, p c = true) (hx : p x = false) :
    (l ++ x :: rest).takeWhile p = l ∧ (l ++ x :: rest).dropWhile p = x :: rest := by
  induction l with
  | nil => simp [List.takeWhile, List.dropWhile, hx]
  | cons c cs ih =>
    have hc := hl c (List.mem_cons_self _ _)
    have := ih (fun d hd => hl d (List.mem_cons_of_mem _ hd))
    simp [List.takeWhile, List.dropWhile, hc, this]

theorem migrationNameSubmatch_core (optionalV : Bool) (name : String) (v t x : List Char)
    (hv : ∀ c ∈ v, c ≠ '_') (ht : ∀ c ∈ t, c ≠ '.')
    (hn : name.data = v ++ '_' :: '_' :: (t ++ '.' :: x)) :
    migrationNameSubmatch optionalV name =
      if (versionGroup optionalV v && !t.isEmpty) = true then
        if (⟨'.' :: x⟩ : String) = ".up.sql" then some (⟨v⟩, ⟨t⟩, "up", "sql")
        else if (⟨'.' :: x⟩ : String) = ".down.sql" then some (⟨v⟩, ⟨t⟩, "down", "sql")
        else if (⟨'.' :: x⟩ : String) = ".sql" then some (⟨v⟩, ⟨t⟩, "", "sql")
        else if (⟨'.' :: x⟩ : String) = ".up.json" then some (⟨v⟩, ⟨t⟩, "up", "json")
        else if (⟨'.' :: x⟩ : String) = ".down.json" then some (⟨v⟩, ⟨t⟩, "down", "json")
        else if (⟨'.' :: x⟩ : String) = ".json" then some (⟨v⟩, ⟨t⟩, "", "json")
        else none
      else none := by
  have hver := takeWhile_append_stop (fun c => c != '_') v ('_' :: (t ++ '.' :: x)) '_'
    (fun c hc => by simpa using hv c hc) (by decide)
  have htitle := takeWhile_append_stop (fun c => c != '.') t x '.'
    (fun c hc => by simpa using ht c hc) (by decide)
  unfold migrationNameSubmatch
  rw [hn]
  simp only [hver.1, hver.2, htitle.1, htitle.2]

theorem migrationNameSubmatch_of_pattern (name version title direction ext : String)
    (h : MatchesRunnerPattern name version title direction ext) :
    migrationNameSubmatch false name = some (version, title, direction, ext) := by
  obtain ⟨hv, ht1, ht2, hd, he, hn⟩ := h
  have hvg : versionGroup false version.data = true := (versionGroup_iff _).2 hv
  have hte : title.data.isEmpty = false := by
    cases htd : title.data with
    | nil => exact absurd htd ht1
    | cons c cs => rfl
  have hcond : (versionGroup false version.data && !title.data.isEmpty) = true := by
    rw [hvg, hte]
    rfl
  have hu := matchesRunnerVersion_no_underscore _ hv
  rcases hd with hd | hd | hd <;> rcases he with he | he <;> subst hd he
  · rw [migrationNameSubmatch_core false name _ _ "sql".data hu ht2 hn, if_pos hcond,
      if_neg (by decide), if_neg (by decide), if_pos rfl]
  · rw [migrationNameSubmatch_core false name _ _ "json".data hu ht2 hn, if_pos hcond,
      if_neg (by decide), if_neg (by decide), if_neg (by decide), if_neg (by decide),
      if_neg (by decide), if_pos rfl]
  · rw [migrationNameSubmatch_core false name _ _ "up.sql".data hu ht2 hn, if_pos hcond,
      if_pos rfl]
  · rw [migrationNameSubmatch_core false name _ _ "up.json".data hu ht2 hn, if_pos hcond,
      if_neg (by decide), if_neg (by decide), if_neg (by decide), if_pos rfl]
  · rw [migrationNameSubmatch_core false name _ _ "down.sql".data hu ht2 hn, if_pos hcond,
      if_neg (by decide), if_pos rfl]
  · rw [migrationNameSubmatch_core false name _ _ "down.json".data hu ht2 hn, if_pos hcond,
      if_neg (by decide), if_neg (by decide), if_neg (by decide), if_neg (by decide),
      if_pos rfl]

theorem submatch_tail_finish (v t tl : List Char) (lit d e version title direction ext : String)
    (hpos : (⟨tl⟩ : String) = lit)
    (hl : lit.data = (if d = "" then [] else '.' :: d.data) ++ '.' :: e.data)
    (hd : d = "" ∨ d = "up" ∨ d = "down") (he : e = "sql" ∨ e = "json")
    (h : some ((⟨v⟩ : String), (⟨t⟩ : String), d, e) = some (version, title, direction, ext)) :
    version = ⟨v⟩ ∧ title = ⟨t⟩ ∧ (direction = "" ∨ direction = "up" ∨ direction = "down") ∧
      (ext = "sql" ∨ ext = "json") ∧
      tl = (if direction = "" then [] else '.' :: direction.data) ++ '.' :: ext.data := by
  have h2 := Option.some.inj h
  obtain ⟨e1, e2, e3, e4⟩ : (⟨v⟩ : String) = version ∧ (⟨t⟩ : String) = title ∧ d = direction
      ∧ e = ext := by
    simpa using h2
  subst e1 e2 e3 e4
  refine ⟨rfl, rfl, hd, he, ?_⟩
  rw [← hl, ← hpos]

theorem submatch_tail_cases (v t tl : List Char) (version title direction ext : String)
    (h : (if (⟨tl⟩ : String) = ".up.sql" then some ((⟨v⟩ : String), (⟨t⟩ : String), "up", "sql")
        else if (⟨tl⟩ : String) = ".down.sql" then some (⟨v⟩, ⟨t⟩, "down", "sql")
        else if (⟨tl⟩ : String) = ".sql" then some (⟨v⟩, ⟨t⟩, "", "sql")
        else if (⟨tl⟩ : String) = ".up.json" then some (⟨v⟩, ⟨t⟩, "up", "json")
        else if (⟨tl⟩ : String) = ".down.json" then some (⟨v⟩, ⟨t⟩, "down", "json")
        else if (⟨tl⟩ : String) = ".json" then some (⟨v⟩, ⟨t⟩, "", "json")
        else none) = some (version, title, direction, ext)) :
    version = ⟨v⟩ ∧ title = ⟨t⟩ ∧ (direction = "" ∨ direction = "up" ∨ direction = "down") ∧
      (ext = "sql" ∨ ext = "json") ∧
      tl = (if direction = "" then [] else '.' :: direction.data) ++ '.' :: ext.data := by
  by_cases h1 : (⟨tl⟩ : String) = ".up.sql"
  · rw [if_pos h1] at h
    exact submatch_tail_finish v t tl _ "up" "sql" _ _ _ _ h1 rfl (by decide) (by decide) h
  rw [if_neg h1] at h
  by_cases h2 : (⟨tl⟩ : String) = ".down.sql"
  · rw [if_pos h2] at h
    exact submatch_tail_finish v t tl _ "down" "sql" _ _ _ _ h2 rfl (by decide) (by decide) h
  rw [if_neg h2] at h
  by_cases h3 : (⟨tl⟩ : String) = ".sql"
  · rw [if_pos h3] at h
    exact submatch_tail_finish v t tl _ "" "sql" _ _ _ _ h3 rfl (by decide) (by decide) h
  rw [if_neg h3] at h
  by_cases h4 : (⟨tl⟩ : String) = ".up.json"
  · rw [if_pos h4] at h
    exact submatch_tail_finish v t tl _ "up" "json" _ _ _ _ h4 rfl (by decide) (by decide) h
  rw [if_neg h4] at h
  by_cases h5 : (⟨tl⟩ : String) = ".down.json"
  · rw [if_pos h5] at h
    exact submatch_tail_finish v t tl _ "down" "json" _ _ _ _ h5 rfl (by decide) (by decide) h
  rw [if_neg h5] at h
  by_cases h6 : (⟨tl⟩ : String) = ".json"
  · rw [if_pos h6] at h
    exact submatch_tail_finish v t tl _ "" "json" _ _ _ _ h6 rfl (by decide) (by decide) h
  rw [if_neg h6] at h
  exact Option.noConfusion h

theorem pattern_of_migrationNameSubmatch (name version title direction ext : String)
    (h : migrationNameSubmatch false name = some (version, title, direction, ext)) :
    MatchesRunnerPattern name version title direction ext := by
  unfold migrationNameSubmatch at h
  have hsplit := List.takeWhile_append_dropWhile (fun c => c != '_') name.data
  generalize name.data.takeWhile (fun c => c != '_') = v at h hsplit
  cases hdrop : name.data.dropWhile (fun c => c != '_') with
  | nil => rw [hdrop] at h; simp at h
  | cons c1 r1 =>
    rw [hdrop] at h hsplit
    cases r1 with
    | nil => simp at h
    | cons c2 rest =>
      by_cases hc1 : c1 = '_'
      · by_cases hc2 : c2 = '_'
        · subst hc1 hc2
          simp only at h
          have hsplit2 := List.takeWhile_append_dropWhile (fun c => c != '.') rest
          have hdot : ∀ c ∈ rest.takeWhile (fun c => c != '.'), c ≠ '.' := by
            intro c hc
            simpa using List.mem_takeWhile_imp hc
          generalize rest.takeWhile (fun c => c != '.') = t at h hsplit2 hdot
          generalize rest.dropWhile (fun c => c != '.') = tl at h hsplit2
          by_cases hcond : (versionGroup false v && !t.isEmpty) = true
          · rw [if_pos hcond] at h
            simp only [Bool.and_eq_true, Bool.not_eq_true', List.isEmpty_eq_false] at hcond
            obtain ⟨e1, e2, hd, he, e3⟩ := submatch_tail_cases v t tl _ _ _ _ h
            subst e1 e2
            refine ⟨(versionGroup_iff _).1 hcond.1, ?_, hdot, hd, he, ?_⟩
            · intro e
              have h2 := hcond.2
              simp only at e
              rw [e] at h2
              simp at h2
            · rw [← hsplit, ← hsplit2, e3]
          · rw [if_neg hcond] at h
            exact Option.noConfusion h
        · exfalso
          revert h
          simp [hc2]
      · exfalso
        revert h
        simp [hc1]

theorem local_parseMigrationFile_eq (path : String) :
    Local.ParseMigrationFile path =
      match migrationNameSubmatch false (filepathBase path) with
      | none => .error ("无效的迁移文件名格式: " ++ path)
      | some (version, title, direction, extension) =>
        .ok { Version := version, Title := title, Direction := direction, Path := path,
              Ext := extension, Content := "" } := by
  unfold Local.ParseMigrationFile
  cases hsub : migrationNameSubmatch false (filepathBase path) with
  | none => rfl
  | some groups =>
    obtain ⟨version, title, direction, extension⟩ := groups
    obtain ⟨_, _, _, hd, he, _⟩ := pattern_of_migrationNameSubmatch _ _ _ _ _ hsub
    have h1 : (direction != "" && direction != "up" && direction != "down") = false := by
      rcases hd with h | h | h <;> subst h <;> decide
    have h2 : (extension != "sql" && extension != "json") = false := by
      rcases he with h | h <;> subst h <;> decide
    simp only [h1, h2, Bool.false_eq_true, if_false]

theorem local_parseMigrationFile_ok_iff (path : String) (f : MigrationFile) :
    Local.ParseMigrationFile path = .ok f ↔
      (MatchesRunnerPattern (filepathBase path) f.Version f.Title f.Direction f.Ext ∧
        f.Path = path ∧ f.Content = "") := by
  rw [local_parseMigrationFile_eq]
  constructor
  · intro h
    cases hsub : migrationNameSubmatch false (filepathBase path) with
    | none => rw [hsub] at h; exact Except.noConfusion h
    | some groups =>
      obtain ⟨version, title, direction, extension⟩ := groups
      rw [hsub] at h
      have hf := Except.ok.inj h
      subst hf
      exact ⟨pattern_of_migrationNameSubmatch _ _ _ _ _ hsub, rfl, rfl⟩
  · rintro ⟨hm, hp, hc⟩
    rw [migrationNameSubmatch_of_pattern _ _ _ _ _ hm]
    obtain ⟨v, t, d, e, p, c⟩ := f
    simp only at hp hc
    subst hp hc
    rfl

theorem scanWalk_eq : ∀ (walk : List WalkEntry) (files : List MigrationFile),
    (∀ e ∈ walk, e.err = none) →
    Local.scanWalk walk files = .ok (files ++ (walk.filter fun e => !e.isDir).filterMap
      fun e => (Local.ParseMigrationFile e.path).toOption) := by
  intro walk
  induction walk with
  | nil => intro files _; simp [Local.scanWalk]
  | cons entry rest ih =>
    intro files h
    have he := h entry (List.mem_cons_self _ _)
    have hr : ∀ e ∈ rest, e.err = none := fun e hm => h e (List.mem_cons_of_mem _ hm)
    rw [Local.scanWalk, he]
    by_cases hdir : entry.isDir = true
    · simp only [hdir, if_true]
      rw [ih files hr]
      simp [List.filter_cons, hdir]
    · simp only [hdir, Bool.false_eq_true, if_false]
      have hdir2 : entry.isDir = false := by simpa using hdir
      cases hp : Local.ParseMigrationFile entry.path with
      | error msg =>
        simp only
        rw [ih files hr]
        simp [List.filter_cons, hdir2, hp, Except.toOption]
      | ok file =>
        simp only
        rw [ih (files ++ [file]) hr]
        simp [List.filter_cons, hdir2, hp, Except.toOption]

/-- Claim C24.  The runner's `ParseMigrationFile` succeeds on a path if and only if the
base name of the path matches
`^([vV]\d+(\.\d+)*|\d+)__([^.]+)(\.(up|down))?\.(sql|json)$`; on success `Version`,
`Title`, `Direction` and `Ext` are the four groups of the match (`Direction` is one of
`up`, `down` and the empty string, `Ext` is `sql` or `json`) and `Path` is the given
path; over a walk that meets no error `ScanMigrations` keeps exactly the files that
parse, in the order of the walk, and reports no error for the others. -/
theorem parseMigrationFile_matches_pattern :
    (∀ (path : String) (f : MigrationFile),
      Local.ParseMigrationFile path = .ok f ↔
        (MatchesRunnerPattern (filepathBase path) f.Version f.Title f.Direction f.Ext ∧
          f.Path = path ∧ f.Content = "")) ∧
    (∀ path : String,
      (∃ f, Local.ParseMigrationFile path = .ok f) ↔
        ∃ version title direction ext,
          MatchesRunnerPattern (filepathBase path) version title direction ext) ∧
    (∀ (path : String) (f : MigrationFile), Local.ParseMigrationFile path = .ok f →
      (f.Direction = "" ∨ f.Direction = "up" ∨ f.Direction = "down") ∧
        (f.Ext = "sql" ∨ f.Ext = "json")) ∧
    (∀ walk : List WalkEntry, (∀ e ∈ walk, e.err = none) →
      Local.ScanMigrations walk = .ok ((walk.filter fun e => !e.isDir).filterMap
        fun e => (Local.ParseMigrationFile e.path).toOption)) := by
  refine ⟨local_parseMigrationFile_ok_iff, ?_, ?_, ?_⟩
  · intro path
    constructor
    · rintro ⟨f, hf⟩
      exact ⟨_, _, _, _, ((local_parseMigrationFile_ok_iff path f).1 hf).1⟩
    · rintro ⟨v, t, d, e, hm⟩
      exact ⟨{ Version := v, Title := t, Direction := d, Ext := e, Path := path, Content := "" },
        (local_parseMigrationFile_ok_iff path _).2 ⟨hm, rfl, rfl⟩⟩
  · intro path f hf
    obtain ⟨⟨_, _, _, hd, he, _⟩, _, _⟩ := (local_parseMigrationFile_ok_iff path f).1 hf
    exact ⟨hd, he⟩
  · intro walk h
    have := scanWalk_eq walk [] h
    simpa [Local.ScanMigrations] using this

theorem parseMigrationFile_matches_pattern_witness :
    (∀ e ∈ migrationsWalk, e.err = none) ∧
    Local.ScanMigrations migrationsWalk = .ok [upFile "v2" "c" "m/v2__c.up.sql",
      upFile "v1.0" "a" "m/v1.0__a.up.sql", upFile "v1.0.1" "b" "m/v1.0.1__b.up.sql"] :=
  ⟨by decide, parseMigrationFile_matches_pattern.2.2.2 migrationsWalk (by decide)⟩

/-- Claim C25 fails for the runner.  The name `1.0.0__create_users.up.sql`, a dotted
decimal version without `v`, is parsed by `utils.ParseMigrationFile` as the test of
`pkg/utils` expects, but the `ParseMigrationFile` of the package `local`, whose pattern
has `[vV]` where the other has `[vV]?`, rejects it, and `ScanMigrations` drops the
file. -/
theorem local_parseMigrationFile_rejects_dotted_decimal :
    utils.ParseMigrationFile "migrations/1.0.0__create_users.up.sql" =
      .ok ("create_users", "1.0.0", "up", "sql") ∧
    Local.ParseMigrationFile "migrations/1.0.0__create_users.up.sql" =
      .error "无效的迁移文件名格式: migrations/1.0.0__create_users.up.sql" ∧
    Local.ParseMigrationFile "migrations/v1.0.0__create_users.up.sql" =
      .ok { Version := "v1.0.0", Title := "create_users", Direction := "up", Ext := "sql",
            Path := "migrations/v1.0.0__create_users.up.sql", Content := "" } ∧
    Local.ScanMigrations [⟨"migrations/1.0.0__create_users.up.sql", false, none⟩] = .ok [] := by
  refine ⟨rfl, rfl, rfl, rfl⟩

/-! ## The order of the migrations -/

/-- Claim C26 fails.  `SortMigrations` breaks a tie by direction only when the two
version strings are identical, while versions that `CompareVersion` finds equal may be
spelled differently: the list `V1` up, `v1` down keeps its order, the up file before the
down file; and between `v1` up and `v1` down a file `V1` without direction keeps the two
apart, although their versions are spelled alike. -/
theorem sortMigrations_down_after_up :
    Local.CompareVersion "V1" "v1" = 0 ∧
    Local.SortMigrations
        [{ upFile "V1" "a" "V1__a.up.sql" with Direction := "up" },
         { upFile "v1" "a" "v1__a.down.sql" with Direction := "down" }] =
      [{ upFile "V1" "a" "V1__a.up.sql" with Direction := "up" },
       { upFile "v1" "a" "v1__a.down.sql" with Direction := "down" }] ∧
    (Local.SortMigrations
        [upFile "v1" "a" "v1__a.up.sql",
         { upFile "V1" "b" "V1__b.sql" with Direction := "" },
         { upFile "v1" "a" "v1__a.down.sql" with Direction := "down" }]).map
        (fun f => (f.Version, f.Direction)) =
      [("v1", "up"), ("V1", ""), ("v1", "down")] ∧
    Local.SortMigrations
        [upFile "v1" "a" "v1__a.up.sql",
         { upFile "v1" "a" "v1__a.down.sql" with Direction := "down" }] =
      [{ upFile "v1" "a" "v1__a.down.sql" with Direction := "down" },
       upFile "v1" "a" "v1__a.up.sql"] := by
  refine ⟨by decide, by decide, by decide, by decide⟩

theorem local_compareVersion_eq : Local.CompareVersion = utils.CompareVersion := rfl

/-! ## Go `sort.Slice` sorts by any order that its less function respects -/

theorem lessRespects_refl {α : Type} {less : α → α → Bool} {le : α → α → Prop}
    (hc : LessRespects less le) (x : α) : le x x := by
  cases h : less x x
  · exact hc.above x x h
  · exact hc.below x x h

theorem keyEq_refl {α : Type} {less : α → α → Bool} {le : α → α → Prop}
    (hc : LessRespects less le) (x : α) : KeyEq le x x :=
  ⟨lessRespects_refl hc x, lessRespects_refl hc x⟩

theorem keyEq_symm {α : Type} {le : α → α → Prop} {x y : α} (h : KeyEq le x y) :
    KeyEq le y x := ⟨h.2, h.1⟩

theorem keyEq_trans {α : Type} {less : α → α → Bool} {le : α → α → Prop}
    (hc : LessRespects less le) {x y z : α} (h1 : KeyEq le x y) (h2 : KeyEq le y z) :
    KeyEq le x z :=
  ⟨hc.trans _ _ _ h1.1 h2.1, hc.trans _ _ _ h2.2 h1.2⟩

theorem swapAt_length {α : Type} (l : List α) (i j : Nat) :
    (swapAt l i j).length = l.length := by
  unfold swapAt
  split <;> simp

theorem swapAt_of_ge_left {α : Type} (l : List α) (i j : Nat) (h : l.length ≤ i) :
    swapAt l i j = l := by
  unfold swapAt
  rw [List.getElem?_eq_none h]

theorem swapAt_of_ge_right {α : Type} (l : List α) (i j : Nat) (h : l.length ≤ j) :
    swapAt l i j = l := by
  unfold swapAt
  rw [List.getElem?_eq_none h]
  cases l[i]? <;> rfl

theorem getElem?_swapAt {α : Type} (l : List α) (i j k : Nat) (hi : i < l.length)
    (hj : j < l.length) :
    (swapAt l i j)[k]? = if k = j then l[i]? else if k = i then l[j]? else l[k]? := by
  unfold swapAt
  rw [List.getElem?_eq_getElem hi, List.getElem?_eq_getElem hj]
  simp only [List.getElem?_set]
  by_cases h1 : k = j
  · subst h1
    simp [hj]
  · by_cases h2 : k = i
    · subst h2
      simp [h1, Ne.symm h1, hi]
    · simp [h1, h2, Ne.symm h1, Ne.symm h2]

theorem set_cons_perm {α : Type} (a y : α) : ∀ (l : List α) (j : Nat),
    l[j]? = some y → (y :: l.set j a).Perm (a :: l)
  | [], j, h => by simp at h
  | x :: l, 0, h => by
    simp only [List.getElem?_cons_zero, Option.some.injEq] at h
    subst h
    simp only [List.set_cons_zero]
    exact List.Perm.swap _ _ _
  | x :: l, j + 1, h => by
    simp only [List.getElem?_cons_succ] at h
    simp only [List.set_cons_succ]
    exact (List.Perm.swap _ _ _).trans (((set_cons_perm a y l j h).cons x).trans
      (List.Perm.swap _ _ _))

theorem swapAt_perm {α : Type} : ∀ (l : List α) (i j : Nat), (swapAt l i j).Perm l
  | [], i, j => by simp [swapAt]
  | a :: l, 0, 0 => by simp [swapAt]
  | a :: l, 0, j + 1 => by
    unfold swapAt
    simp only [List.getElem?_cons_zero, List.getElem?_cons_succ]
    cases h : l[j]? with
    | none => exact List.Perm.refl _
    | some y =>
      simp only [List.set_cons_zero, List.set_cons_succ]
      exact set_cons_perm a y l j h
  | a :: l, i + 1, 0 => by
    unfold swapAt
    simp only [List.getElem?_cons_zero, List.getElem?_cons_succ]
    cases h : l[i]? with
    | none => exact List.Perm.refl _
    | some y =>
      simp only [List.set_cons_zero, List.set_cons_succ]
      exact set_cons_perm a y l i h
  | a :: l, i + 1, j + 1 => by
    have ih := swapAt_perm l i j
    unfold swapAt at ih ⊢
    simp only [List.getElem?_cons_succ]
    cases hi : l[i]? with
    | none => exact List.Perm.refl _
    | some x =>
      cases hj : l[j]? with
      | none => exact List.Perm.refl _
      | some y =>
        rw [hi, hj] at ih
        simp only [List.set_cons_succ]
        exact ih.cons a

theorem lessAt_eq {α : Type} (less : α → α → Bool) (l : List α) (i j : Nat) (x y : α)
    (hi : l[i]? = some x) (hj : l[j]? = some y) : lessAt less l i j = less x y := by
  unfold lessAt
  rw [hi, hj]

/-! ### Insertion sort -/

theorem insertLeft_perm {α : Type} (less : α → α → Bool) (x : α) :
    ∀ l : List α, (insertLeft less x l).Perm (x :: l) := by
  intro l
  induction l with
  | nil => exact List.Perm.refl _
  | cons y rest ih =>
    rw [insertLeft]
    by_cases h : less x y = true
    · rw [if_pos h]
      exact (ih.cons y).trans (List.Perm.swap _ _ _)
    · rw [if_neg h]

theorem insertionSortFunc_perm {α : Type} (less : α → α → Bool) (l : List α) :
    (insertionSortFunc less l).Perm l := by
  unfold insertionSortFunc
  have h : ∀ (l acc : List α),
      (l.foldl (fun sorted e => insertLeft less e sorted) acc).Perm (l.reverse ++ acc) := by
    intro l
    induction l with
    | nil => intro acc; exact List.Perm.refl _
    | cons x l ih =>
      intro acc
      rw [List.foldl_cons, List.reverse_cons, List.append_assoc, List.singleton_append]
      exact (ih _).trans ((insertLeft_perm less x acc).append_left _)
  have h2 := h l []
  rw [List.append_nil] at h2
  exact (List.reverse_perm _).trans (h2.trans (List.reverse_perm _))

theorem insertLeft_pairwise {α : Type} {less : α → α → Bool} {le : α → α → Prop}
    (hc : LessRespects less le) (x : α) : ∀ l : List α,
    l.Pairwise (fun a b => le b a) → (insertLeft less x l).Pairwise (fun a b => le b a) := by
  intro l
  induction l with
  | nil => intro _; exact List.pairwise_singleton _ _
  | cons y rest ih =>
    intro h
    obtain ⟨hy, hrest⟩ := List.pairwise_cons.1 h
    rw [insertLeft]
    by_cases hl : less x y = true
    · rw [if_pos hl]
      refine List.pairwise_cons.2 ⟨?_, ih hrest⟩
      intro z hz
      rcases List.mem_cons.1 ((insertLeft_perm _ x rest).subset hz) with e | hm
      · rw [e]
        exact hc.below x y hl
      · exact hy z hm
    · rw [if_neg hl]
      refine List.pairwise_cons.2 ⟨?_, h⟩
      intro z hz
      have hyx := hc.above x y (by simpa using hl)
      rcases List.mem_cons.1 hz with e | hm
      · rw [e]
        exact hyx
      · exact hc.trans _ _ _ (hy z hm) hyx

theorem insertionSortFunc_sorted {α : Type} {less : α → α → Bool} {le : α → α → Prop}
    (hc : LessRespects less le) (l : List α) : (insertionSortFunc less l).Pairwise le := by
  unfold insertionSortFunc
  rw [List.pairwise_reverse]
  have h : ∀ (l acc : List α), acc.Pairwise (fun a b => le b a) →
      (l.foldl (fun sorted e => insertLeft less e sorted) acc).Pairwise
        (fun a b => le b a) := by
    intro l
    induction l with
    | nil => intro acc h; exact h
    | cons x l ih =>
      intro acc h
      exact ih _ (insertLeft_pairwise hc x acc h)
  exact h l [] List.Pairwise.nil

/-! ### Partition -/

theorem dropWhile_head_false {α : Type} (q : α → Bool) : ∀ (l : List α) (x : α) (r : List α),
    l.dropWhile q = x :: r → q x = false
  | [], x, r, h => by simp at h
  | a :: l, x, r, h => by
    rw [List.dropWhile_cons] at h
    by_cases ha : q a = true
    · rw [if_pos ha] at h
      exact dropWhile_head_false q l x r h
    · rw [if_neg ha] at h
      have := (List.cons.inj h).1
      subst this
      simpa using ha

theorem partitionLoop_spec {α : Type} (isSmall : α → Bool) :
    ∀ (fuel : Nat) (small mid large : List α), mid.length < fuel →
      ((partitionLoop isSmall fuel small mid large).1 ++
          (partitionLoop isSmall fuel small mid large).2).Perm (small ++ mid ++ large) ∧
        (∀ x ∈ (partitionLoop isSmall fuel small mid large).1,
          x ∈ small ∨ isSmall x = true) ∧
        (∀ y ∈ (partitionLoop isSmall fuel small mid large).2,
          y ∈ large ∨ isSmall y = false) := by
  intro fuel
  induction fuel with
  | zero => intro small mid large h; omega
  | succ fuel ih =>
    intro small mid large hlen
    rw [partitionLoop]
    have hmid : mid = mid.takeWhile isSmall ++ mid.dropWhile isSmall :=
      (List.takeWhile_append_dropWhile _ _).symm
    generalize htw : mid.takeWhile isSmall = tw at hmid
    have htwp : ∀ x ∈ tw, isSmall x = true := by
      intro x hx
      rw [← htw] at hx
      exact List.mem_takeWhile_imp hx
    generalize hm1 : mid.dropWhile isSmall = mid1 at hmid
    have hmid1 : mid1 = (mid1.reverse.dropWhile (fun x => !isSmall x)).reverse ++
        (mid1.reverse.takeWhile (fun x => !isSmall x)).reverse := by
      rw [← List.reverse_append, List.takeWhile_append_dropWhile, List.reverse_reverse]
    generalize htl : (mid1.reverse.takeWhile (fun x => !isSmall x)).reverse = tl at hmid1
    have htlp : ∀ x ∈ tl, isSmall x = false := by
      intro x hx
      rw [← htl, List.mem_reverse] at hx
      simpa using List.mem_takeWhile_imp hx
    have hdw : mid1.reverse.dropWhile (fun x => !isSmall x) =
        ((mid1.reverse.dropWhile (fun x => !isSmall x)).reverse).reverse :=
      (List.reverse_reverse _).symm
    generalize hm2 : (mid1.reverse.dropWhile (fun x => !isSmall x)).reverse = mid2
      at hmid1 hdw
    cases mid2 with
    | nil =>
      rw [List.nil_append] at hmid1
      subst hmid1
      refine ⟨?_, ?_, ?_⟩
      · rw [hmid]
        simp only [List.append_assoc]
        exact List.Perm.refl _
      · intro x hx
        rcases List.mem_append.1 hx with h | h
        · exact Or.inl h
        · exact Or.inr (htwp x h)
      · intro y hy
        rcases List.mem_append.1 hy with h | h
        · exact Or.inr (htlp y h)
        · exact Or.inl h
    | cons x rest =>
      have hx : isSmall x = false := by
        have h := dropWhile_head_false isSmall mid x (rest ++ tl)
          (by rw [hm1, hmid1]; rfl)
        exact h
      cases hgl : rest.getLast? with
      | none =>
        simp only [hgl]
        have hr : rest = [] := List.getLast?_eq_none_iff.1 hgl
        subst hr
        have hx2 : (!isSmall x) = false :=
          dropWhile_head_false (fun x => !isSmall x) mid1.reverse x [] (by rw [hdw]; rfl)
        rw [hx] at hx2
        exact absurd hx2 (by decide)
      | some y =>
        have hr : rest = rest.dropLast ++ [y] :=
          (List.dropLast_append_getLast? y hgl).symm
        simp only [hgl]
        generalize rest.dropLast = init at hr ⊢
        subst hr
        have hy : isSmall y = true := by
          have h := dropWhile_head_false (fun x => !isSmall x) mid1.reverse y
            (init.reverse ++ [x]) (by rw [hdw]; simp)
          simpa using h
        have hl : init.length < fuel := by
          have h1 : mid.length = tw.length + mid1.length := by
            rw [hmid, List.length_append]
          rw [hmid1] at h1
          simp only [List.length_append, List.length_cons, List.length_nil] at h1
          omega
        obtain ⟨hp, hs, hg⟩ := ih (small ++ tw ++ [y]) init (x :: (tl ++ large)) hl
        refine ⟨hp.trans ?_, ?_, ?_⟩
        · rw [hmid, hmid1]
          apply Multiset.coe_eq_coe.1
          simp only [← Multiset.cons_coe, ← Multiset.coe_add, ← Multiset.singleton_add,
            Multiset.coe_nil]
          abel
        · intro z hz
          rcases hs z hz with h | h
          · rcases List.mem_append.1 h with h | h
            · rcases List.mem_append.1 h with h | h
              · exact Or.inl h
              · exact Or.inr (htwp z h)
            · rw [List.mem_singleton.1 h]
              exact Or.inr hy
          · exact Or.inr h
        · intro z hz
          rcases hg z hz with h | h
          · rcases List.mem_cons.1 h with h | h
            · rw [h]
              exact Or.inr hx
            · rcases List.mem_append.1 h with h | h
              · exact Or.inr (htlp z h)
              · exact Or.inl h
          · exact Or.inr h

theorem partitionFunc_spec {α : Type} (less : α → α → Bool) (seg : List α) (pivot : Nat)
    (hne : seg ≠ []) :
    ∃ L p R, (partitionFunc less seg pivot).1 = L ++ p :: R ∧
      (partitionFunc less seg pivot).2.1 = L.length ∧
      (∀ x ∈ L, less x p = true) ∧ (∀ y ∈ R, less y p = false) ∧
      (L ++ p :: R).Perm seg := by
  unfold partitionFunc
  have hperm := swapAt_perm seg 0 pivot
  cases hsw : swapAt seg 0 pivot with
  | nil =>
    rw [hsw] at hperm
    exact absurd (List.Perm.nil_eq hperm) (fun h => hne h.symm)
  | cons p rest =>
    rw [hsw] at hperm
    obtain ⟨hp, hs, hg⟩ := partitionLoop_spec (fun x => less x p) (rest.length + 1) [] rest []
      (by omega)
    simp only
    generalize partitionLoop (fun x => less x p) (rest.length + 1) [] rest [] = r at hp hs hg
    have hs2 : ∀ x ∈ r.1, less x p = true := by
      intro x hx
      rcases hs x hx with h | h
      · simp at h
      · exact h
    have hg2 : ∀ y ∈ r.2, less y p = false := by
      intro y hy
      rcases hg y hy with h | h
      · simp at h
      · exact h
    simp only [List.nil_append, List.append_nil] at hp
    cases hgl : r.1.getLast? with
    | none =>
      have hr : r.1 = [] := List.getLast?_eq_none_iff.1 hgl
      refine ⟨[], p, r.2, rfl, rfl, by simp, hg2, ?_⟩
      rw [hr, List.nil_append] at hp
      exact (hp.cons p).trans hperm
    | some s =>
      have hr : r.1 = r.1.dropLast ++ [s] := (List.dropLast_append_getLast? s hgl).symm
      refine ⟨s :: r.1.dropLast, p, r.2, by simp, ?_, ?_, hg2, ?_⟩
      · simp only [List.length_cons, List.length_dropLast]
        have : r.1.length ≠ 0 := by
          intro h0
          rw [List.length_eq_zero] at h0
          rw [h0] at hgl
          simp at hgl
        omega
      · intro x hx
        apply hs2
        rw [hr]
        rcases List.mem_cons.1 hx with h | h
        · rw [h]; simp
        · exact List.mem_append_left _ h
      · refine List.Perm.trans ?_ hperm
        refine List.Perm.trans ?_ (hp.cons p)
        generalize r.1.dropLast = init at hr
        rw [hr]
        apply Multiset.coe_eq_coe.1
        simp only [List.cons_append, ← Multiset.cons_coe, ← Multiset.coe_add,
          ← Multiset.singleton_add, Multiset.coe_nil]
        abel

theorem partitionEqualFunc_spec {α : Type} (less : α → α → Bool) (seg : List α) (pivot : Nat)
    (p : α) (hp : seg[pivot]? = some p) :
    ∃ E, (partitionEqualFunc less seg pivot).1 = p :: E ∧
      (∀ x ∈ E, less p x = false) ∧
      (∀ y ∈ (partitionEqualFunc less seg pivot).2, less p y = true) ∧
      (p :: E ++ (partitionEqualFunc less seg pivot).2).Perm seg := by
  unfold partitionEqualFunc
  have hperm := swapAt_perm seg 0 pivot
  have hlt : pivot < seg.length := by
    by_contra h
    rw [List.getElem?_eq_none (by omega)] at hp
    exact absurd hp (by simp)
  have h0 := getElem?_swapAt seg 0 pivot 0 (by omega) hlt
  cases hsw : swapAt seg 0 pivot with
  | nil =>
    rw [hsw] at hperm
    have := List.Perm.nil_eq hperm
    subst this
    simp at hlt
  | cons q rest =>
    rw [hsw] at hperm h0
    have hq : q = p := by
      simp only [List.getElem?_cons_zero] at h0
      by_cases hz : 0 = pivot
      · rw [if_pos hz] at h0
        rw [← hz] at hp
        rw [hp] at h0
        exact Option.some.inj h0
      · rw [if_neg hz, if_pos trivial, hp] at h0
        exact Option.some.inj h0
    subst hq
    obtain ⟨hpm, hs, hg⟩ := partitionLoop_spec (fun x => !less q x) (rest.length + 1) [] rest []
      (by omega)
    simp only
    generalize partitionLoop (fun x => !less q x) (rest.length + 1) [] rest [] = r
      at hpm hs hg
    simp only [List.nil_append, List.append_nil] at hpm
    refine ⟨r.1, rfl, ?_, ?_, ?_⟩
    · intro x hx
      rcases hs x hx with h | h
      · simp at h
      · simpa using h
    · intro y hy
      rcases hg y hy with h | h
      · simp at h
      · simpa using h
    · exact (hpm.cons q).trans hperm

/-! ### Heap sort -/

theorem relAt_swapAt {α : Type} (r : α → α → Prop) (s : List α) (a b i j : Nat)
    (ha : a < s.length) (hb : b < s.length) :
    RelAt r (swapAt s a b) i j ↔
      RelAt r s (if i = b then a else if i = a then b else i)
        (if j = b then a else if j = a then b else j) := by
  have h : ∀ k, (swapAt s a b)[k]? = s[(if k = b then a else if k = a then b else k)]? := by
    intro k
    rw [getElem?_swapAt s a b k ha hb]
    split_ifs <;> rfl
  unfold RelAt
  rw [h i, h j]

theorem relAt_refl {α : Type} {less : α → α → Bool} {le : α → α → Prop}
    (hc : LessRespects less le) (s : List α) (i : Nat) : RelAt le s i i := by
  intro x y hx hy
  rw [hx] at hy
  rw [← Option.some.inj hy]
  exact lessRespects_refl hc x

theorem relAt_trans {α : Type} {less : α → α → Bool} {le : α → α → Prop}
    (hc : LessRespects less le) (s : List α) (i j k : Nat) (hj : j < s.length)
    (h1 : RelAt le s i j) (h2 : RelAt le s j k) : RelAt le s i k := by
  intro x z hx hz
  exact hc.trans _ _ _ (h1 x _ hx (List.getElem?_eq_getElem hj))
    (h2 _ z (List.getElem?_eq_getElem hj) hz)

theorem relAt_of_lessAt {α : Type} {less : α → α → Bool} {le : α → α → Prop}
    (hc : LessRespects less le) (s : List α) (i j : Nat)
    (h : lessAt less s i j = true) : RelAt le s i j := by
  intro x y hx hy
  rw [lessAt_eq less s i j x y hx hy] at h
  exact hc.below x y h

theorem relAt_of_not_lessAt {α : Type} {less : α → α → Bool} {le : α → α → Prop}
    (hc : LessRespects less le) (s : List α) (i j : Nat)
    (h : ¬ lessAt less s i j = true) : RelAt le s j i := by
  intro y x hy hx
  rw [lessAt_eq less s i j x y hx hy] at h
  exact hc.above x y (by simpa using h)

theorem siftDownFunc_frame {α : Type} (less : α → α → Bool) (hi : Nat) :
    ∀ (fuel : Nat) (s : List α) (root : Nat), hi ≤ s.length →
      (siftDownFunc less fuel s root hi).length = s.length ∧
      (siftDownFunc less fuel s root hi).Perm s ∧
      (∀ k, (k < root ∨ hi ≤ k) → (siftDownFunc less fuel s root hi)[k]? = s[k]?) ∧
      (∀ P : α → Prop, (∀ k x, k < hi → s[k]? = some x → P x) →
        ∀ k x, k < hi → (siftDownFunc less fuel s root hi)[k]? = some x → P x) := by
  intro fuel
  induction fuel with
  | zero =>
    intro s root _
    exact ⟨rfl, List.Perm.refl _, fun _ _ => rfl, fun _ h => h⟩
  | succ fuel ih =>
    intro s root hlen
    rw [siftDownFunc]
    simp only []
    by_cases h1 : 2 * root + 1 ≥ hi
    · rw [if_pos h1]
      exact ⟨rfl, List.Perm.refl _, fun _ _ => rfl, fun _ h => h⟩
    · rw [if_neg h1]
      generalize hch : (if 2 * root + 1 + 1 < hi ∧
        lessAt less s (2 * root + 1) (2 * root + 1 + 1) = true
        then 2 * root + 1 + 1 else 2 * root + 1) = ch
      have hch1 : ch < hi ∧ root < ch := by
        rw [← hch]
        split_ifs with h
        · omega
        · omega
      by_cases h2 : lessAt less s root ch = true
      · rw [if_pos h2]
        have hl1 := swapAt_length s root ch
        obtain ⟨a1, a2, a3, a4⟩ := ih (swapAt s root ch) ch (by omega)
        refine ⟨a1.trans hl1, a2.trans (swapAt_perm _ _ _), ?_, ?_⟩
        · intro k hk
          have e1 : ¬ k = ch := by omega
          have e2 : ¬ k = root := by omega
          rw [a3 k (by omega), getElem?_swapAt s root ch k (by omega) (by omega)]
          rw [if_neg e1, if_neg e2]
        · intro P hP
          apply a4 P
          intro k x hk hx
          rw [getElem?_swapAt s root ch k (by omega) (by omega)] at hx
          split_ifs at hx
          · exact hP root x (by omega) hx
          · exact hP ch x (by omega) hx
          · exact hP k x hk hx
      · rw [if_neg h2]
        exact ⟨rfl, List.Perm.refl _, fun _ _ => rfl, fun _ h => h⟩

theorem siftDownFunc_heap {α : Type} {less : α → α → Bool} {le : α → α → Prop}
    (hc : LessRespects less le) (hi lo : Nat) :
    ∀ (fuel : Nat) (s : List α) (root : Nat), hi ≤ s.length → lo ≤ root →
      hi ≤ root + fuel →
      (∀ i c, lo ≤ i → i ≠ root → (c = 2 * i + 1 ∨ c = 2 * i + 2) → c < hi →
        RelAt le s c i) →
      (∀ q c, lo ≤ q → (root = 2 * q + 1 ∨ root = 2 * q + 2) →
        (c = 2 * root + 1 ∨ c = 2 * root + 2) → c < hi → RelAt le s c q) →
      ∀ i c, lo ≤ i → (c = 2 * i + 1 ∨ c = 2 * i + 2) → c < hi →
        RelAt le (siftDownFunc less fuel s root hi) c i := by
  intro fuel
  induction fuel with
  | zero =>
    intro s root _ _ hf H1 _ i c hlo hchild hc1
    rw [siftDownFunc]
    exact H1 i c hlo (by omega) hchild hc1
  | succ fuel ih =>
    intro s root hlen hlo hf H1 H2
    rw [siftDownFunc]
    simp only []
    by_cases h1 : 2 * root + 1 ≥ hi
    · rw [if_pos h1]
      intro i c hlo hchild hc1
      exact H1 i c hlo (by omega) hchild hc1
    · rw [if_neg h1]
      generalize hch : (if 2 * root + 1 + 1 < hi ∧
        lessAt less s (2 * root + 1) (2 * root + 1 + 1) = true
        then 2 * root + 1 + 1 else 2 * root + 1) = ch
      have hch1 : ch < hi ∧ (ch = 2 * root + 1 ∨ ch = 2 * root + 2) := by
        rw [← hch]
        split_ifs with h
        · omega
        · omega
      have hmax : ∀ c, (c = 2 * root + 1 ∨ c = 2 * root + 2) → c < hi → RelAt le s c ch := by
        intro c hcc hclt
        by_cases hcch : c = ch
        · rw [hcch]
          exact relAt_refl hc s ch
        · by_cases h : 2 * root + 1 + 1 < hi ∧
              lessAt less s (2 * root + 1) (2 * root + 1 + 1) = true
          · rw [if_pos h] at hch
            have hc2 : c = 2 * root + 1 := by omega
            rw [hc2, ← hch]
            exact relAt_of_lessAt hc s _ _ h.2
          · rw [if_neg h] at hch
            have hc2 : c = 2 * root + 1 + 1 := by omega
            have h3 : ¬ lessAt less s (2 * root + 1) (2 * root + 1 + 1) = true := by
              intro h4
              exact h ⟨by omega, h4⟩
            rw [hc2, ← hch]
            exact relAt_of_not_lessAt hc s _ _ h3
      by_cases h2 : lessAt less s root ch = true
      · rw [if_pos h2]
        have hrc := relAt_of_lessAt hc s root ch h2
        apply ih (swapAt s root ch) ch (by rw [swapAt_length]; exact hlen) (by omega)
          (by omega)
        · intro i c hloi hne hchild hclt
          rw [relAt_swapAt le s root ch c i (by omega) (by omega)]
          have e1 : ¬ root = ch := by omega
          by_cases hir : i = root
          · have e2 : ¬ c = root := by omega
            rw [hir, if_neg e1, if_pos rfl]
            by_cases hcc : c = ch
            · rw [if_pos hcc]
              exact hrc
            · rw [if_neg hcc, if_neg e2]
              exact hmax c (by omega) hclt
          · have e3 : ¬ i = ch := hne
            have e4 : ¬ c = ch := by omega
            rw [if_neg e3, if_neg hir, if_neg e4]
            by_cases hcr : c = root
            · rw [if_pos hcr]
              exact H2 i ch hloi (by omega) hch1.2 hch1.1
            · rw [if_neg hcr]
              exact H1 i c hloi hir hchild hclt
        · intro q c hloq hq hchild hclt
          rw [relAt_swapAt le s root ch c q (by omega) (by omega)]
          have hqr : q = root := by omega
          have e1 : ¬ c = ch := by omega
          have e2 : ¬ c = root := by omega
          have e3 : ¬ q = ch := by omega
          rw [if_neg e1, if_neg e2, if_neg e3, if_pos hqr]
          exact H1 ch c (by omega) (by omega) hchild hclt
      · rw [if_neg h2]
        have hcr := relAt_of_not_lessAt hc s root ch h2
        intro i c hloi hchild hclt
        by_cases hir : i = root
        · subst hir
          exact relAt_trans hc s c ch i (by omega) (hmax c hchild hclt) hcr
        · exact H1 i c hloi hir hchild hclt

theorem heap_root_max {α : Type} {less : α → α → Bool} {le : α → α → Prop}
    (hc : LessRespects less le) (s : List α) (hi : Nat) (hlen : hi ≤ s.length)
    (H : ∀ i c, 0 ≤ i → (c = 2 * i + 1 ∨ c = 2 * i + 2) → c < hi → RelAt le s c i) :
    ∀ j, j < hi → RelAt le s j 0 := by
  intro j
  induction j using Nat.strong_induction_on with
  | _ j ih =>
    intro hj
    by_cases h0 : j = 0
    · rw [h0]
      exact relAt_refl hc s 0
    · have h1 := H ((j - 1) / 2) j (Nat.zero_le _) (by omega) hj
      have h2 := ih ((j - 1) / 2) (by omega) (by omega)
      exact relAt_trans hc s j ((j - 1) / 2) 0 (by omega) h1 h2

theorem foldl_perm {α β : Type} (f : List α → β → List α) (hf : ∀ s i, (f s i).Perm s) :
    ∀ (l : List β) (s : List α), (l.foldl f s).Perm s
  | [], _ => List.Perm.refl _
  | i :: l, s => (foldl_perm f hf l (f s i)).trans (hf s i)

theorem siftDownFunc_perm {α : Type} (less : α → α → Bool) :
    ∀ (fuel : Nat) (s : List α) (root hi : Nat), (siftDownFunc less fuel s root hi).Perm s := by
  intro fuel
  induction fuel with
  | zero => intro s root hi; exact List.Perm.refl _
  | succ fuel ih =>
    intro s root hi
    rw [siftDownFunc]
    simp only []
    split_ifs
    · exact List.Perm.refl _
    · exact (ih _ _ _).trans (swapAt_perm _ _ _)
    · exact List.Perm.refl _
    · exact (ih _ _ _).trans (swapAt_perm _ _ _)
    · exact List.Perm.refl _

theorem heapSortFunc_perm {α : Type} (less : α → α → Bool) (seg : List α) :
    (heapSortFunc less seg).Perm seg := by
  unfold heapSortFunc
  simp only []
  refine (foldl_perm _ ?_ _ _).trans (foldl_perm _ ?_ _ _)
  · intro s i
    exact (siftDownFunc_perm less _ _ _ _).trans (swapAt_perm _ _ _)
  · intro s i
    exact siftDownFunc_perm less _ _ _ _

theorem heapSort_build {α : Type} {less : α → α → Bool} {le : α → α → Prop}
    (hc : LessRespects less le) (hi : Nat) :
    ∀ (k : Nat) (s : List α), s.length = hi →
      (∀ i c, k + 1 ≤ i → (c = 2 * i + 1 ∨ c = 2 * i + 2) → c < hi → RelAt le s c i) →
      ((List.range (k + 1)).reverse.foldl (fun s i => siftDownFunc less hi s i hi) s).length
          = hi ∧
        ∀ i c, 0 ≤ i → (c = 2 * i + 1 ∨ c = 2 * i + 2) → c < hi →
          RelAt le ((List.range (k + 1)).reverse.foldl
            (fun s i => siftDownFunc less hi s i hi) s) c i := by
  intro k
  induction k with
  | zero =>
    intro s hlen H
    rw [show List.range (0 + 1) = [0] from rfl]
    simp only [List.reverse_singleton, List.foldl_cons, List.foldl_nil]
    refine ⟨by rw [(siftDownFunc_frame less hi hi s 0 (by omega)).1, hlen], ?_⟩
    apply siftDownFunc_heap hc hi 0 hi s 0 (by omega) (by omega) (by omega)
    · intro i c _ hne hchild hclt
      exact H i c (by omega) hchild hclt
    · intro q c _ hq
      omega
  | succ k ih =>
    intro s hlen H
    rw [List.range_succ, List.reverse_append, List.reverse_singleton, List.singleton_append,
      List.foldl_cons]
    have hl1 : (siftDownFunc less hi s (k + 1) hi).length = hi := by
      rw [(siftDownFunc_frame less hi hi s (k + 1) (by omega)).1, hlen]
    apply ih _ hl1
    intro i c hi1 hchild hclt
    apply siftDownFunc_heap hc hi (k + 1) hi s (k + 1) (by omega) (by omega) (by omega)
    · intro i c hi2 hne hchild hclt
      exact H i c (by omega) hchild hclt
    · intro q c hq1 hq
      omega
    · exact hi1
    · exact hchild
    · exact hclt

theorem heapSort_pop {α : Type} {less : α → α → Bool} {le : α → α → Prop}
    (hc : LessRespects less le) (n : Nat) :
    ∀ (k : Nat) (s : List α), s.length = n → k ≤ n →
      (∀ i c, 0 ≤ i → (c = 2 * i + 1 ∨ c = 2 * i + 2) → c < k → RelAt le s c i) →
      (∀ i j, k ≤ i → i < j → RelAt le s i j) →
      (∀ i j, i < k → k ≤ j → RelAt le s i j) →
      ((List.range k).reverse.foldl
          (fun s i => siftDownFunc less i (swapAt s 0 i) 0 i) s).length = n ∧
        ∀ i j, i < j → RelAt le ((List.range k).reverse.foldl
          (fun s i => siftDownFunc less i (swapAt s 0 i) 0 i) s) i j := by
  intro k
  induction k with
  | zero =>
    intro s hlen _ _ HS _
    simp only [List.range_zero, List.reverse_nil, List.foldl_nil]
    exact ⟨hlen, fun i j hij => HS i j (by omega) hij⟩
  | succ k ih =>
    intro s hlen hk HH HS HB
    rw [List.range_succ, List.reverse_append, List.reverse_singleton, List.singleton_append,
      List.foldl_cons]
    have hl1 : (swapAt s 0 k).length = n := by rw [swapAt_length, hlen]
    obtain ⟨f1, f2, f3, f4⟩ := siftDownFunc_frame less k k (swapAt s 0 k) 0 (by omega)
    have hroot := heap_root_max hc s (k + 1) (by omega) HH
    have hsw : ∀ m, (swapAt s 0 k)[m]? =
        if m = k then s[0]? else if m = 0 then s[k]? else s[m]? :=
      fun m => getElem?_swapAt s 0 k m (by omega) (by omega)
    apply ih _ (by rw [f1, hl1]) (by omega)
    · apply siftDownFunc_heap hc k 0 k (swapAt s 0 k) 0 (by omega) (by omega) (by omega)
      · intro i c _ hne hchild hclt
        rw [relAt_swapAt le s 0 k c i (by omega) (by omega)]
        have e1 : ¬ c = k := by omega
        have e2 : ¬ c = 0 := by omega
        have e3 : ¬ i = k := by omega
        rw [if_neg e1, if_neg e2, if_neg e3, if_neg hne]
        exact HH i c (by omega) hchild (by omega)
      · intro q c _ hq
        omega
    · intro i j hki hij
      intro x y hx hy
      have e1 : ¬ j = k := by omega
      have e2 : ¬ j = 0 := by omega
      have e3 : ¬ i = 0 ∨ i = k := by omega
      rw [f3 i (by omega), hsw i] at hx
      rw [f3 j (by omega), hsw j, if_neg e1, if_neg e2] at hy
      by_cases hik : i = k
      · rw [if_pos hik] at hx
        exact HB 0 j (by omega) (by omega) x y hx hy
      · have e4 : ¬ i = 0 := by omega
        rw [if_neg hik, if_neg e4] at hx
        exact HS i j (by omega) hij x y hx hy
    · intro i j hik hkj
      intro x y hx hy
      rw [f3 j (by omega), hsw j] at hy
      refine f4 (fun x => le x y) ?_ i x hik hx
      intro m x hm hx
      have e1 : ¬ m = k := by omega
      rw [hsw m, if_neg e1] at hx
      by_cases hjk : j = k
      · rw [if_pos hjk] at hy
        by_cases hm0 : m = 0
        · rw [if_pos hm0] at hx
          exact hroot k (by omega) x y hx hy
        · rw [if_neg hm0] at hx
          exact hroot m (by omega) x y hx hy
      · have e2 : ¬ j = 0 := by omega
        rw [if_neg hjk, if_neg e2] at hy
        by_cases hm0 : m = 0
        · rw [if_pos hm0] at hx
          exact HB k j (by omega) (by omega) x y hx hy
        · rw [if_neg hm0] at hx
          exact HB m j (by omega) (by omega) x y hx hy

theorem pairwise_of_relAt {α : Type} (r : α → α → Prop) (s : List α)
    (h : ∀ i j, i < j → RelAt r s i j) : s.Pairwise r := by
  rw [List.pairwise_iff_getElem]
  intro i j hi hj hij
  exact h i j hij _ _ (List.getElem?_eq_getElem hi) (List.getElem?_eq_getElem hj)

theorem heapSortFunc_sorted {α : Type} {less : α → α → Bool} {le : α → α → Prop}
    (hc : LessRespects less le) (seg : List α) : (heapSortFunc less seg).Pairwise le := by
  unfold heapSortFunc
  simp only []
  obtain ⟨b1, b2⟩ := heapSort_build hc seg.length ((seg.length - 1) / 2) seg rfl (by
    intro i c hi1 hchild hclt
    omega)
  apply pairwise_of_relAt
  exact (heapSort_pop hc seg.length seg.length _ b1 (by omega) b2
    (fun i j hi1 hij x y hx hy => by
      rw [List.getElem?_eq_none (by omega)] at hy
      exact absurd hy (by simp))
    (fun i j hi1 hij x y hx hy => by
      rw [List.getElem?_eq_none (by omega)] at hy
      exact absurd hy (by simp))).2

/-! ### Partial insertion sort -/

theorem segInv_init {α : Type} {less : α → α → Bool} {le : α → α → Prop}
    (hc : LessRespects less le) (pre seg : List α) : SegInv le pre seg (pre ++ seg) := by
  refine ⟨List.length_append _ _, ?_, ?_⟩
  · intro k x hk hx
    rw [List.getElem?_append_left hk] at hx
    exact ⟨x, hx, keyEq_refl hc x⟩
  · intro k x hk hx
    rw [List.getElem?_append_right hk] at hx
    exact ⟨x, (List.mem_iff_getElem?.2 ⟨_, hx⟩), keyEq_refl hc x⟩

theorem segInv_relAt {α : Type} {less : α → α → Bool} {le : α → α → Prop}
    (hc : LessRespects less le) (pre seg data : List α)
    (hb : ∀ x ∈ pre, ∀ y ∈ seg, le x y) (hinv : SegInv le pre seg data) (k m : Nat)
    (hk : k < pre.length) (hm : pre.length ≤ m) : RelAt le data k m := by
  intro x y hx hy
  obtain ⟨x1, hx1, ex⟩ := hinv.2.1 k x hk hx
  obtain ⟨y1, hy1, ey⟩ := hinv.2.2 m y hm hy
  exact hc.trans _ _ _ ex.1 (hc.trans _ _ _ (hb x1 ((List.mem_iff_getElem?.2 ⟨_, hx1⟩)) y1 hy1) ey.2)

theorem segInv_above {α : Type} {less : α → α → Bool} {le : α → α → Prop}
    (hc : LessRespects less le) (pre seg data : List α)
    (hb : ∀ x ∈ pre, ∀ y ∈ seg, le x y) (hinv : SegInv le pre seg data) (m : Nat)
    (hm : pre.length ≤ m) : ∀ x, data[m]? = some x → ∀ y ∈ pre, le y x := by
  intro x hx y hy
  obtain ⟨x1, hx1, ex⟩ := hinv.2.2 m x hm hx
  exact hc.trans _ _ _ (hb y hy x1 hx1) ex.2

theorem segInv_swap_inside {α : Type} {le : α → α → Prop} (pre seg data : List α)
    (hinv : SegInv le pre seg data) (i j : Nat) (hi : pre.length ≤ i) (hj : pre.length ≤ j)
    (hil : i < data.length) (hjl : j < data.length) :
    SegInv le pre seg (swapAt data i j) := by
  refine ⟨by rw [swapAt_length]; exact hinv.1, ?_, ?_⟩
  · intro k x hk hx
    have e1 : ¬ k = j := by omega
    have e2 : ¬ k = i := by omega
    rw [getElem?_swapAt data i j k hil hjl, if_neg e1, if_neg e2] at hx
    exact hinv.2.1 k x hk hx
  · intro k x hk hx
    rw [getElem?_swapAt data i j k hil hjl] at hx
    split_ifs at hx
    · exact hinv.2.2 i x hi hx
    · exact hinv.2.2 j x hj hx
    · exact hinv.2.2 k x hk hx

theorem segInv_swap_cross {α : Type} {less : α → α → Bool} {le : α → α → Prop}
    (hc : LessRespects less le) (pre seg data : List α)
    (hinv : SegInv le pre seg data) (j : Nat) (hj : j < pre.length)
    (hjl : j + 1 < data.length) (hless : lessAt less data (j + 1) j = true)
    (hd : ∀ x, data[j + 1]? = some x → ∀ y ∈ pre, le y x) :
    SegInv le pre seg (swapAt data (j + 1) j) := by
  have hjl2 : j < data.length := by omega
  have hx0 := List.getElem?_eq_getElem hjl
  have hy0 := List.getElem?_eq_getElem hjl2
  generalize data[j + 1] = x0 at hx0
  generalize data[j] = y0 at hy0
  have hxy : le x0 y0 := relAt_of_lessAt hc data (j + 1) j hless x0 y0 hx0 hy0
  obtain ⟨y1, hy1, ey⟩ := hinv.2.1 j y0 hj hy0
  have hyx : le y0 x0 := hc.trans _ _ _ ey.1 (hd x0 hx0 y1 ((List.mem_iff_getElem?.2 ⟨_, hy1⟩)))
  have hk : KeyEq le x0 y0 := ⟨hxy, hyx⟩
  refine ⟨by rw [swapAt_length]; exact hinv.1, ?_, ?_⟩
  · intro k x hk1 hx
    rw [getElem?_swapAt data (j + 1) j k hjl hjl2] at hx
    split_ifs at hx with h1 h2
    · rw [hx0] at hx
      rw [← Option.some.inj hx, h1]
      exact ⟨y1, hy1, keyEq_trans hc hk ey⟩
    · rw [hy0] at hx
      rw [← Option.some.inj hx]
      obtain ⟨x1, hx1, ex⟩ := hinv.2.1 (j + 1) x0 (by omega) hx0
      rw [h2]
      exact ⟨x1, hx1, keyEq_trans hc (keyEq_symm hk) ex⟩
    · exact hinv.2.1 k x hk1 hx
  · intro k x hk1 hx
    rw [getElem?_swapAt data (j + 1) j k hjl hjl2] at hx
    split_ifs at hx with h1 h2
    · omega
    · rw [hy0] at hx
      rw [← Option.some.inj hx]
      obtain ⟨x1, hx1, ex⟩ := hinv.2.2 (j + 1) x0 (by omega) hx0
      exact ⟨x1, hx1, keyEq_trans hc (keyEq_symm hk) ex⟩
    · exact hinv.2.2 k x hk1 hx

theorem shiftLeft_spec {α : Type} {less : α → α → Bool} {le : α → α → Prop}
    (hc : LessRespects less le) (pre seg : List α) (hb : ∀ x ∈ pre, ∀ y ∈ seg, le x y)
    (i : Nat) :
    ∀ (m : Nat) (data : List α), SegInv le pre seg data → m < i → i ≤ data.length →
      (∀ x, data[m]? = some x → ∀ y ∈ pre, le y x) →
      (∀ k, pre.length < k → k < m → RelAt le data (k - 1) k) →
      (∀ k, pre.length < k → m < k → k < i → RelAt le data (k - 1) k) →
      (pre.length < m → m + 1 < i → RelAt le data (m - 1) (m + 1)) →
      SegInv le pre seg (shiftLeft less m data) ∧
        (∀ k, pre.length < k → k < i → RelAt le (shiftLeft less m data) (k - 1) k) ∧
        (∀ k, i ≤ k → (shiftLeft less m data)[k]? = data[k]?) := by
  intro m
  induction m with
  | zero =>
    intro data hinv _ _ _ _ hR _
    rw [shiftLeft]
    exact ⟨hinv, fun k hk1 hk2 => hR k hk1 (by omega) hk2, fun _ _ => rfl⟩
  | succ j ih =>
    intro data hinv hmi hil hd hL hR hS
    rw [shiftLeft]
    by_cases hless : lessAt less data (j + 1) j = true
    · rw [if_pos hless]
      have hjl : j + 1 < data.length := by omega
      have hjl2 : j < data.length := by omega
      have hsw : ∀ k, (swapAt data (j + 1) j)[k]? =
          if k = j then data[j + 1]? else if k = j + 1 then data[j]? else data[k]? :=
        fun k => getElem?_swapAt data (j + 1) j k hjl hjl2
      have hrel : ∀ p q, RelAt le (swapAt data (j + 1) j) p q ↔
          RelAt le data (if p = j then j + 1 else if p = j + 1 then j else p)
            (if q = j then j + 1 else if q = j + 1 then j else q) :=
        fun p q => relAt_swapAt le data (j + 1) j p q hjl hjl2
      have hinv2 : SegInv le pre seg (swapAt data (j + 1) j) := by
        by_cases hja : j < pre.length
        · exact segInv_swap_cross hc pre seg data hinv j hja hjl hless hd
        · exact segInv_swap_inside pre seg data hinv (j + 1) j (by omega) (by omega) hjl hjl2
      obtain ⟨r1, r2, r3⟩ := ih (swapAt data (j + 1) j) hinv2 (by omega)
        (by rw [swapAt_length]; exact hil)
        (by
          intro x hx
          rw [hsw j, if_pos rfl] at hx
          exact hd x hx)
        (by
          intro k hk1 hk2
          have e1 : ¬ k - 1 = j := by omega
          have e2 : ¬ k - 1 = j + 1 := by omega
          have e3 : ¬ k = j := by omega
          have e4 : ¬ k = j + 1 := by omega
          rw [hrel, if_neg e1, if_neg e2, if_neg e3, if_neg e4]
          exact hL k hk1 (by omega))
        (by
          intro k hk1 hk2 hk3
          rw [hrel]
          by_cases h1 : k = j + 1
          · have e1 : k - 1 = j := by omega
            have e3 : ¬ k = j := by omega
            rw [if_pos e1, if_neg e3, if_pos h1]
            exact relAt_of_lessAt hc data (j + 1) j hless
          · by_cases h2 : k = j + 2
            · have e1 : ¬ k - 1 = j := by omega
              have e2 : k - 1 = j + 1 := by omega
              have e3 : ¬ k = j := by omega
              rw [if_neg e1, if_pos e2, if_neg e3, if_neg h1, h2]
              by_cases hja : pre.length < j + 1
              · exact hS hja (by omega)
              · exact segInv_relAt hc pre seg data hb hinv j (j + 2) (by omega) (by omega)
            · have e1 : ¬ k - 1 = j := by omega
              have e2 : ¬ k - 1 = j + 1 := by omega
              have e3 : ¬ k = j := by omega
              rw [if_neg e1, if_neg e2, if_neg e3, if_neg h1]
              exact hR k hk1 (by omega) hk3)
        (by
          intro h1 h2
          have e1 : ¬ j - 1 = j := by omega
          have e2 : ¬ j - 1 = j + 1 := by omega
          have e3 : ¬ j + 1 = j := by omega
          rw [hrel, if_neg e1, if_neg e2, if_neg e3, if_pos rfl]
          exact hL j h1 (by omega))
      refine ⟨r1, r2, ?_⟩
      intro k hk
      have e1 : ¬ k = j := by omega
      have e2 : ¬ k = j + 1 := by omega
      rw [r3 k hk, hsw k, if_neg e1, if_neg e2]
    · rw [if_neg hless]
      refine ⟨hinv, ?_, fun _ _ => rfl⟩
      intro k hk1 hk2
      by_cases h1 : k < j + 1
      · exact hL k hk1 h1
      · by_cases h2 : k = j + 1
        · rw [h2]
          exact relAt_of_not_lessAt hc data (j + 1) j hless
        · exact hR k hk1 (by omega) hk2

theorem shiftLeft_perm {α : Type} (less : α → α → Bool) :
    ∀ (m : Nat) (data : List α), (shiftLeft less m data).Perm data := by
  intro m
  induction m with
  | zero => intro data; exact List.Perm.refl _
  | succ j ih =>
    intro data
    rw [shiftLeft]
    split_ifs
    · exact (ih _).trans (swapAt_perm _ _ _)
    · exact List.Perm.refl _

theorem shiftRight_perm {α : Type} (less : α → α → Bool) (b : Nat) :
    ∀ (fuel j : Nat) (data : List α), (shiftRight less b fuel j data).Perm data := by
  intro fuel
  induction fuel with
  | zero => intro j data; exact List.Perm.refl _
  | succ fuel ih =>
    intro j data
    rw [shiftRight]
    split_ifs
    · exact (ih _ _).trans (swapAt_perm _ _ _)
    · exact List.Perm.refl _

theorem shiftRight_spec {α : Type} (less : α → α → Bool) {le : α → α → Prop}
    (pre seg : List α) (b : Nat) :
    ∀ (fuel j : Nat) (data : List α), SegInv le pre seg data → pre.length < j →
      b ≤ data.length →
      SegInv le pre seg (shiftRight less b fuel j data) ∧
        ∀ k, k + 1 < j → (shiftRight less b fuel j data)[k]? = data[k]? := by
  intro fuel
  induction fuel with
  | zero => intro j data hinv _ _; exact ⟨hinv, fun _ _ => rfl⟩
  | succ fuel ih =>
    intro j data hinv hj hbl
    rw [shiftRight]
    by_cases h : j < b ∧ lessAt less data j (j - 1) = true
    · rw [if_pos h]
      have hl1 : j < data.length := by omega
      have hl2 : j - 1 < data.length := by omega
      obtain ⟨r1, r2⟩ := ih (j + 1) (swapAt data j (j - 1))
        (segInv_swap_inside pre seg data hinv j (j - 1) (by omega) (by omega) hl1 hl2)
        (by omega) (by rw [swapAt_length]; exact hbl)
      refine ⟨r1, ?_⟩
      intro k hk
      have e1 : ¬ k = j - 1 := by omega
      have e2 : ¬ k = j := by omega
      rw [r2 k (by omega), getElem?_swapAt data j (j - 1) k hl1 hl2, if_neg e1, if_neg e2]
    · rw [if_neg h]
      exact ⟨hinv, fun _ _ => rfl⟩

theorem scanSorted_spec {α : Type} {less : α → α → Bool} {le : α → α → Prop}
    (hc : LessRespects less le) (data : List α) (b : Nat) :
    ∀ (fuel i : Nat), b ≤ i + fuel → i ≤ b →
      i ≤ scanSorted less data b fuel i ∧ scanSorted less data b fuel i ≤ b ∧
      (∀ k, i ≤ k → k < scanSorted less data b fuel i → RelAt le data (k - 1) k) ∧
      (scanSorted less data b fuel i < b →
        lessAt less data (scanSorted less data b fuel i)
          (scanSorted less data b fuel i - 1) = true) := by
  intro fuel
  induction fuel with
  | zero =>
    intro i h1 h2
    rw [scanSorted]
    exact ⟨le_refl _, h2, fun k _ _ => by omega, fun h => by omega⟩
  | succ fuel ih =>
    intro i h1 h2
    rw [scanSorted]
    by_cases h : i < b ∧ lessAt less data i (i - 1) = false
    · rw [if_pos h]
      obtain ⟨r1, r2, r3, r4⟩ := ih (i + 1) (by omega) (by omega)
      refine ⟨by omega, r2, ?_, r4⟩
      intro k hk1 hk2
      by_cases hki : k = i
      · rw [hki]
        exact relAt_of_not_lessAt hc data i (i - 1) (by rw [h.2]; decide)
      · exact r3 k (by omega) hk2
    · rw [if_neg h]
      refine ⟨le_refl _, h2, fun k _ _ => by omega, ?_⟩
      intro hib
      by_cases h3 : lessAt less data i (i - 1) = true
      · exact h3
      · exact absurd ⟨hib, by simpa using h3⟩ h

theorem partialInsertionSortLoop_perm {α : Type} (less : α → α → Bool) (a b : Nat) :
    ∀ (steps i : Nat) (data : List α),
      (partialInsertionSortLoop less a b steps i data).1.Perm data := by
  intro steps
  induction steps with
  | zero => intro i data; exact List.Perm.refl _
  | succ steps ih =>
    intro i data
    rw [partialInsertionSortLoop]
    simp only []
    split_ifs
    · exact List.Perm.refl _
    · exact List.Perm.refl _
    all_goals
      refine (ih _ _).trans ?_
      first
        | exact ((shiftRight_perm less b _ _ _).trans (shiftLeft_perm less _ _)).trans
            (swapAt_perm _ _ _)
        | exact (shiftRight_perm less b _ _ _).trans (swapAt_perm _ _ _)
        | exact (shiftLeft_perm less _ _).trans (swapAt_perm _ _ _)
        | exact swapAt_perm _ _ _

theorem partialInsertionSortLoop_spec {α : Type} {less : α → α → Bool} {le : α → α → Prop}
    (hc : LessRespects less le) (pre seg : List α) (hb : ∀ x ∈ pre, ∀ y ∈ seg, le x y)
    (b : Nat) :
    ∀ (steps i : Nat) (data : List α), SegInv le pre seg data → b = data.length →
      pre.length < i → i ≤ b →
      (∀ k, pre.length < k → k < i → RelAt le data (k - 1) k) →
      SegInv le pre seg (partialInsertionSortLoop less pre.length b steps i data).1 ∧
        ((partialInsertionSortLoop less pre.length b steps i data).2 = true →
          ∀ k, pre.length < k → k < b →
            RelAt le (partialInsertionSortLoop less pre.length b steps i data).1 (k - 1) k) := by
  intro steps
  induction steps with
  | zero =>
    intro i data hinv _ _ _ _
    rw [partialInsertionSortLoop]
    exact ⟨hinv, fun h => Bool.noConfusion h⟩
  | succ steps ih =>
    intro i data hinv hbl hai hib hch
    rw [partialInsertionSortLoop]
    simp only []
    obtain ⟨s1, s2, s3, s4⟩ := scanSorted_spec hc data b (b - i) i (by omega) hib
    generalize scanSorted less data b (b - i) i = i1 at s1 s2 s3 s4
    have hch1 : ∀ k, pre.length < k → k < i1 → RelAt le data (k - 1) k := by
      intro k hk1 hk2
      by_cases hki : k < i
      · exact hch k hk1 hki
      · exact s3 k (by omega) hk2
    by_cases h1 : i1 = b
    · rw [if_pos h1]
      refine ⟨hinv, fun _ k hk1 hk2 => hch1 k hk1 (by omega)⟩
    · rw [if_neg h1]
      by_cases h2 : b - pre.length < 50
      · rw [if_pos h2]
        exact ⟨hinv, fun h => Bool.noConfusion h⟩
      · rw [if_neg h2]
        have hlt : i1 < b := by omega
        have hless := s4 hlt
        have hl1 : i1 < data.length := by omega
        have hl2 : i1 - 1 < data.length := by omega
        have hinv1 : SegInv le pre seg (swapAt data i1 (i1 - 1)) :=
          segInv_swap_inside pre seg data hinv i1 (i1 - 1) (by omega) (by omega) hl1 hl2
        have hlen1 : (swapAt data i1 (i1 - 1)).length = data.length := swapAt_length _ _ _
        have hch2 : ∀ k, pre.length < k → k < i1 - 1 →
            RelAt le (swapAt data i1 (i1 - 1)) (k - 1) k := by
          intro k hk1 hk2
          have e1 : ¬ k - 1 = i1 - 1 := by omega
          have e2 : ¬ k - 1 = i1 := by omega
          have e3 : ¬ k = i1 - 1 := by omega
          have e4 : ¬ k = i1 := by omega
          rw [relAt_swapAt le data i1 (i1 - 1) (k - 1) k hl1 hl2, if_neg e1, if_neg e2,
            if_neg e3, if_neg e4]
          exact hch1 k hk1 (by omega)
        generalize swapAt data i1 (i1 - 1) = data1 at hinv1 hlen1 hch2
        have hstep2 : ∃ data2, data2 = (if i1 - pre.length ≥ 2 then
            shiftLeft less (i1 - 1) data1 else data1) ∧ SegInv le pre seg data2 ∧
            data2.length = data.length ∧
            ∀ k, pre.length < k → k < i1 → RelAt le data2 (k - 1) k := by
          refine ⟨_, rfl, ?_⟩
          by_cases h3 : i1 - pre.length ≥ 2
          · rw [if_pos h3]
            obtain ⟨r1, r2, r3⟩ := shiftLeft_spec hc pre seg hb i1 (i1 - 1) data1 hinv1
              (by omega) (by omega)
              (segInv_above hc pre seg data1 hb hinv1 (i1 - 1) (by omega))
              hch2 (fun k _ _ _ => by omega) (fun _ _ => by omega)
            refine ⟨r1, ?_, r2⟩
            rw [r1.1, ← hinv.1]
          · rw [if_neg h3]
            exact ⟨hinv1, hlen1, fun k _ _ => by omega⟩
        obtain ⟨data2, hd2, hinv2, hlen2, hch3⟩ := hstep2
        rw [← hd2]
        have hstep3 : ∃ data3, data3 = (if b - i1 ≥ 2 then
            shiftRight less b (b - (i1 + 1)) (i1 + 1) data2 else data2) ∧
            SegInv le pre seg data3 ∧ data3.length = data.length ∧
            ∀ k, pre.length < k → k < i1 → RelAt le data3 (k - 1) k := by
          refine ⟨_, rfl, ?_⟩
          by_cases h3 : b - i1 ≥ 2
          · rw [if_pos h3]
            obtain ⟨r1, r2⟩ := shiftRight_spec less pre seg b (b - (i1 + 1)) (i1 + 1) data2
              hinv2 (by omega) (by omega)
            refine ⟨r1, by rw [r1.1, ← hinv.1], ?_⟩
            intro k hk1 hk2 x y hx hy
            rw [r2 (k - 1) (by omega)] at hx
            rw [r2 k (by omega)] at hy
            exact hch3 k hk1 hk2 x y hx hy
          · rw [if_neg h3]
            exact ⟨hinv2, hlen2, hch3⟩
        obtain ⟨data3, hd3, hinv3, hlen3, hch4⟩ := hstep3
        rw [← hd3]
        exact ih i1 data3 hinv3 (by omega) (by omega) (by omega) hch4

/-! ### Lists up to elements on a level -/

theorem keyImage_of_subset {α : Type} {less : α → α → Bool} {le : α → α → Prop}
    (hc : LessRespects less le) (out source : List α) (h : ∀ x, x ∈ out → x ∈ source) :
    KeyImage le out source :=
  fun x hx => ⟨x, h x hx, keyEq_refl hc x⟩

theorem keyImage_trans {α : Type} {less : α → α → Bool} {le : α → α → Prop}
    (hc : LessRespects less le) {a b c : List α} (h1 : KeyImage le a b)
    (h2 : KeyImage le b c) : KeyImage le a c := by
  intro x hx
  obtain ⟨y, hy, e1⟩ := h1 x hx
  obtain ⟨z, hz, e2⟩ := h2 y hy
  exact ⟨z, hz, keyEq_trans hc e1 e2⟩

theorem keyImage_of_forall₂ {α : Type} {le : α → α → Prop} {a b : List α}
    (h : List.Forall₂ (KeyEq le) a b) : KeyImage le a b := by
  induction h with
  | nil => intro x hx; simp at hx
  | cons hab _ ih =>
    intro x hx
    rcases List.mem_cons.1 hx with e | hm
    · rw [e]
      exact ⟨_, List.mem_cons_self _ _, hab⟩
    · obtain ⟨y, hy, e⟩ := ih x hm
      exact ⟨y, List.mem_cons_of_mem _ hy, e⟩

theorem keyImage_append {α : Type} {le : α → α → Prop} {a b c d : List α}
    (h1 : KeyImage le a c) (h2 : KeyImage le b d) : KeyImage le (a ++ b) (c ++ d) := by
  intro x hx
  rcases List.mem_append.1 hx with h | h
  · obtain ⟨y, hy, e⟩ := h1 x h
    exact ⟨y, List.mem_append_left _ hy, e⟩
  · obtain ⟨y, hy, e⟩ := h2 x h
    exact ⟨y, List.mem_append_right _ hy, e⟩

theorem keyImage_below {α : Type} {less : α → α → Bool} {le : α → α → Prop}
    (hc : LessRespects less le) {a b : List α} (h : KeyImage le a b) (p : α)
    (hp : ∀ x, x ∈ b → le x p) : ∀ x, x ∈ a → le x p := by
  intro x hx
  obtain ⟨y, hy, e⟩ := h x hx
  exact hc.trans _ _ _ e.1 (hp y hy)

theorem keyImage_above {α : Type} {less : α → α → Bool} {le : α → α → Prop}
    (hc : LessRespects less le) {a b : List α} (h : KeyImage le a b) (p : α)
    (hp : ∀ x, x ∈ b → le p x) : ∀ x, x ∈ a → le p x := by
  intro x hx
  obtain ⟨y, hy, e⟩ := h x hx
  exact hc.trans _ _ _ (hp y hy) e.2

theorem forall₂_keyEq_refl {α : Type} {less : α → α → Bool} {le : α → α → Prop}
    (hc : LessRespects less le) : ∀ l : List α, List.Forall₂ (KeyEq le) l l
  | [] => List.Forall₂.nil
  | x :: l => List.Forall₂.cons (keyEq_refl hc x) (forall₂_keyEq_refl hc l)

theorem forall₂_keyEq_trans {α : Type} {less : α → α → Bool} {le : α → α → Prop}
    (hc : LessRespects less le) : ∀ {a b c : List α}, List.Forall₂ (KeyEq le) a b →
      List.Forall₂ (KeyEq le) b c → List.Forall₂ (KeyEq le) a c := by
  intro a b c h1
  induction h1 generalizing c with
  | nil => intro h2; cases h2; exact List.Forall₂.nil
  | cons hab _ ih =>
    intro h2
    cases h2 with
    | cons hbc h3 => exact List.Forall₂.cons (keyEq_trans hc hab hbc) (ih h3)

theorem pairwise_of_forall₂ {α : Type} {less : α → α → Bool} {le : α → α → Prop}
    (hc : LessRespects less le) : ∀ {a b : List α}, List.Forall₂ (KeyEq le) a b →
      b.Pairwise le → a.Pairwise le := by
  intro a b h
  induction h with
  | nil => intro _; exact List.Pairwise.nil
  | cons hab hrest ih =>
    intro hp
    obtain ⟨h1, h2⟩ := List.pairwise_cons.1 hp
    refine List.pairwise_cons.2 ⟨?_, ih h2⟩
    intro x hx
    obtain ⟨y, hy, e⟩ := keyImage_of_forall₂ hrest x hx
    exact hc.trans _ _ _ hab.1 (hc.trans _ _ _ (h1 y hy) e.2)

theorem block_of_image {α : Type} {less : α → α → Bool} {le : α → α → Prop}
    (hc : LessRespects less le) {pre seg pre2 seg2 : List α}
    (hb : ∀ x ∈ pre, ∀ y ∈ seg, le x y) (h1 : KeyImage le pre2 pre)
    (h2 : KeyImage le seg2 seg) : ∀ x ∈ pre2, ∀ y ∈ seg2, le x y := by
  intro x hx y hy
  obtain ⟨x1, hx1, ex⟩ := h1 x hx
  obtain ⟨y1, hy1, ey⟩ := h2 y hy
  exact hc.trans _ _ _ ex.1 (hc.trans _ _ _ (hb x1 hx1 y1 hy1) ey.2)

/-! ### The segment invariant as lists -/

theorem segInv_forall₂ {α : Type} {le : α → α → Prop} (pre seg data : List α)
    (hinv : SegInv le pre seg data) :
    List.Forall₂ (KeyEq le) (data.take pre.length) pre := by
  rw [List.forall₂_iff_get]
  refine ⟨by rw [List.length_take, hinv.1]; omega, ?_⟩
  intro i h1 h2
  have hx : data[i]? = some ((data.take pre.length).get ⟨i, h1⟩) := by
    rw [List.get_eq_getElem, List.getElem_take, List.getElem?_eq_getElem]
  obtain ⟨y, hy, e⟩ := hinv.2.1 i _ h2 hx
  rw [List.getElem?_eq_getElem h2] at hy
  rw [List.get_eq_getElem (l := pre), Option.some.inj hy]
  exact e

theorem segInv_keyImage {α : Type} {le : α → α → Prop} (pre seg data : List α)
    (hinv : SegInv le pre seg data) : KeyImage le (data.drop pre.length) seg := by
  intro x hx
  obtain ⟨k, hk⟩ := List.mem_iff_getElem?.1 hx
  rw [List.getElem?_drop] at hk
  exact hinv.2.2 _ x (by omega) hk

theorem relAt_of_chain {α : Type} {less : α → α → Bool} {le : α → α → Prop}
    (hc : LessRespects less le) (data : List α) (a : Nat)
    (h : ∀ k, a < k → k < data.length → RelAt le data (k - 1) k) :
    ∀ d i, a ≤ i → RelAt le data i (i + d + 1) := by
  intro d
  induction d with
  | zero =>
    intro i hi
    by_cases hl : i + 1 < data.length
    · exact h (i + 1) (by omega) hl
    · intro x y _ hy
      rw [List.getElem?_eq_none (by omega)] at hy
      exact absurd hy (by simp)
  | succ d ih =>
    intro i hi
    by_cases hl : i + (d + 1) + 1 < data.length
    · exact relAt_trans hc data i (i + d + 1) (i + (d + 1) + 1) (by omega) (ih i hi)
        (h (i + (d + 1) + 1) (by omega) hl)
    · intro x y _ hy
      rw [List.getElem?_eq_none (by omega)] at hy
      exact absurd hy (by simp)

theorem pairwise_drop_of_chain {α : Type} {less : α → α → Bool} {le : α → α → Prop}
    (hc : LessRespects less le) (data : List α) (a : Nat)
    (h : ∀ k, a < k → k < data.length → RelAt le data (k - 1) k) :
    (data.drop a).Pairwise le := by
  apply pairwise_of_relAt
  intro i j hij x y hx hy
  rw [List.getElem?_drop] at hx hy
  have h2 := relAt_of_chain hc data a h (j - i - 1) (a + i) (by omega)
  have e : a + i + (j - i - 1) + 1 = a + j := by omega
  rw [e] at h2
  exact h2 x y hx hy

theorem partialInsertionSortFunc_spec {α : Type} {less : α → α → Bool} {le : α → α → Prop}
    (hc : LessRespects less le) (pre seg : List α) (hb : ∀ x ∈ pre, ∀ y ∈ seg, le x y)
    (hne : 1 ≤ seg.length) :
    ((partialInsertionSortFunc less pre seg).1 ++
        (partialInsertionSortFunc less pre seg).2.1).Perm (pre ++ seg) ∧
      List.Forall₂ (KeyEq le) (partialInsertionSortFunc less pre seg).1 pre ∧
      KeyImage le (partialInsertionSortFunc less pre seg).2.1 seg ∧
      ((partialInsertionSortFunc less pre seg).2.2 = true →
        (partialInsertionSortFunc less pre seg).2.1.Pairwise le) := by
  unfold partialInsertionSortFunc
  simp only []
  have hperm := partialInsertionSortLoop_perm less pre.length (pre.length + seg.length) 5
    (pre.length + 1) (pre ++ seg)
  obtain ⟨hinv, hsorted⟩ := partialInsertionSortLoop_spec hc pre seg hb
    (pre.length + seg.length) 5 (pre.length + 1) (pre ++ seg) (segInv_init hc pre seg)
    (by rw [List.length_append]) (by omega) (by omega) (fun k _ _ => by omega)
  generalize partialInsertionSortLoop less pre.length (pre.length + seg.length) 5
    (pre.length + 1) (pre ++ seg) = r at hperm hinv hsorted
  refine ⟨?_, segInv_forall₂ pre seg r.1 hinv, segInv_keyImage pre seg r.1 hinv, ?_⟩
  · rw [List.take_append_drop]
    exact hperm
  · intro h
    apply pairwise_drop_of_chain hc
    intro k hk1 hk2
    exact hsorted h k hk1 (by rw [← hinv.1]; exact hk2)

/-! ### The choice of the pivot -/

theorem order2Func_mem {α : Type} (less : α → α → Bool) (seg : List α) (a b swaps : Nat) :
    ((order2Func less seg a b swaps).1 = a ∧ (order2Func less seg a b swaps).2.1 = b) ∨
      ((order2Func less seg a b swaps).1 = b ∧ (order2Func less seg a b swaps).2.1 = a) := by
  unfold order2Func
  split_ifs
  · exact Or.inr ⟨rfl, rfl⟩
  · exact Or.inl ⟨rfl, rfl⟩

theorem medianFunc_mem {α : Type} (less : α → α → Bool) (seg : List α) (a b c swaps : Nat) :
    (medianFunc less seg a b c swaps).1 = a ∨ (medianFunc less seg a b c swaps).1 = b ∨
      (medianFunc less seg a b c swaps).1 = c := by
  unfold medianFunc
  simp only []
  have h1 := order2Func_mem less seg a b swaps
  generalize order2Func less seg a b swaps = r1 at h1
  have h2 := order2Func_mem less seg r1.2.1 c r1.2.2
  generalize order2Func less seg r1.2.1 c r1.2.2 = r2 at h2
  have h3 := order2Func_mem less seg r1.1 r2.1 r2.2.2
  generalize order2Func less seg r1.1 r2.1 r2.2.2 = r3 at h3
  omega

theorem choosePivotFunc_lt {α : Type} (less : α → α → Bool) (seg : List α)
    (h : 8 ≤ seg.length) : (choosePivotFunc less seg).1 < seg.length := by
  have hfst : ∀ (r : Nat × Nat),
      (if r.2 = 0 then (r.1, SortedHint.increasingHint)
        else if r.2 = 12 then (r.1, SortedHint.decreasingHint)
        else (r.1, SortedHint.unknownHint)).1 = r.1 := by
    intro r
    split_ifs <;> rfl
  unfold choosePivotFunc
  simp only []
  rw [hfst, if_pos h]
  by_cases h50 : seg.length ≥ 50
  · rw [if_pos h50]
    unfold medianAdjacentFunc
    have h1 := medianFunc_mem less seg (seg.length / 4 * 1 - 1) (seg.length / 4 * 1)
      (seg.length / 4 * 1 + 1) 0
    generalize medianFunc less seg (seg.length / 4 * 1 - 1) (seg.length / 4 * 1)
      (seg.length / 4 * 1 + 1) 0 = ri at h1
    have h2 := medianFunc_mem less seg (seg.length / 4 * 2 - 1) (seg.length / 4 * 2)
      (seg.length / 4 * 2 + 1) ri.2
    generalize medianFunc less seg (seg.length / 4 * 2 - 1) (seg.length / 4 * 2)
      (seg.length / 4 * 2 + 1) ri.2 = rj at h2
    have h3 := medianFunc_mem less seg (seg.length / 4 * 3 - 1) (seg.length / 4 * 3)
      (seg.length / 4 * 3 + 1) rj.2
    generalize medianFunc less seg (seg.length / 4 * 3 - 1) (seg.length / 4 * 3)
      (seg.length / 4 * 3 + 1) rj.2 = rk at h3
    have h4 := medianFunc_mem less seg ri.1 rj.1 rk.1 rk.2
    omega
  · rw [if_neg h50]
    have h4 := medianFunc_mem less seg (seg.length / 4 * 1) (seg.length / 4 * 2)
      (seg.length / 4 * 3) 0
    omega

theorem breakPatternsFunc_perm {α : Type} (seg : List α) :
    (breakPatternsFunc seg).Perm seg := by
  unfold breakPatternsFunc
  simp only []
  by_cases h : seg.length ≥ 8
  · rw [if_pos h]
    exact ((swapAt_perm _ _ _).trans (swapAt_perm _ _ _)).trans (swapAt_perm _ _ _)
  · rw [if_neg h]

theorem pdqsortAttempt_spec {α : Type} {less : α → α → Bool} {le : α → α → Prop}
    (hc : LessRespects less le) (pre seg : List α) (wasBalanced wasPartitioned : Bool)
    (hb : ∀ x ∈ pre, ∀ y ∈ seg, le x y) (hlen : 12 < seg.length) :
    ((pdqsortAttempt less pre seg wasBalanced wasPartitioned).1 ++
        (pdqsortAttempt less pre seg wasBalanced wasPartitioned).2.1).Perm (pre ++ seg) ∧
      List.Forall₂ (KeyEq le) (pdqsortAttempt less pre seg wasBalanced wasPartitioned).1 pre ∧
      KeyImage le (pdqsortAttempt less pre seg wasBalanced wasPartitioned).2.1 seg ∧
      ((pdqsortAttempt less pre seg wasBalanced wasPartitioned).2.2.2 = true →
        (pdqsortAttempt less pre seg wasBalanced wasPartitioned).2.1.Pairwise le) ∧
      (pdqsortAttempt less pre seg wasBalanced wasPartitioned).2.2.1 < seg.length := by
  unfold pdqsortAttempt
  simp only []
  have hp1 : (if wasBalanced = true then seg else breakPatternsFunc seg).Perm seg := by
    split_ifs
    · exact List.Perm.refl _
    · exact breakPatternsFunc_perm seg
  generalize (if wasBalanced = true then seg else breakPatternsFunc seg) = seg1 at hp1
  have hl1 : seg1.length = seg.length := hp1.length_eq
  have hpiv := choosePivotFunc_lt less seg1 (by omega)
  generalize choosePivotFunc less seg1 = choice at hpiv
  have hp2 : (if choice.2 = SortedHint.decreasingHint then seg1.reverse else seg1).Perm seg := by
    split_ifs
    · exact (List.reverse_perm _).trans hp1
    · exact hp1
  generalize (if choice.2 = SortedHint.decreasingHint then seg1.reverse else seg1) = seg2
    at hp2
  have hpiv2 : (if choice.2 = SortedHint.decreasingHint then seg.length - 1 - choice.1
      else choice.1) < seg.length := by
    split_ifs <;> omega
  generalize (if choice.2 = SortedHint.decreasingHint then seg.length - 1 - choice.1
      else choice.1) = pivot at hpiv2
  have himg : KeyImage le seg2 seg := keyImage_of_subset hc _ _ (fun x hx => hp2.subset hx)
  generalize (if choice.2 = SortedHint.decreasingHint then SortedHint.increasingHint
    else choice.2) = hint
  by_cases h : wasBalanced = true ∧ wasPartitioned = true ∧ hint = SortedHint.increasingHint
  · rw [if_pos h]
    have hb2 : ∀ x ∈ pre, ∀ y ∈ seg2, le x y := fun x hx y hy => hb x hx y (hp2.subset hy)
    obtain ⟨q1, q2, q3, q4⟩ := partialInsertionSortFunc_spec hc pre seg2 hb2
      (by rw [hp2.length_eq]; omega)
    exact ⟨q1.trans (hp2.append_left _), q2, keyImage_trans hc q3 himg, q4, hpiv2⟩
  · rw [if_neg h]
    exact ⟨hp2.append_left _, forall₂_keyEq_refl hc pre, himg,
      fun h2 => Bool.noConfusion h2, hpiv2⟩

/-! ### The rounds of pdqsort -/

theorem pairwise_of_all {α : Type} (r : α → α → Prop) : ∀ (l : List α),
    (∀ a ∈ l, ∀ b ∈ l, r a b) → l.Pairwise r
  | [], _ => List.Pairwise.nil
  | x :: l, h => List.pairwise_cons.2 ⟨fun b hb => h x (List.mem_cons_self _ _) b
      (List.mem_cons_of_mem _ hb), pairwise_of_all r l (fun a ha b hb =>
        h a (List.mem_cons_of_mem _ ha) b (List.mem_cons_of_mem _ hb))⟩

theorem sortsSegment_inplace {α : Type} {less : α → α → Bool} {le : α → α → Prop}
    (hc : LessRespects less le) (pre seg sorted : List α) (hp : sorted.Perm seg)
    (hs : sorted.Pairwise le) : SortsSegment le pre seg (pre, sorted) :=
  ⟨hp.append_left pre, forall₂_keyEq_refl hc pre,
    keyImage_of_subset hc _ _ (fun _ hx => hp.subset hx), hs⟩

theorem sortsSegment_equal {α : Type} {less : α → α → Bool} {le : α → α → Prop}
    (hc : LessRespects less le) (pre seg pre3 seg3 E G : List α) (p : α)
    (out : List α × List α)
    (a1 : (pre3 ++ seg3).Perm (pre ++ seg)) (a2 : List.Forall₂ (KeyEq le) pre3 pre)
    (a3 : KeyImage le seg3 seg) (hperm : (p :: E ++ G).Perm seg3)
    (hE : ∀ x ∈ p :: E, KeyEq le x p) (hG : ∀ y ∈ G, le p y)
    (hout : SortsSegment le (pre3 ++ p :: E) G out) :
    SortsSegment le pre seg (out.1.take pre3.length, out.1.drop pre3.length ++ out.2) := by
  obtain ⟨o1, o2, o3, o4⟩ := hout
  have t1 := List.forall₂_take_append out.1 pre3 (p :: E) o2
  have t2 := List.forall₂_drop_append out.1 pre3 (p :: E) o2
  have hsub : KeyImage le (p :: E ++ G) seg :=
    keyImage_trans hc (keyImage_of_subset hc _ _ (fun _ hx => hperm.subset hx)) a3
  refine ⟨?_, forall₂_keyEq_trans hc t1 a2, ?_, ?_⟩
  · show (List.take pre3.length out.1 ++ (List.drop pre3.length out.1 ++ out.2)).Perm _
    rw [← List.append_assoc, List.take_append_drop]
    refine o1.trans (List.Perm.trans ?_ a1)
    rw [List.append_assoc]
    exact hperm.append_left pre3
  · exact keyImage_trans hc (keyImage_append (keyImage_of_forall₂ t2) o3) hsub
  · have hd : ∀ x ∈ List.drop pre3.length out.1, KeyEq le x p := by
      intro x hx
      obtain ⟨y, hy, e⟩ := keyImage_of_forall₂ t2 x hx
      exact keyEq_trans hc e (hE y hy)
    refine List.pairwise_append.2 ⟨pairwise_of_all _ _ ?_, o4, ?_⟩
    · intro a ha b hb
      exact hc.trans _ _ _ (hd a ha).1 (hd b hb).2
    · intro a ha b hb
      exact hc.trans _ _ _ (hd a ha).1 (keyImage_above hc o3 p hG b hb)

theorem sortsSegment_left {α : Type} {less : α → α → Bool} {le : α → α → Prop}
    (hc : LessRespects less le) (pre seg pre3 seg3 L R : List α) (p : α)
    (l out : List α × List α)
    (a1 : (pre3 ++ seg3).Perm (pre ++ seg)) (a2 : List.Forall₂ (KeyEq le) pre3 pre)
    (a3 : KeyImage le seg3 seg) (hperm : (L ++ p :: R).Perm seg3)
    (hL : ∀ x, x ∈ L → le x p) (hR : ∀ y, y ∈ R → le p y)
    (hl : SortsSegment le pre3 L l) (hout : SortsSegment le (l.1 ++ l.2 ++ [p]) R out) :
    SortsSegment le pre seg (out.1.take pre3.length, out.1.drop pre3.length ++ out.2) := by
  obtain ⟨l1, l2, l3, l4⟩ := hl
  obtain ⟨o1, o2, o3, o4⟩ := hout
  have hn : pre3.length = l.1.length := l2.length_eq.symm
  rw [hn]
  rw [List.append_assoc] at o2
  have t1 := List.forall₂_take_append out.1 l.1 (l.2 ++ [p]) o2
  have t2 := List.forall₂_drop_append out.1 l.1 (l.2 ++ [p]) o2
  have hsub : KeyImage le (L ++ [p] ++ R) seg :=
    keyImage_trans hc (keyImage_of_subset hc _ _ (fun x hx => hperm.subset (by
      simpa using hx))) a3
  have hp : KeyImage le [p] [p] := keyImage_of_subset hc _ _ (fun _ h => h)
  have hbelow : ∀ x, x ∈ l.2 ++ [p] → le x p := by
    intro x hx
    rcases List.mem_append.1 hx with h | h
    · exact keyImage_below hc l3 p hL x h
    · rw [List.mem_singleton.1 h]
      exact lessRespects_refl hc p
  refine ⟨?_, forall₂_keyEq_trans hc t1 (forall₂_keyEq_trans hc l2 a2), ?_, ?_⟩
  · show (List.take l.1.length out.1 ++ (List.drop l.1.length out.1 ++ out.2)).Perm _
    rw [← List.append_assoc, List.take_append_drop]
    refine o1.trans (List.Perm.trans ?_ a1)
    refine List.Perm.trans ?_ (hperm.append_left pre3)
    have h1 : (l.1 ++ l.2 ++ [p] ++ R).Perm (pre3 ++ L ++ [p] ++ R) :=
      (l1.append_right [p]).append_right R
    simpa using h1
  · exact keyImage_trans hc (keyImage_append (keyImage_trans hc (keyImage_of_forall₂ t2)
      (keyImage_append l3 hp)) o3) hsub
  · refine List.pairwise_append.2 ⟨pairwise_of_forall₂ hc t2 ?_, o4, ?_⟩
    · refine List.pairwise_append.2 ⟨l4, List.pairwise_singleton _ _, ?_⟩
      intro a ha b hb
      rw [List.mem_singleton.1 hb]
      exact keyImage_below hc l3 p hL a ha
    · intro a ha b hb
      exact hc.trans _ _ _ (keyImage_below hc (keyImage_of_forall₂ t2) p hbelow a ha)
        (keyImage_above hc o3 p hR b hb)

theorem sortsSegment_right {α : Type} {less : α → α → Bool} {le : α → α → Prop}
    (hc : LessRespects less le) (pre seg pre3 seg3 L R : List α) (p : α)
    (l out : List α × List α)
    (a1 : (pre3 ++ seg3).Perm (pre ++ seg)) (a2 : List.Forall₂ (KeyEq le) pre3 pre)
    (a3 : KeyImage le seg3 seg) (hperm : (L ++ p :: R).Perm seg3)
    (hL : ∀ x, x ∈ L → le x p) (hR : ∀ y, y ∈ R → le p y)
    (hout : SortsSegment le (pre3 ++ L ++ [p]) R out)
    (hl : SortsSegment le (out.1.take pre3.length) ((out.1.drop pre3.length).take L.length) l) :
    SortsSegment le pre seg
      (l.1, l.2 ++ out.1.drop (pre3.length + L.length) ++ out.2) := by
  obtain ⟨l1, l2, l3, l4⟩ := hl
  obtain ⟨o1, o2, o3, o4⟩ := hout
  rw [List.append_assoc] at o2
  have tA := List.forall₂_take_append out.1 pre3 (L ++ [p]) o2
  have tBC := List.forall₂_drop_append out.1 pre3 (L ++ [p]) o2
  have tB := List.forall₂_take_append _ L [p] tBC
  have tC := List.forall₂_drop_append _ L [p] tBC
  rw [List.drop_drop] at tC
  have hsplit : out.1 = List.take pre3.length out.1 ++
      (List.take L.length (List.drop pre3.length out.1) ++
        List.drop (pre3.length + L.length) out.1) := by
    rw [← List.drop_drop, List.take_append_drop, List.take_append_drop]
  generalize List.take pre3.length out.1 = A at l1 l2 tA hsplit
  generalize List.take L.length (List.drop pre3.length out.1) = B at l1 l3 tB hsplit
  generalize List.drop (pre3.length + L.length) out.1 = C at tC hsplit
  have hsub : KeyImage le (L ++ [p] ++ R) seg :=
    keyImage_trans hc (keyImage_of_subset hc _ _ (fun x hx => hperm.subset (by
      simpa using hx))) a3
  have hl2p : ∀ x, x ∈ l.2 → le x p :=
    keyImage_below hc (keyImage_trans hc l3 (keyImage_of_forall₂ tB)) p hL
  have hCp : ∀ x, x ∈ C → KeyEq le x p := by
    intro x hx
    obtain ⟨y, hy, e⟩ := keyImage_of_forall₂ tC x hx
    rw [List.mem_singleton.1 hy] at e
    exact e
  refine ⟨?_, forall₂_keyEq_trans hc l2 (forall₂_keyEq_trans hc tA a2), ?_, ?_⟩
  · show (l.1 ++ (l.2 ++ C ++ out.2)).Perm _
    refine List.Perm.trans ?_ a1
    refine List.Perm.trans ?_ (hperm.append_left pre3)
    have h1 : (l.1 ++ l.2 ++ C ++ out.2).Perm (A ++ B ++ C ++ out.2) :=
      (l1.append_right C).append_right out.2
    have h2 : (A ++ B ++ C ++ out.2).Perm (pre3 ++ L ++ [p] ++ R) := by
      have h3 : A ++ B ++ C ++ out.2 = out.1 ++ out.2 := by
        rw [hsplit]
        simp only [List.append_assoc]
      rw [h3]
      exact o1
    simpa using h1.trans h2
  · refine keyImage_trans hc ?_ hsub
    exact keyImage_append (keyImage_append
      (keyImage_trans hc l3 (keyImage_of_forall₂ tB)) (keyImage_of_forall₂ tC)) o3
  · refine List.pairwise_append.2 ⟨List.pairwise_append.2 ⟨l4,
      pairwise_of_forall₂ hc tC (List.pairwise_singleton _ _), ?_⟩, o4, ?_⟩
    · intro a ha b hb
      exact hc.trans _ _ _ (hl2p a ha) (hCp b hb).2
    · intro a ha b hb
      have hap : le a p := by
        rcases List.mem_append.1 ha with h | h
        · exact hl2p a h
        · exact (hCp a h).1
      exact hc.trans _ _ _ hap (keyImage_above hc o3 p hR b hb)

theorem pdqsortFunc_spec {α : Type} {less : α → α → Bool} {le : α → α → Prop}
    (hc : LessRespects less le) :
    ∀ (fuel : Nat) (pre seg : List α) (limit : Nat) (wasBalanced wasPartitioned : Bool),
      seg.length < fuel → (∀ x ∈ pre, ∀ y ∈ seg, le x y) →
      ∃ out, pdqsortFunc less fuel pre seg limit wasBalanced wasPartitioned = some out ∧
        SortsSegment le pre seg out := by
  intro fuel
  induction fuel with
  | zero => intro _ seg _ _ _ h; omega
  | succ fuel ih =>
    intro pre seg limit wb wp hfuel hb
    rw [pdqsortFunc]
    simp only []
    by_cases h12 : seg.length ≤ 12
    · rw [if_pos h12]
      exact ⟨_, rfl, sortsSegment_inplace hc pre seg _ (insertionSortFunc_perm less seg)
        (insertionSortFunc_sorted hc seg)⟩
    · rw [if_neg h12]
      by_cases hl0 : limit = 0
      · rw [if_pos hl0]
        exact ⟨_, rfl, sortsSegment_inplace hc pre seg _ (heapSortFunc_perm less seg)
          (heapSortFunc_sorted hc seg)⟩
      · rw [if_neg hl0]
        obtain ⟨a1, a2, a3, a4, a5⟩ := pdqsortAttempt_spec hc pre seg wb wp hb (by omega)
        generalize pdqsortAttempt less pre seg wb wp = att at a1 a2 a3 a4 a5
        generalize (if wb = true then limit else limit - 1) = limit1
        obtain ⟨pre3, seg3, pivot, flag⟩ := att
        simp only [] at a1 a2 a3 a4 a5 ⊢
        have hb3 : ∀ x ∈ pre3, ∀ y ∈ seg3, le x y :=
          block_of_image hc hb (keyImage_of_forall₂ a2) a3
        have hlen3 : seg3.length = seg.length := by
          have h1 := a1.length_eq
          have h2 := a2.length_eq
          simp only [List.length_append] at h1
          omega
        by_cases hflag : flag = true
        · rw [if_pos hflag]
          exact ⟨_, rfl, a1, a2, a3, a4 hflag⟩
        · rw [if_neg hflag]
          by_cases heq : pre3.length > 0 ∧ lessAt less (pre3 ++ seg3) (pre3.length - 1)
              (pre3.length + pivot) = false
          · rw [if_pos heq]
            have hprev := List.getElem?_eq_getElem (l := pre3) (n := pre3.length - 1)
              (by omega)
            have hpiv := List.getElem?_eq_getElem (l := seg3) (n := pivot) (by omega)
            generalize pre3[pre3.length - 1] = prev at hprev
            generalize seg3[pivot] = p at hpiv
            have hless : less prev p = false := by
              rw [← heq.2]
              symm
              apply lessAt_eq
              · rw [List.getElem?_append_left (by omega)]
                exact hprev
              · rw [List.getElem?_append_right (by omega)]
                rw [Nat.add_sub_cancel_left]
                exact hpiv
            have hmin : ∀ y ∈ seg3, le p y := fun y hy =>
              hc.trans _ _ _ (hc.above prev p hless)
                (hb3 prev (List.mem_iff_getElem?.2 ⟨_, hprev⟩) y hy)
            obtain ⟨E, e1, e2, e3, e4⟩ := partitionEqualFunc_spec less seg3 pivot p hpiv
            generalize partitionEqualFunc less seg3 pivot = r at e1 e3 e4
            obtain ⟨r1, G⟩ := r
            simp only [] at e1 e3 e4 ⊢
            subst e1
            have hE : ∀ x ∈ p :: E, KeyEq le x p := by
              intro x hx
              rcases List.mem_cons.1 hx with h | h
              · rw [h]
                exact keyEq_refl hc p
              · exact ⟨hc.above p x (e2 x h),
                  hmin x (e4.subset (List.mem_append_left _ (List.mem_cons_of_mem _ h)))⟩
            have hG : ∀ y ∈ G, le p y := fun y hy =>
              hmin y (e4.subset (List.mem_append_right _ hy))
            have hlenG : G.length < fuel := by
              have h1 := e4.length_eq
              simp only [List.length_append, List.length_cons] at h1
              omega
            obtain ⟨out, ho, hgood⟩ := ih (pre3 ++ p :: E) G limit1 wb wp hlenG (by
              intro x hx y hy
              rcases List.mem_append.1 hx with h | h
              · exact hb3 x h y (e4.subset (List.mem_append_right _ hy))
              · exact hc.trans _ _ _ (hE x h).1 (hG y hy))
            rw [ho]
            exact ⟨_, rfl, sortsSegment_equal hc pre seg pre3 seg3 E G p out a1 a2 a3 e4 hE hG
              hgood⟩
          · rw [if_neg heq]
            have hne : seg3 ≠ [] := by
              intro h
              rw [h] at hlen3
              simp at hlen3
              omega
            obtain ⟨L, p, R, e1, e2, e3, e4, e5⟩ := partitionFunc_spec less seg3 pivot hne
            generalize partitionFunc less seg3 pivot = r at e1 e2
            obtain ⟨r1, mid, already⟩ := r
            simp only [] at e1 e2 ⊢
            subst e1 e2
            have hL : ∀ x, x ∈ L → le x p := fun x hx => hc.below x p (e3 x hx)
            have hR : ∀ y, y ∈ R → le p y := fun y hy => hc.above y p (e4 y hy)
            have hlenLR : L.length + R.length + 1 = seg.length := by
              have h1 := e5.length_eq
              simp only [List.length_append, List.length_cons] at h1
              omega
            have hleft : List.take L.length (L ++ p :: R) = L := List.take_left _ _
            have hright : List.drop (L.length + 1) (L ++ p :: R) = R := by
              rw [← List.drop_drop, List.drop_left]
              rfl
            have hpivot : List.take 1 (List.drop L.length (L ++ p :: R)) = [p] := by
              rw [List.drop_left]
              rfl
            rw [hleft, hright, hpivot]
            have hbL : ∀ x ∈ pre3, ∀ y ∈ L, le x y := fun x hx y hy =>
              hb3 x hx y (e5.subset (List.mem_append_left _ hy))
            have hbR : ∀ x ∈ pre3, ∀ y ∈ R, le x y := fun x hx y hy =>
              hb3 x hx y (e5.subset (List.mem_append_right _ (List.mem_cons_of_mem _ hy)))
            by_cases hside : L.length < seg.length - L.length
            · rw [if_pos hside]
              obtain ⟨l, hl, hgl⟩ := ih pre3 L limit1 true true (by omega) hbL
              rw [hl]
              simp only []
              obtain ⟨out, ho, hgo⟩ := ih (l.1 ++ l.2 ++ [p]) R limit1
                (decide (L.length ≥ seg.length / 8)) already (by omega) (by
                  intro x hx y hy
                  rcases List.mem_append.1 hx with h | h
                  · rcases List.mem_append.1 (hgl.1.subset h) with h2 | h2
                    · exact hbR x h2 y hy
                    · exact hc.trans _ _ _ (hL x h2) (hR y hy)
                  · rw [List.mem_singleton.1 h]
                    exact hR y hy)
              rw [ho]
              exact ⟨_, rfl, sortsSegment_left hc pre seg pre3 seg3 L R p l out a1 a2 a3 e5
                hL hR hgl hgo⟩
            · rw [if_neg hside]
              obtain ⟨out, ho, hgo⟩ := ih (pre3 ++ L ++ [p]) R limit1 true true (by omega) (by
                  intro x hx y hy
                  rcases List.mem_append.1 hx with h | h
                  · rcases List.mem_append.1 h with h2 | h2
                    · exact hbR x h2 y hy
                    · exact hc.trans _ _ _ (hL x h2) (hR y hy)
                  · rw [List.mem_singleton.1 h]
                    exact hR y hy)
              rw [ho]
              simp only []
              have o2 := hgo.2.1
              rw [List.append_assoc] at o2
              have tA := List.forall₂_take_append out.1 pre3 (L ++ [p]) o2
              have tBC := List.forall₂_drop_append out.1 pre3 (L ++ [p]) o2
              have tB := List.forall₂_take_append _ L [p] tBC
              obtain ⟨l, hl, hgl⟩ := ih (out.1.take pre3.length)
                ((out.1.drop pre3.length).take L.length) limit1
                (decide (seg.length - L.length ≥ seg.length / 8)) already
                (by rw [tB.length_eq]; omega)
                (block_of_image hc hbL (keyImage_of_forall₂ tA) (keyImage_of_forall₂ tB))
              rw [hl]
              exact ⟨_, rfl, sortsSegment_right hc pre seg pre3 seg3 L R p l out a1 a2 a3 e5
                hL hR hgo hgl⟩

/-! ### The bound on the rounds of pdqsort -/

theorem pdqsortFunc_fuel_succ {α : Type} (less : α → α → Bool) :
    ∀ (fuel : Nat) (pre seg : List α) (limit : Nat) (wasBalanced wasPartitioned : Bool)
      (out : List α × List α),
      pdqsortFunc less fuel pre seg limit wasBalanced wasPartitioned = some out →
      pdqsortFunc less (fuel + 1) pre seg limit wasBalanced wasPartitioned = some out := by
  intro fuel
  induction fuel with
  | zero =>
    intro pre seg limit wb wp out h
    rw [pdqsortFunc] at h
    exact Option.noConfusion h
  | succ fuel ih =>
    intro pre seg limit wb wp out h
    rw [pdqsortFunc] at h ⊢
    simp only [] at h ⊢
    by_cases h12 : seg.length ≤ 12
    · rw [if_pos h12] at h ⊢
      exact h
    · rw [if_neg h12] at h ⊢
      by_cases hl0 : limit = 0
      · rw [if_pos hl0] at h ⊢
        exact h
      · rw [if_neg hl0] at h ⊢
        generalize pdqsortAttempt less pre seg wb wp = att at h ⊢
        generalize (if wb = true then limit else limit - 1) = limit1 at h ⊢
        by_cases hflag : att.2.2.2 = true
        · rw [if_pos hflag] at h ⊢
          exact h
        · rw [if_neg hflag] at h ⊢
          by_cases heq : att.1.length > 0 ∧ lessAt less (att.1 ++ att.2.1) (att.1.length - 1)
              (att.1.length + att.2.2.1) = false
          · rw [if_pos heq] at h ⊢
            cases hr : pdqsortFunc less fuel
                (att.1 ++ (partitionEqualFunc less att.2.1 att.2.2.1).1)
                (partitionEqualFunc less att.2.1 att.2.2.1).2 limit1 wb wp with
            | none =>
              rw [hr] at h
              exact Option.noConfusion h
            | some o =>
              rw [hr] at h
              rw [ih _ _ _ _ _ _ hr]
              exact h
          · rw [if_neg heq] at h ⊢
            generalize partitionFunc less att.2.1 att.2.2.1 = r at h ⊢
            by_cases hside : r.2.1 < seg.length - r.2.1
            · rw [if_pos hside] at h ⊢
              cases hr : pdqsortFunc less fuel att.1 (List.take r.2.1 r.1) limit1 true true with
              | none =>
                rw [hr] at h
                exact Option.noConfusion h
              | some l =>
                rw [hr] at h
                rw [ih _ _ _ _ _ _ hr]
                simp only [] at h ⊢
                cases hr2 : pdqsortFunc less fuel
                    (l.1 ++ l.2 ++ List.take 1 (List.drop r.2.1 r.1))
                    (List.drop (r.2.1 + 1) r.1) limit1
                    (decide (r.2.1 ≥ seg.length / 8)) r.2.2 with
                | none =>
                  rw [hr2] at h
                  exact Option.noConfusion h
                | some o =>
                  rw [hr2] at h
                  rw [ih _ _ _ _ _ _ hr2]
                  exact h
            · rw [if_neg hside] at h ⊢
              cases hr : pdqsortFunc less fuel
                  (att.1 ++ List.take r.2.1 r.1 ++ List.take 1 (List.drop r.2.1 r.1))
                  (List.drop (r.2.1 + 1) r.1) limit1 true true with
              | none =>
                rw [hr] at h
                exact Option.noConfusion h
              | some o =>
                rw [hr] at h
                rw [ih _ _ _ _ _ _ hr]
                simp only [] at h ⊢
                cases hr2 : pdqsortFunc less fuel (List.take att.1.length o.1)
                    (List.take r.2.1 (List.drop att.1.length o.1)) limit1
                    (decide (seg.length - r.2.1 ≥ seg.length / 8)) r.2.2 with
                | none =>
                  rw [hr2] at h
                  exact Option.noConfusion h
                | some l =>
                  rw [hr2] at h
                  rw [ih _ _ _ _ _ _ hr2]
                  exact h

theorem pdqsortFunc_fuel_le {α : Type} (less : α → α → Bool) (fuel : Nat) (pre seg : List α)
    (limit : Nat) (wasBalanced wasPartitioned : Bool) (out : List α × List α)
    (h : pdqsortFunc less fuel pre seg limit wasBalanced wasPartitioned = some out) :
    ∀ more, pdqsortFunc less (fuel + more) pre seg limit wasBalanced wasPartitioned =
      some out := by
  intro more
  induction more with
  | zero => exact h
  | succ more ih => exact pdqsortFunc_fuel_succ less _ _ _ _ _ _ _ ih

/-! ### `sort.Slice` sorts -/

theorem sortSlice_spec {α : Type} {less : α → α → Bool} {le : α → α → Prop}
    (hc : LessRespects less le) (x : List α) :
    (sortSlice less x).Perm x ∧ (sortSlice less x).Pairwise le ∧
      ∀ more, pdqsortFunc less (x.length + 1 + more) [] x (bitsLen x.length) true true =
        some ([], sortSlice less x) := by
  obtain ⟨out, ho, h1, h2, h3, h4⟩ := pdqsortFunc_spec hc (x.length + 1) [] x
    (bitsLen x.length) true true (by omega) (fun _ h => by simp at h)
  have hnil : out.1 = [] := List.length_eq_zero.1 h2.length_eq
  have hs : sortSlice less x = out.2 := by
    unfold sortSlice
    rw [ho]
    simp only []
    rw [hnil, List.nil_append]
  rw [hs]
  refine ⟨?_, h4, ?_⟩
  · rw [hnil] at h1
    simpa using h1
  · intro more
    rw [pdqsortFunc_fuel_le less _ _ _ _ _ _ out ho more]
    obtain ⟨o1, o2⟩ := out
    simp only [] at hnil
    rw [hnil]

theorem migrationLess_le (a b : MigrationFile) (h : Local.migrationLess a b = true) :
    utils.CompareVersion a.Version b.Version ≤ 0 := by
  unfold Local.migrationLess at h
  by_cases he : a.Version = b.Version
  · rw [he, compareVersion_self]
  · have hb : (a.Version == b.Version) = false := by simpa using he
    rw [hb, local_compareVersion_eq] at h
    simp only [Bool.false_eq_true, if_false, decide_eq_true_eq] at h
    omega

theorem migrationLess_ge (a b : MigrationFile) (h : ¬ Local.migrationLess a b = true) :
    utils.CompareVersion b.Version a.Version ≤ 0 := by
  unfold Local.migrationLess at h
  by_cases he : a.Version = b.Version
  · rw [he, compareVersion_self]
  · have hb : (a.Version == b.Version) = false := by simpa using he
    rw [hb, local_compareVersion_eq] at h
    simp only [Bool.false_eq_true, if_false, decide_eq_true_eq] at h
    rw [compareVersion_swap]
    omega

theorem migrationLess_respects :
    LessRespects Local.migrationLess
      (fun a b => utils.CompareVersion a.Version b.Version ≤ 0) :=
  ⟨migrationLess_le, fun a b h => migrationLess_ge a b (by rw [h]; decide),
    fun a b c h1 h2 => compareVersion_trans _ _ _ h1 h2⟩

theorem sortMigrations_perm (files : List MigrationFile) :
    (Local.SortMigrations files).Perm files :=
  (sortSlice_spec migrationLess_respects files).1

theorem sortMigrations_sorted (files : List MigrationFile) :
    (Local.SortMigrations files).Pairwise
      (fun a b => utils.CompareVersion a.Version b.Version ≤ 0) :=
  (sortSlice_spec migrationLess_respects files).2.1

/-- Above 12 files `SortMigrations` runs the quicksort: the thirteen files come out in the
order of their versions, but files of one version change places (`g` before `b`, `e` before
`a`), which the insertion sort alone would not do. -/
theorem sortMigrations_thirteen_files :
    (Local.SortMigrations thirteenFiles).map (fun f => f.Title) =
        ["g", "b", "d", "j", "m", "c", "f", "i", "l", "e", "a", "h", "k"] ∧
      (insertionSortFunc Local.migrationLess thirteenFiles).map (fun f => f.Title) =
        ["b", "d", "g", "j", "m", "c", "f", "i", "l", "a", "e", "h", "k"] := by
  refine ⟨by set_option maxRecDepth 1000000 in decide,
    by set_option maxRecDepth 1000000 in decide⟩

theorem matchesRunnerVersion_ne_nil (v : List Char) (h : MatchesRunnerVersion v) : v ≠ [] := by
  rcases h with ⟨c, rest, he, _, _⟩ | h
  · rw [he]
    exact List.cons_ne_nil _ _
  · exact h.1

theorem parsed_version_ne_empty (path : String) (f : MigrationFile)
    (h : Local.ParseMigrationFile path = .ok f) : f.Version ≠ "" := by
  obtain ⟨⟨hv, _⟩, _⟩ := (local_parseMigrationFile_ok_iff path f).1 h
  intro e
  apply matchesRunnerVersion_ne_nil _ hv
  rw [e]

theorem scanned_version_ne_empty (walk : List WalkEntry) (files : List MigrationFile)
    (hwalk : ∀ e ∈ walk, e.err = none) (h : Local.ScanMigrations walk = .ok files) :
    ∀ f ∈ files, f.Version ≠ "" := by
  have h2 := scanWalk_eq walk [] hwalk
  rw [Local.ScanMigrations] at h
  rw [h2, List.nil_append] at h
  have h3 := Except.ok.inj h
  intro f hf
  rw [← h3] at hf
  obtain ⟨e, _, he⟩ := List.mem_filterMap.1 hf
  cases hp : Local.ParseMigrationFile e.path with
  | error msg => rw [hp] at he; simp [Except.toOption] at he
  | ok g =>
    rw [hp] at he
    simp only [Except.toOption, Option.some.injEq] at he
    subst he
    exact parsed_version_ne_empty _ _ hp

theorem pendingLoop_eq (current target : String) (files : List MigrationFile) :
    files.foldl
      (fun pendingFiles f =>
        if Local.CompareVersion f.Version current > 0 then
          if (target = "" || decide (Local.CompareVersion f.Version target ≤ 0)) = true
          then pendingFiles ++ [f]
          else pendingFiles
        else pendingFiles) [] =
    files.filter fun f =>
      decide (Local.CompareVersion f.Version current > 0) &&
        (decide (target = "") || decide (Local.CompareVersion f.Version target ≤ 0)) := by
  have h : ∀ (l acc : List MigrationFile),
      l.foldl
        (fun pendingFiles f =>
          if Local.CompareVersion f.Version current > 0 then
            if (target = "" || decide (Local.CompareVersion f.Version target ≤ 0)) = true
            then pendingFiles ++ [f]
            else pendingFiles
          else pendingFiles) acc =
      acc ++ l.filter fun f =>
        decide (Local.CompareVersion f.Version current > 0) &&
          (decide (target = "") || decide (Local.CompareVersion f.Version target ≤ 0)) := by
    intro l
    induction l with
    | nil => intro acc; simp
    | cons x l ih =>
      intro acc
      rw [List.foldl_cons, ih, List.filter_cons]
      by_cases h1 : Local.CompareVersion x.Version current > 0
      · by_cases h2 : (target = "" || decide (Local.CompareVersion x.Version target ≤ 0)) = true
        · have h3 : (decide (target = "") ||
              decide (Local.CompareVersion x.Version target ≤ 0)) = true := by simpa using h2
          simp [h1, h2, h3]
        · have h3 : (decide (target = "") ||
              decide (Local.CompareVersion x.Version target ≤ 0)) = false := by simpa using h2
          simp [h1, h2, h3]
      · simp [h1]
  simpa using h files []

theorem pairwise_le_getLast (sorted : List MigrationFile) (last : MigrationFile)
    (hs : sorted.Pairwise (fun a b => utils.CompareVersion a.Version b.Version ≤ 0))
    (hl : sorted.getLast? = some last) :
    ∀ f ∈ sorted, utils.CompareVersion f.Version last.Version ≤ 0 := by
  obtain ⟨init, rfl⟩ : ∃ init, sorted = init ++ [last] := by
    rcases List.eq_nil_or_concat sorted with h | ⟨init, x, h⟩
    · rw [h] at hl
      simp at hl
    · rw [h] at hl
      simp at hl
      exact ⟨init, by rw [h, hl]; simp⟩
  intro f hf
  rcases List.mem_append.1 hf with h | h
  · exact (List.pairwise_append.1 hs).2.2 f h last (List.mem_singleton_self _)
  · rw [List.mem_singleton.1 h, compareVersion_self]

theorem effectiveTarget_eq (sorted : List MigrationFile) (targetVersion : String) :
    (if (targetVersion = "" && decide (sorted.length > 0)) = true then
      match sorted.getLast? with
      | some last => last.Version
      | none => targetVersion
    else targetVersion) = effectiveTarget sorted targetVersion := by
  unfold effectiveTarget
  by_cases ht : targetVersion = ""
  · cases sorted with
    | nil => simp [ht]
    | cons x xs =>
      cases hl : (x :: xs).getLast? with
      | none => simp at hl
      | some last => simp [ht, hl]
  · simp [ht]

/-- Claim C27.  For every walk without error, with the bookkeeping table in place and
the current version read, and for every target version: the files handed to
`ApplyMigrations` or `DryRunMigrations` are exactly the sorted files whose version is
above the current one and at most the target, in sorted order (`SortMigrations` yields a
permutation in non-decreasing version order); without a target the target is the version
of the last sorted file, so every file above the current version is pending; when the
current version is at least the target nothing is handed on, and no file qualifies. -/
theorem runMigrations_pending (env : RunEnv) (dryRun : Bool) (targetVersion current : String)
    (hwalk : ∀ e ∈ env.walk, e.err = none) (hensure : env.ensureErr = none)
    (hcur : env.current = .ok current) :
    ∃ files sorted : List MigrationFile,
      Local.ScanMigrations env.walk = .ok files ∧
      sorted = Local.SortMigrations files ∧ sorted.Perm files ∧
      sorted.Pairwise (fun a b => Local.CompareVersion a.Version b.Version ≤ 0) ∧
      (pendingBetween sorted current (effectiveTarget sorted targetVersion)).Sublist sorted ∧
      ((effectiveTarget sorted targetVersion ≠ "" ∧
          Local.CompareVersion current (effectiveTarget sorted targetVersion) ≥ 0) →
        runMigrations env dryRun targetVersion = .upToDate ∧
          pendingBetween sorted current (effectiveTarget sorted targetVersion) = []) ∧
      (¬ (effectiveTarget sorted targetVersion ≠ "" ∧
          Local.CompareVersion current (effectiveTarget sorted targetVersion) ≥ 0) →
        runMigrations env dryRun targetVersion =
          .handed dryRun (pendingBetween sorted current (effectiveTarget sorted targetVersion))) ∧
      (targetVersion = "" →
        pendingBetween sorted current (effectiveTarget sorted targetVersion) =
          sorted.filter fun f => decide (Local.CompareVersion f.Version current > 0)) := by
  have hscan : Local.ScanMigrations env.walk = .ok ((env.walk.filter fun e => !e.isDir).filterMap
      fun e => (Local.ParseMigrationFile e.path).toOption) := by
    have := scanWalk_eq env.walk [] hwalk
    simpa [Local.ScanMigrations] using this
  generalize hfiles : ((env.walk.filter fun e => !e.isDir).filterMap
      fun e => (Local.ParseMigrationFile e.path).toOption) = files at hscan
  have hne := scanned_version_ne_empty env.walk files hwalk hscan
  have hperm : (Local.SortMigrations files).Perm files := sortMigrations_perm files
  have hsorted := sortMigrations_sorted files
  have hne2 : ∀ f ∈ Local.SortMigrations files, f.Version ≠ "" :=
    fun f hf => hne f (hperm.subset hf)
  have hrun : runMigrations env dryRun targetVersion =
      if (effectiveTarget (Local.SortMigrations files) targetVersion != ""
          && decide (Local.CompareVersion current
            (effectiveTarget (Local.SortMigrations files) targetVersion) ≥ 0)) = true then
        .upToDate
      else
        .handed dryRun ((Local.SortMigrations files).filter fun f =>
          decide (Local.CompareVersion f.Version current > 0) &&
            (decide (effectiveTarget (Local.SortMigrations files) targetVersion = "") ||
              decide (Local.CompareVersion f.Version
                (effectiveTarget (Local.SortMigrations files) targetVersion) ≤ 0))) := by
    unfold runMigrations
    simp only [hscan, hensure, hcur, effectiveTarget_eq, pendingLoop_eq]
  obtain ⟨sorted, hs⟩ : ∃ s, s = Local.SortMigrations files := ⟨_, rfl⟩
  rw [← hs] at hrun hperm hsorted hne2
  have hlast : ∀ last, sorted.getLast? = some last →
      ∀ f ∈ sorted, utils.CompareVersion f.Version last.Version ≤ 0 :=
    fun last hl => pairwise_le_getLast sorted last hsorted hl
  have hempty : effectiveTarget sorted targetVersion = "" → sorted = [] := by
    intro h
    unfold effectiveTarget at h
    by_cases ht : targetVersion = ""
    · rw [if_pos ht] at h
      cases hl : sorted.getLast? with
      | none => exact List.getLast?_eq_none_iff.1 hl
      | some last =>
        rw [hl] at h
        exact absurd h (hne2 last (List.mem_of_getLast?_eq_some hl))
    · rw [if_neg ht] at h
      exact absurd h ht
  refine ⟨files, sorted, hscan, hs, hperm, hsorted, List.filter_sublist _, ?_, ?_, ?_⟩
  · rintro ⟨h1, h2⟩
    constructor
    · rw [hrun, if_pos]
      simp [h1, h2]
    · unfold pendingBetween
      rw [List.filter_eq_nil_iff]
      intro f _ hc
      simp only [Bool.and_eq_true, decide_eq_true_eq] at hc
      rw [local_compareVersion_eq] at hc h2
      have h3 : utils.CompareVersion (effectiveTarget sorted targetVersion) current ≤ 0 := by
        rw [compareVersion_swap]
        omega
      have h4 := compareVersion_trans _ _ _ hc.2 h3
      omega
  · intro hn
    rw [hrun, if_neg (by simpa using hn)]
    congr 1
    unfold pendingBetween
    by_cases ht : effectiveTarget sorted targetVersion = ""
    · rw [hempty ht]
      rfl
    · simp [ht]
  · intro ht
    unfold pendingBetween
    apply List.filter_congr
    intro f hf
    cases hl : sorted.getLast? with
    | none =>
      rw [List.getLast?_eq_none_iff.1 hl] at hf
      simp at hf
    | some last =>
      have h1 : effectiveTarget sorted targetVersion = last.Version := by
        simp [effectiveTarget, ht, hl]
      have h2 := hlast last hl f hf
      rw [h1, local_compareVersion_eq]
      simp [h2]

theorem runMigrations_pending_witness :
    (∀ e ∈ exampleRunEnv.walk, e.err = none) ∧ exampleRunEnv.ensureErr = none ∧
    exampleRunEnv.current = .ok "v1.0" ∧
    runMigrations exampleRunEnv false "" =
      .handed false [upFile "v1.0.1" "b" "m/v1.0.1__b.up.sql", upFile "v2" "c" "m/v2__c.up.sql"] ∧
    ∃ files sorted : List MigrationFile,
      Local.ScanMigrations exampleRunEnv.walk = .ok files ∧
      sorted = Local.SortMigrations files ∧
      pendingBetween sorted "v1.0" (effectiveTarget sorted "") =
        sorted.filter fun f => decide (Local.CompareVersion f.Version "v1.0" > 0) :=
  ⟨by simp [exampleRunEnv, migrationsWalk], rfl, rfl,
    by set_option maxRecDepth 100000 in decide,
    (runMigrations_pending exampleRunEnv false "" "v1.0"
      (by simp [exampleRunEnv, migrationsWalk]) rfl rfl).imp
      fun _ h => h.imp fun _ h2 => ⟨h2.1, h2.2.1, h2.2.2.2.2.2.2.2 rfl⟩⟩

/-! ## Applying migrations -/

theorem applyMigrations_accepts (db : MigrationDB) (hins : ∀ row, db.insert row = none) :
    ∀ (files : List MigrationFile) (st : ApplyState), (∀ f ∈ files, Accepts db f) →
      ApplyMigrations db files st =
        ({ executed := st.executed ++ files,
           rows := st.rows ++ files.map (bookkeepingRow db "success") }, none) := by
  intro files
  induction files with
  | nil => intro st _; simp [ApplyMigrations]
  | cons f rest ih =>
    intro st h
    have hf : db.exec (f.GetContent db.readFile) = none := h f (List.mem_cons_self _ _)
    rw [ApplyMigrations, applyMigration]
    simp only [hf, hins]
    rw [ih _ (fun g hg => h g (List.mem_cons_of_mem _ hg))]
    simp [bookkeepingRow]

/-- Claim C28.  `ApplyMigrations` over a list of files, with a database that accepts or
rejects each script and stores every bookkeeping row: when `fk` is the first file whose
script is rejected, exactly the files up to `fk` are executed, in order, the table gains
a `success` row for each file before `fk` followed by one `failed` row for `fk`, the
error of `fk` is returned and no later file is executed or recorded; when no script is
rejected, all files are executed, the table gains one `success` row per file in file
order and no error is returned. -/
theorem applyMigrations_first_failure (db : MigrationDB) (st : ApplyState)
    (hins : ∀ row, db.insert row = none) :
    (∀ (before after : List MigrationFile) (fk : MigrationFile) (err : String),
      (∀ f ∈ before, Accepts db f) → Rejects db fk err →
      ApplyMigrations db (before ++ fk :: after) st =
        ({ executed := st.executed ++ before ++ [fk],
           rows := st.rows ++ before.map (bookkeepingRow db "success")
             ++ [bookkeepingRow db "failed" fk] }, some err)) ∧
    (∀ files : List MigrationFile, (∀ f ∈ files, Accepts db f) →
      ApplyMigrations db files st =
        ({ executed := st.executed ++ files,
           rows := st.rows ++ files.map (bookkeepingRow db "success") }, none)) := by
  constructor
  · intro before
    induction before generalizing st with
    | nil =>
      intro after fk err _ hrej
      unfold Rejects at hrej
      rw [List.nil_append, ApplyMigrations, applyMigration]
      simp only [hrej, hins]
      simp [bookkeepingRow]
    | cons f rest ih =>
      intro after fk err hacc hrej
      have hf : db.exec (f.GetContent db.readFile) = none := hacc f (List.mem_cons_self _ _)
      rw [List.cons_append, ApplyMigrations, applyMigration]
      simp only [hf, hins]
      rw [ih _ after fk err (fun g hg => hacc g (List.mem_cons_of_mem _ hg)) hrej]
      simp [bookkeepingRow]
  · intro files h
    exact applyMigrations_accepts db hins files st h

theorem applyMigrations_first_failure_witness :
    (∀ row, exampleDB.insert row = none) ∧
    (∀ f ∈ [scriptFile "v1" "ok"], Accepts exampleDB f) ∧
    Rejects exampleDB (scriptFile "v2" "bad") "syntax error" ∧
    ApplyMigrations exampleDB
        ([scriptFile "v1" "ok"] ++ scriptFile "v2" "bad" :: [scriptFile "v3" "ok"]) ⟨[], []⟩ =
      ({ executed := [] ++ [scriptFile "v1" "ok"] ++ [scriptFile "v2" "bad"],
         rows := [] ++ [scriptFile "v1" "ok"].map (bookkeepingRow exampleDB "success")
           ++ [bookkeepingRow exampleDB "failed" (scriptFile "v2" "bad")] },
        some "syntax error") ∧
    (ApplyMigrations exampleDB
        [scriptFile "v1" "ok", scriptFile "v2" "bad", scriptFile "v3" "ok"] ⟨[], []⟩).1.rows =
      [⟨"v1", "t", 5, "success"⟩, ⟨"v2", "t", 5, "failed"⟩] :=
  ⟨fun _ => rfl, by decide, by decide,
    (applyMigrations_first_failure exampleDB ⟨[], []⟩ (fun _ => rfl)).1
      [scriptFile "v1" "ok"] [scriptFile "v3" "ok"] (scriptFile "v2" "bad") "syntax error"
      (by decide) (by decide),
    by decide⟩
/-! ## Removing the transaction statements -/

theorem matchPieces_split : ∀ (pattern : List Piece) (text rest : List Char),
    matchPieces pattern text = some rest → ∃ m, text = m ++ rest ∧ PiecesMatch pattern m := by
  intro pattern
  induction pattern with
  | nil =>
    intro text rest h
    rw [matchPieces] at h
    exact ⟨[], by simpa using (Option.some.inj h), rfl⟩
  | cons piece pieces ih =>
    intro text rest h
    cases piece with
    | lit p =>
      cases text with
      | nil => rw [matchPieces] at h; exact Option.noConfusion h
      | cons c text =>
        rw [matchPieces] at h
        by_cases hf : foldMatches p c = true
        · rw [if_pos hf] at h
          obtain ⟨m, hm, hpm⟩ := ih text rest h
          exact ⟨c :: m, by rw [hm]; rfl, c, m, rfl, hf, hpm⟩
        · rw [if_neg hf] at h
          exact Option.noConfusion h
    | spaces one =>
      rw [matchPieces] at h
      by_cases hc : (one && (text.takeWhile isRegexSpace).isEmpty) = true
      · rw [if_pos hc] at h
        exact Option.noConfusion h
      · rw [if_neg hc] at h
        obtain ⟨m, hm, hpm⟩ := ih _ rest h
        refine ⟨text.takeWhile isRegexSpace ++ m, ?_, text.takeWhile isRegexSpace, m, rfl, ?_, ?_,
          hpm⟩
        · rw [List.append_assoc, ← hm, List.takeWhile_append_dropWhile]
        · intro c hcm
          exact List.mem_takeWhile_imp hcm
        · intro ho hnil
          apply hc
          rw [ho, hnil]
          rfl

theorem foldMatches_not_space (p c : Char) (h : foldMatches p c = true)
    (h1 : isRegexSpace p = false) (h2 : isRegexSpace p.toUpper = false) :
    isRegexSpace c = false := by
  unfold foldMatches at h
  simp only [Bool.or_eq_true, Bool.and_eq_true, beq_iff_eq] at h
  rcases h with (h | h) | ⟨_, h⟩
  · rw [h]; exact h1
  · rw [h]; exact h2
  · rw [h]; decide

theorem matchPieces_of_match : ∀ (pattern : List Piece) (m rest : List Char),
    runsEndAtLiteral pattern = true → PiecesMatch pattern m →
    matchPieces pattern (m ++ rest) = some rest := by
  intro pattern
  induction pattern with
  | nil =>
    intro m rest _ h
    rw [PiecesMatch] at h
    rw [h, matchPieces]
    rfl
  | cons piece pieces ih =>
    intro m rest hw h
    cases piece with
    | lit p =>
      rw [PiecesMatch] at h
      obtain ⟨c, r, hm, hf, hr⟩ := h
      rw [runsEndAtLiteral] at hw
      rw [hm, List.cons_append, matchPieces, if_pos hf]
      exact ih r rest hw hr
    | spaces one =>
      rw [PiecesMatch] at h
      obtain ⟨run, r, hm, hrun, hone, hr⟩ := h
      cases pieces with
      | nil => simp [runsEndAtLiteral] at hw
      | cons next pieces2 =>
        cases next with
        | spaces _ => simp [runsEndAtLiteral] at hw
        | lit q =>
          rw [runsEndAtLiteral] at hw
          simp only [Bool.and_eq_true, Bool.not_eq_true'] at hw
          have hr2 := hr
          rw [PiecesMatch] at hr2
          obtain ⟨c, r2, hr3, hf, _⟩ := hr2
          have hns := foldMatches_not_space q c hf hw.1.1 hw.1.2
          have hsplit := takeWhile_append_stop isRegexSpace run (r2 ++ rest) c hrun hns
          have htext : m ++ rest = run ++ c :: (r2 ++ rest) := by
            rw [hm, hr3]
            simp
          have hwf : runsEndAtLiteral (Piece.lit q :: pieces2) = true := by
            rw [runsEndAtLiteral]
            exact hw.2
          rw [matchPieces, htext, hsplit.1, hsplit.2]
          have hcond : ¬ (one && run.isEmpty) = true := by
            intro hc
            simp only [Bool.and_eq_true, List.isEmpty_iff] at hc
            exact hone hc.1 hc.2
          rw [if_neg hcond]
          have := ih r rest hwf hr
          rw [hr3, List.cons_append] at this
          exact this

theorem matchesSomewhere_iff (pattern : List Piece) (hw : runsEndAtLiteral pattern = true)
    (text : List Char) :
    MatchesSomewhere pattern text ↔
      ∃ before m after, text = before ++ m ++ after ∧ PiecesMatch pattern m := by
  constructor
  · rintro ⟨before, rest, ht, hs⟩
    obtain ⟨after, ha⟩ := Option.isSome_iff_exists.1 hs
    obtain ⟨m, hm, hpm⟩ := matchPieces_split pattern rest after ha
    exact ⟨before, m, after, by rw [ht, hm, List.append_assoc], hpm⟩
  · rintro ⟨before, m, after, ht, hpm⟩
    refine ⟨before, m ++ after, by rw [ht, List.append_assoc], ?_⟩
    rw [matchPieces_of_match pattern m after hw hpm]
    rfl

theorem removeMatches_sublist (pattern : List Piece) : ∀ (text : List Char) (skip : Nat),
    (removeMatches pattern skip text).Sublist text := by
  intro text
  induction text with
  | nil => intro skip; cases skip <;> exact List.Sublist.refl _
  | cons c text ih =>
    intro skip
    cases skip with
    | succ n =>
      rw [removeMatches]
      exact (ih n).cons c
    | zero =>
      rw [removeMatches]
      cases matchPieces pattern (c :: text) with
      | some rest => exact (ih _).cons c
      | none => exact (ih 0).cons₂ c

theorem removeMatches_of_no_match (pattern : List Piece) : ∀ text : List Char,
    ¬ MatchesSomewhere pattern text → removeMatches pattern 0 text = text := by
  intro text
  induction text with
  | nil => intro _; rfl
  | cons c text ih =>
    intro h
    rw [removeMatches]
    cases hm : matchPieces pattern (c :: text) with
    | some rest =>
      exfalso
      exact h ⟨[], c :: text, rfl, by rw [hm]; rfl⟩
    | none =>
      simp only
      rw [ih]
      rintro ⟨before, rest, ht, hs⟩
      exact h ⟨c :: before, rest, by rw [ht]; rfl, hs⟩

theorem removeMatches_shorter (pattern : List Piece) (hp : matchPieces pattern [] = none) :
    ∀ text : List Char, MatchesSomewhere pattern text →
      (removeMatches pattern 0 text).length < text.length := by
  intro text
  induction text with
  | nil =>
    rintro ⟨before, rest, ht, hs⟩
    obtain ⟨_, hr⟩ := List.append_eq_nil.1 ht.symm
    rw [hr, hp] at hs
    exact Bool.noConfusion hs
  | cons c text ih =>
    intro h
    rw [removeMatches]
    cases hm : matchPieces pattern (c :: text) with
    | some rest =>
      simp only
      have := (removeMatches_sublist pattern text (text.length - rest.length)).length_le
      simp only [List.length_cons]
      omega
    | none =>
      simp only [List.length_cons]
      obtain ⟨before, rest, ht, hs⟩ := h
      cases before with
      | nil =>
        rw [List.nil_append] at ht
        rw [← ht, hm] at hs
        exact Bool.noConfusion hs
      | cons b before =>
        have ht2 : text = before ++ rest := (List.cons.inj ht).2
        have := ih ⟨before, rest, ht2, hs⟩
        omega

theorem regexpRemoveAll_eq_self_iff (pattern : List Piece)
    (hp : matchPieces pattern [] = none) (s : String) :
    regexpRemoveAll pattern s = s ↔ ¬ MatchesSomewhere pattern s.data := by
  unfold regexpRemoveAll
  constructor
  · intro h hm
    have h2 := removeMatches_shorter pattern hp s.data hm
    have h3 := congrArg (fun t : String => t.data.length) h
    simp only at h3
    omega
  · intro h
    apply String.ext
    exact removeMatches_of_no_match pattern s.data h

theorem regexpRemoveAll_sublist (pattern : List Piece) (s : String) :
    (regexpRemoveAll pattern s).data.Sublist s.data :=
  removeMatches_sublist pattern s.data 0

theorem hasTransactionStatement_iff (s : String) :
    HasTransactionStatement s ↔ ∃ pattern ∈ statementPatterns, MatchesSomewhere pattern s.data := by
  have hw : ∀ pattern ∈ statementPatterns, runsEndAtLiteral pattern = true := by decide
  unfold HasTransactionStatement IsTransactionStatement
  constructor
  · rintro ⟨before, m, after, hs, pattern, hp, hm⟩
    exact ⟨pattern, hp, (matchesSomewhere_iff pattern (hw pattern hp) s.data).2
      ⟨before, m, after, hs, hm⟩⟩
  · rintro ⟨pattern, hp, hm⟩
    obtain ⟨before, m, after, hs, hpm⟩ :=
      (matchesSomewhere_iff pattern (hw pattern hp) s.data).1 hm
    exact ⟨before, m, after, hs, pattern, hp, hpm⟩

theorem regexpRemoveAll_eq_of_length (pattern : List Piece) (s : String)
    (h : s.data.length ≤ (regexpRemoveAll pattern s).data.length) :
    regexpRemoveAll pattern s = s := by
  apply String.ext
  exact (regexpRemoveAll_sublist pattern s).eq_of_length_le h

/-- Claim C29 fails as stated: a statement can survive where a deletion brings its
pieces together.  In `begin commit; ;` the first pass finds no `begin;`, the second
deletes `commit;`, and the result `begin  ;` is a `BEGIN;` statement; in `bebegin;gin;`
the deletion of the inner `begin;` leaves `begin;`. -/
theorem cleanTransaction_statement_survives :
    CleanTransaction "begin commit; ;" = "begin  ;" ∧
    HasTransactionStatement (CleanTransaction "begin commit; ;") ∧
    CleanTransaction "bebegin;gin;" = "begin;" ∧
    HasTransactionStatement (CleanTransaction "bebegin;gin;") := by
  have h1 : CleanTransaction "begin commit; ;" = "begin  ;" := by decide
  have h2 : CleanTransaction "bebegin;gin;" = "begin;" := by decide
  refine ⟨h1, ?_, h2, ?_⟩
  · rw [h1, hasTransactionStatement_iff]
    exact ⟨beginPattern, by decide, [], "begin  ;".data, rfl, by decide⟩
  · rw [h2, hasTransactionStatement_iff]
    exact ⟨beginPattern, by decide, [], "begin;".data, rfl, by decide⟩

theorem removeMatches_skip (pattern : List Piece) : ∀ (text : List Char) (skip : Nat),
    removeMatches pattern skip text = removeMatches pattern 0 (text.drop skip) := by
  intro text
  induction text with
  | nil => intro skip; cases skip <;> rfl
  | cons c text ih =>
    intro skip
    cases skip with
    | zero => rfl
    | succ n =>
      rw [removeMatches, List.drop_succ_cons]
      exact ih n

theorem piecesMatch_ne_nil (pattern : List Piece) (hp : matchPieces pattern [] = none)
    (hw : runsEndAtLiteral pattern = true) (m : List Char) (h : PiecesMatch pattern m) :
    m ≠ [] := by
  intro hm
  rw [hm] at h
  have := matchPieces_of_match pattern [] [] hw h
  rw [List.append_nil, hp] at this
  exact Option.noConfusion this

theorem removeMatches_at_match (pattern : List Piece) (hp : matchPieces pattern [] = none)
    (hw : runsEndAtLiteral pattern = true) (m rest : List Char) (h : PiecesMatch pattern m) :
    removeMatches pattern 0 (m ++ rest) = removeMatches pattern 0 rest := by
  have hne := piecesMatch_ne_nil pattern hp hw m h
  obtain ⟨c, m, rfl⟩ := List.exists_cons_of_ne_nil hne
  rw [List.cons_append, removeMatches, ← List.cons_append,
    matchPieces_of_match pattern (c :: m) rest hw h]
  simp only
  rw [removeMatches_skip]
  congr 1
  rw [List.length_append, Nat.add_sub_cancel, List.drop_left]

theorem removeMatches_at_no_match (pattern : List Piece) (c : Char) (text : List Char)
    (h : ∀ m rest, c :: text = m ++ rest → ¬ PiecesMatch pattern m) :
    removeMatches pattern 0 (c :: text) = c :: removeMatches pattern 0 text := by
  rw [removeMatches]
  cases hm : matchPieces pattern (c :: text) with
  | some rest =>
    exfalso
    obtain ⟨m, hsplit, hpm⟩ := matchPieces_split pattern (c :: text) rest hm
    exact h m rest hsplit hpm
  | none => rfl

theorem deletesMatches_unique (pattern : List Piece) (hp : matchPieces pattern [] = none)
    (hw : runsEndAtLiteral pattern = true) (text out : List Char)
    (h : DeletesMatches pattern text out) : out = removeMatches pattern 0 text := by
  induction h with
  | done => rfl
  | keep c text out hno _ ih => rw [removeMatches_at_no_match pattern c text hno, ih]
  | delete m rest out _ hpm _ ih => rw [removeMatches_at_match pattern hp hw m rest hpm, ih]

theorem deletesMatches_removeMatches (pattern : List Piece)
    (hp : matchPieces pattern [] = none) (hw : runsEndAtLiteral pattern = true) :
    ∀ (n : Nat) (text : List Char), text.length ≤ n →
      DeletesMatches pattern text (removeMatches pattern 0 text) := by
  intro n
  induction n with
  | zero =>
    intro text h
    rw [List.length_eq_zero.1 (Nat.le_zero.1 h)]
    exact DeletesMatches.done
  | succ n ih =>
    intro text h
    cases text with
    | nil => exact DeletesMatches.done
    | cons c text =>
      cases hm : matchPieces pattern (c :: text) with
      | some rest =>
        obtain ⟨m, hsplit, hpm⟩ := matchPieces_split pattern (c :: text) rest hm
        have hne := piecesMatch_ne_nil pattern hp hw m hpm
        rw [hsplit, removeMatches_at_match pattern hp hw m rest hpm]
        refine DeletesMatches.delete m rest _ hne hpm (ih rest ?_)
        have hl := congrArg List.length hsplit
        have hm0 : 0 < m.length := List.length_pos.2 hne
        simp only [List.length_cons, List.length_append] at hl h
        omega
      | none =>
        have hno : ∀ m rest, c :: text = m ++ rest → ¬ PiecesMatch pattern m := by
          intro m rest hsplit hpm
          have := matchPieces_of_match pattern m rest hw hpm
          rw [← hsplit, hm] at this
          exact Option.noConfusion this
        rw [removeMatches_at_no_match pattern c text hno]
        refine DeletesMatches.keep c text _ hno (ih text ?_)
        simp only [List.length_cons] at h
        omega

theorem deletesMatches_gaps (pattern : List Piece) (hp : matchPieces pattern [] = none)
    (hw : runsEndAtLiteral pattern = true) (text out : List Char)
    (h : DeletesMatches pattern text out) :
    ∃ gaps deleted : List (List Char),
      gaps.length = deleted.length + 1 ∧ text = interleave gaps deleted ∧
      out = gaps.flatten ∧ (∀ m ∈ deleted, PiecesMatch pattern m) ∧
      (∀ g ∈ gaps, ¬ HoldsMatch pattern g) := by
  induction h with
  | done =>
    refine ⟨[[]], [], rfl, rfl, rfl, fun _ hm => absurd hm (List.not_mem_nil _), ?_⟩
    intro g hg
    rw [List.mem_singleton.1 hg]
    rintro ⟨before, m, after, hsplit, hpm⟩
    have hm : m = [] := by
      have := congrArg List.length hsplit
      simp only [List.length_nil, List.length_append] at this
      exact List.length_eq_zero.1 (by omega)
    exact piecesMatch_ne_nil pattern hp hw m hpm hm
  | keep c text out hno _ ih =>
    obtain ⟨gaps, deleted, hlen, htext, hout, hms, hgs⟩ := ih
    cases gaps with
    | nil => simp at hlen
    | cons g gaps =>
      refine ⟨(c :: g) :: gaps, deleted, by simpa using hlen, ?_, ?_, hms, ?_⟩
      · rw [htext]
        cases deleted <;> rfl
      · rw [hout]
        rfl
      · intro x hx
        rcases List.mem_cons.1 hx with rfl | hx
        · rintro ⟨before, m, after, hsplit, hpm⟩
          cases before with
          | nil =>
            have htail : ∃ tail, text = g ++ tail := by
              rw [htext]
              cases deleted with
              | nil => exact ⟨[], by simp [interleave]⟩
              | cons m0 ms => exact ⟨m0 ++ interleave gaps ms, by simp [interleave]⟩
            obtain ⟨tail, htail⟩ := htail
            refine hno m (after ++ tail) ?_ hpm
            rw [htail, ← List.cons_append, hsplit]
            simp
          | cons b before =>
            rw [List.cons_append, List.cons_append] at hsplit
            exact hgs g (List.mem_cons_self _ _)
              ⟨before, m, after, (List.cons.inj hsplit).2, hpm⟩
        · exact hgs x (List.mem_cons_of_mem _ hx)
  | delete m rest out hne hpm _ ih =>
    obtain ⟨gaps, deleted, hlen, htext, hout, hms, hgs⟩ := ih
    refine ⟨[] :: gaps, m :: deleted, by simpa using hlen, ?_, ?_, ?_, ?_⟩
    · rw [htext]
      cases gaps with
      | nil => simp at hlen
      | cons g gaps => simp [interleave]
    · rw [hout]
      rfl
    · intro x hx
      rcases List.mem_cons.1 hx with rfl | hx
      · exact hpm
      · exact hms x hx
    · intro x hx
      rcases List.mem_cons.1 hx with rfl | hx
      · rintro ⟨before, m2, after, hsplit, hpm2⟩
        have hm : m2 = [] := by
          have := congrArg List.length hsplit
          simp only [List.length_nil, List.length_append] at this
          exact List.length_eq_zero.1 (by omega)
        exact piecesMatch_ne_nil pattern hp hw m2 hpm2 hm
      · exact hgs x hx

/-- Claim C29, amended.  `CleanTransaction` runs four passes, one after the other, for
the patterns `begin\s*;`, `commit\s*;`, `begin\s+transaction\s*;` and
`commit\s+transaction\s*;` (in any letter case).  Each pass scans its input once from
the left: where a match of its pattern starts, the match is left out and the scan goes
on behind it, and a character at which no match starts is kept; this fixes the output
of a pass.  The input of a pass is so cut into kept stretches with the deleted matches
in between, the output is the kept stretches joined, and no kept stretch holds a match
of the pattern of the pass, so that a match found in the output of a pass lies across a
place where the pass has deleted something.  The result is the input with characters
left out, and it equals the input if and only if the input holds no `BEGIN;`,
`COMMIT;`, `BEGIN TRANSACTION;` or `COMMIT TRANSACTION;` statement. -/
theorem cleanTransaction_fixpoint (s : String) :
    (∃ s1 s2 s3 : List Char,
      DeletesMatches beginPattern s.data s1 ∧ DeletesMatches commitPattern s1 s2 ∧
      DeletesMatches beginTransactionPattern s2 s3 ∧
      DeletesMatches commitTransactionPattern s3 (CleanTransaction s).data) ∧
    (∀ pattern ∈ statementPatterns, ∀ text out other : List Char,
      DeletesMatches pattern text out → DeletesMatches pattern text other → out = other) ∧
    (∀ pattern ∈ statementPatterns, ∀ text out : List Char,
      DeletesMatches pattern text out →
      ∃ gaps deleted : List (List Char),
        gaps.length = deleted.length + 1 ∧ text = interleave gaps deleted ∧
        out = gaps.flatten ∧ (∀ m ∈ deleted, PiecesMatch pattern m) ∧
        (∀ g ∈ gaps, ¬ HoldsMatch pattern g)) ∧
    (CleanTransaction s).data.Sublist s.data ∧
    (CleanTransaction s = s ↔ ¬ HasTransactionStatement s) := by
  have hp : ∀ pattern ∈ statementPatterns, matchPieces pattern [] = none := by decide
  have hw : ∀ pattern ∈ statementPatterns, runsEndAtLiteral pattern = true := by decide
  have hp1 := hp beginPattern (by decide)
  have hp2 := hp commitPattern (by decide)
  have hp3 := hp beginTransactionPattern (by decide)
  have hp4 := hp commitTransactionPattern (by decide)
  have hs1 := regexpRemoveAll_sublist beginPattern s
  have hs2 := regexpRemoveAll_sublist commitPattern (regexpRemoveAll beginPattern s)
  have hs3 := regexpRemoveAll_sublist beginTransactionPattern
    (regexpRemoveAll commitPattern (regexpRemoveAll beginPattern s))
  have hs4 := regexpRemoveAll_sublist commitTransactionPattern
    (regexpRemoveAll beginTransactionPattern
      (regexpRemoveAll commitPattern (regexpRemoveAll beginPattern s)))
  have hsub : (CleanTransaction s).data.Sublist s.data :=
    ((hs4.trans hs3).trans hs2).trans hs1
  refine ⟨⟨_, _, _,
      deletesMatches_removeMatches beginPattern hp1 (hw _ (by decide)) _ s.data (le_refl _),
      deletesMatches_removeMatches commitPattern hp2 (hw _ (by decide)) _ _ (le_refl _),
      deletesMatches_removeMatches beginTransactionPattern hp3 (hw _ (by decide)) _ _
        (le_refl _),
      deletesMatches_removeMatches commitTransactionPattern hp4 (hw _ (by decide)) _ _
        (le_refl _)⟩,
    ?_, ?_, hsub, ?_⟩
  · intro pattern hmem text out other h1 h2
    rw [deletesMatches_unique pattern (hp _ hmem) (hw _ hmem) text out h1,
      deletesMatches_unique pattern (hp _ hmem) (hw _ hmem) text other h2]
  · intro pattern hmem text out h
    exact deletesMatches_gaps pattern (hp _ hmem) (hw _ hmem) text out h
  rw [hasTransactionStatement_iff]
  constructor
  · intro h
    have hlen : (CleanTransaction s).data.length = s.data.length := by rw [h]
    have hl1 := hs1.length_le
    have hl2 := hs2.length_le
    have hl3 := hs3.length_le
    have hl4 := hs4.length_le
    have hct : (CleanTransaction s).data.length =
        (regexpRemoveAll commitTransactionPattern (regexpRemoveAll beginTransactionPattern
          (regexpRemoveAll commitPattern (regexpRemoveAll beginPattern s)))).data.length := rfl
    have e1 := regexpRemoveAll_eq_of_length beginPattern s (by omega)
    rw [e1] at hl2 hl3 hl4 hct
    have e2 := regexpRemoveAll_eq_of_length commitPattern s (by omega)
    rw [e2] at hl3 hl4 hct
    have e3 := regexpRemoveAll_eq_of_length beginTransactionPattern s (by omega)
    rw [e3] at hl4 hct
    have e4 := regexpRemoveAll_eq_of_length commitTransactionPattern s (by omega)
    rintro ⟨pattern, hmem, hm⟩
    simp only [statementPatterns, List.mem_cons, List.mem_singleton, List.not_mem_nil,
      or_false] at hmem
    rcases hmem with rfl | rfl | rfl | rfl
    · exact (regexpRemoveAll_eq_self_iff _ hp1 s).1 e1 hm
    · exact (regexpRemoveAll_eq_self_iff _ hp2 s).1 e2 hm
    · exact (regexpRemoveAll_eq_self_iff _ hp3 s).1 e3 hm
    · exact (regexpRemoveAll_eq_self_iff _ hp4 s).1 e4 hm
  · intro h
    have e1 := (regexpRemoveAll_eq_self_iff _ hp1 s).2
      (fun hm => h ⟨beginPattern, by decide, hm⟩)
    have e2 := (regexpRemoveAll_eq_self_iff _ hp2 s).2
      (fun hm => h ⟨commitPattern, by decide, hm⟩)
    have e3 := (regexpRemoveAll_eq_self_iff _ hp3 s).2
      (fun hm => h ⟨beginTransactionPattern, by decide, hm⟩)
    have e4 := (regexpRemoveAll_eq_self_iff _ hp4 s).2
      (fun hm => h ⟨commitTransactionPattern, by decide, hm⟩)
    unfold CleanTransaction
    simp only [e1, e2, e3, e4]

theorem cleanTransaction_fixpoint_witness :
    DeletesMatches beginPattern "begin;x".data "x".data ∧
    ∃ gaps deleted : List (List Char),
      gaps.length = deleted.length + 1 ∧ "begin;x".data = interleave gaps deleted ∧
      "x".data = gaps.flatten ∧ (∀ m ∈ deleted, PiecesMatch beginPattern m) ∧
      (∀ g ∈ gaps, ¬ HoldsMatch beginPattern g) :=
  have h : DeletesMatches beginPattern "begin;x".data "x".data :=
    deletesMatches_removeMatches beginPattern (by decide) (by decide) _ "begin;x".data
      (le_refl _)
  ⟨h, (cleanTransaction_fixpoint "").2.2.1 beginPattern (by decide) _ _ h⟩

/-! ## The preorder of versions, once more -/

/-- Claim C40.  `CompareVersion` induces a total preorder on all strings: for all `a`,
`b`, `c`, `CompareVersion a b = -CompareVersion b a`, `CompareVersion a a = 0`, and
`CompareVersion a b ≤ 0` together with `CompareVersion b c ≤ 0` gives
`CompareVersion a c ≤ 0` (so any two strings are comparable one way or the other); the
copy of the migration runner returns on every pair what the copy of `pkg/utils`
returns. -/
theorem compareVersion_total_preorder (a b c : String) :
    utils.CompareVersion a b = -utils.CompareVersion b a ∧
    utils.CompareVersion a a = 0 ∧
    (utils.CompareVersion a b ≤ 0 → utils.CompareVersion b c ≤ 0 →
      utils.CompareVersion a c ≤ 0) ∧
    (utils.CompareVersion a b ≤ 0 ∨ utils.CompareVersion b a ≤ 0) ∧
    Local.CompareVersion a b = utils.CompareVersion a b := by
  refine ⟨compareVersion_swap b a, compareVersion_self a, compareVersion_trans a b c, ?_, rfl⟩
  have h := compareVersion_swap a b
  omega

theorem compareVersion_total_preorder_witness :
    utils.CompareVersion "v1.2" "1.10" ≤ 0 ∧ utils.CompareVersion "1.10" "V2" ≤ 0 ∧
      utils.CompareVersion "v1.2" "V2" ≤ 0 :=
  ⟨by decide, by decide,
    (compareVersion_total_preorder "v1.2" "1.10" "V2").2.2.1 (by decide) (by decide)⟩

/-! ## Column and index changes that PostgreSQL does not render -/

/-- Claim C31 fails where the source column has lost its default.  For the
table `users` whose column `age` has the default `0` in the target and none in the
source, `equalColumn` is false and `CompareSchemas` reports the column in
`ColumnsModified`, yet the PostgreSQL `GenerateAlterColumnSql` returns the empty string
and `GenerateSchemaSQL` for `postgres` is the one-element list with the empty statement,
while for `mysql` it is the one-element list with a MODIFY COLUMN statement. -/
theorem postgres_alterColumn_dropped_default_empty :
    equalColumn (some ageColumn) (some ageColumnWithDefault) = false ∧
      (CompareSchemas (usersSchema usersAge) (usersSchema usersAgeWithDefault)).TablesModified.map
          (fun d => d.ColumnsModified) =
        [[{ Old := ageColumnWithDefault, New := ageColumn }]] ∧
      postgreDialect.GenerateAlterColumnSql usersAgeWithDefault ageColumnWithDefault ageColumn
        = "" ∧
      GenerateSchemaSQL (CompareSchemas (usersSchema usersAge) (usersSchema usersAgeWithDefault))
        DBTypePostgres = some [""] ∧
      GenerateSchemaSQL (CompareSchemas (usersSchema usersAge) (usersSchema usersAgeWithDefault))
        DBTypeMySQL = some ["ALTER TABLE `users` MODIFY COLUMN `age` int NOT NULL;"] := by
  refine ⟨by decide, by decide, by decide, by decide, by decide⟩

/-- Claim C38 fails for a dropped and for a modified primary-flagged index.
When the target table `users` has the index `users_pkey` flagged primary and the source
has no index, `GenerateSchemaSQL` for `postgres` is the one statement
`DROP INDEX "users_pkey";`, and when the source has the same index on other columns it
is that DROP INDEX statement followed by the empty statement; only for an added
primary-flagged index nothing but the empty statement is emitted. -/
theorem postgres_dropIndex_primary_emitted :
    GenerateSchemaSQL
        (CompareSchemas (usersSchema usersPlain) (usersSchema (usersIndexed usersPkeyIndex)))
        DBTypePostgres = some ["DROP INDEX \"users_pkey\";"] ∧
      GenerateSchemaSQL
        (CompareSchemas (usersSchema (usersIndexed usersPkeyIndexWide))
          (usersSchema (usersIndexed usersPkeyIndex)))
        DBTypePostgres = some ["DROP INDEX \"users_pkey\";", ""] ∧
      GenerateSchemaSQL
        (CompareSchemas (usersSchema (usersIndexed usersPkeyIndex)) (usersSchema usersPlain))
        DBTypePostgres = some [""] := by
  refine ⟨by decide, by decide, by decide⟩

/-! ## The less relation of `SortMigrations` -/

theorem migrationLess_irrefl (a : MigrationFile) : Local.migrationLess a a = false := by
  unfold Local.migrationLess
  simp only [beq_self_eq_true, if_true]
  by_cases h : a.Direction = "down"
  · simp [h]
  · simp [h]

theorem compareVersion_lt_trans (a b c : String)
    (h1 : utils.CompareVersion a b ≤ 0) (h2 : utils.CompareVersion b c ≤ 0)
    (h : utils.CompareVersion a b < 0 ∨ utils.CompareVersion b c < 0) :
    utils.CompareVersion a c < 0 := by
  have hac := compareVersion_trans a b c h1 h2
  by_contra hn
  have h0 : utils.CompareVersion a c = 0 := by omega
  have hca : utils.CompareVersion c a ≤ 0 := by
    rw [compareVersion_swap a c, h0]; decide
  have hcb := compareVersion_trans c a b hca h1
  have hba := compareVersion_trans b c a h2 hca
  rw [compareVersion_swap b c] at hcb
  rw [compareVersion_swap a b] at hba
  omega

theorem migrationLess_trans (a b c : MigrationFile)
    (hab : Local.migrationLess a b = true) (hbc : Local.migrationLess b c = true) :
    Local.migrationLess a c = true := by
  unfold Local.migrationLess at hab hbc ⊢
  rw [local_compareVersion_eq] at *
  by_cases e1 : a.Version = b.Version
  · by_cases e2 : b.Version = c.Version
    · simp [e1, e2] at hab hbc
      rw [hab.2] at hbc
      exact absurd hbc.1 (by decide)
    · have e2b : (b.Version == c.Version) = false := by simpa using e2
      have e3b : (a.Version == c.Version) = false := by rw [e1]; exact e2b
      rw [e2b] at hbc
      rw [e3b, e1]
      simpa using hbc
  · have e1b : (a.Version == b.Version) = false := by simpa using e1
    rw [e1b] at hab
    simp only [Bool.false_eq_true, if_false, decide_eq_true_eq] at hab
    by_cases e2 : b.Version = c.Version
    · have e3b : (a.Version == c.Version) = false := by rw [← e2]; exact e1b
      rw [e3b, ← e2]
      simpa using hab
    · have e2b : (b.Version == c.Version) = false := by simpa using e2
      rw [e2b] at hbc
      simp only [Bool.false_eq_true, if_false, decide_eq_true_eq] at hbc
      have hlt := compareVersion_lt_trans a.Version b.Version c.Version (le_of_lt hab)
        (le_of_lt hbc) (Or.inl hab)
      have e3 : a.Version ≠ c.Version := by
        intro e
        rw [e, compareVersion_self] at hlt
        exact absurd hlt (by decide)
      have e3b : (a.Version == c.Version) = false := by simpa using e3
      rw [e3b]
      simpa using hlt

/-- Claim C34 fails.  The less relation of `SortMigrations` is no strict weak ordering: of the
three files `v1` up, `V1` up and `v1` down the first two are unordered either way, and
so are the last two, yet `v1` down is less than `v1` up; accordingly `SortMigrations`
leaves `v1` up, `V1` up, `v1` down in this order and puts `v1` down before `v1` up when
the same files come as `v1` up, `v1` down, `V1` up. -/
theorem migrationLess_incomparable_not_transitive :
    Local.migrationLess (directedFile "v1" "up") (directedFile "V1" "up") = false ∧
      Local.migrationLess (directedFile "V1" "up") (directedFile "v1" "up") = false ∧
      Local.migrationLess (directedFile "V1" "up") (directedFile "v1" "down") = false ∧
      Local.migrationLess (directedFile "v1" "down") (directedFile "V1" "up") = false ∧
      Local.migrationLess (directedFile "v1" "down") (directedFile "v1" "up") = true ∧
      Local.SortMigrations
          [directedFile "v1" "up", directedFile "V1" "up", directedFile "v1" "down"] =
        [directedFile "v1" "up", directedFile "V1" "up", directedFile "v1" "down"] ∧
      Local.SortMigrations
          [directedFile "v1" "up", directedFile "v1" "down", directedFile "V1" "up"] =
        [directedFile "v1" "down", directedFile "v1" "up", directedFile "V1" "up"] := by
  refine ⟨by decide, by decide, by decide, by decide, by decide, by decide, by decide⟩

/-! ## The placeholders of the bookkeeping statements -/

theorem migrate_applyMigration_any_type (db : MigrateAdapter) (dbType : DBType)
    (f : MigrationFile) :
    migrate.applyMigration { db with dbType := dbType } f = migrate.applyMigration db f := rfl

theorem migrate_dryRunLoop_any_type (db : MigrateAdapter) (dbType : DBType) :
    ∀ (files : List MigrationFile) (calls : List ExecCall),
      migrate.dryRunLoop { db with dbType := dbType } files calls =
        migrate.dryRunLoop db files calls := by
  intro files
  induction files with
  | nil => intro calls; rfl
  | cons f rest ih =>
    intro calls
    simp only [migrate.dryRunLoop]
    cases db.exec ⟨CleanTransaction (f.GetContent db.readFile), []⟩ with
    | some err => rfl
    | none =>
      simp only
      cases db.exec ⟨"INSERT INTO schema_migrations (version, title) VALUES ($1, $2)",
          [.text f.Version, .text f.Title]⟩ with
      | some err => rfl
      | none => exact ih _

/-- Claim C36 fails for a MySQL target.  On an adapter of the type `mysql`,
`EnsureVersionTable` sends the MySQL table definition, yet `applyMigration` sends the
bookkeeping INSERT with the placeholders `$1, $2, $3` after an accepted script and with
`$1, $2, $3, $4` after a rejected one, and `DryRunMigrations` sends it with
`$1, $2`. -/
theorem migrate_insert_dollar_placeholders_mysql :
    (migrate.EnsureVersionTable mysqlAdapter).calls.map (fun c => c.query) =
        ["CREATE TABLE IF NOT EXISTS schema_migrations (\n"
          ++ "\t\t\tid INT AUTO_INCREMENT PRIMARY KEY,\n"
          ++ "\t\t\tversion VARCHAR(255) NOT NULL,\n"
          ++ "\t\t\ttitle VARCHAR(255),\n"
          ++ "\t\t\tapplied_at TIMESTAMP DEFAULT CURRENT_TIMESTAMP,\n"
          ++ "\t\t\texecution_time INT,\n"
          ++ "\t\t\tstatus VARCHAR(50) DEFAULT 'success'\n"
          ++ "\t\t)"] ∧
      migrate.applyMigration mysqlAdapter (scriptFile "v1" "select 1") =
        { calls := [⟨"select 1", []⟩,
            ⟨"INSERT INTO schema_migrations (version, title, execution_time) "
                ++ "VALUES ($1, $2, $3)",
              [.text "v1", .text "t", .int 5]⟩]
          err := none } ∧
      migrate.applyMigration mysqlAdapter (scriptFile "v2" "bad") =
        { calls := [⟨"bad", []⟩,
            ⟨"INSERT INTO schema_migrations (version, title, execution_time, status) "
                ++ "VALUES ($1, $2, $3, $4)",
              [.text "v2", .text "t", .int 5, .text "failed"]⟩]
          err := some "syntax error" } ∧
      migrate.DryRunMigrations mysqlAdapter [scriptFile "v1" "select 1"] =
        { calls := [⟨"select 1", []⟩,
            ⟨"INSERT INTO schema_migrations (version, title) VALUES ($1, $2)",
              [.text "v1", .text "t"]⟩]
          err := none } := by
  refine ⟨?_, by decide, by decide, ?_⟩
  · set_option maxRecDepth 100000 in decide
  · set_option maxRecDepth 100000 in decide

/-! ## Foreign keys in the generated SQL -/

theorem compareTable_some_base (s t : Table) (d : TableDiff) (hd : compareTable s t = some d)
    (hbase : d.Table.Type_ ≠ TableTypeView) :
    d.ColumnsAdded.length + d.ColumnsDropped.length + d.ColumnsModified.length
        + d.IndexesAdded.length + d.IndexesDropped.length + d.IndexesModified.length
        + d.ForeignKeysAdded.length + d.ForeignKeysDropped.length
        + d.ForeignKeysModified.length > 0 ∨ d.PrimaryKeyChange.isSome = true := by
  unfold compareTable at hd
  by_cases hty : s.Type_ = t.Type_
  · by_cases hv : s.Type_ = TableTypeView
    · exfalso
      have hne : (s.Type_ != t.Type_) = false := by simp [hty]
      have hvb : (s.Type_ == TableTypeView) = true := by simp [hv]
      rw [hne] at hd
      simp only [Bool.false_eq_true, if_false, hvb, if_true] at hd
      split at hd
      · split at hd
        · injection hd with hd
          apply hbase
          rw [← hd, ← hty, hv]
        · exact Option.noConfusion hd
      · exact Option.noConfusion hd
    · have hne : (s.Type_ != t.Type_) = false := by simp [hty]
      have hvb : (s.Type_ == TableTypeView) = false := by simp [hv]
      rw [hne, hvb] at hd
      simp only [Bool.false_eq_true, if_false] at hd
      rw [Option.ite_none_right_eq_some] at hd
      obtain ⟨hc, hd⟩ := hd
      rw [← Option.some.inj hd]
      simpa using hc
  · have hne : (s.Type_ != t.Type_) = true := by simp [hty]
    rw [hne] at hd
    simp at hd

theorem genAlterTable_nil (d : TableDiff) (dialect : IDialect)
    (hca : d.ColumnsAdded = []) (hcd : d.ColumnsDropped = []) (hcm : d.ColumnsModified = [])
    (hia : d.IndexesAdded = []) (hid : d.IndexesDropped = []) (him : d.IndexesModified = [])
    (hpk : d.PrimaryKeyChange = none) : genAlterTable d dialect = [] := by
  unfold genAlterTable
  simp [hca, hcd, hcm, hia, hid, him, hpk]

theorem flatten_map_filter_ne {α β : Type} [DecidableEq α] (p : α → Bool) (f : α → List β)
    (d : α) (h : p d = true → f d = []) :
    ∀ l : List α, (((l.filter fun e => decide (e ≠ d)).filter p).map f).flatten =
      ((l.filter p).map f).flatten := by
  intro l
  induction l with
  | nil => rfl
  | cons x l ih =>
    by_cases hx : x = d
    · subst hx
      rw [List.filter_cons_of_neg (by simp)]
      by_cases hp : p x = true
      · rw [List.filter_cons_of_pos hp, List.map_cons, List.flatten_cons, h hp, List.nil_append]
        exact ih
      · rw [List.filter_cons_of_neg hp]
        exact ih
    · rw [List.filter_cons_of_pos (by simpa using hx)]
      by_cases hp : p x = true
      · rw [List.filter_cons_of_pos hp, List.filter_cons_of_pos hp, List.map_cons,
          List.map_cons, List.flatten_cons, List.flatten_cons, ih]
      · rw [List.filter_cons_of_neg hp, List.filter_cons_of_neg hp]
        exact ih

/-- Claim C37.  Foreign-key differences are detected but never rendered.  When
`compareTable` answers for the tables of one name in source and target with a diff `d`
of a base table whose column lists, index lists and primary-key change are all empty,
then one of the three foreign-key lists of `d` is not empty and `CompareSchemas` reports
`d` in `TablesModified`, while for both dialects `genAlterTable` emits no statement for
`d` and `GenerateSchemaSQL` returns what it returns for the diff without `d`; and for
every diff and dialect the statements of `genAlterTable` stay the same when the three
foreign-key lists are replaced by any others. -/
theorem foreignKey_changes_not_rendered (src tgt : DatabaseSchema) (name : String)
    (s t : Table) (d : TableDiff) (dbType : DBType)
    (hdb : dbType = DBTypePostgres ∨ dbType = DBTypeMySQL)
    (hsrc : src.Tables.get? name = some s) (htgt : tgt.Tables.get? name = some t)
    (hd : compareTable s t = some d) (hbase : d.Table.Type_ ≠ TableTypeView)
    (hca : d.ColumnsAdded = []) (hcd : d.ColumnsDropped = []) (hcm : d.ColumnsModified = [])
    (hia : d.IndexesAdded = []) (hid : d.IndexesDropped = []) (him : d.IndexesModified = [])
    (hpk : d.PrimaryKeyChange = none) :
    (d.ForeignKeysAdded ≠ [] ∨ d.ForeignKeysDropped ≠ [] ∨ d.ForeignKeysModified ≠ []) ∧
      d ∈ (CompareSchemas src tgt).TablesModified ∧
      genAlterTable d NewPostgreDialect = [] ∧ genAlterTable d NewMySQLDialect = [] ∧
      GenerateSchemaSQL (CompareSchemas src tgt) dbType =
        GenerateSchemaSQL
          { CompareSchemas src tgt with
            TablesModified :=
              (CompareSchemas src tgt).TablesModified.filter fun e => decide (e ≠ d) }
          dbType ∧
      (GenerateSchemaSQL (CompareSchemas src tgt) dbType).isSome = true ∧
      ∀ (e : TableDiff) (dialect : IDialect) (added dropped : List ForeignKey)
        (modified : List ForeignKeyDiff),
        genAlterTable
            { e with
              ForeignKeysAdded := added, ForeignKeysDropped := dropped
              ForeignKeysModified := modified } dialect = genAlterTable e dialect := by
  have hnil : ∀ dialect, genAlterTable d dialect = [] := fun dialect =>
    genAlterTable_nil d dialect hca hcd hcm hia hid him hpk
  have hview : (d.Table.Type_ == TableTypeView) = false := by simpa using hbase
  have hwith : ∀ dialect : IDialect,
      generateSchemaSQLWith dialect (CompareSchemas src tgt) =
        generateSchemaSQLWith dialect
          { CompareSchemas src tgt with
            TablesModified :=
              (CompareSchemas src tgt).TablesModified.filter fun e => decide (e ≠ d) } := by
    intro dialect
    rw [generateSchemaSQLWith_eq, generateSchemaSQLWith_eq]
    unfold tableStatements viewStatements
    simp only
    rw [flatten_map_filter_ne (fun tdiff : TableDiff => !(tdiff.Table.Type_ == TableTypeView))
        (fun tdiff => genAlterTable tdiff dialect) d (fun _ => hnil dialect),
      flatten_map_filter_ne (fun tdiff : TableDiff => tdiff.Table.Type_ == TableTypeView)
        (fun tdiff => genAlterView tdiff dialect) d
        (fun h => by
          have h2 : (d.Table.Type_ == TableTypeView) = true := h
          rw [hview] at h2
          exact absurd h2 (by decide))]
  refine ⟨?_, ?_, hnil _, hnil _, ?_, ?_, fun _ _ _ _ _ => rfl⟩
  · rcases compareTable_some_base s t d hd hbase with h | h
    · rw [hca, hcd, hcm, hia, hid, him] at h
      simp only [List.length_nil, Nat.add_zero, Nat.zero_add] at h
      by_contra hn
      simp only [not_or, not_not] at hn
      rw [hn.1, hn.2.1, hn.2.2] at h
      simp at h
    · rw [hpk] at h
      exact absurd h (by decide)
  · rw [tablesModified_eq, List.mem_filterMap]
    refine ⟨name, (GoMap.contains_iff _ _).1 (by simp [GoMap.contains, hsrc]), ?_⟩
    simp only [tableDiffAt, hsrc, htgt]
    exact hd
  · rcases hdb with h | h
    · subst h
      show some _ = some _
      rw [hwith]
    · subst h
      show some _ = some _
      rw [hwith]
  · rcases hdb with h | h <;> subst h <;> rfl

theorem foreignKey_changes_not_rendered_witness :
    usersForeignKeyDiff ∈
        (CompareSchemas (usersSchema usersWithForeignKey) (usersSchema usersPlain)).TablesModified ∧
      GenerateSchemaSQL (CompareSchemas (usersSchema usersWithForeignKey) (usersSchema usersPlain))
        DBTypeMySQL = some [] :=
  have h := foreignKey_changes_not_rendered (usersSchema usersWithForeignKey)
    (usersSchema usersPlain) "users" usersWithForeignKey usersPlain usersForeignKeyDiff
    DBTypeMySQL (Or.inr rfl) (by decide) (by decide) (by decide) (by decide) rfl rfl rfl rfl rfl
    rfl rfl
  ⟨h.2.1, h.2.2.2.2.1.trans (by decide)⟩

/-! ## Batch sizes of the streamed diff -/

theorem mockBatch_zero (rows : List Record) (pk : List String) (lastPK : List Value) :
    mockBatch rows pk lastPK 0 = [] := by
  unfold mockBatch
  simp

/-- Claim C39.  With batch size 0, when both adapters answer the first fetch with an
empty batch, the first call of `NextBatch` closes each iterator, and with any fuel above
zero `StreamCompareData` returns without a handler call and without an error, so that
`StreamCompareDataToDiff` returns the empty diff; the rows the adapters hold play no
part. -/
theorem streamCompareData_batch_size_zero (srcDB tgtDB : DBAdapter) (rule : ICompareRule)
    (cols pks : List String) (fuel : Nat)
    (hcols : getTableColumns tgtDB rule.GetTable = .ok (cols, pks))
    (hsrc : srcDB.GetTableDataBatch rule.GetTable cols pks [] 0 = .ok [])
    (htgt : tgtDB.GetTableDataBatch rule.GetTable cols pks [] 0 = .ok [])
    (hfuel : 0 < fuel) :
    (newRowBatchIterator srcDB rule.GetTable cols pks 0).NextBatch.2.closed = true ∧
      (newRowBatchIterator tgtDB rule.GetTable cols pks 0).NextBatch.2.closed = true ∧
      StreamCompareData fuel srcDB tgtDB rule 0 = some { calls := [], err := none } ∧
      StreamCompareDataToDiff fuel srcDB tgtDB rule 0 =
        some (.ok { Added := [], Dropped := [], Modified := [] }) := by
  have hrun : StreamCompareData fuel srcDB tgtDB rule 0 = some { calls := [], err := none } := by
    obtain ⟨k, rfl⟩ := Nat.exists_eq_succ_of_ne_zero (Nat.pos_iff_ne_zero.1 hfuel)
    unfold StreamCompareData
    rw [hcols]
    simp [walkLoop, WalkSide.refill, rowBatchIterator.NextBatch, newRowBatchIterator, hsrc, htgt]
  refine ⟨?_, ?_, hrun, ?_⟩
  · simp [rowBatchIterator.NextBatch, newRowBatchIterator, hsrc]
  · simp [rowBatchIterator.NextBatch, newRowBatchIterator, htgt]
  · unfold StreamCompareDataToDiff
    rw [hrun]
    rfl

/-- Two tables that differ in every row, compared with batch size 0. -/
theorem streamCompareData_batch_size_zero_witness :
    StreamCompareData 1
        (listDB [some (testRow 1 "a"), some (testRow 3 "c")] testTable)
        (listDB [some (testRow 2 "b")] testTable) (AllFieldsEqualRule "t" ["val"]) 0 =
      some { calls := [], err := none } ∧
    StreamCompareDataToDiff 1
        (listDB [some (testRow 1 "a"), some (testRow 3 "c")] testTable)
        (listDB [some (testRow 2 "b")] testTable) (AllFieldsEqualRule "t" ["val"]) 0 =
      some (.ok { Added := [], Dropped := [], Modified := [] }) :=
  (streamCompareData_batch_size_zero
    (listDB [some (testRow 1 "a"), some (testRow 3 "c")] testTable)
    (listDB [some (testRow 2 "b")] testTable) (AllFieldsEqualRule "t" ["val"])
    ["id", "val"] ["id"] 1 rfl rfl rfl (by decide)).2.2

theorem mergeCalls_length (pk : List String) (rule : ICompareRule) :
    ∀ (src tgt : List RecordMap),
      (mergeCalls pk rule src tgt).length ≤ src.length + tgt.length := by
  intro src tgt
  induction src, tgt using mergeCalls.induct pk rule with
  | case1 => simp [mergeCalls]
  | case2 s ss ih =>
    rw [mergeCalls]
    simp only [List.length_cons, List.length_nil] at ih ⊢
    omega
  | case3 t ts ih =>
    rw [mergeCalls]
    simp only [List.length_cons, List.length_nil] at ih ⊢
    omega
  | case4 s ss t ts h ih =>
    rw [mergeCalls, if_pos h]
    simp only [List.length_cons] at ih ⊢
    omega
  | case5 s ss t ts h1 h2 ih =>
    rw [mergeCalls, if_neg h1, if_pos h2]
    simp only [List.length_cons] at ih ⊢
    omega
  | case6 s ss t ts h1 h2 h3 ih =>
    rw [mergeCalls, if_neg h1, if_neg h2, if_pos h3]
    simp only [List.length_cons] at ih ⊢
    omega
  | case7 s ss t ts h1 h2 h3 ih =>
    rw [mergeCalls, if_neg h1, if_neg h2, if_neg h3]
    simp only [List.length_cons] at ih ⊢
    omega

theorem mergeCalls_rows_sublist (pk : List String) (rule : ICompareRule) :
    ∀ (src tgt : List RecordMap),
      ((mergeCalls pk rule src tgt).filterMap fun c => c.srcRow).Sublist src ∧
        ((mergeCalls pk rule src tgt).filterMap fun c => c.tgtRow).Sublist tgt := by
  intro src tgt
  induction src, tgt using mergeCalls.induct pk rule with
  | case1 => simp [mergeCalls]
  | case2 s ss ih =>
    rw [mergeCalls]
    simp only [List.filterMap_cons]
    exact ⟨ih.1.cons₂ s, ih.2⟩
  | case3 t ts ih =>
    rw [mergeCalls]
    simp only [List.filterMap_cons]
    exact ⟨ih.1, ih.2.cons₂ t⟩
  | case4 s ss t ts h ih =>
    rw [mergeCalls, if_pos h]
    simp only [List.filterMap_cons]
    exact ⟨ih.1.cons₂ s, ih.2⟩
  | case5 s ss t ts h1 h2 ih =>
    rw [mergeCalls, if_neg h1, if_pos h2]
    simp only [List.filterMap_cons]
    exact ⟨ih.1, ih.2.cons₂ t⟩
  | case6 s ss t ts h1 h2 h3 ih =>
    rw [mergeCalls, if_neg h1, if_neg h2, if_pos h3]
    simp only [List.filterMap_cons]
    exact ⟨ih.1.cons₂ s, ih.2.cons₂ t⟩
  | case7 s ss t ts h1 h2 h3 ih =>
    rw [mergeCalls, if_neg h1, if_neg h2, if_neg h3]
    exact ⟨ih.1.cons s, ih.2.cons t⟩

/-- Claim C33.  The streamed diff does not depend on the batch size.  When the source
adapter streams the rows `src` and the target adapter the rows `tgt` in consecutive
batches both at the batch size `m` and at the batch size `n`, then with fuel above
`|src| + |tgt|` the runs of `StreamCompareData` at `m` and at `n` both return without
error the handler calls of the plain two-pointer merge of `src` and `tgt`; these are at
most `|src| + |tgt|` calls, and the source rows and the target rows they carry are each
a sublist of `src` and of `tgt`, so no row is handed over twice. -/
theorem streamCompareData_batch_size_independent (srcDB tgtDB : DBAdapter)
    (rule : ICompareRule) (m n : Nat) (cols pks : List String) (src tgt : List RecordMap)
    (fuel : Nat)
    (hcols : getTableColumns tgtDB rule.GetTable = .ok (cols, pks))
    (hsrcm : Streams srcDB rule.GetTable cols pks m [] (src.map some))
    (htgtm : Streams tgtDB rule.GetTable cols pks m [] (tgt.map some))
    (hsrcn : Streams srcDB rule.GetTable cols pks n [] (src.map some))
    (htgtn : Streams tgtDB rule.GetTable cols pks n [] (tgt.map some))
    (hfuel : src.length + tgt.length < fuel) :
    StreamCompareData fuel srcDB tgtDB rule m =
        some { calls := mergeCalls pks rule src tgt, err := none } ∧
      StreamCompareData fuel srcDB tgtDB rule n =
        some { calls := mergeCalls pks rule src tgt, err := none } ∧
      (mergeCalls pks rule src tgt).length ≤ src.length + tgt.length ∧
      ((mergeCalls pks rule src tgt).filterMap fun c => c.srcRow).Sublist src ∧
      ((mergeCalls pks rule src tgt).filterMap fun c => c.tgtRow).Sublist tgt :=
  ⟨streamCompareData_eq_merge srcDB tgtDB rule m cols pks src tgt hcols hsrcm htgtm fuel hfuel,
    streamCompareData_eq_merge srcDB tgtDB rule n cols pks src tgt hcols hsrcn htgtn fuel hfuel,
    mergeCalls_length pks rule src tgt, mergeCalls_rows_sublist pks rule src tgt⟩

/-- Three rows on each side, streamed in batches of 2 and in batches of 1. -/
theorem streamCompareData_batch_size_independent_witness :
    StreamCompareData 7
        (listDB [some (testRow 1 "a"), some (testRow 3 "c"), some (testRow 5 "e")] testTable)
        (listDB [some (testRow 2 "b"), some (testRow 3 "C"), some (testRow 4 "d")] testTable)
        (AllFieldsEqualRule "t" ["val"]) 2 =
      StreamCompareData 7
        (listDB [some (testRow 1 "a"), some (testRow 3 "c"), some (testRow 5 "e")] testTable)
        (listDB [some (testRow 2 "b"), some (testRow 3 "C"), some (testRow 4 "d")] testTable)
        (AllFieldsEqualRule "t" ["val"]) 1 :=
  have h := streamCompareData_batch_size_independent
    (listDB [some (testRow 1 "a"), some (testRow 3 "c"), some (testRow 5 "e")] testTable)
    (listDB [some (testRow 2 "b"), some (testRow 3 "C"), some (testRow 4 "d")] testTable)
    (AllFieldsEqualRule "t" ["val"]) 2 1 ["id", "val"] ["id"]
    [testRow 1 "a", testRow 3 "c", testRow 5 "e"]
    [testRow 2 "b", testRow 3 "C", testRow 4 "d"] 7
    rfl
    (Streams.batch [] (some (testRow 1 "a")) [some (testRow 3 "c")] [some (testRow 5 "e")]
      (by decide) rfl
      (Streams.batch _ (some (testRow 5 "e")) [] [] (by decide) rfl (Streams.done _ rfl)))
    (Streams.batch [] (some (testRow 2 "b")) [some (testRow 3 "C")] [some (testRow 4 "d")]
      (by decide) rfl
      (Streams.batch _ (some (testRow 4 "d")) [] [] (by decide) rfl (Streams.done _ rfl)))
    (Streams.batch [] (some (testRow 1 "a")) [] [some (testRow 3 "c"), some (testRow 5 "e")]
      (by decide) rfl
      (Streams.batch _ (some (testRow 3 "c")) [] [some (testRow 5 "e")] (by decide) rfl
        (Streams.batch _ (some (testRow 5 "e")) [] [] (by decide) rfl (Streams.done _ rfl))))
    (Streams.batch [] (some (testRow 2 "b")) [] [some (testRow 3 "C"), some (testRow 4 "d")]
      (by decide) rfl
      (Streams.batch _ (some (testRow 3 "C")) [] [some (testRow 4 "d")] (by decide) rfl
        (Streams.batch _ (some (testRow 4 "d")) [] [] (by decide) rfl (Streams.done _ rfl))))
    (by decide)
  h.1.trans h.2.1.symm

/-! ## Pending files and resumed runs -/

theorem runMigrations_eq_pendingBetween (env : RunEnv) (dryRun : Bool)
    (targetVersion current : String)
    (hwalk : ∀ e ∈ env.walk, e.err = none) (hensure : env.ensureErr = none)
    (hcur : env.current = .ok current) :
    ∃ files : List MigrationFile,
      Local.ScanMigrations env.walk = .ok files ∧
      (∀ f ∈ files, f.Version ≠ "") ∧
      runMigrations env dryRun targetVersion =
        if effectiveTarget (Local.SortMigrations files) targetVersion ≠ "" ∧
            utils.CompareVersion current
              (effectiveTarget (Local.SortMigrations files) targetVersion) ≥ 0 then
          .upToDate
        else
          .handed dryRun (pendingBetween (Local.SortMigrations files) current
            (effectiveTarget (Local.SortMigrations files) targetVersion)) := by
  have hscan : Local.ScanMigrations env.walk = .ok ((env.walk.filter fun e => !e.isDir).filterMap
      fun e => (Local.ParseMigrationFile e.path).toOption) := by
    have := scanWalk_eq env.walk [] hwalk
    simpa [Local.ScanMigrations] using this
  generalize hfiles : ((env.walk.filter fun e => !e.isDir).filterMap
      fun e => (Local.ParseMigrationFile e.path).toOption) = files at hscan
  have hne := scanned_version_ne_empty env.walk files hwalk hscan
  have hperm : (Local.SortMigrations files).Perm files := sortMigrations_perm files
  refine ⟨files, hscan, hne, ?_⟩
  have hrun : runMigrations env dryRun targetVersion =
      if (effectiveTarget (Local.SortMigrations files) targetVersion != ""
          && decide (Local.CompareVersion current
            (effectiveTarget (Local.SortMigrations files) targetVersion) ≥ 0)) = true then
        .upToDate
      else
        .handed dryRun ((Local.SortMigrations files).filter fun f =>
          decide (Local.CompareVersion f.Version current > 0) &&
            (decide (effectiveTarget (Local.SortMigrations files) targetVersion = "") ||
              decide (Local.CompareVersion f.Version
                (effectiveTarget (Local.SortMigrations files) targetVersion) ≤ 0))) := by
    unfold runMigrations
    simp only [hscan, hensure, hcur, effectiveTarget_eq, pendingLoop_eq]
  generalize Local.SortMigrations files = sorted at hrun hperm ⊢
  have hempty : effectiveTarget sorted targetVersion = "" → sorted = [] := by
    intro h
    unfold effectiveTarget at h
    by_cases ht : targetVersion = ""
    · rw [if_pos ht] at h
      cases hl : sorted.getLast? with
      | none => exact List.getLast?_eq_none_iff.1 hl
      | some last =>
        rw [hl] at h
        exact absurd h (hne last (hperm.subset (List.mem_of_getLast?_eq_some hl)))
    · rw [if_neg ht] at h
      exact absurd h ht
  rw [hrun]
  by_cases hc : effectiveTarget sorted targetVersion ≠ "" ∧
      utils.CompareVersion current (effectiveTarget sorted targetVersion) ≥ 0
  · rw [if_pos hc, if_pos]
    rw [local_compareVersion_eq]
    simp [hc.1, hc.2]
  · rw [if_neg hc, if_neg]
    · congr 1
      unfold pendingBetween
      by_cases ht : effectiveTarget sorted targetVersion = ""
      · rw [hempty ht]
        rfl
      · simp [ht]
    · rw [local_compareVersion_eq]
      simpa using hc

theorem compareVersion_eq_zero_left (a b c : String) (h : utils.CompareVersion a b = 0) :
    utils.CompareVersion a c = utils.CompareVersion b c := by
  have hab : utils.CompareVersion a b ≤ 0 := by omega
  have hba : utils.CompareVersion b a ≤ 0 := by rw [compareVersion_swap a b]; omega
  have h1 : utils.CompareVersion b c ≤ 0 → utils.CompareVersion a c ≤ 0 :=
    compareVersion_trans a b c hab
  have h2 : utils.CompareVersion a c ≤ 0 → utils.CompareVersion b c ≤ 0 :=
    compareVersion_trans b a c hba
  have h3 : utils.CompareVersion c a ≤ 0 → utils.CompareVersion c b ≤ 0 :=
    fun h => compareVersion_trans c a b h hab
  have h4 : utils.CompareVersion c b ≤ 0 → utils.CompareVersion c a ≤ 0 :=
    fun h => compareVersion_trans c b a h hba
  rw [compareVersion_swap a c, compareVersion_swap b c] at h3 h4
  have ra := compareVersion_range a c
  have rb := compareVersion_range b c
  omega

theorem compareVersion_eq_zero_right (a b c : String) (h : utils.CompareVersion a b = 0) :
    utils.CompareVersion c a = utils.CompareVersion c b := by
  rw [compareVersion_swap a c, compareVersion_swap b c, compareVersion_eq_zero_left a b c h]

theorem pendingBetween_nil_of_upToDate (sorted : List MigrationFile) (current target : String)
    (h : utils.CompareVersion current target ≥ 0) : pendingBetween sorted current target = [] := by
  unfold pendingBetween
  rw [List.filter_eq_nil_iff]
  intro f _ hc
  simp only [Bool.and_eq_true, decide_eq_true_eq] at hc
  rw [local_compareVersion_eq] at hc
  have h3 : utils.CompareVersion target current ≤ 0 := by
    rw [compareVersion_swap current target]
    omega
  have h4 := compareVersion_trans _ _ _ hc.2 h3
  omega

/-- Claim C35 fails as stated: a down script can run after its up sibling.  With the
scripts `a/v1__a.up.sql`, `b/V1__b.sql` and `c/v1__a.down.sql` in three sub-directories of
the migration directory, walked in lexical order, and nothing applied yet, all three are
pending, and the down script of `v1` is handed over and executed after its up
sibling. -/
theorem runMigrations_down_after_up_sibling :
    runMigrations { walk := siblingsWalk, ensureErr := none, current := .ok "" } false "" =
        .handed false
          [⟨"v1", "a", "up", "sql", "m/a/v1__a.up.sql", ""⟩,
            ⟨"V1", "b", "", "sql", "m/b/V1__b.sql", ""⟩,
            ⟨"v1", "a", "down", "sql", "m/c/v1__a.down.sql", ""⟩] ∧
      (ApplyMigrations acceptingDB
          [⟨"v1", "a", "up", "sql", "m/a/v1__a.up.sql", ""⟩,
            ⟨"V1", "b", "", "sql", "m/b/V1__b.sql", ""⟩,
            ⟨"v1", "a", "down", "sql", "m/c/v1__a.down.sql", ""⟩] ⟨[], []⟩).1.executed =
        [⟨"v1", "a", "up", "sql", "m/a/v1__a.up.sql", ""⟩,
          ⟨"V1", "b", "", "sql", "m/b/V1__b.sql", ""⟩,
          ⟨"v1", "a", "down", "sql", "m/c/v1__a.down.sql", ""⟩] := by
  refine ⟨?_, by decide⟩
  set_option maxRecDepth 100000 in decide

/-- Claim C35, amended.  Pending selection in `runMigrations` depends on versions only.  For
every walk without error, with the bookkeeping table in place and the current version
read: the run either hands on the pending list, or it ends because the current version
has reached the target and the pending list is empty; a file is pending exactly when it
was discovered, its version is above the current one and at most the target, whatever
its direction, so that two discovered files of equal version are pending together; and
a database that accepts every pending script executes exactly the pending files, in
the order of the list. -/
theorem pendingFiles_selected_by_version (env : RunEnv) (dryRun : Bool)
    (targetVersion current : String)
    (hwalk : ∀ e ∈ env.walk, e.err = none) (hensure : env.ensureErr = none)
    (hcur : env.current = .ok current) :
    ∃ (files pending : List MigrationFile) (target : String),
      Local.ScanMigrations env.walk = .ok files ∧
      target = effectiveTarget (Local.SortMigrations files) targetVersion ∧
      (runMigrations env dryRun targetVersion = .handed dryRun pending ∨
        (runMigrations env dryRun targetVersion = .upToDate ∧ pending = [])) ∧
      (∀ f, f ∈ pending ↔
        f ∈ files ∧ Local.CompareVersion f.Version current > 0 ∧
          Local.CompareVersion f.Version target ≤ 0) ∧
      (∀ f ∈ files, ∀ g ∈ files, Local.CompareVersion f.Version g.Version = 0 →
        (f ∈ pending ↔ g ∈ pending)) ∧
      (∀ (db : MigrationDB) (st : ApplyState), (∀ row, db.insert row = none) →
        (∀ f ∈ pending, Accepts db f) →
        (ApplyMigrations db pending st).1.executed = st.executed ++ pending) := by
  obtain ⟨files, hscan, _, hrun⟩ :=
    runMigrations_eq_pendingBetween env dryRun targetVersion current hwalk hensure hcur
  have hperm : (Local.SortMigrations files).Perm files := sortMigrations_perm files
  have hmem : ∀ f, f ∈ pendingBetween (Local.SortMigrations files) current
        (effectiveTarget (Local.SortMigrations files) targetVersion) ↔
      f ∈ files ∧ Local.CompareVersion f.Version current > 0 ∧
        Local.CompareVersion f.Version
          (effectiveTarget (Local.SortMigrations files) targetVersion) ≤ 0 := by
    intro f
    unfold pendingBetween
    rw [List.mem_filter, hperm.mem_iff]
    simp
  refine ⟨files, pendingBetween (Local.SortMigrations files) current
    (effectiveTarget (Local.SortMigrations files) targetVersion),
    effectiveTarget (Local.SortMigrations files) targetVersion, hscan, rfl, ?_, hmem, ?_, ?_⟩
  · by_cases hc : effectiveTarget (Local.SortMigrations files) targetVersion ≠ "" ∧
        utils.CompareVersion current
          (effectiveTarget (Local.SortMigrations files) targetVersion) ≥ 0
    · rw [if_pos hc] at hrun
      exact Or.inr ⟨hrun, pendingBetween_nil_of_upToDate _ _ _ hc.2⟩
    · rw [if_neg hc] at hrun
      exact Or.inl hrun
  · intro f hf g hg h
    rw [hmem, hmem]
    rw [local_compareVersion_eq] at h ⊢
    rw [compareVersion_eq_zero_left _ _ current h, compareVersion_eq_zero_left _ _ _ h]
    simp [hf, hg]
  · intro db st hins hacc
    rw [applyMigrations_accepts db hins _ st hacc]

theorem pendingFiles_selected_by_version_witness :
    runMigrations { walk := upDownWalk, ensureErr := none, current := .ok "" } false "v1" =
        .handed false
          [⟨"v1", "a", "down", "sql", "m/v1__a.down.sql", ""⟩,
            ⟨"v1", "a", "up", "sql", "m/v1__a.up.sql", ""⟩] ∧
    ∃ (files pending : List MigrationFile),
      Local.ScanMigrations upDownWalk = .ok files ∧
      (runMigrations { walk := upDownWalk, ensureErr := none, current := .ok "" } false "v1" =
          .handed false pending ∨
        (runMigrations { walk := upDownWalk, ensureErr := none, current := .ok "" } false "v1" =
          .upToDate ∧ pending = [])) ∧
      (∀ f ∈ files, ∀ g ∈ files, Local.CompareVersion f.Version g.Version = 0 →
        (f ∈ pending ↔ g ∈ pending)) :=
  ⟨by set_option maxRecDepth 100000 in decide,
    (pendingFiles_selected_by_version { walk := upDownWalk, ensureErr := none, current := .ok "" }
      false "v1" "" (by simp [upDownWalk]) rfl rfl).imp
      fun _ h => h.imp fun _ h2 => h2.elim fun _ h3 => ⟨h3.1, h3.2.2.1, h3.2.2.2.2.1⟩⟩

theorem applyMigrations_stops (db : MigrationDB) (hins : ∀ row, db.insert row = none) :
    ∀ (before after : List MigrationFile) (fk : MigrationFile) (err : String) (st : ApplyState),
      (∀ f ∈ before, Accepts db f) → Rejects db fk err →
      ApplyMigrations db (before ++ fk :: after) st =
        ({ executed := st.executed ++ before ++ [fk],
           rows := st.rows ++ before.map (bookkeepingRow db "success")
             ++ [bookkeepingRow db "failed" fk] }, some err) := by
  intro before
  induction before with
  | nil =>
    intro after fk err st _ hrej
    unfold Rejects at hrej
    rw [List.nil_append, ApplyMigrations, applyMigration]
    simp only [hrej, hins]
    simp [bookkeepingRow]
  | cons f rest ih =>
    intro after fk err st hacc hrej
    have hf : db.exec (f.GetContent db.readFile) = none := hacc f (List.mem_cons_self _ _)
    rw [List.cons_append, ApplyMigrations, applyMigration]
    simp only [hf, hins]
    rw [ih after fk err _ (fun g hg => hacc g (List.mem_cons_of_mem _ hg)) hrej]
    simp [bookkeepingRow]

theorem currentVersion_after_failure (db : MigrationDB) (rows : List MigrationRow)
    (before : List MigrationFile) (fk : MigrationFile) :
    CurrentVersion (rows ++ before.map (bookkeepingRow db "success")
        ++ [bookkeepingRow db "failed" fk]) =
      match before.getLast? with
      | some last => last.Version
      | none => CurrentVersion rows := by
  unfold CurrentVersion
  have h1 : ([bookkeepingRow db "failed" fk].filter fun row => row.status == "success") = [] := by
    simp [bookkeepingRow]
  have h2 : ((before.map (bookkeepingRow db "success")).filter
      fun row => row.status == "success") = before.map (bookkeepingRow db "success") := by
    rw [List.filter_eq_self]
    intro row hrow
    obtain ⟨f, _, hf⟩ := List.mem_map.1 hrow
    rw [← hf]
    simp [bookkeepingRow]
  rw [List.filter_append, List.filter_append, h1, h2, List.append_nil]
  rcases List.eq_nil_or_concat before with h | ⟨init, last, h⟩
  · rw [h]
    simp
  · rw [h]
    simp [bookkeepingRow]

theorem pendingBetween_resume (sorted init after : List MigrationFile)
    (last pk : MigrationFile) (current target : String)
    (hsorted : sorted.Pairwise (fun a b => utils.CompareVersion a.Version b.Version ≤ 0))
    (hpending : pendingBetween sorted current target = (init ++ [last]) ++ pk :: after)
    (hstrict : utils.CompareVersion last.Version pk.Version < 0) :
    pendingBetween sorted last.Version target = pk :: after ∧
      utils.CompareVersion last.Version target < 0 := by
  have hsub : ((init ++ [last]) ++ pk :: after).Sublist sorted := by
    rw [← hpending]
    exact List.filter_sublist _
  have hpw := hsorted.sublist hsub
  rw [List.pairwise_append] at hpw
  obtain ⟨hpw1, hpw2, -⟩ := hpw
  rw [List.pairwise_append] at hpw1
  obtain ⟨-, -, hinit⟩ := hpw1
  rw [List.pairwise_cons] at hpw2
  have hin : ∀ f ∈ (init ++ [last]) ++ pk :: after,
      utils.CompareVersion f.Version current > 0 ∧ utils.CompareVersion f.Version target ≤ 0 := by
    intro f hf
    rw [← hpending] at hf
    unfold pendingBetween at hf
    have := (List.mem_filter.1 hf).2
    simpa [local_compareVersion_eq] using this
  have hlast := hin last (by simp)
  have hpk := hin pk (by simp)
  have hlt : utils.CompareVersion last.Version target < 0 :=
    compareVersion_lt_trans _ _ _ (le_of_lt hstrict) hpk.2 (Or.inl hstrict)
  refine ⟨?_, hlt⟩
  have hsplit : pendingBetween sorted last.Version target =
      (pendingBetween sorted current target).filter
        fun f => decide (utils.CompareVersion f.Version last.Version > 0) := by
    unfold pendingBetween
    rw [List.filter_filter]
    apply List.filter_congr
    intro f _
    rw [local_compareVersion_eq]
    by_cases h1 : utils.CompareVersion f.Version last.Version > 0
    · have h2 : utils.CompareVersion current last.Version < 0 := by
        rw [compareVersion_swap last.Version current]
        omega
      have h3 : utils.CompareVersion last.Version f.Version < 0 := by
        rw [compareVersion_swap f.Version last.Version]
        omega
      have h4 := compareVersion_lt_trans _ _ _ (le_of_lt h2) (le_of_lt h3) (Or.inl h2)
      have h5 : utils.CompareVersion f.Version current > 0 := by
        rw [compareVersion_swap current f.Version]
        omega
      simp [h1, h5]
    · simp [h1]
  rw [hsplit, hpending, List.filter_append]
  have hbefore : ((init ++ [last]).filter
      fun f => decide (utils.CompareVersion f.Version last.Version > 0)) = [] := by
    rw [List.filter_eq_nil_iff]
    intro f hf
    rcases List.mem_append.1 hf with h | h
    · have := hinit f h last (by simp)
      simp only [decide_eq_true_eq]
      omega
    · rw [List.mem_singleton.1 h, compareVersion_self]
      decide
  have hafter : ((pk :: after).filter
      fun f => decide (utils.CompareVersion f.Version last.Version > 0)) = pk :: after := by
    rw [List.filter_eq_self]
    intro f hf
    have hle : utils.CompareVersion pk.Version f.Version ≤ 0 := by
      rcases List.mem_cons.1 hf with h | h
      · rw [h, compareVersion_self]
      · exact hpw2.1 f h
    have h3 := compareVersion_lt_trans _ _ _ (le_of_lt hstrict) hle (Or.inl hstrict)
    have h4 := compareVersion_swap last.Version f.Version
    simp only [decide_eq_true_eq]
    omega
  rw [hbefore, hafter, List.nil_append]

/-- Claim C32 fails as stated: files of equal version are not resumed.  With the
scripts `v1__a.down.sql` and `v1__a.up.sql` and nothing applied yet, both are pending;
when the down script is
accepted and the up script rejected, the table holds a `success` row and a `failed` row
of the version `v1`, the current version is `v1`, and the next run over the same files
ends as up to date instead of computing the pending list with the failed file. -/
theorem runMigrations_equal_version_not_resumed :
    runMigrations (runEnvOf downUpWalk []) false "" =
        .handed false
          [⟨"v1", "a", "down", "sql", "m/v1__a.down.sql", ""⟩,
            ⟨"v1", "a", "up", "sql", "m/v1__a.up.sql", ""⟩] ∧
      ApplyMigrations (directoryDB "m/v1__a.up.sql")
          [⟨"v1", "a", "down", "sql", "m/v1__a.down.sql", ""⟩,
            ⟨"v1", "a", "up", "sql", "m/v1__a.up.sql", ""⟩] ⟨[], []⟩ =
        (⟨[⟨"v1", "a", "down", "sql", "m/v1__a.down.sql", ""⟩,
            ⟨"v1", "a", "up", "sql", "m/v1__a.up.sql", ""⟩],
          [⟨"v1", "a", 5, "success"⟩, ⟨"v1", "a", 5, "failed"⟩]⟩, some "syntax error") ∧
      CurrentVersion [⟨"v1", "a", 5, "success"⟩, ⟨"v1", "a", 5, "failed"⟩] = "v1" ∧
      runMigrations (runEnvOf downUpWalk [⟨"v1", "a", 5, "success"⟩, ⟨"v1", "a", 5, "failed"⟩])
        false "" = .upToDate := by
  refine ⟨?_, by decide, by decide, ?_⟩
  · set_option maxRecDepth 100000 in decide
  · set_option maxRecDepth 100000 in decide

/-- Claim C32, amended.  Migration application is resumable where the versions go up.  With the
bookkeeping table a list of rows and the current version the version of its last
`success` row: when a run over a walk without error hands on the pending list
`before ++ pk :: after`, the database accepts the scripts of `before` and rejects the
script of `pk`, and every file of `before` has a version below that of `pk`, then
`ApplyMigrations` stops at `pk` with a `success` row for each file of `before` and a
`failed` row for `pk`, and the next run over the same walk and target against the table
so extended hands on exactly `pk :: after`. -/
theorem runMigrations_resumes_at_failed (walk : List WalkEntry) (rows : List MigrationRow)
    (db : MigrationDB) (targetVersion : String) (before after : List MigrationFile)
    (pk : MigrationFile) (err : String)
    (hwalk : ∀ e ∈ walk, e.err = none) (hins : ∀ row, db.insert row = none)
    (hrun : runMigrations (runEnvOf walk rows) false targetVersion =
      .handed false (before ++ pk :: after))
    (hacc : ∀ f ∈ before, Accepts db f) (hrej : Rejects db pk err)
    (hstrict : ∀ f ∈ before, Local.CompareVersion f.Version pk.Version < 0) :
    ApplyMigrations db (before ++ pk :: after) ⟨[], rows⟩ =
        (⟨before ++ [pk],
          rows ++ before.map (bookkeepingRow db "success") ++ [bookkeepingRow db "failed" pk]⟩,
          some err) ∧
      runMigrations
          (runEnvOf walk (ApplyMigrations db (before ++ pk :: after) ⟨[], rows⟩).1.rows)
          false targetVersion = .handed false (pk :: after) := by
  have happly := applyMigrations_stops db hins before after pk err ⟨[], rows⟩ hacc hrej
  rw [List.nil_append] at happly
  refine ⟨happly, ?_⟩
  rw [happly]
  show runMigrations (runEnvOf walk (rows ++ before.map (bookkeepingRow db "success")
    ++ [bookkeepingRow db "failed" pk])) false targetVersion = _
  obtain ⟨files, hscan, -, hr0⟩ := runMigrations_eq_pendingBetween (runEnvOf walk rows) false
    targetVersion (CurrentVersion rows) hwalk rfl rfl
  obtain ⟨files1, hscan1, -, hr1⟩ := runMigrations_eq_pendingBetween
    (runEnvOf walk (rows ++ before.map (bookkeepingRow db "success")
      ++ [bookkeepingRow db "failed" pk])) false targetVersion _ hwalk rfl rfl
  have hfiles : files1 = files := by
    have h : Local.ScanMigrations walk = .ok files1 := hscan1
    have h2 : Local.ScanMigrations walk = .ok files := hscan
    rw [h] at h2
    exact Except.ok.inj h2
  rw [hfiles, currentVersion_after_failure] at hr1
  rw [hrun] at hr0
  have hsorted := sortMigrations_sorted files
  generalize Local.SortMigrations files = sorted at hr0 hr1 hsorted
  by_cases hc : effectiveTarget sorted targetVersion ≠ "" ∧
      utils.CompareVersion (CurrentVersion rows) (effectiveTarget sorted targetVersion) ≥ 0
  · rw [if_pos hc] at hr0
    exact RunStep.noConfusion hr0
  · rw [if_neg hc] at hr0
    have hpending : pendingBetween sorted (CurrentVersion rows)
        (effectiveTarget sorted targetVersion) = before ++ pk :: after := by
      injection hr0 with _ h
      exact h.symm
    rcases List.eq_nil_or_concat before with hb | ⟨init, last, hb⟩
    · rw [hb] at hr1 hpending ⊢
      rw [hr1]
      simp only [List.getLast?_nil]
      rw [if_neg hc, hpending]
      rfl
    · rw [hb] at hpending hstrict
      have hb2 : before.getLast? = some last := by rw [hb]; simp
      rw [hr1, hb2]
      simp only
      have hres := pendingBetween_resume sorted init after last pk _ _ hsorted
        (by rw [hpending]; simp) (hstrict last (by simp))
      rw [if_neg (by intro h; have := hres.2; omega), hres.1]

theorem runMigrations_resumes_at_failed_witness :
    runMigrations (runEnvOf migrationsWalk []) false "" =
        .handed false
          ([upFile "v1.0" "a" "m/v1.0__a.up.sql"] ++ upFile "v1.0.1" "b" "m/v1.0.1__b.up.sql"
            :: [upFile "v2" "c" "m/v2__c.up.sql"]) ∧
      runMigrations
          (runEnvOf migrationsWalk
            (ApplyMigrations (directoryDB "m/v1.0.1__b.up.sql")
              ([upFile "v1.0" "a" "m/v1.0__a.up.sql"] ++ upFile "v1.0.1" "b" "m/v1.0.1__b.up.sql"
                :: [upFile "v2" "c" "m/v2__c.up.sql"]) ⟨[], []⟩).1.rows)
          false "" =
        .handed false
          (upFile "v1.0.1" "b" "m/v1.0.1__b.up.sql" :: [upFile "v2" "c" "m/v2__c.up.sql"]) :=
  ⟨by set_option maxRecDepth 100000 in decide,
    (runMigrations_resumes_at_failed migrationsWalk [] (directoryDB "m/v1.0.1__b.up.sql") ""
      [upFile "v1.0" "a" "m/v1.0__a.up.sql"] [upFile "v2" "c" "m/v2__c.up.sql"]
      (upFile "v1.0.1" "b" "m/v1.0.1__b.up.sql") "syntax error"
      (by simp [migrationsWalk]) (fun _ => rfl)
      (by set_option maxRecDepth 100000 in decide) (by decide) (by decide) (by decide)).2⟩


end DataSmith
